import Mathlib

/-!
# SubCFG formation (continuation-based synchronisation) of pocl

A shallow embedding of `lib/llvmopencl/SubCfgFormation.cc`.

* Basic blocks are pointers in the source and are compared by address only; they are
  natural numbers here.
* `llvm::DenseMap<BasicBlock *, size_t>` is an association list with unique keys.  Its
  iteration order is unspecified in the source; nothing below depends on it.
* `size_t` is 64 bits wide; the increment of a `size_t` counter is taken modulo `2 ^ 64`.
  The integer type of the generated code (`DL.getLargestLegalIntType`) has `N` bits, and
  `N` is a parameter.
* The constant `ExitBarrierId` lives in `SubCfgFormation.h`, which is not part of the
  sources at hand.  Every definition that uses it takes it as a parameter.
* `Barrier::hasOnlyBarrier` is an external predicate and is a parameter as well.
  `formSubCfgs` inserts instructions into the entry block between the call of
  `getBarrierIds` and the construction of the SubCFGs; the predicate is consulted for
  the entry block only by the constructor, and only if the entry block is a successor
  of some block.
* A loop of the source whose termination is not structural runs on fuel and returns
  `none` when the fuel is used up; the theorems show that the fuel given suffices.
* An instruction with the `nuw` flag yields `none`, the poison value, on unsigned
  overflow.

The definitions come first, the theorems follow.
-/

namespace pocl

/-- A basic block, identified by its address. -/
abbrev BasicBlock := Nat

/-- Number of values of type `size_t`. -/
def sizeMod : Nat := 2 ^ 64

/-- NumArrayElements of the source: slots of a wide alloca. -/
def NumArrayElements : Nat := 1024

/-- Modelled from the spec: the constant `EntryBarrierId` of the absent header
`SubCfgFormation.h`; the spec fixes `ENTRY_BARRIER_ID = 0`. -/
def EntryBarrierId : Nat := 0

/-! ## `llvm::DenseMap<BasicBlock *, size_t>` -/

/-- The map type: association list, every key at most once. -/
abbrev DenseMap := List (BasicBlock × Nat)

/-- The call `M.find(K)`: `none` stands for `M.end()`. -/
def DenseMap.find (m : DenseMap) (k : BasicBlock) : Option Nat :=
  match m with
  | [] => none
  | (k', v) :: rest => if k' = k then some v else DenseMap.find rest k

/-- The call `M.lookup(K)`: the mapped value, or a default-constructed `size_t` (zero)
when the key is absent. -/
def DenseMap.lookup (m : DenseMap) (k : BasicBlock) : Nat :=
  (DenseMap.find m k).getD 0

/-- The call `M.insert({K, V})`: no effect when the key is already present. -/
def DenseMap.insert (m : DenseMap) (k : BasicBlock) (v : Nat) : DenseMap :=
  match DenseMap.find m k with
  | some _ => m
  | none => (k, v) :: m

/-- The assignment `M[K] = V`: overwrites the value of a present key. -/
def DenseMap.set (m : DenseMap) (k : BasicBlock) (v : Nat) : DenseMap :=
  (k, v) :: m.filter (fun p => p.1 != k)

/-! ## The barrier map -/

/-- The loop `for (auto *BB : Blocks) if (Barriers.find(BB) == Barriers.end() &&
hasOnlyBarrier(BB)) Barriers.insert({BB, BarrierId++});` of `getBarrierIds`, with the
map and the counter as explicit state. -/
def assignBarrierIds (hasOnlyBarrier : BasicBlock → Bool) :
    List BasicBlock → DenseMap → Nat → DenseMap
  | [], Barriers, _ => Barriers
  | BB :: rest, Barriers, BarrierId =>
    if (DenseMap.find Barriers BB).isNone && hasOnlyBarrier BB then
      assignBarrierIds hasOnlyBarrier rest (DenseMap.insert Barriers BB BarrierId)
        ((BarrierId + 1) % sizeMod)
    else
      assignBarrierIds hasOnlyBarrier rest Barriers BarrierId

/-- The function `getBarrierIds(Entry, ExitingBlocks, Blocks)`. -/
def getBarrierIds (ExitBarrierId : Nat) (hasOnlyBarrier : BasicBlock → Bool)
    (Entry : BasicBlock) (ExitingBlocks : List BasicBlock) (Blocks : List BasicBlock) :
    DenseMap :=
  let Barriers₀ : DenseMap :=
    ExitingBlocks.foldl (fun m BB => DenseMap.set m BB ExitBarrierId) []
  let Barriers₁ := DenseMap.set Barriers₀ Entry EntryBarrierId
  assignBarrierIds hasOnlyBarrier Blocks Barriers₁ 1

/-- First occurrences of the elements of a list, in list order. -/
def firstOccurrences : List BasicBlock → List BasicBlock
  | [] => []
  | b :: bs => b :: (firstOccurrences bs).filter (fun x => x != b)

/-- The blocks the numbering loop is going to insert, in the order of insertion. -/
def freshBarriers (hob : BasicBlock → Bool) (m : DenseMap) (bs : List BasicBlock) :
    List BasicBlock :=
  (firstOccurrences bs).filter (fun b => hob b && (DenseMap.find m b).isNone)

/-- The barrier-only blocks of the block list that are neither the entry block nor an
exiting block: first occurrences, in block-list order. -/
def otherBarriers (hasOnlyBarrier : BasicBlock → Bool) (Entry : BasicBlock)
    (ExitingBlocks Blocks : List BasicBlock) : List BasicBlock :=
  (firstOccurrences Blocks).filter
    (fun b => hasOnlyBarrier b && decide (b ≠ Entry) && decide (b ∉ ExitingBlocks))

/-! ## The function under transformation -/

/-- The control-flow graph of the function: the block list of `F` (what the loop
`for (auto &BB : F)` visits), the entry block `F.getEntryBlock()`, and the successors
of the terminator of each block. -/
structure Function where
  blocks : List BasicBlock
  entry : BasicBlock
  succ : BasicBlock → List BasicBlock

/-- The set `ExitingBlocks` of `formSubCfgs`: the blocks whose terminator has no
successors. -/
def exitingBlocks (F : Function) : List BasicBlock :=
  F.blocks.filter (fun BB => (F.succ BB).length == 0)

/-- The barrier map as `formSubCfgs` computes it:
`getBarrierIds(Entry, ExitingBlocks, Blocks)`. -/
def barrierIdsOf (ExitBarrierId : Nat) (hasOnlyBarrier : BasicBlock → Bool)
    (F : Function) : DenseMap :=
  getBarrierIds ExitBarrierId hasOnlyBarrier F.entry (exitingBlocks F) F.blocks

/-- The block list contains every successor of each of its blocks. -/
def Function.Closed (F : Function) : Prop :=
  ∀ b ∈ F.blocks, ∀ s ∈ F.succ b, s ∈ F.blocks

instance (F : Function) : Decidable F.Closed :=
  inferInstanceAs (Decidable (∀ b ∈ F.blocks, ∀ s ∈ F.succ b, s ∈ F.blocks))

/-- The entry block is the successor of no block of the function. -/
def Function.EntryHasNoPreds (F : Function) : Prop :=
  ∀ b ∈ F.blocks, F.entry ∉ F.succ b

instance (F : Function) : Decidable F.EntryHasNoPreds :=
  inferInstanceAs (Decidable (∀ b ∈ F.blocks, F.entry ∉ F.succ b))

/-- A kernel used in the examples: entry block 0, a region with the blocks 1, 2, 3 (3
branches back to 1), a barrier-only block 4 and a barrier-only exit block 5. -/
def exampleKernel : Function where
  blocks := [0, 1, 2, 3, 4, 5]
  entry := 0
  succ := fun b =>
    match b with
    | 0 => [1]
    | 1 => [2, 3]
    | 2 => [4]
    | 3 => [1, 4]
    | 4 => [5]
    | _ => []

/-- The barrier-only blocks of `exampleKernel`. -/
def exampleBarriers : BasicBlock → Bool := fun b => b == 4 || b == 5

/-- A function whose only block branches to itself. -/
def selfLoopKernel : Function where
  blocks := [0]
  entry := 0
  succ := fun _ => [0]

/-- A function whose only block is the entry block and has no successors. -/
def singleBlockKernel : Function where
  blocks := [0]
  entry := 0
  succ := fun _ => []

/-! ## The constructor of `SubCFG` -/

/-- The fields of `class SubCFG` that the constructor computes from the control-flow
graph.  `assertsHeld` is not a field of the class: it records whether every evaluation
of `assert(BId != 0)` in the constructor found the condition true. -/
structure SubCFG where
  Blocks_ : List BasicBlock
  EntryId_ : Nat
  EntryBarrier_ : BasicBlock
  ExitIds_ : DenseMap
  assertsHeld : Bool
  deriving DecidableEq

/-- The state of the worklist loop of the constructor.  The head of `WL` is the back of
the vector, the element `pop_back_val` returns. -/
structure WorkState where
  WL : List BasicBlock
  Blocks_ : List BasicBlock
  ExitIds_ : DenseMap
  assertsHeld : Bool

/-- The body of `for (auto *Succ : Succs)` in the constructor. -/
def visitSucc (hasOnlyBarrier : BasicBlock → Bool) (BarrierIds : DenseMap)
    (st : WorkState) (Succ : BasicBlock) : WorkState :=
  if Succ ∈ st.Blocks_ then st
  else if !hasOnlyBarrier Succ then
    { st with WL := Succ :: st.WL, Blocks_ := st.Blocks_ ++ [Succ] }
  else
    { st with
      ExitIds_ := DenseMap.insert st.ExitIds_ Succ (DenseMap.lookup BarrierIds Succ)
      assertsHeld := st.assertsHeld && (DenseMap.lookup BarrierIds Succ != 0) }

/-- One iteration of `while (!WL.empty())` after `BB` was popped and `rest` remains. -/
def visitBlock (F : Function) (hasOnlyBarrier : BasicBlock → Bool) (BarrierIds : DenseMap)
    (st : WorkState) (BB : BasicBlock) (rest : List BasicBlock) : WorkState :=
  (F.succ BB).foldl (visitSucc hasOnlyBarrier BarrierIds) { st with WL := rest }

/-- The loop `while (!WL.empty())` of the constructor, run for at most `fuel`
iterations; `none` when the worklist is not empty after `fuel` iterations. -/
def worklistLoop (F : Function) (hasOnlyBarrier : BasicBlock → Bool)
    (BarrierIds : DenseMap) : Nat → WorkState → Option WorkState
  | 0, st => if st.WL.isEmpty then some st else none
  | fuel + 1, st =>
    match st.WL with
    | [] => some st
    | BB :: rest =>
      worklistLoop F hasOnlyBarrier BarrierIds fuel
        (visitBlock F hasOnlyBarrier BarrierIds st BB rest)

/-- The state in which the constructor enters its loop: `WL{EntryBarrier}`. -/
def initialWorkState (EntryBarrier : BasicBlock) : WorkState :=
  { WL := [EntryBarrier], Blocks_ := [], ExitIds_ := [], assertsHeld := true }

/-- The constructor `SubCFG::SubCFG(EntryBarrier, LastBarrierIdStorage, BarrierIds,
IndVar, Dim)`, with the loop bounded by one more iteration than the function has
blocks. -/
def SubCFG.construct (F : Function) (hasOnlyBarrier : BasicBlock → Bool)
    (BarrierIds : DenseMap) (EntryBarrier : BasicBlock) : Option SubCFG :=
  (worklistLoop F hasOnlyBarrier BarrierIds (F.blocks.length + 1)
      (initialWorkState EntryBarrier)).map
    (fun st =>
      { Blocks_ := st.Blocks_
        EntryId_ := DenseMap.lookup BarrierIds EntryBarrier
        EntryBarrier_ := EntryBarrier
        ExitIds_ := st.ExitIds_
        assertsHeld := st.assertsHeld })

/-- A path `B → p₁ → ... → x` along successor edges on which every block after `B`
is not barrier-only. -/
def BarrierFreePath (F : Function) (hasOnlyBarrier : BasicBlock → Bool)
    (B x : BasicBlock) : Prop :=
  ∃ p : List BasicBlock,
    List.Chain (fun a b => b ∈ F.succ a) B (p ++ [x]) ∧
    ∀ y ∈ p ++ [x], hasOnlyBarrier y = false

/-- Inductive form of `BarrierFreePath`, used in the proofs. -/
inductive RegionReach (F : Function) (hasOnlyBarrier : BasicBlock → Bool)
    (B : BasicBlock) : BasicBlock → Prop
  | first {s : BasicBlock} : s ∈ F.succ B → hasOnlyBarrier s = false →
      RegionReach F hasOnlyBarrier B s
  | next {x s : BasicBlock} : RegionReach F hasOnlyBarrier B x → s ∈ F.succ x →
      hasOnlyBarrier s = false → RegionReach F hasOnlyBarrier B s

/-- Every successor of `x` has been handled in state `st`: it is in the block list if
it is not barrier-only, and in the exit map if it is. -/
def SuccsHandled (F : Function) (hasOnlyBarrier : BasicBlock → Bool)
    (st : WorkState) (x : BasicBlock) : Prop :=
  ∀ s ∈ F.succ x,
    (hasOnlyBarrier s = false → s ∈ st.Blocks_) ∧
    (hasOnlyBarrier s = true → DenseMap.find st.ExitIds_ s ≠ none)

/-- The invariant of the worklist loop of the constructor. -/
structure WorkInv (F : Function) (hasOnlyBarrier : BasicBlock → Bool)
    (BarrierIds : DenseMap) (B : BasicBlock) (st : WorkState) : Prop where
  sound : ∀ x ∈ st.Blocks_, RegionReach F hasOnlyBarrier B x
  nodup : st.Blocks_.Nodup
  pending : ∀ x ∈ st.WL, x = B ∨ x ∈ st.Blocks_
  handled : ∀ x, (x = B ∨ x ∈ st.Blocks_) → x ∈ st.WL ∨ SuccsHandled F hasOnlyBarrier st x
  exits : ∀ k v, DenseMap.find st.ExitIds_ k = some v →
    hasOnlyBarrier k = true ∧ v = DenseMap.lookup BarrierIds k ∧
      ∃ x, (x = B ∨ x ∈ st.Blocks_) ∧ k ∈ F.succ x
  asserts : st.assertsHeld = true ↔
    ∀ k v, DenseMap.find st.ExitIds_ k = some v → v ≠ 0

/-! ## The dispatcher -/

/-- The constant `Builder.getIntN(N, C)`: the value `C` as an integer of `N` bits. -/
def getIntN (N : Nat) (C : Nat) : Nat := C % 2 ^ N

/-- The loop `for (auto &BIt : Barriers) if (BIt.second != ExitBarrierId)
SubCFGs.emplace_back(BIt.first, ...)` of `formSubCfgs`, over the entries that pass the
test. -/
def constructAll (F : Function) (hasOnlyBarrier : BasicBlock → Bool)
    (Barriers : DenseMap) : List (BasicBlock × Nat) → Option (List SubCFG)
  | [] => some []
  | BIt :: rest =>
    match SubCFG.construct F hasOnlyBarrier Barriers BIt.1,
        constructAll F hasOnlyBarrier Barriers rest with
    | some Cfg, some Cfgs => some (Cfg :: Cfgs)
    | _, _ => none

/-- The vector `SubCFGs` of `formSubCfgs`. -/
def createSubCFGs (ExitBarrierId : Nat) (hasOnlyBarrier : BasicBlock → Bool)
    (F : Function) : Option (List SubCFG) :=
  constructAll F hasOnlyBarrier (barrierIdsOf ExitBarrierId hasOnlyBarrier F)
    ((barrierIdsOf ExitBarrierId hasOnlyBarrier F).filter (fun BIt => BIt.2 != ExitBarrierId))

/-- A destination of the dispatcher switch: the block `Cfg.getEntry()` of a SubCFG, a
block of the original function, or the block made by `createUnreachableBlock`. -/
inductive Dest where
  | subCfgEntry (Cfg : SubCFG)
  | block (BB : BasicBlock)
  | unreachableBlock
  deriving DecidableEq

/-- The switch instruction: default destination and the cases in the order of the
`addCase` calls. -/
structure SwitchInst where
  defaultDest : Dest
  cases : List (Nat × Dest)

/-- The switch that `generateWhileSwitchAround` creates in `cbs.while.header`. -/
def generateWhileSwitchAround (N : Nat) (ExitBarrierId : Nat) (SubCFGs : List SubCFG)
    (Exit : BasicBlock) : SwitchInst :=
  { defaultDest := Dest.unreachableBlock
    cases := SubCFGs.map (fun Cfg => (getIntN N Cfg.EntryId_, Dest.subCfgEntry Cfg))
      ++ [(getIntN N ExitBarrierId, Dest.block Exit)] }

/-- Position of the first case with value `v` in a case list. -/
def caseIndex (v : Nat) : List (Nat × Dest) → Option Nat
  | [] => none
  | c :: cs => if c.1 = v then some 0 else (caseIndex v cs).map (fun i => i + 1)

/-- The case a switch takes on the value `v`: the position of the case with that value
in the case list, `none` for the default destination. -/
def SwitchInst.caseTaken (sw : SwitchInst) (v : Nat) : Option Nat :=
  caseIndex v sw.cases

/-- The block a switch branches to on the value `v`. -/
def SwitchInst.dest (sw : SwitchInst) (v : Nat) : Dest :=
  match sw.cases.find? (fun c => c.1 == v) with
  | some c => c.2
  | none => sw.defaultDest

/-- The constants that the exit stubs of a replicated SubCFG store to the last-barrier-id
storage: `replicate` calls `createExitWithID(*ExitIt, ...)` for every successor, found
in `ExitIds_`, of every block of `Blocks_`, and the stub stores
`getIntN(bits, BarrierPair.second)`. -/
def exitStubStores (N : Nat) (F : Function) (Cfg : SubCFG) : List Nat :=
  (Cfg.Blocks_.map (fun BB =>
    (F.succ BB).filterMap (fun Succ =>
      (DenseMap.find Cfg.ExitIds_ Succ).map (getIntN N)))).flatten

/-- The values the last-barrier-id storage can hold when `cbs.while.header` is entered:
the value stored by the function entry, and, after the switch has branched to a
SubCFG, a value stored by one of the exit stubs of that SubCFG. -/
inductive LastBarrierIdReachable (N : Nat) (F : Function) (sw : SwitchInst) : Nat → Prop
  | entry : LastBarrierIdReachable N F sw (getIntN N EntryBarrierId)
  | region {v v' : Nat} {Cfg : SubCFG} :
      LastBarrierIdReachable N F sw v → sw.dest v = Dest.subCfgEntry Cfg →
      v' ∈ exitStubStores N F Cfg → LastBarrierIdReachable N F sw v'

/-! ## The contiguous work-item index -/

/-- The value of `add nuw a, b` on `N`-bit integers; `none` is the poison value, the
result when the unsigned sum does not fit. -/
def addNUW (N a b : Nat) : Option Nat :=
  if a + b < 2 ^ N then some (a + b) else none

/-- The value of `mul nuw a, b` on `N`-bit integers; `none` is the poison value. -/
def mulNUW (N a b : Nat) : Option Nat :=
  if a * b < 2 ^ N then some (a * b) else none

/-- The contiguous index that `createLoopsAround` computes in the load block, as a
function of the values of the induction variables `IndVars[D]` and of the values
`LocalSize[D]`, with `Dim = LocalSize.size()`:
`Idx = IndVars[0]; for (D = 1; D < Dim; ++D) { Idx = CreateMul(Idx, LocalSize[D], .., true);
Idx = CreateAdd(IndVars[D], Idx, .., true); }`, where the flag `true` is `HasNUW`. -/
def contiguousIdx (N : Nat) (IndVars LocalSize : List Nat) : Option Nat :=
  (List.range' 1 (LocalSize.length - 1)).foldl
    (fun Idx D =>
      Idx.bind (fun i =>
        (mulNUW N i (LocalSize.getD D 0)).bind (fun m =>
          addNUW N (IndVars.getD D 0) m)))
    (some (IndVars.getD 0 0))

/-- The choice of `Dim` in `formSubCfgs` and `createLoopsAroundKernel` from the module
metadata: `LocalSizes` holds `WGLocalSizeX/Y/Z`. -/
def selectDim (LocalSizes : List Nat) (WGDynamicLocalSize : Bool) : Nat :=
  if LocalSizes.getD 2 0 == 1 && !WGDynamicLocalSize then
    if LocalSizes.getD 1 0 == 1 then 1 else 2
  else 3

/-- The function `getLocalSizeValues`: for `D < Dim` a load of `_local_size_x/y/z` (its
value is `DynLoads[D]`) when the sizes are dynamic, the constant `LocalSizes[D]` of the
`N`-bit integer type otherwise. -/
def getLocalSizeValues (N : Nat) (LocalSizes DynLoads : List Nat) (DynSizes : Bool)
    (Dim : Nat) : List Nat :=
  (List.range Dim).map (fun D =>
    if DynSizes then DynLoads.getD D 0 else getIntN N (LocalSizes.getD D 0))

/-! ## PHI nodes -/

/-- The blocks `createLoopsAround` deals with: the entry block of the function, the
header and the latch it creates for dimension `D`, the block passed as `LastHeader`
(the load block of a SubCFG or the body of a kernel), and the block passed as
`AfterBB`. -/
inductive LoopBlock where
  | entry
  | header (D : Nat)
  | latch (D : Nat)
  | loadBB
  | afterBB
  deriving DecidableEq

/-- An incoming value of an induction PHI: the constant `getIntN(bits, 0)` or the
instruction `addInd` of the latch of dimension `D`. -/
inductive IndValue where
  | zero
  | incIndVar (D : Nat)
  deriving DecidableEq

/-- A header block: the PHI `indvar` of dimension `dim` with its incoming
`(value, block)` entries, and the target of its branch. -/
structure HeaderBlock where
  label : LoopBlock
  dim : Nat
  phi : List (IndValue × LoopBlock)
  br : LoopBlock
  deriving DecidableEq

/-- A latch block: `addInd = indvar + 1` (no unsigned wrap) for dimension `dim`,
`exit.cond = icmp ult addInd, LocalSize[dim]`, a conditional branch on `exit.cond`,
and the name of the node in the `llvm.loop` metadata of the branch, if any. -/
structure LatchBlock where
  label : LoopBlock
  dim : Nat
  onTrue : LoopBlock
  onFalse : LoopBlock
  loopMD : Option String
  deriving DecidableEq

/-- The vectors `Latches` and `IndVars` (each PHI with its header block) and the block
`LastHeader` of `createLoopsAround`. -/
structure LoopNest where
  Latches : List LatchBlock
  IndVars : List HeaderBlock
  LastHeader : LoopBlock
  deriving DecidableEq

/-- The metadata string `MDKind::WorkItemLoop`. -/
def WorkItemLoopMD : String := "pocl.loop.workitem"

/-- One iteration of `for (int D = Dim - 1; D >= 0; --D)` in `createLoopsAround`. -/
def createLoop (st : LoopNest) (D : Nat) : LoopNest :=
  { Latches := st.Latches ++
      [{ label := LoopBlock.latch D, dim := D, onTrue := LoopBlock.header D,
         onFalse := LoopBlock.afterBB, loopMD := none }]
    IndVars := st.IndVars ++
      [{ label := LoopBlock.header D, dim := D,
         phi := [(IndValue.zero, LoopBlock.entry), (IndValue.incIndVar D, LoopBlock.latch D)],
         br := st.LastHeader }]
    LastHeader := LoopBlock.header D }

/-- The entry of a list at position `i` changed by `f`. -/
def updateAt {α : Type} (l : List α) (i : Nat) (f : α → α) : List α :=
  match l, i with
  | [], _ => []
  | a :: rest, 0 => f a :: rest
  | a :: rest, i + 1 => a :: updateAt rest i f

/-- The call `Term->replaceSuccessorWith(Old, New)` on the branch of a latch. -/
def LatchBlock.replaceSuccessorWith (L : LatchBlock) (Old New : LoopBlock) : LatchBlock :=
  { L with
    onTrue := if L.onTrue = Old then New else L.onTrue
    onFalse := if L.onFalse = Old then New else L.onFalse }

/-- The call `Phi->replaceIncomingBlockWith(Old, New)`. -/
def HeaderBlock.replaceIncomingBlockWith (H : HeaderBlock) (Old New : LoopBlock) :
    HeaderBlock :=
  { H with phi := H.phi.map (fun e => if e.2 = Old then (e.1, New) else e) }

/-- One iteration of `for (size_t D = 1; D < Dim; ++D)` that rewires the latches and the
PHIs. -/
def rewireLoop (st : LoopNest) (D : Nat) : LoopNest :=
  match st.Latches[D - 1]?, st.IndVars[D - 1]? with
  | some OuterLatch, some OuterIndVar =>
    { st with
      Latches := updateAt st.Latches D
        (fun L => L.replaceSuccessorWith LoopBlock.afterBB OuterLatch.label)
      IndVars := updateAt st.IndVars D
        (fun H => H.replaceIncomingBlockWith LoopBlock.entry OuterIndVar.label) }
  | _, _ => st

/-- The control flow that `createLoopsAround` builds for `Dim = LocalSize.size()`
dimensions: the loops from the innermost to the outermost, the two vectors reversed,
the outer latches and inner PHIs rewired, and the `llvm.loop` metadata set on the
branch of `Latches[Dim - 1]`. -/
def createLoopsAround (Dim : Nat) : LoopNest :=
  let built := (List.range Dim).reverse.foldl createLoop
    { Latches := [], IndVars := [], LastHeader := LoopBlock.loadBB }
  let reversed : LoopNest :=
    { built with Latches := built.Latches.reverse, IndVars := built.IndVars.reverse }
  let rewired := (List.range' 1 (Dim - 1)).foldl rewireLoop reversed
  { rewired with
    Latches := updateAt rewired.Latches (Dim - 1)
      (fun L => { L with loopMD := some WorkItemLoopMD }) }

/-- The entry `VMap[AfterBB] = Latches[Dim - 1]` that `createLoopsAround` records: the
block to which a branch to `AfterBB` in the enclosed blocks is remapped. -/
def LoopNest.afterBBMapped (nest : LoopNest) (Dim : Nat) : LoopBlock :=
  match nest.Latches[Dim - 1]? with
  | some L => L.label
  | none => LoopBlock.afterBB


/-- The state of an execution of the loop blocks: the block that is executed next, the
block executed before it, the values of the PHIs `indvar` and of the instructions
`addInd` by dimension, and the values of `indvar` that each execution of the enclosed
blocks has seen, oldest first. -/
structure ExecState where
  cur : LoopBlock
  prev : LoopBlock
  IndVars : List Nat
  IncIndVars : List Nat
  trace : List (List Nat)

/-- The value of an incoming value of a PHI. -/
def ExecState.eval (st : ExecState) : IndValue → Nat
  | IndValue.zero => 0
  | IndValue.incIndVar D => st.IncIndVars.getD D 0

/-- Execution of one block of the loop nest for `N`-bit integers.  A header takes the
PHI entry of the block control comes from and branches on; a latch computes `addInd`
(`none`, undefined behaviour, when the `nuw` addition overflows) and branches on
`addInd <u LocalSize[dim]`; the enclosed blocks are run as one step that ends with the
branch to `VMap[AfterBB]`; `AfterBB` is outside the loops (`none`). -/
def stepLoop (N Dim : Nat) (nest : LoopNest) (LocalSize : List Nat) (st : ExecState) :
    Option ExecState :=
  match st.cur with
  | LoopBlock.afterBB => none
  | LoopBlock.entry => some { st with cur := nest.LastHeader, prev := LoopBlock.entry }
  | LoopBlock.loadBB =>
    some { st with
      cur := nest.afterBBMapped Dim, prev := LoopBlock.loadBB
      trace := st.trace ++ [st.IndVars] }
  | LoopBlock.header D =>
    match nest.IndVars.find? (fun H => H.label = LoopBlock.header D) with
    | none => none
    | some H =>
      match H.phi.find? (fun e => e.2 = st.prev) with
      | none => none
      | some e =>
        some { st with
          cur := H.br, prev := LoopBlock.header D
          IndVars := st.IndVars.set H.dim (st.eval e.1) }
  | LoopBlock.latch D =>
    match nest.Latches.find? (fun L => L.label = LoopBlock.latch D) with
    | none => none
    | some L =>
      if st.IndVars.getD L.dim 0 + 1 < 2 ^ N then
        some { st with
          cur := if st.IndVars.getD L.dim 0 + 1 < LocalSize.getD L.dim 0 then L.onTrue
            else L.onFalse
          prev := LoopBlock.latch D
          IncIndVars := st.IncIndVars.set L.dim (st.IndVars.getD L.dim 0 + 1) }
      else none

/-- Execution of at most `fuel` blocks up to the arrival at `AfterBB`; `none` when
`AfterBB` is not reached with this fuel or the execution is undefined. -/
def runLoop (N Dim : Nat) (nest : LoopNest) (LocalSize : List Nat) :
    Nat → ExecState → Option ExecState
  | 0, st => if st.cur = LoopBlock.afterBB then some st else none
  | fuel + 1, st =>
    if st.cur = LoopBlock.afterBB then some st
    else (stepLoop N Dim nest LocalSize st).bind (runLoop N Dim nest LocalSize fuel)

/-- The state in which the loop nest is entered: control comes from the entry block (or
the pre-header put in its place) to the outermost header. -/
def enterLoops (nest : LoopNest) (Dim : Nat) : ExecState :=
  { cur := nest.LastHeader, prev := LoopBlock.entry
    IndVars := List.replicate Dim 0, IncIndVars := List.replicate Dim 0, trace := [] }

/-- The index tuples below the local sizes in lexicographic order, dimension 0
outermost. -/
def allTuples : List Nat → List (List Nat)
  | [] => [[]]
  | s :: rest => (List.range s).flatMap (fun i => (allTuples rest).map (fun t => i :: t))

/-! ## The pass -/

/-- The work-item handlers of `WorkitemHandlerChooser`: the continuation-based one and
the others. -/
inductive WorkitemHandler where
  | POCL_WIH_CBS
  | otherHandler
  deriving DecidableEq

/-- What `runOnFunction` reads: the control flow of `F`, the answers of the external
predicates `Barrier::hasOnlyBarrier`, `Workgroup::isKernelToProcess(F)` and
`Workgroup::hasWorkgroupBarriers(F)`, the chosen handler, and the module metadata
`WGLocalSizeX/Y/Z` and `WGDynamicLocalSize`. -/
structure KernelInfo where
  F : Function
  hasOnlyBarrier : BasicBlock → Bool
  isKernelToProcess : Bool
  hasWorkgroupBarriers : Bool
  chosenHandler : WorkitemHandler
  LocalSizes : List Nat
  WGDynamicLocalSize : Bool

/-- What a transformation leaves behind, as far as it is modelled here: the SubCFGs and
the dispatcher switch of `formSubCfgs`, or the block that `createLoopsAroundKernel`
passes as `AfterBB` (`none` is the null pointer) with the loops built around the
kernel. -/
inductive Transformed where
  | subCfgs (SubCFGs : Option (List SubCFG)) (Exit : Option BasicBlock)
  | loopsAroundKernel (ExitBB : Option BasicBlock) (Dim : Nat) (nest : LoopNest)
  deriving DecidableEq

/-- The result of the pass on a function: stopped by `llvm_unreachable` with a message,
or returned with the value `runOnFunction` returns and with the transformation done,
`none` when the function was not touched. -/
inductive PassResult where
  | fatal (message : String)
  | returned (value : Bool) (done : Option Transformed)
  deriving DecidableEq

/-- The part of `formSubCfgs` up to the creation of the SubCFGs: the check for exiting
blocks, the barrier map and the SubCFGs. -/
def formSubCfgs (ExitBarrierId : Nat) (K : KernelInfo) : Except String Transformed :=
  if (exitingBlocks K.F).isEmpty then
    Except.error "[SubCFG] Invalid kernel! No kernel exits!\n"
  else
    Except.ok (Transformed.subCfgs (createSubCFGs ExitBarrierId K.hasOnlyBarrier K.F)
      (exitingBlocks K.F).head?)

/-- The function `createLoopsAroundKernel`: `ExitBB` is the first block without
successors, the null pointer if there is none; the loops are created with
`AfterBB = ExitBB`. -/
def createLoopsAroundKernel (K : KernelInfo) : Except String Transformed :=
  let ExitBB := K.F.blocks.find? (fun BB => (K.F.succ BB).length == 0)
  let Dim := selectDim K.LocalSizes K.WGDynamicLocalSize
  Except.ok (Transformed.loopsAroundKernel ExitBB Dim (createLoopsAround Dim))

/-- The function `SubCfgFormationPassLegacy::runOnFunction`. -/
def runOnFunction (ExitBarrierId : Nat) (K : KernelInfo) : PassResult :=
  if !K.isKernelToProcess then PassResult.returned false none
  else if K.chosenHandler != WorkitemHandler.POCL_WIH_CBS then PassResult.returned false none
  else
    match (if K.hasWorkgroupBarriers then formSubCfgs ExitBarrierId K
        else createLoopsAroundKernel K) with
    | Except.error message => PassResult.fatal message
    | Except.ok done => PassResult.returned false (some done)

/-- Modelled from the spec: what the external predicate `Workgroup::isKernelToProcess`
(`Workgroup.h` is not among the sources) answers for a function the pass has already
transformed; "the function is no longer a kernel to process". -/
def alreadyTransformed (K : KernelInfo) : KernelInfo :=
  { K with isKernelToProcess := false }

/-- A function without exit block: the entry block 0 branches to block 1, which branches
to itself. -/
def endlessLoopFunction : Function where
  blocks := [0, 1]
  entry := 0
  succ := fun _ => [1]

/-- A kernel to process without barriers whose function is `endlessLoopFunction`, so
that no block is an exit block; local sizes `(4, 1, 1)`. -/
def noExitKernel : KernelInfo where
  F := endlessLoopFunction
  hasOnlyBarrier := fun _ => false
  isKernelToProcess := true
  hasWorkgroupBarriers := false
  chosenHandler := WorkitemHandler.POCL_WIH_CBS
  LocalSizes := [4, 1, 1]
  WGDynamicLocalSize := false

/-! ## Instructions -/

/-- An operand: the result of an instruction of the function (instructions are
identified by numbers), a global variable, the PHI `indvar` of dimension `D` that
`createLoopsAround` creates, or something else (an argument, a constant). -/
inductive Value where
  | inst (id : Nat)
  | global (name : String)
  | indVar (D : Nat)
  | other (n : Nat)
  deriving DecidableEq

/-- The instruction kinds the pass tells apart. -/
inductive Opcode where
  | Load
  | GetElementPtr
  | Alloca
  | PHI
  | Other
  deriving DecidableEq

/-- An instruction: its number, its parent block, its kind, its operands (operand 0 of a
load and of a GEP is the pointer operand), and whether it carries the metadata
`pocl.arrayified`. -/
structure Instruction where
  id : Nat
  parent : BasicBlock
  opcode : Opcode
  operands : List Value
  arrayified : Bool
  deriving DecidableEq

/-- The instructions of a function, block after block, each block from its first to its
last instruction. -/
abbrev Instructions := List Instruction

/-- The instruction with the given number. -/
def Instructions.get (insts : Instructions) (id : Nat) : Option Instruction :=
  insts.find? (fun I => I.id == id)

/-- The instructions of a block, in order: `for (auto &I : *BB)`. -/
def Instructions.ofBlock (insts : Instructions) (BB : BasicBlock) : List Instruction :=
  insts.filter (fun I => I.parent == BB)

/-- The user instructions of an instruction: `I->users()`. -/
def Instructions.users (insts : Instructions) (I : Instruction) : List Instruction :=
  insts.filter (fun U => U.operands.contains (Value.inst I.id))

/-- The alloca that is operand `V`, if `V` is an alloca instruction:
`dyn_cast<AllocaInst>(V)`. -/
def Instructions.asAlloca (insts : Instructions) (V : Value) : Option Instruction :=
  match V with
  | Value.inst id =>
    match insts.get id with
    | some A => if A.opcode = Opcode.Alloca then some A else none
    | none => none
  | _ => none

/-- The function `getLoopStateAllocaForLoad(LInst)`. -/
def getLoopStateAllocaForLoad (insts : Instructions) (LInst : Instruction) :
    Option Instruction :=
  let PointerOperand := LInst.operands.headD (Value.other 0)
  let Alloca :=
    match PointerOperand with
    | Value.inst id =>
      match insts.get id with
      | some GEPI =>
        if GEPI.opcode = Opcode.GetElementPtr then
          insts.asAlloca (GEPI.operands.headD (Value.other 0))
        else insts.asAlloca PointerOperand
      | none => none
    | _ => none
  match Alloca with
  | some A => if A.arrayified then some A else none
  | none => none

/-- The constant `DefaultAlignment`. -/
def DefaultAlignment : Nat := 64

/-! ## Stores to and loads from an arrayified value -/

/-- A pointer into the memory of an alloca: the alloca itself, or the result of
`getelementptr inbounds T, Alloca, Idx`.  `Idx` stands for the index operand: its value
where the pointer is followed by a work-item (`SlotPointer.slot`), the number of the
instruction that computes it where the emitted instructions are recorded
(`Backing.fresh`). -/
inductive SlotPointer where
  | alloca
  | gep (Idx : Nat)
  deriving DecidableEq

/-- The slot of the alloca that a pointer addresses. -/
def SlotPointer.slot : SlotPointer → Nat
  | SlotPointer.alloca => 0
  | SlotPointer.gep Idx => Idx

/-- An alloca made by `arrayifyValue`: the constant array size operand (an `i32`; the
constant 1 when `CreateAlloca` is given no array size), the alignment if one was set, and
the metadata `pocl.arrayified`. -/
structure ArrayAlloca where
  ArraySize : Nat
  Alignment : Option Nat
  arrayified : Bool
  deriving DecidableEq

/-- The method `AllocaInst::isArrayAllocation()` for a constant array size: whether the
array size operand is not the constant 1. -/
def ArrayAlloca.isArrayAllocation (A : ArrayAlloca) : Bool :=
  A.ArraySize != 1

/-- The function `arrayifyValue(IPAllocas, ToArrayify, InsertionPoint, Idx, NumElements,
MDAlloca)`: the alloca it creates (`NumElements` is a `size_t`, `getInt32` keeps its low 32
bits) and the pointer through which `ToArrayify` is stored, for the value `Idx` of the
index. -/
def arrayifyValue (Idx NumElements : Nat) : ArrayAlloca × SlotPointer :=
  ({ ArraySize := if NumElements = 1 then 1 else NumElements % 2 ^ 32
     Alignment := if NumElements > 1 then some DefaultAlignment else none
     arrayified := true },
   if NumElements ≠ 1 then SlotPointer.gep Idx else SlotPointer.alloca)

/-- The function `loadFromAlloca(Alloca, Idx, InsertBefore, NamePrefix)`: the pointer from
which the load reads, for the value `Idx` of the index. -/
def loadFromAlloca (Alloca : ArrayAlloca) (Idx : Nat) : SlotPointer :=
  if Alloca.isArrayAllocation then SlotPointer.gep Idx else SlotPointer.alloca

/-- The memory of an alloca: the value held by each slot, `none` for a slot never
written. -/
abbrev SlotMemory := Nat → Option Nat

/-- The effect of `store Value, Pointer`. -/
def SlotMemory.store (mem : SlotMemory) (p : SlotPointer) (v : Nat) : SlotMemory :=
  fun s => if s = p.slot then some v else mem s

/-- The result of `load Pointer`. -/
def SlotMemory.load (mem : SlotMemory) (p : SlotPointer) : Option Nat :=
  mem p.slot

/-- The memory after the work-items with the indices `0, ..., count - 1` have each executed
the store that `arrayifyValue` emits for the value `v i` of work-item `i`. -/
def storeByWorkItems (NumElements count : Nat) (v : Nat → Nat) (mem : SlotMemory) :
    SlotMemory :=
  (List.range count).foldl
    (fun m i => SlotMemory.store m (arrayifyValue i NumElements).2 (v i)) mem

/-! ## Backing slots of instructions -/

/-- The backing slot recorded for an instruction: an alloca of the function, the result
of `llvm::cast<AllocaInst>` on a value that is no alloca (an assertion failure), or
what `arrayifyInstruction` makes for the instruction: the alloca, the pointer through
which the value is stored (for a GEP, `Idx` is the number of the instruction that is its
index operand), and the position, in the parent block of the instruction, of the
instruction in front of which the GEP and the store are put. -/
inductive Backing where
  | reuse (Alloca : Nat)
  | badCast
  | fresh (Alloca : ArrayAlloca) (StoreTarget : SlotPointer) (InsertionPoint : Nat)
  deriving DecidableEq

/-- The insertion point that `arrayifyInstruction` computes, as a position in the
parent block: the instruction after `ToArrayify`, or the first instruction that is no
PHI when `ToArrayify` is a PHI. -/
def insertionPoint (insts : Instructions) (ToArrayify : Instruction) : Nat :=
  if ToArrayify.opcode = Opcode.PHI then
    (insts.ofBlock ToArrayify.parent).findIdx (fun I => I.opcode != Opcode.PHI)
  else
    (insts.ofBlock ToArrayify.parent).findIdx (fun I => I.id == ToArrayify.id) + 1

/-- The function `arrayifyInstruction(IPAllocas, ToArrayify, Idx, NumElements, MDAlloca)`:
the call of `arrayifyValue` with the insertion point computed from `ToArrayify`. -/
def arrayifyInstruction (insts : Instructions) (ToArrayify : Instruction)
    (Idx NumElements : Nat) : Backing :=
  Backing.fresh (arrayifyValue Idx NumElements).1 (arrayifyValue Idx NumElements).2
    (insertionPoint insts ToArrayify)

/-- The slot that the body of `if (anyOfUsers...)` in `arrayifyMultiSubCfgValues`
records for `I`; `ContIdx` is the number of the instruction `ContIdx_`. -/
def chooseBacking (insts : Instructions) (isUniform : Nat → Bool)
    (ReqdArrayElements ContIdx : Nat) (I : Instruction) : Backing :=
  match (if I.opcode = Opcode.Load then getLoopStateAllocaForLoad insts I else none) with
  | some Alloca => Backing.reuse Alloca.id
  | none =>
    if I.opcode = Opcode.GetElementPtr ∧ I.arrayified = true then
      match insts.asAlloca (I.operands.headD (Value.other 0)) with
      | some Alloca => Backing.reuse Alloca.id
      | none => Backing.badCast
    else if isUniform I.id then arrayifyInstruction insts I ContIdx 1
    else arrayifyInstruction insts I ContIdx ReqdArrayElements

/-- The map `InstAllocaMap`, keyed by instruction number. -/
abbrev AllocaMap := List (Nat × Backing)

/-- The call `InstAllocaMap.lookup(&I)`; `none` is the null pointer. -/
def AllocaMap.lookup (m : AllocaMap) (id : Nat) : Option Backing :=
  match m with
  | [] => none
  | (k, b) :: rest => if k = id then some b else AllocaMap.lookup rest id

/-- The set `OtherCFGBlocks` for the SubCFG at position `this` of `SubCFGs`. -/
def otherCFGBlocks (SubCFGs : List SubCFG) (this : Nat) : List BasicBlock :=
  ((List.range SubCFGs.length).filter (fun j => j != this)).flatMap
    (fun j => match SubCFGs[j]? with
      | some Cfg => Cfg.Blocks_
      | none => [])

/-- The test `anyOfUsers<Instruction>(&I, ...)` of `arrayifyMultiSubCfgValues`: some
user of `I` is in another block than `I`, and that block is in `OtherCFGBlocks`. -/
def usedInOtherCFG (insts : Instructions) (OtherCFGBlocks : List BasicBlock)
    (I : Instruction) : Bool :=
  (insts.users I).any (fun UI => UI.parent != I.parent && OtherCFGBlocks.contains UI.parent)

/-- The body of `for (auto &I : *BB)` in `arrayifyMultiSubCfgValues`. -/
def arrayifyVisit (insts : Instructions) (isUniform : Nat → Bool) (ReqdArrayElements : Nat)
    (ContIdx : Nat) (OtherCFGBlocks : List BasicBlock)
    (InstAllocaMap : AllocaMap) (I : Instruction) : AllocaMap :=
  if I.id = ContIdx then InstAllocaMap
  else if (AllocaMap.lookup InstAllocaMap I.id).isSome then InstAllocaMap
  else if usedInOtherCFG insts OtherCFGBlocks I then
    (I.id, chooseBacking insts isUniform ReqdArrayElements ContIdx I) :: InstAllocaMap
  else InstAllocaMap

/-- The function `SubCFG::arrayifyMultiSubCfgValues` for the SubCFG at position `this`.
The instructions visited are those of the function before the call; the GEP and the
store that `arrayifyInstruction` puts into the block have no user in another block. -/
def arrayifyMultiSubCfgValues (insts : Instructions) (isUniform : Nat → Bool)
    (ReqdArrayElements : Nat) (ContIdx : Nat) (SubCFGs : List SubCFG) (this : Nat)
    (InstAllocaMap : AllocaMap) : AllocaMap :=
  match SubCFGs[this]? with
  | none => InstAllocaMap
  | some Cfg =>
    (Cfg.Blocks_.flatMap (fun BB => insts.ofBlock BB)).foldl
      (arrayifyVisit insts isUniform ReqdArrayElements ContIdx (otherCFGBlocks SubCFGs this))
      InstAllocaMap

/-- The loop `for (auto &Cfg : SubCFGs) Cfg.arrayifyMultiSubCfgValues(...)` of
`formSubCfgs`, which starts with an empty map and `ReqdArrayElements = NumArrayElements`. -/
def arrayifyAllSubCfgValues (insts : Instructions) (isUniform : Nat → Bool) (ContIdx : Nat)
    (SubCFGs : List SubCFG) : AllocaMap :=
  (List.range SubCFGs.length).foldl
    (fun m this =>
      arrayifyMultiSubCfgValues insts isUniform NumArrayElements ContIdx SubCFGs this m)
    []

/-- Instructions for the examples: block 1 starts with the PHIs 1 and 2, followed by
instruction 3; instruction 4 in block 2 uses PHI 1. -/
def phiExample : Instructions :=
  [ { id := 1, parent := 1, opcode := Opcode.PHI, operands := [], arrayified := false },
    { id := 2, parent := 1, opcode := Opcode.PHI, operands := [], arrayified := false },
    { id := 3, parent := 1, opcode := Opcode.Other, operands := [], arrayified := false },
    { id := 4, parent := 2, opcode := Opcode.Other, operands := [Value.inst 1],
      arrayified := false } ]

/-- A kernel in which block 3 is reached from the two barrier-only blocks 1 and 2, so
that it belongs to the SubCFG of each: entry 0, block 5 branches to 1 and 2, block 3
leads to the barrier-only exit block 4. -/
def sharedBlockKernel : Function where
  blocks := [0, 5, 1, 2, 3, 4]
  entry := 0
  succ := fun b =>
    match b with
    | 0 => [5]
    | 5 => [1, 2]
    | 1 => [3]
    | 2 => [3]
    | 3 => [4]
    | _ => []

/-- The barrier-only blocks of `sharedBlockKernel`. -/
def sharedBlockBarriers : BasicBlock → Bool := fun b => b == 1 || b == 2 || b == 4

/-- Instructions for `sharedBlockKernel`: instruction 10 of block 3 is used by
instruction 11 of the same block. -/
def sharedBlockInsts : Instructions :=
  [ { id := 10, parent := 3, opcode := Opcode.Other, operands := [], arrayified := false },
    { id := 11, parent := 3, opcode := Opcode.Other, operands := [Value.inst 10],
      arrayified := false } ]

/-! ## Local-id loads of a kernel without barriers -/

/-- The array `LocalIdGlobalNames`. -/
def LocalIdGlobalNames : List String := ["_local_id_x", "_local_id_y", "_local_id_z"]

/-- The array `DimName`, each character as a string. -/
def DimName : List String := ["x", "y", "z"]

/-- Whether the instruction is a load whose pointer operand is the global `VarName`:
`dyn_cast<LoadInst>(&I)` and `LoadI->getPointerOperand() == GV`. -/
def isLoadOf (VarName : String) (I : Instruction) : Bool :=
  I.opcode == Opcode.Load && I.operands.head? == some (Value.global VarName)

/-- A number that no instruction of the list has, for a created instruction. -/
def Instructions.freshId (insts : Instructions) : Nat :=
  insts.foldl (fun m I => max m (I.id + 1)) 0

/-- Insertion of an instruction before the terminator of a block, as an `IRBuilder`
positioned at `BB.getTerminator()` does; the terminator is the last instruction of the
block. -/
def insertBeforeTerminator (insts : Instructions) (BB : BasicBlock) (New : Instruction) :
    Instructions :=
  match (insts.ofBlock BB).getLast? with
  | some T => insts.flatMap (fun I => if I.id = T.id then [New, I] else [I])
  | none => insts ++ [New]

/-- The function `getLoadForGlobalVariable(F, VarName)`: the first load from the global
in the order of the function, and when there is none a load created before the
terminator of the entry block. The result is the instructions of the function
afterwards and the number of the load. -/
def getLoadForGlobalVariable (entry : BasicBlock) (insts : Instructions) (VarName : String) :
    Instructions × Nat :=
  match insts.find? (isLoadOf VarName) with
  | some I => (insts, I.id)
  | none =>
    (insertBeforeTerminator insts entry
      { id := insts.freshId, parent := entry, opcode := Opcode.Load,
        operands := [Value.global VarName], arrayified := false },
     insts.freshId)

/-- The effect of `getLocalSizeValues` on the instructions: with dynamic sizes one call
of `getLoadForGlobalVariable` for `_local_size_x/y/z` per dimension, with constant
sizes none. -/
def getLocalSizeLoads (entry : BasicBlock) (insts : Instructions) (DynSizes : Bool)
    (Dim : Nat) : Instructions :=
  if DynSizes then
    (List.range Dim).foldl
      (fun insts D =>
        (getLoadForGlobalVariable entry insts ("_local_size_" ++ DimName.getD D "")).1)
      insts
  else insts

/-- A `ValueToValueMapTy` restricted to instructions as keys. -/
abbrev ValueMap := List (Nat × Value)

/-- The lookup in a value map. -/
def ValueMap.lookup (m : ValueMap) (id : Nat) : Option Value :=
  (m.find? (fun p => p.1 == id)).map (fun p => p.2)

/-- The assignment `VMap[key] = value`. -/
def ValueMap.set (m : ValueMap) (id : Nat) (V : Value) : ValueMap :=
  (id, V) :: m.filter (fun p => p.1 != id)

/-- The entries that `createLoopsAround` adds to `VMap` for the local ids:
`VMap[getLoadForGlobalVariable(F, LocalIdGlobalNames[D])] = IndVars[D]` for
`D = 1, ..., Dim - 1` and then for `D = 0`. -/
def mapLocalIds (entry : BasicBlock) (Dim : Nat) (insts : Instructions) (VMap : ValueMap) :
    Instructions × ValueMap :=
  let step := fun (s : Instructions × ValueMap) (D : Nat) =>
    let r := getLoadForGlobalVariable entry s.1 (LocalIdGlobalNames.getD D "")
    (r.1, s.2.set r.2 (Value.indVar D))
  step ((List.range' 1 (Dim - 1)).foldl step (insts, VMap)) 0

/-- How `remapInstructionsInBlocks` changes one operand. -/
def remapValue (VMap : ValueMap) (V : Value) : Value :=
  match V with
  | Value.inst id => (VMap.lookup id).getD V
  | _ => V

/-- The call `remapInstructionsInBlocks(Blocks, VMap)` on the instructions of the
blocks in `Blocks`. -/
def remapInstructionsInBlocks (Blocks : List BasicBlock) (VMap : ValueMap)
    (insts : Instructions) : Instructions :=
  insts.map (fun I =>
    if Blocks.contains I.parent then { I with operands := I.operands.map (remapValue VMap) }
    else I)

/-- The last loop of `createLoopsAroundKernel`: for every dimension the load that
`getLoadForGlobalVariable` returns is erased. -/
def eraseLocalIdLoads (entry : BasicBlock) (Dim : Nat) (insts : Instructions) : Instructions :=
  (List.range Dim).foldl
    (fun insts D =>
      let r := getLoadForGlobalVariable entry insts (LocalIdGlobalNames.getD D "")
      r.1.filter (fun I => I.id != r.2))
    insts

/-- What `createLoopsAroundKernel` does to the instructions of the blocks of the kernel
(`Blocks`, the blocks of the function before the loops are created) from the computation
of the local sizes on: the loads of the local sizes, the load for the type of the
induction variable, the placeholder load from `undef`, the entries of `VMap`, the remap
and the erasure. `Idx` stands for the contiguous index that `createLoopsAround` computes in
a new block. -/
def createLoopsAroundKernelInsts (entry : BasicBlock) (Blocks : List BasicBlock)
    (DynSizes : Bool) (Dim : Nat) (Idx : Value) (insts : Instructions) : Instructions :=
  let insts0 := getLocalSizeLoads entry insts DynSizes Dim
  let insts1 := (getLoadForGlobalVariable entry insts0 (LocalIdGlobalNames.getD (Dim - 1) "")).1
  let Placeholder := insts1.freshId
  let insts2 := insertBeforeTerminator insts1 entry
    { id := Placeholder, parent := entry, opcode := Opcode.Load,
      operands := [Value.other 0], arrayified := false }
  let r := mapLocalIds entry Dim insts2 []
  let VMap := r.2.set Placeholder Idx
  eraseLocalIdLoads entry Dim (remapInstructionsInBlocks Blocks VMap r.1)

/-- A kernel body of one block that reads `_local_id_x` twice: load 1 used by
instruction 2, load 3 used by instruction 4, and the terminator 5. -/
def twoLoadsInsts : Instructions :=
  [{ id := 1, parent := 0, opcode := Opcode.Load, operands := [Value.global "_local_id_x"],
     arrayified := false },
   { id := 2, parent := 0, opcode := Opcode.Other, operands := [Value.inst 1],
     arrayified := false },
   { id := 3, parent := 0, opcode := Opcode.Load, operands := [Value.global "_local_id_x"],
     arrayified := false },
   { id := 4, parent := 0, opcode := Opcode.Other, operands := [Value.inst 3],
     arrayified := false },
   { id := 5, parent := 0, opcode := Opcode.Other, operands := [], arrayified := false }]

/-- The same body with a single read of `_local_id_x`. -/
def oneLoadInsts : Instructions :=
  [{ id := 1, parent := 0, opcode := Opcode.Load, operands := [Value.global "_local_id_x"],
     arrayified := false },
   { id := 2, parent := 0, opcode := Opcode.Other, operands := [Value.inst 1],
     arrayified := false },
   { id := 5, parent := 0, opcode := Opcode.Other, operands := [], arrayified := false }]

/-! ## Arrayification of allocas -/

/-- The types `arrayifyAllocas` deals with: a type of the input, identified by a number,
or `ArrayType::get(T, NumElements)`. -/
inductive IRType where
  | base (n : Nat)
  | array (T : IRType) (NumElements : Nat)
  deriving DecidableEq

/-- The state of the loop of `fillUserHull`. The head of `WL` is the back of the vector,
the element `pop_back_val` returns. -/
structure HullState where
  WL : List Instruction
  AlreadySeen : List Instruction
  Hull : List Instruction

/-- One iteration of `while (!WL.empty())` in `fillUserHull` after `I` was popped and
`rest` remains: `I` is inserted into `AlreadySeen` and appended to `Hull`, and every user
that is not in `AlreadySeen` and that may read or write memory or has pointer type is
pushed. -/
def hullVisit (insts : Instructions) (mayReadOrWriteMemory isPointerTy : Instruction → Bool)
    (st : HullState) (I : Instruction) (rest : List Instruction) : HullState :=
  { WL := ((insts.users I).filter (fun UI =>
        !(I :: st.AlreadySeen).contains UI && (mayReadOrWriteMemory UI || isPointerTy UI))).reverse
      ++ rest
    AlreadySeen := I :: st.AlreadySeen
    Hull := st.Hull ++ [I] }

/-- The loop `while (!WL.empty())` of `fillUserHull`, run for at most `fuel` iterations;
`none` when the worklist is not empty after `fuel` iterations. -/
def hullLoop (insts : Instructions) (mayReadOrWriteMemory isPointerTy : Instruction → Bool) :
    Nat → HullState → Option HullState
  | 0, st => if st.WL.isEmpty then some st else none
  | fuel + 1, st =>
    match st.WL with
    | [] => some st
    | I :: rest =>
      hullLoop insts mayReadOrWriteMemory isPointerTy fuel
        (hullVisit insts mayReadOrWriteMemory isPointerTy st I rest)

/-- The number of iterations allowed to the loop of `fillUserHull`: one for every user
of the alloca and, for every instruction, one more than it has users. -/
def hullFuel (insts : Instructions) (Alloca : Instruction) : Nat :=
  (insts.users Alloca).length + (insts.map (fun X => (insts.users X).length + 1)).sum

/-- The function `fillUserHull(Alloca, Hull)`: the worklist starts with the users of the
alloca. -/
def fillUserHull (insts : Instructions) (mayReadOrWriteMemory isPointerTy : Instruction → Bool)
    (Alloca : Instruction) : Option (List Instruction) :=
  (hullLoop insts mayReadOrWriteMemory isPointerTy (hullFuel insts Alloca)
      { WL := (insts.users Alloca).reverse, AlreadySeen := [], Hull := [] }).map
    (fun st => st.Hull)

/-- The loop over the SubCFGs in `isAllocaSubCfgInternal`, on the blocks of the user hull
and on the new blocks of each SubCFG: `false` as soon as a SubCFG holds some but not all
of the user blocks. -/
def allInOneSubCfg (UserBlocks : List BasicBlock) (NewBlocks : List (List BasicBlock)) : Bool :=
  NewBlocks.all (fun SubCfgSet =>
    !(UserBlocks.any (fun BB => SubCfgSet.contains BB) &&
      !UserBlocks.all (fun BB => SubCfgSet.contains BB)))

/-- The function `isAllocaSubCfgInternal(Alloca, SubCfgs, DT)`; `NewBlocks` holds
`getNewBlocks()` of every SubCFG. -/
def isAllocaSubCfgInternal (insts : Instructions)
    (mayReadOrWriteMemory isPointerTy : Instruction → Bool) (Alloca : Instruction)
    (NewBlocks : List (List BasicBlock)) : Option Bool :=
  (fillUserHull insts mayReadOrWriteMemory isPointerTy Alloca).map
    (fun Users => allInOneSubCfg (Users.map (fun I => I.parent)) NewBlocks)

/-- The body of the first loop of `arrayifyAllocas` for one instruction of the entry
block: whether the instruction is pushed to the worklist. -/
def allocaToWiden (insts : Instructions) (mayReadOrWriteMemory isPointerTy : Instruction → Bool)
    (NewBlocks : List (List BasicBlock)) (I : Instruction) : Option Bool :=
  if I.opcode = Opcode.Alloca then
    if I.arrayified then some false
    else if (insts.users I).any (fun UI => !NewBlocks.flatten.contains UI.parent) then some false
    else (isAllocaSubCfgInternal insts mayReadOrWriteMemory isPointerTy I NewBlocks).map
      (fun internal => !internal)
  else some false

/-- The first loop of `arrayifyAllocas` over a list of instructions. -/
def collectAllocas (pushed : Instruction → Option Bool) :
    List Instruction → Option (List Instruction)
  | [] => some []
  | I :: rest =>
    match pushed I, collectAllocas pushed rest with
    | some true, some WL => some (I :: WL)
    | some false, some WL => some WL
    | _, _ => none

/-- The alloca that `arrayifyAllocas` creates in place of another one. -/
structure WideAlloca where
  AllocatedType : IRType
  NumElements : Nat
  Alignment : Nat
  arrayified : Bool
  deriving DecidableEq

/-- The type of the created alloca: the allocated type `T` of the old one, or
`ArrayType::get(T, ArrSize)` when the array size of the old one is a constant greater
than one (`getLimitedValue` saturates at `2^64 - 1`). -/
def widenedType (getAllocatedType : Instruction → IRType)
    (getArraySize : Instruction → Option Nat) (I : Instruction) : IRType :=
  match getArraySize I with
  | some ArrSizeC =>
    if min ArrSizeC (2 ^ 64 - 1) > 1 then
      IRType.array (getAllocatedType I) (min ArrSizeC (2 ^ 64 - 1))
    else getAllocatedType I
  | none => getAllocatedType I

/-- The created alloca: `CreateAlloca(T, getInt32(ReqdArrayElements))`, aligned to
`DefaultAlignment` and tagged `pocl.arrayified`. -/
def wideAlloca (getAllocatedType : Instruction → IRType)
    (getArraySize : Instruction → Option Nat) (ReqdArrayElements : Nat) (I : Instruction) :
    WideAlloca :=
  { AllocatedType := widenedType getAllocatedType getArraySize I
    NumElements := ReqdArrayElements % 2 ^ 32
    Alignment := DefaultAlignment
    arrayified := true }

/-- The function `arrayifyAllocas(EntryBlock, DT, SubCfgs, ReqdArrayElements, VecInfo)`,
as far as the allocas are concerned: the allocas of the entry block that are replaced,
each with the alloca created in its place; every other alloca is not touched. (The GEPs
in the load blocks and the redirection of the uses, which consults the dominator tree,
are not part of this.) -/
def arrayifyAllocas (EntryBlock : BasicBlock) (insts : Instructions)
    (mayReadOrWriteMemory isPointerTy : Instruction → Bool)
    (getAllocatedType : Instruction → IRType) (getArraySize : Instruction → Option Nat)
    (NewBlocks : List (List BasicBlock)) (ReqdArrayElements : Nat) :
    Option (List (Instruction × WideAlloca)) :=
  (collectAllocas (allocaToWiden insts mayReadOrWriteMemory isPointerTy NewBlocks)
      (insts.ofBlock EntryBlock)).map
    (fun WL => WL.map (fun I =>
      (I, wideAlloca getAllocatedType getArraySize ReqdArrayElements I)))

/-- An alloca (instruction 1 of the entry block 0) that is stored to in the entry block
and in one block of each of two SubCFGs, as the storage of the last barrier id is. -/
def lastBarrierIdInsts : Instructions :=
  [{ id := 1, parent := 0, opcode := Opcode.Alloca, operands := [], arrayified := false },
   { id := 2, parent := 0, opcode := Opcode.Other, operands := [Value.other 0, Value.inst 1],
     arrayified := false },
   { id := 3, parent := 10, opcode := Opcode.Other, operands := [Value.other 1, Value.inst 1],
     arrayified := false },
   { id := 4, parent := 20, opcode := Opcode.Other, operands := [Value.other 2, Value.inst 1],
     arrayified := false }]

/-- An alloca (instruction 1 of the entry block 0) that is stored to in a block of one
SubCFG and loaded from in a block of another one. -/
def sharedAllocaInsts : Instructions :=
  [{ id := 1, parent := 0, opcode := Opcode.Alloca, operands := [], arrayified := false },
   { id := 3, parent := 10, opcode := Opcode.Other, operands := [Value.other 1, Value.inst 1],
     arrayified := false },
   { id := 4, parent := 20, opcode := Opcode.Load, operands := [Value.inst 1],
     arrayified := false }]

/-- The invariant of the worklist of `fillUserHull`, stated from the back of the vector
downwards: of an element that is already seen, every user that is followed is already
seen or lies above it (`above` collects the elements passed so far). -/
def StackInv (insts : Instructions) (mayReadOrWriteMemory isPointerTy : Instruction → Bool)
    (Seen : List Instruction) : List Instruction → List Instruction → Prop
  | _, [] => True
  | above, X :: below =>
    (X ∈ Seen → ∀ U ∈ insts.users X, (mayReadOrWriteMemory U || isPointerTy U) = true →
      U ∈ Seen ∨ U ∈ above) ∧
    StackInv insts mayReadOrWriteMemory isPointerTy Seen (X :: above) below

/-- The quantity that every iteration of the loop of `fillUserHull` decreases: the length
of the worklist plus, for every instruction not yet seen, one more than its number of
users. -/
def hullPotential (insts : Instructions) (st : HullState) : Nat :=
  st.WL.length +
    ((insts.filter (fun X => !st.AlreadySeen.contains X)).map
      (fun X => (insts.users X).length + 1)).sum

/-! ## Runs of a step function -/

/-- The state after `k` steps of a step function, `none` when a step is undefined. -/
def iterSteps {σ : Type} (step : σ → Option σ) : Nat → σ → Option σ
  | 0, s => some s
  | k + 1, s => (step s).bind (iterSteps step k)

/-- Some number of steps leads from `s` to a state with the property `P`. -/
def Reaches {σ : Type} (step : σ → Option σ) (s : σ) (P : σ → Prop) : Prop :=
  ∃ k s', iterSteps step k s = some s' ∧ P s'

/-! ## Replication of a SubCFG -/

/-- The blocks `SubCFG::replicate` deals with: a block of the function as it was before,
the clone of such a block, the `n`-th exit stub created for the clone of `After`, the load
block, the uniform load block (the pre-header), and a header or latch of the work-item
loops. -/
inductive NewBlock where
  | orig (BB : BasicBlock)
  | clone (BB : BasicBlock)
  | exitStub (After : BasicBlock) (n : Nat)
  | loadBB
  | uniformLoadBB
  | loop (b : LoopBlock)
  deriving DecidableEq

/-- A block made by `replicate`: the successors of its terminator in order and, for an
exit stub, the constant it stores to `LastBarrierIdStorage_`. -/
structure ReplicaBlock where
  label : NewBlock
  succs : List NewBlock
  storedId : Option Nat
  deriving DecidableEq

/-- The block entries of a `ValueToValueMapTy`. -/
abbrev BlockMap := List (NewBlock × NewBlock)

/-- The lookup in a block map. -/
def BlockMap.lookup (m : BlockMap) (k : NewBlock) : Option NewBlock :=
  (m.find? (fun p => p.1 == k)).map (fun p => p.2)

/-- The assignment `VMap[key] = value`. -/
def BlockMap.set (m : BlockMap) (k v : NewBlock) : BlockMap :=
  (k, v) :: m.filter (fun p => p.1 != k)

/-- The function `SubCFG::createExitWithID(BarrierPair, After, TargetBB)`: the new block
`Exit` stores the id and branches to `TargetBB`, and every successor `BarrierPair.first`
of the terminator of `After` is replaced by `Exit`. The result is `After` afterwards and
`Exit`. -/
def createExitWithID (N : Nat) (BarrierPair : BasicBlock × Nat) (After : ReplicaBlock)
    (ExitLabel TargetBB : NewBlock) : ReplicaBlock × ReplicaBlock :=
  ({ After with
      succs := After.succs.map (fun s =>
        if s = NewBlock.orig BarrierPair.1 then ExitLabel else s) },
   { label := ExitLabel, succs := [TargetBB], storedId := some (getIntN N BarrierPair.2) })

/-- The body of `for (auto *Succ : llvm::successors(BB))` in `replicate`, on the clone
and on the exit stubs created for it so far. -/
def addExit (N : Nat) (ExitIds_ : DenseMap) (BB AfterBB : BasicBlock)
    (acc : ReplicaBlock × List ReplicaBlock) (Succ : BasicBlock) :
    ReplicaBlock × List ReplicaBlock :=
  match DenseMap.find ExitIds_ Succ with
  | some id =>
    ((createExitWithID N (Succ, id) acc.1 (NewBlock.exitStub BB acc.2.length)
        (NewBlock.orig AfterBB)).1,
     acc.2 ++ [(createExitWithID N (Succ, id) acc.1 (NewBlock.exitStub BB acc.2.length)
        (NewBlock.orig AfterBB)).2])
  | none => acc

/-- The body of `for (auto *BB : Blocks_)` in `replicate`, on `VMap` and `NewBlocks_`:
the clone has the successors of `BB`, `VMap[BB] = NewBB`, and the clone and its exit stubs
are appended to `NewBlocks_`. -/
def cloneBlock (F : Function) (N : Nat) (ExitIds_ : DenseMap) (AfterBB : BasicBlock)
    (st : BlockMap × List ReplicaBlock) (BB : BasicBlock) : BlockMap × List ReplicaBlock :=
  (st.1.set (NewBlock.orig BB) (NewBlock.clone BB),
   st.2 ++
    ((F.succ BB).foldl (addExit N ExitIds_ BB AfterBB)
      ({ label := NewBlock.clone BB, succs := (F.succ BB).map NewBlock.orig,
         storedId := none }, [])).1 ::
    ((F.succ BB).foldl (addExit N ExitIds_ BB AfterBB)
      ({ label := NewBlock.clone BB, succs := (F.succ BB).map NewBlock.orig,
         storedId := none }, [])).2)

/-- How `remapInstructionsInBlocks` changes the successors of a block. -/
def ReplicaBlock.remap (VMap : BlockMap) (B : ReplicaBlock) : ReplicaBlock :=
  { B with succs := B.succs.map (fun s => (VMap.lookup s).getD s) }

/-- What `replicate` leaves behind, as far as the control flow goes: `NewBlocks_` after
the remap, the load block, the pre-header, the loops, and the fields `EntryBB_` and
`ExitBB_`. -/
structure Replica where
  NewBlocks_ : List ReplicaBlock
  LoadBB_ : ReplicaBlock
  PreHeader_ : ReplicaBlock
  nest : LoopNest
  EntryBB_ : NewBlock
  ExitBB_ : NewBlock
  deriving DecidableEq

/-- The function `SubCFG::replicate(F, ..., AfterBB, LocalSize)` with
`Dim = LocalSize.size()`: the clones and exit stubs, the load block before the clone of
`EntryBB_` (the single successor of the entry barrier; `none` when the cast of
`VMap[EntryBB_]` to a block fails), `VMap[EntryBarrier_] = LoadBB_`, the loops with
`VMap[AfterBB] = Latches[Dim - 1]`, the pre-header, and the remap of `NewBlocks_`. -/
def SubCFG.replicate (F : Function) (N Dim : Nat) (c : SubCFG) (AfterBB : BasicBlock) :
    Option Replica :=
  match F.succ c.EntryBarrier_ with
  | [EntryBB] =>
    match BlockMap.lookup
        (c.Blocks_.foldl (cloneBlock F N c.ExitIds_ AfterBB) ([], [])).1
        (NewBlock.orig EntryBB) with
    | some NewEntry =>
      match (createLoopsAround Dim).Latches[Dim - 1]?, (createLoopsAround Dim).Latches[0]? with
      | some Innermost, some Outermost =>
        some
          { NewBlocks_ :=
              (c.Blocks_.foldl (cloneBlock F N c.ExitIds_ AfterBB) ([], [])).2.map
                (ReplicaBlock.remap
                  (BlockMap.set
                    (BlockMap.set
                      (c.Blocks_.foldl (cloneBlock F N c.ExitIds_ AfterBB) ([], [])).1
                      (NewBlock.orig c.EntryBarrier_) NewBlock.loadBB)
                    (NewBlock.orig AfterBB) (NewBlock.loop Innermost.label)))
            LoadBB_ := { label := NewBlock.loadBB, succs := [NewEntry], storedId := none }
            PreHeader_ :=
              { label := NewBlock.uniformLoadBB,
                succs := [NewBlock.loop (createLoopsAround Dim).LastHeader],
                storedId := none }
            nest := createLoopsAround Dim
            EntryBB_ := NewBlock.uniformLoadBB
            ExitBB_ := NewBlock.loop Outermost.label }
      | _, _ => none
    | none => none
  | _ => none

/-- The block `e` is an exit stub made for the clone of `BB`: it stores the id that the
exit map holds for a successor of `BB` and branches to `AfterBB`. -/
def IsExitStub (F : Function) (N : Nat) (ExitIds_ : DenseMap) (AfterBB BB : BasicBlock)
    (e : ReplicaBlock) : Prop :=
  ∃ n t id, e.label = NewBlock.exitStub BB n ∧ t ∈ F.succ BB ∧
    DenseMap.find ExitIds_ t = some id ∧ e.storedId = some (getIntN N id) ∧
    e.succs = [NewBlock.orig AfterBB]

/-- The block `B` is the clone of `BB` as the first loop of `replicate` leaves it: every
successor is a successor of `BB` that is no key of the exit map, or one of the exit stubs
made for the clone. -/
def IsCloneOf (F : Function) (N : Nat) (ExitIds_ : DenseMap) (AfterBB : BasicBlock)
    (stubs : List ReplicaBlock) (BB : BasicBlock) (B : ReplicaBlock) : Prop :=
  B.label = NewBlock.clone BB ∧ B.storedId = none ∧
    ∀ s ∈ B.succs,
      (∃ t, s = NewBlock.orig t ∧ t ∈ F.succ BB ∧ DenseMap.find ExitIds_ t = none) ∨
      (∃ e ∈ stubs, e.label = s ∧ IsExitStub F N ExitIds_ AfterBB BB e)

/-! ## clGetMemObjectInfo -/

/-- The constants of the OpenCL headers that `clGetMemObjectInfo` names (the headers are
not among the sources): the status codes, the values of `cl_mem_info` that the switch
handles, and the flag bit `CL_MEM_USE_HOST_PTR`. -/
structure ClConstants where
  CL_SUCCESS : Int
  CL_INVALID_VALUE : Int
  CL_INVALID_MEM_OBJECT : Int
  CL_INVALID_OPERATION : Int
  CL_MEM_TYPE : Nat
  CL_MEM_FLAGS : Nat
  CL_MEM_SIZE : Nat
  CL_MEM_HOST_PTR : Nat
  CL_MEM_MAP_COUNT : Nat
  CL_MEM_REFERENCE_COUNT : Nat
  CL_MEM_CONTEXT : Nat
  CL_MEM_ASSOCIATED_MEMOBJECT : Nat
  CL_MEM_USES_SVM_POINTER : Nat
  CL_MEM_OFFSET : Nat
  CL_MEM_PROPERTIES : Nat
  CL_MEM_DEVICE_ADDRESS_EXT : Nat
  CL_MEM_USE_HOST_PTR : Nat

/-- The values of `cl_mem_info` with a `case` in the switch of `clGetMemObjectInfo`. -/
def ClConstants.handledQueries (K : ClConstants) : List Nat :=
  [K.CL_MEM_TYPE, K.CL_MEM_FLAGS, K.CL_MEM_SIZE, K.CL_MEM_HOST_PTR, K.CL_MEM_MAP_COUNT,
   K.CL_MEM_REFERENCE_COUNT, K.CL_MEM_CONTEXT, K.CL_MEM_ASSOCIATED_MEMOBJECT,
   K.CL_MEM_USES_SVM_POINTER, K.CL_MEM_OFFSET, K.CL_MEM_PROPERTIES,
   K.CL_MEM_DEVICE_ADDRESS_EXT]

/-- The fields of `struct _cl_mem` that `clGetMemObjectInfo` reads; pointers are numbers,
`parent = none` is the null pointer, and `device_addrs` holds, for each device of the
context in order, `device_ptrs[dev->global_mem_id].device_addr`. -/
structure MemObject where
  type : Nat
  flags : Nat
  size : Nat
  mem_host_ptr : Nat
  map_count : Nat
  pocl_refcount : Nat
  context : Nat
  parent : Option Nat
  origin : Nat
  properties : List Nat
  has_device_address : Bool
  num_devices : Nat
  device_addrs : List Nat

/-- What a query hands to the macro `POCL_RETURN_GETINFO` or `POCL_RETURN_GETINFO_ARRAY`:
the name of the C type and the value or the values. -/
inductive InfoValue where
  | scalar (type : String) (value : Nat)
  | array (type : String) (values : List Nat)
  deriving DecidableEq

/-- The macros and the helper that `clGetMemObjectInfo` uses and that are not among the
sources, as functions of what the call site passes (the arguments `param_value_size`,
`param_value` and `param_value_size_ret` of the call are part of them):
`IS_CL_OBJECT_VALID` on a non-null pointer, the status `POCL_RETURN_GETINFO` and
`POCL_RETURN_GETINFO_ARRAY` return, the status with which `POCL_RETURN_GETINFO_SIZE_CHECK`
returns (`none`: it does not return), and whether `pocl_find_raw_ptr_with_vm_ptr` finds
an item. -/
structure ClEnv where
  objectValid : MemObject → Bool
  returnGetinfo : InfoValue → Int
  sizeCheck : Nat → Option Int
  findRawPtr : Nat → Nat → Bool

/-- The macro `IS_CL_OBJECT_VALID`: a null pointer is not a valid object. -/
def IS_CL_OBJECT_VALID (E : ClEnv) (memobj : Option MemObject) : Bool :=
  match memobj with
  | none => false
  | some m => E.objectValid m

/-- The switch of `clGetMemObjectInfo` and the `return CL_INVALID_VALUE` after it. -/
def memObjectInfoSwitch (K : ClConstants) (E : ClEnv) (memobj : MemObject)
    (param_name : Nat) : Int :=
  if param_name = K.CL_MEM_TYPE then E.returnGetinfo (InfoValue.scalar "cl_mem_object_type" memobj.type)
  else if param_name = K.CL_MEM_FLAGS then
    E.returnGetinfo (InfoValue.scalar "cl_mem_flags" memobj.flags)
  else if param_name = K.CL_MEM_SIZE then E.returnGetinfo (InfoValue.scalar "size_t" memobj.size)
  else if param_name = K.CL_MEM_HOST_PTR then
    if memobj.flags &&& K.CL_MEM_USE_HOST_PTR ≠ 0 then
      E.returnGetinfo (InfoValue.scalar "void *" memobj.mem_host_ptr)
    else E.returnGetinfo (InfoValue.scalar "void *" 0)
  else if param_name = K.CL_MEM_MAP_COUNT then
    E.returnGetinfo (InfoValue.scalar "cl_uint" memobj.map_count)
  else if param_name = K.CL_MEM_REFERENCE_COUNT then
    E.returnGetinfo (InfoValue.scalar "cl_uint" memobj.pocl_refcount)
  else if param_name = K.CL_MEM_CONTEXT then
    E.returnGetinfo (InfoValue.scalar "cl_context" memobj.context)
  else if param_name = K.CL_MEM_ASSOCIATED_MEMOBJECT then
    E.returnGetinfo (InfoValue.scalar "cl_mem" (memobj.parent.getD 0))
  else if param_name = K.CL_MEM_USES_SVM_POINTER then
    E.returnGetinfo (InfoValue.scalar "cl_bool"
      (if E.findRawPtr memobj.context memobj.mem_host_ptr then 1 else 0))
  else if param_name = K.CL_MEM_OFFSET then
    if memobj.parent = none then E.returnGetinfo (InfoValue.scalar "size_t" 0)
    else E.returnGetinfo (InfoValue.scalar "size_t" memobj.origin)
  else if param_name = K.CL_MEM_PROPERTIES then
    E.returnGetinfo (InfoValue.array "cl_mem_properties" memobj.properties)
  else if param_name = K.CL_MEM_DEVICE_ADDRESS_EXT then
    if !memobj.has_device_address then K.CL_INVALID_OPERATION
    else
      match E.sizeCheck (memobj.num_devices * 8) with
      | some status => status
      | none => K.CL_SUCCESS
  else K.CL_INVALID_VALUE

/-- The status that `clGetMemObjectInfo (memobj, param_name, ...)` returns; `memobj = none`
is the null pointer. -/
def clGetMemObjectInfo (K : ClConstants) (E : ClEnv) (memobj : Option MemObject)
    (param_name : Nat) : Int :=
  if !IS_CL_OBJECT_VALID E memobj then K.CL_INVALID_MEM_OBJECT
  else
    match memobj with
    | none => K.CL_INVALID_MEM_OBJECT
    | some m => memObjectInfoSwitch K E m param_name

/-- The values of the constants in the OpenCL headers. -/
def openclConstants : ClConstants where
  CL_SUCCESS := 0
  CL_INVALID_VALUE := -30
  CL_INVALID_MEM_OBJECT := -38
  CL_INVALID_OPERATION := -59
  CL_MEM_TYPE := 0x1100
  CL_MEM_FLAGS := 0x1101
  CL_MEM_SIZE := 0x1102
  CL_MEM_HOST_PTR := 0x1103
  CL_MEM_MAP_COUNT := 0x1104
  CL_MEM_REFERENCE_COUNT := 0x1105
  CL_MEM_CONTEXT := 0x1106
  CL_MEM_ASSOCIATED_MEMOBJECT := 0x1107
  CL_MEM_OFFSET := 0x1108
  CL_MEM_USES_SVM_POINTER := 0x1109
  CL_MEM_PROPERTIES := 0x110A
  CL_MEM_DEVICE_ADDRESS_EXT := 0x5001
  CL_MEM_USE_HOST_PTR := 8

/-- A buffer of 64 bytes without parent, used in the examples. -/
def exampleMemObject : MemObject where
  type := 0x10F0
  flags := 1
  size := 64
  mem_host_ptr := 0
  map_count := 0
  pocl_refcount := 1
  context := 1
  parent := none
  origin := 0
  properties := []
  has_device_address := false
  num_devices := 1
  device_addrs := [0]

/-- An environment in which every non-null object is valid and every query has room for
its value. -/
def exampleClEnv : ClEnv where
  objectValid := fun _ => true
  returnGetinfo := fun _ => 0
  sizeCheck := fun _ => none
  findRawPtr := fun _ _ => false

/-! ## Loads of arrayified values in a SubCFG -/

/-- Where `loadMultiSubCfgValues` and `fixSingleSubCfgValues` insert an instruction:
before the terminator of the load block or before the terminator of the pre-header (the
uniform load block). -/
inductive LoadPlace where
  | loadBB
  | preHeader
  deriving DecidableEq

/-- A GEP made by `CreateInBoundsGEP(Ty, Ptr, Idx, Name)`: the source element type `Ty`,
the pointer operand, the index, the metadata `pocl.arrayified`, and its place. -/
structure NewGEP where
  SourceElementType : IRType
  PointerOperand : Value
  Index : Value
  arrayified : Bool
  place : LoadPlace
  deriving DecidableEq

/-- An alloca a load reads from: an alloca of the function, identified by its number, or
the alloca that `arrayifyInstruction` creates for the operand with the given number of
elements. -/
inductive AllocaRef where
  | existing (Alloca : Nat)
  | created (NumElements : Nat)
  deriving DecidableEq

/-- A load made by `loadFromAlloca(Alloca, Idx, InsertBefore, Name)`: the alloca, whether
the load goes through a GEP by `Idx` (the alloca is an array allocation), the index, and
its place. -/
structure NewLoad where
  Alloca : AllocaRef
  viaGEP : Bool
  Index : Value
  place : LoadPlace
  deriving DecidableEq

/-- What takes the place of an instruction: a new GEP or a new load. -/
inductive Replacement where
  | gep (G : NewGEP)
  | load (L : NewLoad)
  deriving DecidableEq

/-- The method `isArrayAllocation()` of an alloca a load reads from: for an alloca of the
function the answer is given, for a created one it is that of `arrayifyValue`. -/
def AllocaRef.isArrayAllocation (isArrayAllocation : Nat → Bool) : AllocaRef → Bool
  | AllocaRef.existing Alloca => isArrayAllocation Alloca
  | AllocaRef.created NumElements => (arrayifyValue 0 NumElements).1.isArrayAllocation

/-- The load that the two functions make for an alloca: `IP` is the terminator of the
load block, or that of the pre-header when the alloca is no array allocation, and then
`loadFromAlloca(Alloca, Idx, IP, Name)`. -/
def loadAt (isArrayAllocation : Nat → Bool) (Alloca : AllocaRef) (Idx : Value) : NewLoad :=
  { Alloca := Alloca
    viaGEP := Alloca.isArrayAllocation isArrayAllocation
    Index := Idx
    place := if !Alloca.isArrayAllocation isArrayAllocation then LoadPlace.preHeader
      else LoadPlace.loadBB }

/-- The GEP that the two functions make in place of a GEP tagged `pocl.arrayified`:
`CreateInBoundsGEP(GEP->getType(), GEP->getPointerOperand(), Idx, GEP->getName() + "c")`
at the terminator of the load block, with the metadata of `GEP`. -/
def reemitGEP (getType : Instruction → IRType) (GEP : Instruction) (Idx : Value) : NewGEP :=
  { SourceElementType := getType GEP
    PointerOperand := GEP.operands.headD (Value.other 0)
    Index := Idx
    arrayified := true
    place := LoadPlace.loadBB }

/-- The body of the loop of `loadMultiSubCfgValues` for one pair of `InstAllocaMap`: the
value assigned to `VMap[InstAllocaPair.first]`, `none` when nothing is assigned.
`NewContIdx` is `VMap[ContIdx_]`. -/
def loadMultiSubCfgValue (insts : Instructions) (Blocks_ NewBlocks_ : List BasicBlock)
    (isArrayAllocation : Nat → Bool) (getType : Instruction → IRType) (NewContIdx : Value)
    (InstAllocaPair : Instruction × Nat) : Option Replacement :=
  if !Blocks_.contains InstAllocaPair.1.parent then
    if (insts.users InstAllocaPair.1).any (fun UI => NewBlocks_.contains UI.parent) then
      if InstAllocaPair.1.opcode = Opcode.GetElementPtr ∧ InstAllocaPair.1.arrayified = true then
        some (Replacement.gep (reemitGEP getType InstAllocaPair.1 NewContIdx))
      else
        some (Replacement.load
          (loadAt isArrayAllocation (AllocaRef.existing InstAllocaPair.2) NewContIdx))
    else none
  else none

/-- The function `SubCFG::loadMultiSubCfgValues`: the assignments to `VMap` it makes, in
the order of `InstAllocaMap`. -/
def loadMultiSubCfgValues (insts : Instructions) (Blocks_ NewBlocks_ : List BasicBlock)
    (isArrayAllocation : Nat → Bool) (getType : Instruction → IRType) (NewContIdx : Value)
    (InstAllocaMap : List (Instruction × Nat)) : List (Instruction × Replacement) :=
  InstAllocaMap.filterMap (fun InstAllocaPair =>
    (loadMultiSubCfgValue insts Blocks_ NewBlocks_ isArrayAllocation getType NewContIdx
      InstAllocaPair).map (fun R => (InstAllocaPair.1, R)))

/-- What `fixSingleSubCfgValues` does for an operand that does not dominate its user. -/
inductive OperandFix where
  | reuseLoad (Load : Nat)
  | replace (R : Replacement)
  deriving DecidableEq

/-- The alloca that `fixSingleSubCfgValues` takes for the operand `OPI`: the entry of
`RemappedInstAllocaMap`, then for a load the result of `getLoopStateAllocaForLoad`, and
when this leaves the null pointer the alloca made by
`arrayifyInstruction(AllocaIP, OPI, ContIdx_, ReqdArrayElements)`. -/
def fixOperandAlloca (insts : Instructions) (RemappedInstAllocaMap : DenseMap)
    (ReqdArrayElements : Nat) (OPI : Instruction) : AllocaRef :=
  let Alloca : Option Nat := none
  let Alloca :=
    match DenseMap.find RemappedInstAllocaMap OPI.id with
    | some RemAlloca => some RemAlloca
    | none => Alloca
  let Alloca :=
    if OPI.opcode = Opcode.Load then (getLoopStateAllocaForLoad insts OPI).map (fun A => A.id)
    else Alloca
  match Alloca with
  | some Alloca => AllocaRef.existing Alloca
  | none => AllocaRef.created ReqdArrayElements

/-- The body of `fixSingleSubCfgValues` for an operand `OPI` that does not dominate its
user, from the lookup in `InstLoadMap` on: `dominatingLoad` is the entry of `InstLoadMap`
for `OPI` if there is one and it dominates the user. -/
def fixNonDominatingOperand (insts : Instructions) (isArrayAllocation : Nat → Bool)
    (getType : Instruction → IRType) (RemappedInstAllocaMap : DenseMap)
    (ReqdArrayElements : Nat) (ContIdx_ : Value) (dominatingLoad : Option Nat)
    (OPI : Instruction) : OperandFix :=
  match dominatingLoad with
  | some Load => OperandFix.reuseLoad Load
  | none =>
    if OPI.opcode = Opcode.GetElementPtr ∧ OPI.arrayified = true then
      OperandFix.replace (Replacement.gep (reemitGEP getType OPI ContIdx_))
    else
      OperandFix.replace (Replacement.load
        (loadAt isArrayAllocation
          (fixOperandAlloca insts RemappedInstAllocaMap ReqdArrayElements OPI) ContIdx_))

/-- A GEP tagged `pocl.arrayified` (instruction 2 of block 1, on the alloca 1) that is used
by instruction 3 of block 20. -/
def arrayifiedGepInsts : Instructions :=
  [{ id := 1, parent := 0, opcode := Opcode.Alloca, operands := [], arrayified := true },
   { id := 2, parent := 1, opcode := Opcode.GetElementPtr,
     operands := [Value.inst 1, Value.other 0], arrayified := true },
   { id := 3, parent := 20, opcode := Opcode.Other, operands := [Value.inst 2],
     arrayified := false }]

/-- A load from a pointer that is no alloca (instruction 7 of block 10), used by
instruction 8 of block 10. -/
def plainLoadInsts : Instructions :=
  [{ id := 7, parent := 10, opcode := Opcode.Load, operands := [Value.other 0],
     arrayified := false },
   { id := 8, parent := 10, opcode := Opcode.Other, operands := [Value.inst 7],
     arrayified := false }]

/-- The types in the examples: number 0 is the pointer type, number 1 is `i32`. The result
of a GEP and of an alloca is a pointer, every other value is an `i32`. -/
def exampleTypeOf (I : Instruction) : IRType :=
  if I.opcode = Opcode.GetElementPtr ∨ I.opcode = Opcode.Alloca then IRType.base 0
  else IRType.base 1

/-- The source element type of the GEPs in the examples, `i32`: they are made with
`CreateInBoundsGEP(Alloca->getAllocatedType(), Alloca, Idx)` on allocas of `i32`. -/
def exampleSourceElementTypeOf (_ : Instruction) : IRType := IRType.base 1

/-! ## Topological sort of instructions -/

/-- The lambda `IsUsedBy(LHS, RHS)` of `topoSortInstructions`: `RHS` is one of the users of
`LHS`, that is `LHS` is an operand of `RHS`. -/
def IsUsedBy (LHS RHS : Instruction) : Bool :=
  RHS.operands.contains (Value.inst LHS.id)

/-- The loop `for (int J = OrderedInsts.size() - 1; J > I; --J)` of `topoSortInstructions`
from the index `J` downwards: the greatest index `J' ≤ J` above `I` whose element is used
by the element at `I`, and `I` (the initial value of `InsertAt`) when there is none. -/
def scanInsertAt {α : Type} (IsUsedBy : α → α → Bool) (OrderedInsts : List α) (I : Nat) :
    Nat → Nat
  | 0 => I
  | J + 1 =>
    if J + 1 > I then
      match OrderedInsts[J + 1]?, OrderedInsts[I]? with
      | some LHS, some RHS =>
        if IsUsedBy LHS RHS then J + 1 else scanInsertAt IsUsedBy OrderedInsts I J
      | _, _ => scanInsertAt IsUsedBy OrderedInsts I J
    else I

/-- The loop `for (int J = I + 1; J <= InsertAt; ++J) OrderedInsts[J - 1] = OrderedInsts[J]`. -/
def shiftDown {α : Type} (OrderedInsts : List α) (I InsertAt : Nat) : List α :=
  (List.range' (I + 1) (InsertAt - I)).foldl
    (fun O J =>
      match O[J]? with
      | some X => O.set (J - 1) X
      | none => O)
    OrderedInsts

/-- The body of `if (InsertAt != I)` up to the assignment `OrderedInsts[InsertAt] = Tmp`. -/
def moveToInsertAt {α : Type} (OrderedInsts : List α) (I InsertAt : Nat) : List α :=
  match OrderedInsts[I]? with
  | some Tmp => (shiftDown OrderedInsts I InsertAt).set InsertAt Tmp
  | none => OrderedInsts

/-- The loop `for (int I = 0; I < OrderedInsts.size(); ++I)` of `topoSortInstructions` from
the index `I` on, run for at most `fuel` iterations; `none` when the loop has not ended
after `fuel` iterations. After a move the statement `--I` and the increment of the loop
leave `I` as it is. -/
def topoSortLoop {α : Type} (IsUsedBy : α → α → Bool) : Nat → List α → Nat → Option (List α)
  | 0, OrderedInsts, I => if I < OrderedInsts.length then none else some OrderedInsts
  | fuel + 1, OrderedInsts, I =>
    if I < OrderedInsts.length then
      if scanInsertAt IsUsedBy OrderedInsts I (OrderedInsts.length - 1) ≠ I then
        topoSortLoop IsUsedBy fuel
          (moveToInsertAt OrderedInsts I
            (scanInsertAt IsUsedBy OrderedInsts I (OrderedInsts.length - 1))) I
      else topoSortLoop IsUsedBy fuel OrderedInsts (I + 1)
    else some OrderedInsts

/-- A number of iterations that suffices for the loop of `topoSortInstructions` on `n`
instructions. -/
def topoSortFuel (n : Nat) : Nat := n * n * (n + 1) ^ n + n + 1

/-- The function `SubCFG::topoSortInstructions(UniquifyInsts)`; the list holds the
elements of the set in the order in which the set is iterated. -/
def topoSortInstructions (UniquifyInsts : List Instruction) : Option (List Instruction) :=
  topoSortLoop IsUsedBy (topoSortFuel UniquifyInsts.length) UniquifyInsts 0

/-- The use relation restricted to a set of instructions: `a` is used by `b`, both in the
set. -/
def UsedWithin (S : List Instruction) (a b : Instruction) : Prop :=
  a ∈ S ∧ b ∈ S ∧ IsUsedBy a b = true

/-- The use relation restricted to the set has no cycle. -/
def AcyclicUses (S : List Instruction) : Prop :=
  ∀ x, ¬ Relation.TransGen (UsedWithin S) x x

/-- The quantity that every move of `topoSortInstructions` decreases, for a ranking of the
elements: every element `x` counts `B ^ (H - rank x)` times the number of elements of
smaller rank behind it. -/
def topoPotential {α : Type} (rank : α → Nat) (B H : Nat) : List α → Nat
  | [] => 0
  | x :: rest =>
    B ^ (H - rank x) * (rest.filter (fun b => rank b < rank x)).length
      + topoPotential rank B H rest

/-- Three instructions, each using the next one, in an order in which every instruction
comes before its operand. -/
def chainInsts : List Instruction :=
  [{ id := 3, parent := 0, opcode := Opcode.Other, operands := [Value.inst 2],
     arrayified := false },
   { id := 2, parent := 0, opcode := Opcode.Other, operands := [Value.inst 1],
     arrayified := false },
   { id := 1, parent := 0, opcode := Opcode.Other, operands := [Value.other 0],
     arrayified := false }]

/-- Two instructions that use each other. -/
def cyclicInsts : List Instruction :=
  [{ id := 1, parent := 0, opcode := Opcode.PHI, operands := [Value.inst 2],
     arrayified := false },
   { id := 2, parent := 0, opcode := Opcode.Other, operands := [Value.inst 1],
     arrayified := false }]

/-! ## Facts about the map operations -/

theorem DenseMap.find_filter_ne (m : DenseMap) (k x : BasicBlock) (h : x ≠ k) :
    DenseMap.find (m.filter (fun p => p.1 != k)) x = DenseMap.find m x := by
  induction m with
  | nil => rfl
  | cons p rest ih =>
    obtain ⟨k', v⟩ := p
    by_cases hk : k' = k
    · subst hk
      have hx : ¬ k' = x := fun e => h e.symm
      rw [List.filter_cons_of_neg (by simp)]
      simp [DenseMap.find, hx, ih]
    · rw [List.filter_cons_of_pos (by simpa using hk)]
      by_cases hx : k' = x
      · simp [DenseMap.find, hx]
      · simp [DenseMap.find, hx, ih]

theorem DenseMap.find_set_self (m : DenseMap) (k v : Nat) :
    DenseMap.find (DenseMap.set m k v) k = some v := by
  simp [DenseMap.set, DenseMap.find]

theorem DenseMap.find_set_ne (m : DenseMap) (k v x : Nat) (h : x ≠ k) :
    DenseMap.find (DenseMap.set m k v) x = DenseMap.find m x := by
  have hk : ¬ k = x := fun e => h e.symm
  simp [DenseMap.set, DenseMap.find, hk, DenseMap.find_filter_ne m k x h]

theorem DenseMap.find_insert_self (m : DenseMap) (k v : Nat)
    (h : DenseMap.find m k = none) :
    DenseMap.find (DenseMap.insert m k v) k = some v := by
  simp [DenseMap.insert, h, DenseMap.find]

theorem DenseMap.find_insert_ne (m : DenseMap) (k v x : Nat) (h : x ≠ k) :
    DenseMap.find (DenseMap.insert m k v) x = DenseMap.find m x := by
  have hk : ¬ k = x := fun e => h e.symm
  unfold DenseMap.insert
  cases DenseMap.find m k <;> simp [DenseMap.find, hk]

theorem DenseMap.find_insert_some (m : DenseMap) (k v x a : Nat)
    (h : DenseMap.find m x = some a) :
    DenseMap.find (DenseMap.insert m k v) x = some a := by
  by_cases hx : x = k
  · subst hx
    simp [DenseMap.insert, h]
  · rw [DenseMap.find_insert_ne m k v x hx, h]

theorem find_exiting_fold (E : Nat) (l : List BasicBlock) (m : DenseMap) (x : BasicBlock) :
    DenseMap.find (l.foldl (fun m BB => DenseMap.set m BB E) m) x
      = if x ∈ l then some E else DenseMap.find m x := by
  induction l generalizing m with
  | nil => simp
  | cons b bs ih =>
    rw [List.foldl_cons, ih]
    by_cases hx : x ∈ bs
    · simp [hx]
    · by_cases hb : x = b
      · subst hb
        simp [hx, DenseMap.find_set_self]
      · simp [hx, hb, DenseMap.find_set_ne _ _ _ _ hb]

/-- The map before the numbering loop of `getBarrierIds`. -/
theorem find_initial (E : Nat) (Entry : BasicBlock) (Exiting : List BasicBlock)
    (x : BasicBlock) :
    DenseMap.find (DenseMap.set (Exiting.foldl (fun m BB => DenseMap.set m BB E) [])
        Entry EntryBarrierId) x
      = if x = Entry then some EntryBarrierId else if x ∈ Exiting then some E else none := by
  by_cases hx : x = Entry
  · subst hx
    simp [DenseMap.find_set_self]
  · rw [DenseMap.find_set_ne _ _ _ _ hx, find_exiting_fold]
    simp [hx, DenseMap.find]

/-! ## Facts about the numbering loop -/

theorem assignBarrierIds_find_some (hob : BasicBlock → Bool) (bs : List BasicBlock) :
    ∀ (m : DenseMap) (c x a : Nat), DenseMap.find m x = some a →
      DenseMap.find (assignBarrierIds hob bs m c) x = some a := by
  induction bs with
  | nil => intro m c x a h; simpa [assignBarrierIds] using h
  | cons b rest ih =>
    intro m c x a h
    unfold assignBarrierIds
    split
    · exact ih _ _ x a (DenseMap.find_insert_some m b c x a h)
    · exact ih _ _ x a h

theorem assignBarrierIds_find_none (hob : BasicBlock → Bool) (bs : List BasicBlock) :
    ∀ (m : DenseMap) (c x : Nat), DenseMap.find m x = none →
      ¬ (x ∈ bs ∧ hob x = true) →
      DenseMap.find (assignBarrierIds hob bs m c) x = none := by
  induction bs with
  | nil => intro m c x h _; simpa [assignBarrierIds] using h
  | cons b rest ih =>
    intro m c x h hx
    have hrest : ¬ (x ∈ rest ∧ hob x = true) := fun hh => hx ⟨List.mem_cons_of_mem _ hh.1, hh.2⟩
    unfold assignBarrierIds
    split
    · rename_i hc
      have hxb : x ≠ b := by
        rintro rfl
        simp only [Bool.and_eq_true] at hc
        exact hx ⟨List.mem_cons_self _ _, hc.2⟩
      exact ih _ _ x (by rw [DenseMap.find_insert_ne m b c x hxb]; exact h) hrest
    · exact ih _ _ x h hrest

theorem freshBarriers_cons_insert (hob : BasicBlock → Bool) (m : DenseMap) (b c : Nat)
    (rest : List BasicBlock)
    (hc : ((DenseMap.find m b).isNone && hob b) = true) :
    freshBarriers hob m (b :: rest)
      = b :: freshBarriers hob (DenseMap.insert m b c) rest := by
  simp only [Bool.and_eq_true] at hc
  have hnone : DenseMap.find m b = none := by simpa using hc.1
  unfold freshBarriers
  simp only [firstOccurrences]
  rw [List.filter_cons_of_pos (by simp [hc.1, hc.2]), List.filter_filter]
  congr 1
  apply List.filter_congr
  intro x _
  by_cases hx : x = b
  · subst hx
    simp [DenseMap.find_insert_self m x c hnone]
  · simp [hx, DenseMap.find_insert_ne m b c x hx]

theorem freshBarriers_cons_skip (hob : BasicBlock → Bool) (m : DenseMap) (b : Nat)
    (rest : List BasicBlock)
    (hc : ¬ ((DenseMap.find m b).isNone && hob b) = true) :
    freshBarriers hob m (b :: rest) = freshBarriers hob m rest := by
  unfold freshBarriers
  simp only [firstOccurrences]
  have hb : ¬ (hob b && (DenseMap.find m b).isNone) = true := by
    simpa [Bool.and_comm] using hc
  rw [List.filter_cons, if_neg hb, List.filter_filter]
  apply List.filter_congr
  intro x _
  by_cases hx : x = b
  · subst hx
    simp only [bne_self_eq_false, Bool.and_false]
    exact (Bool.eq_false_iff.mpr hb).symm
  · simp [hx]

theorem freshBarriers_length_le (hob : BasicBlock → Bool) (bs : List BasicBlock) :
    ∀ m : DenseMap, (freshBarriers hob m bs).length ≤ bs.length := by
  induction bs with
  | nil => intro m; simp [freshBarriers, firstOccurrences]
  | cons b rest ih =>
    intro m
    by_cases hc : ((DenseMap.find m b).isNone && hob b) = true
    · rw [freshBarriers_cons_insert hob m b 0 rest hc]
      simpa using ih _
    · rw [freshBarriers_cons_skip hob m b rest hc]
      exact Nat.le_succ_of_le (ih m)

/-- The numbering loop hands out consecutive ids, starting from the counter, to the
fresh barrier-only blocks in block-list order. -/
theorem assignBarrierIds_fresh (hob : BasicBlock → Bool) (bs : List BasicBlock) :
    ∀ (m : DenseMap) (c : Nat), c + bs.length ≤ sizeMod →
      (freshBarriers hob m bs).map (DenseMap.find (assignBarrierIds hob bs m c))
        = (List.range' c (freshBarriers hob m bs).length).map some := by
  induction bs with
  | nil => intro m c _; simp [freshBarriers, firstOccurrences]
  | cons b rest ih =>
    intro m c hlen
    simp only [List.length_cons] at hlen
    by_cases hc : ((DenseMap.find m b).isNone && hob b) = true
    · rw [freshBarriers_cons_insert hob m b c rest hc]
      have hnone : DenseMap.find m b = none := by
        simp only [Bool.and_eq_true] at hc
        simpa using hc.1
      have hmod : (c + 1) % sizeMod = c + 1 ∨ rest = [] := by
        rcases Nat.lt_or_ge (c + 1) sizeMod with h | h
        · exact Or.inl (Nat.mod_eq_of_lt h)
        · right
          have : rest.length = 0 := by omega
          exact List.length_eq_zero.mp this
      simp only [assignBarrierIds, hc, if_true, List.map_cons, List.length_cons,
        List.range'_succ]
      congr 1
      · exact assignBarrierIds_find_some hob rest _ _ b c
          (DenseMap.find_insert_self m b c hnone)
      · rcases hmod with h | h
        · rw [h]
          exact ih _ _ (by omega)
        · subst h
          simp [freshBarriers, firstOccurrences]
    · rw [freshBarriers_cons_skip hob m b rest hc]
      simp only [assignBarrierIds, hc]
      exact ih m c (by omega)


/-! ## Facts about `firstOccurrences` -/

theorem mem_firstOccurrences (l : List BasicBlock) (x : BasicBlock) :
    x ∈ firstOccurrences l ↔ x ∈ l := by
  induction l with
  | nil => simp [firstOccurrences]
  | cons b bs ih =>
    by_cases hx : x = b
    · simp [firstOccurrences, hx]
    · simp [firstOccurrences, hx, List.mem_filter, ih]

theorem nodup_firstOccurrences (l : List BasicBlock) : (firstOccurrences l).Nodup := by
  induction l with
  | nil => simp [firstOccurrences]
  | cons b bs ih =>
    simp only [firstOccurrences, List.nodup_cons]
    exact ⟨by simp [List.mem_filter], ih.filter _⟩

theorem firstOccurrences_of_nodup (l : List BasicBlock) (h : l.Nodup) :
    firstOccurrences l = l := by
  induction l with
  | nil => rfl
  | cons b bs ih =>
    rw [List.nodup_cons] at h
    simp only [firstOccurrences, ih h.2]
    congr 1
    apply List.filter_eq_self.mpr
    intro x hx
    have : x ≠ b := fun e => h.1 (e ▸ hx)
    simpa using this

theorem otherBarriers_eq_fresh (E : Nat) (hob : BasicBlock → Bool) (Entry : BasicBlock)
    (Exiting Blocks : List BasicBlock) :
    otherBarriers hob Entry Exiting Blocks
      = freshBarriers hob
          (DenseMap.set (Exiting.foldl (fun m BB => DenseMap.set m BB E) [])
            Entry EntryBarrierId) Blocks := by
  unfold otherBarriers freshBarriers
  apply List.filter_congr
  intro x _
  rw [find_initial]
  by_cases h1 : x = Entry
  · simp [h1]
  · by_cases h2 : x ∈ Exiting
    · simp [h1, h2]
    · simp [h1, h2]

theorem mem_otherBarriers (hob : BasicBlock → Bool) (Entry : BasicBlock)
    (Exiting Blocks : List BasicBlock) (b : BasicBlock) :
    b ∈ otherBarriers hob Entry Exiting Blocks
      ↔ b ∈ Blocks ∧ hob b = true ∧ b ≠ Entry ∧ b ∉ Exiting := by
  simp [otherBarriers, List.mem_filter, mem_firstOccurrences, and_assoc]

theorem nodup_otherBarriers (hob : BasicBlock → Bool) (Entry : BasicBlock)
    (Exiting Blocks : List BasicBlock) :
    (otherBarriers hob Entry Exiting Blocks).Nodup :=
  (nodup_firstOccurrences Blocks).filter _

theorem otherBarriers_length_le (hob : BasicBlock → Bool) (Entry : BasicBlock)
    (Exiting Blocks : List BasicBlock) :
    (otherBarriers hob Entry Exiting Blocks).length ≤ Blocks.length := by
  rw [otherBarriers_eq_fresh 0]
  exact freshBarriers_length_le hob Blocks _

/-- The id of the `i`-th other barrier is `i + 1`. -/
theorem getBarrierIds_find_other (E : Nat) (hob : BasicBlock → Bool) (Entry : BasicBlock)
    (Exiting Blocks : List BasicBlock) (hlen : Blocks.length < sizeMod)
    (i : Nat) (hi : i < (otherBarriers hob Entry Exiting Blocks).length) :
    DenseMap.find (getBarrierIds E hob Entry Exiting Blocks)
      ((otherBarriers hob Entry Exiting Blocks)[i]) = some (i + 1) := by
  have h := assignBarrierIds_fresh hob Blocks
    (DenseMap.set (Exiting.foldl (fun m BB => DenseMap.set m BB E) []) Entry EntryBarrierId)
    1 (by omega)
  rw [← otherBarriers_eq_fresh E hob Entry Exiting Blocks] at h
  have h2 := congrArg (fun l => l[i]?) h
  simp only [List.getElem?_map, List.getElem?_eq_getElem hi, Option.map_some',
    List.getElem?_range' _ _ hi] at h2
  have h3 := Option.some.inj h2
  rw [show 1 + 1 * i = i + 1 by omega] at h3
  exact h3

theorem getBarrierIds_find_entry (E : Nat) (hob : BasicBlock → Bool) (Entry : BasicBlock)
    (Exiting Blocks : List BasicBlock) :
    DenseMap.find (getBarrierIds E hob Entry Exiting Blocks) Entry = some EntryBarrierId := by
  unfold getBarrierIds
  apply assignBarrierIds_find_some
  rw [find_initial]
  simp

theorem getBarrierIds_find_exiting (E : Nat) (hob : BasicBlock → Bool) (Entry : BasicBlock)
    (Exiting Blocks : List BasicBlock) (b : BasicBlock) (hb : b ∈ Exiting)
    (hne : b ≠ Entry) :
    DenseMap.find (getBarrierIds E hob Entry Exiting Blocks) b = some E := by
  unfold getBarrierIds
  apply assignBarrierIds_find_some
  rw [find_initial]
  simp [hb, hne]

theorem getBarrierIds_find_none (E : Nat) (hob : BasicBlock → Bool) (Entry : BasicBlock)
    (Exiting Blocks : List BasicBlock) (b : BasicBlock) (hne : b ≠ Entry)
    (hb : b ∉ Exiting) (h : ¬ (b ∈ Blocks ∧ hob b = true)) :
    DenseMap.find (getBarrierIds E hob Entry Exiting Blocks) b = none := by
  unfold getBarrierIds
  apply assignBarrierIds_find_none _ _ _ _ _ _ h
  rw [find_initial]
  simp [hb, hne]

/-! ## One successor -/

theorem visitSucc_of_barrier (hob : BasicBlock → Bool) (ids : DenseMap) (st : WorkState)
    (s : BasicBlock) (h1 : s ∉ st.Blocks_) (h2 : hob s = true) :
    visitSucc hob ids st s =
      { st with
        ExitIds_ := DenseMap.insert st.ExitIds_ s (DenseMap.lookup ids s)
        assertsHeld := st.assertsHeld && (DenseMap.lookup ids s != 0) } := by
  simp [visitSucc, h1, h2]

theorem visitSucc_mem_blocks (hob : BasicBlock → Bool) (ids : DenseMap) (st : WorkState)
    (s x : BasicBlock) :
    x ∈ (visitSucc hob ids st s).Blocks_ ↔ x ∈ st.Blocks_ ∨ (x = s ∧ hob s = false) := by
  unfold visitSucc
  by_cases h1 : s ∈ st.Blocks_
  · simp only [h1, if_true]
    constructor
    · exact Or.inl
    · rintro (h | ⟨rfl, _⟩)
      · exact h
      · exact h1
  · by_cases h2 : hob s = true
    · simp [h1, h2]
    · have h2' : hob s = false := by simpa using h2
      simp [h1, h2']

theorem visitSucc_mem_WL (hob : BasicBlock → Bool) (ids : DenseMap) (st : WorkState)
    (s x : BasicBlock) :
    x ∈ (visitSucc hob ids st s).WL
      ↔ x ∈ st.WL ∨ (x = s ∧ hob s = false ∧ s ∉ st.Blocks_) := by
  unfold visitSucc
  by_cases h1 : s ∈ st.Blocks_
  · simp [h1]
  · by_cases h2 : hob s = true
    · simp [h1, h2]
    · have h2' : hob s = false := by simpa using h2
      simp only [h1, h2', if_false, Bool.not_false, if_true, List.mem_cons]
      tauto

theorem visitSucc_lengths (hob : BasicBlock → Bool) (ids : DenseMap) (st : WorkState)
    (s : BasicBlock) :
    (visitSucc hob ids st s).WL.length + st.Blocks_.length
      = st.WL.length + (visitSucc hob ids st s).Blocks_.length := by
  unfold visitSucc
  by_cases h1 : s ∈ st.Blocks_
  · simp [h1]
  · by_cases h2 : hob s = true
    · simp [h1, h2]
    · have h2' : hob s = false := by simpa using h2
      simp [h1, h2']
      omega

theorem visitSucc_nodup (hob : BasicBlock → Bool) (ids : DenseMap) (st : WorkState)
    (s : BasicBlock) (h : st.Blocks_.Nodup) : (visitSucc hob ids st s).Blocks_.Nodup := by
  unfold visitSucc
  by_cases h1 : s ∈ st.Blocks_
  · simpa [h1] using h
  · by_cases h2 : hob s = true
    · simpa [h1, h2] using h
    · have h2' : hob s = false := by simpa using h2
      simp only [h1, h2', if_false, Bool.not_false, if_true]
      rw [List.nodup_append]
      refine ⟨h, List.nodup_singleton s, ?_⟩
      intro a ha hb
      rw [List.mem_singleton] at hb
      exact h1 (hb ▸ ha)

theorem visitSucc_exits_mono (hob : BasicBlock → Bool) (ids : DenseMap) (st : WorkState)
    (s k v : Nat) (h : DenseMap.find st.ExitIds_ k = some v) :
    DenseMap.find (visitSucc hob ids st s).ExitIds_ k = some v := by
  unfold visitSucc
  by_cases h1 : s ∈ st.Blocks_
  · simpa [h1] using h
  · by_cases h2 : hob s = true
    · simp only [h1, h2, if_false, Bool.not_true]
      exact DenseMap.find_insert_some _ _ _ _ _ h
    · have h2' : hob s = false := by simpa using h2
      simpa [h1, h2'] using h

theorem visitSucc_exits_new (hob : BasicBlock → Bool) (ids : DenseMap) (st : WorkState)
    (s k v : Nat) (h : DenseMap.find (visitSucc hob ids st s).ExitIds_ k = some v) :
    DenseMap.find st.ExitIds_ k = some v
      ∨ (k = s ∧ hob s = true ∧ s ∉ st.Blocks_ ∧ v = DenseMap.lookup ids s) := by
  by_cases h1 : s ∈ st.Blocks_
  · left; simpa [visitSucc, h1] using h
  · by_cases h2 : hob s = true
    · rw [visitSucc_of_barrier hob ids st s h1 h2] at h
      simp only at h
      by_cases hk : k = s
      · subst hk
        cases hf : DenseMap.find st.ExitIds_ k with
        | none =>
          rw [DenseMap.find_insert_self _ _ _ hf] at h
          exact Or.inr ⟨rfl, h2, h1, (Option.some.inj h).symm⟩
        | some a =>
          rw [DenseMap.find_insert_some _ _ _ _ _ hf] at h
          exact Or.inl h
      · rw [DenseMap.find_insert_ne _ _ _ _ hk] at h
        exact Or.inl h
    · have h2' : hob s = false := by simpa using h2
      left; simpa [visitSucc, h1, h2'] using h

theorem visitSucc_exits_self (hob : BasicBlock → Bool) (ids : DenseMap) (st : WorkState)
    (s : Nat) (h1 : s ∉ st.Blocks_) (h2 : hob s = true) :
    DenseMap.find (visitSucc hob ids st s).ExitIds_ s ≠ none := by
  rw [visitSucc_of_barrier hob ids st s h1 h2]
  simp only
  cases hf : DenseMap.find st.ExitIds_ s with
  | none => rw [DenseMap.find_insert_self _ _ _ hf]; simp
  | some a => rw [DenseMap.find_insert_some _ _ _ _ _ hf]; simp

theorem visitSucc_asserts (hob : BasicBlock → Bool) (ids : DenseMap) (st : WorkState)
    (s : Nat) :
    (visitSucc hob ids st s).assertsHeld
      = (st.assertsHeld &&
          (decide (s ∈ st.Blocks_) || !hob s || (DenseMap.lookup ids s != 0))) := by
  unfold visitSucc
  by_cases h1 : s ∈ st.Blocks_
  · simp [h1]
  · by_cases h2 : hob s = true
    · simp [h1, h2]
    · have h2' : hob s = false := by simpa using h2
      simp [h1, h2']

/-! ## All successors of one block -/

theorem foldSucc_mem_blocks (hob : BasicBlock → Bool) (ids : DenseMap)
    (l : List BasicBlock) :
    ∀ (st : WorkState) (x : BasicBlock),
      x ∈ (l.foldl (visitSucc hob ids) st).Blocks_
        ↔ x ∈ st.Blocks_ ∨ (x ∈ l ∧ hob x = false) := by
  induction l with
  | nil => intro st x; simp
  | cons s rest ih =>
    intro st x
    rw [List.foldl_cons, ih, visitSucc_mem_blocks, List.mem_cons]
    constructor
    · rintro ((h | ⟨rfl, h⟩) | ⟨h1, h2⟩)
      · exact Or.inl h
      · exact Or.inr ⟨Or.inl rfl, h⟩
      · exact Or.inr ⟨Or.inr h1, h2⟩
    · rintro (h | ⟨rfl | h1, h2⟩)
      · exact Or.inl (Or.inl h)
      · exact Or.inl (Or.inr ⟨rfl, h2⟩)
      · exact Or.inr ⟨h1, h2⟩

theorem foldSucc_mem_WL (hob : BasicBlock → Bool) (ids : DenseMap)
    (l : List BasicBlock) :
    ∀ (st : WorkState) (x : BasicBlock),
      x ∈ (l.foldl (visitSucc hob ids) st).WL
        ↔ x ∈ st.WL ∨ (x ∈ l ∧ hob x = false ∧ x ∉ st.Blocks_) := by
  induction l with
  | nil => intro st x; simp
  | cons s rest ih =>
    intro st x
    rw [List.foldl_cons, ih, visitSucc_mem_WL, visitSucc_mem_blocks, List.mem_cons]
    constructor
    · rintro ((h | ⟨rfl, h1, h2⟩) | ⟨h1, h2, h3⟩)
      · exact Or.inl h
      · exact Or.inr ⟨Or.inl rfl, h1, h2⟩
      · exact Or.inr ⟨Or.inr h1, h2, fun h => h3 (Or.inl h)⟩
    · rintro (h | ⟨rfl | h1, h2, h3⟩)
      · exact Or.inl (Or.inl h)
      · exact Or.inl (Or.inr ⟨rfl, h2, h3⟩)
      · by_cases hx : x = s
        · subst hx
          exact Or.inl (Or.inr ⟨rfl, h2, h3⟩)
        · exact Or.inr ⟨h1, h2, fun h => h.elim h3 (fun hh => hx hh.1)⟩

theorem foldSucc_lengths (hob : BasicBlock → Bool) (ids : DenseMap)
    (l : List BasicBlock) :
    ∀ st : WorkState,
      (l.foldl (visitSucc hob ids) st).WL.length + st.Blocks_.length
        = st.WL.length + (l.foldl (visitSucc hob ids) st).Blocks_.length := by
  induction l with
  | nil => intro st; simp
  | cons s rest ih =>
    intro st
    rw [List.foldl_cons]
    have h1 := ih (visitSucc hob ids st s)
    have h2 := visitSucc_lengths hob ids st s
    omega

theorem foldSucc_nodup (hob : BasicBlock → Bool) (ids : DenseMap)
    (l : List BasicBlock) :
    ∀ st : WorkState, st.Blocks_.Nodup → (l.foldl (visitSucc hob ids) st).Blocks_.Nodup := by
  induction l with
  | nil => intro st h; simpa using h
  | cons s rest ih =>
    intro st h
    rw [List.foldl_cons]
    exact ih _ (visitSucc_nodup hob ids st s h)

theorem foldSucc_exits_mono (hob : BasicBlock → Bool) (ids : DenseMap)
    (l : List BasicBlock) :
    ∀ (st : WorkState) (k v : Nat), DenseMap.find st.ExitIds_ k = some v →
      DenseMap.find (l.foldl (visitSucc hob ids) st).ExitIds_ k = some v := by
  induction l with
  | nil => intro st k v h; simpa using h
  | cons s rest ih =>
    intro st k v h
    rw [List.foldl_cons]
    exact ih _ k v (visitSucc_exits_mono hob ids st s k v h)

theorem foldSucc_exits_new (hob : BasicBlock → Bool) (ids : DenseMap)
    (l : List BasicBlock) :
    ∀ (st : WorkState) (k v : Nat),
      DenseMap.find (l.foldl (visitSucc hob ids) st).ExitIds_ k = some v →
      DenseMap.find st.ExitIds_ k = some v
        ∨ (k ∈ l ∧ hob k = true ∧ v = DenseMap.lookup ids k) := by
  induction l with
  | nil => intro st k v h; left; simpa using h
  | cons s rest ih =>
    intro st k v h
    rw [List.foldl_cons] at h
    rcases ih _ k v h with h1 | ⟨h1, h2, h3⟩
    · rcases visitSucc_exits_new hob ids st s k v h1 with h4 | ⟨rfl, h5, _, h6⟩
      · exact Or.inl h4
      · exact Or.inr ⟨List.mem_cons_self _ _, h5, h6⟩
    · exact Or.inr ⟨List.mem_cons_of_mem _ h1, h2, h3⟩

theorem foldSucc_exits_all (hob : BasicBlock → Bool) (ids : DenseMap)
    (l : List BasicBlock) :
    ∀ (st : WorkState) (k : Nat), k ∈ l → hob k = true → k ∉ st.Blocks_ →
      DenseMap.find (l.foldl (visitSucc hob ids) st).ExitIds_ k ≠ none := by
  induction l with
  | nil => intro st k h; simp at h
  | cons s rest ih =>
    intro st k hk hb hnot
    rw [List.foldl_cons]
    by_cases hks : k = s
    · subst hks
      have h1 := visitSucc_exits_self hob ids st k hnot hb
      obtain ⟨v, hv⟩ := Option.ne_none_iff_exists'.mp h1
      rw [foldSucc_exits_mono hob ids rest _ k v hv]
      simp
    · have hk' : k ∈ rest := by
        rcases List.mem_cons.mp hk with h | h
        · exact absurd h hks
        · exact h
      apply ih _ k hk' hb
      rw [visitSucc_mem_blocks]
      rintro (h | ⟨_, h⟩)
      · exact hnot h
      · exact hks (by assumption)

theorem foldSucc_asserts (hob : BasicBlock → Bool) (ids : DenseMap)
    (l : List BasicBlock) :
    ∀ st : WorkState,
      (l.foldl (visitSucc hob ids) st).assertsHeld = true
        ↔ st.assertsHeld = true
          ∧ ∀ s ∈ l, s ∈ st.Blocks_ ∨ hob s = false ∨ DenseMap.lookup ids s ≠ 0 := by
  induction l with
  | nil => intro st; simp
  | cons s rest ih =>
    intro st
    rw [List.foldl_cons, ih, visitSucc_asserts]
    simp only [Bool.and_eq_true, Bool.or_eq_true, decide_eq_true_eq, Bool.not_eq_true',
      bne_iff_ne, ne_eq, List.mem_cons, forall_eq_or_imp, visitSucc_mem_blocks]
    constructor
    · rintro ⟨⟨h1, h2⟩, h3⟩
      refine ⟨h1, ?_, ?_⟩
      · rcases h2 with (h | h) | h
        · exact Or.inl h
        · exact Or.inr (Or.inl h)
        · exact Or.inr (Or.inr h)
      · intro a ha
        rcases h3 a ha with (h | ⟨_, h⟩) | h | h
        · exact Or.inl h
        · subst_vars; exact Or.inr (Or.inl h)
        · exact Or.inr (Or.inl h)
        · exact Or.inr (Or.inr h)
    · rintro ⟨h1, h2, h3⟩
      refine ⟨⟨h1, ?_⟩, ?_⟩
      · rcases h2 with h | h | h
        · exact Or.inl (Or.inl h)
        · exact Or.inl (Or.inr h)
        · exact Or.inr h
      · intro a ha
        rcases h3 a ha with h | h | h
        · exact Or.inl (Or.inl h)
        · exact Or.inr (Or.inl h)
        · exact Or.inr (Or.inr h)

/-! ## The worklist loop -/

theorem RegionReach.nonbarrier {F : Function} {hob : BasicBlock → Bool} {B x : BasicBlock}
    (h : RegionReach F hob B x) : hob x = false := by
  cases h with
  | first _ h2 => exact h2
  | next _ _ h3 => exact h3

theorem RegionReach.has_pred {F : Function} {hob : BasicBlock → Bool} {B x : BasicBlock}
    (h : RegionReach F hob B x) : ∃ b, x ∈ F.succ b := by
  cases h with
  | first h1 _ => exact ⟨_, h1⟩
  | next _ h2 _ => exact ⟨_, h2⟩

theorem RegionReach.mem_blocks {F : Function} {hob : BasicBlock → Bool} {B x : BasicBlock}
    (hcl : ∀ b ∈ F.blocks, ∀ s ∈ F.succ b, s ∈ F.blocks) (hB : B ∈ F.blocks)
    (h : RegionReach F hob B x) : x ∈ F.blocks := by
  induction h with
  | first h1 _ => exact hcl _ hB _ h1
  | next _ h2 _ ih => exact hcl _ ih _ h2

theorem regionReach_iff_path (F : Function) (hob : BasicBlock → Bool) (B x : BasicBlock) :
    RegionReach F hob B x ↔ BarrierFreePath F hob B x := by
  constructor
  · intro h
    induction h with
    | first h1 h2 =>
      exact ⟨[], by simpa using h1, by simpa using h2⟩
    | @next y s _ h2 h3 ih =>
      obtain ⟨p, hp1, hp2⟩ := ih
      refine ⟨p ++ [y], ?_, ?_⟩
      · rw [List.append_assoc, List.singleton_append, List.chain_split]
        exact ⟨hp1, by simpa using h2⟩
      · intro z hz
        rcases List.mem_append.mp hz with hz | hz
        · exact hp2 z hz
        · rw [List.mem_singleton] at hz
          rw [hz]; exact h3
  · rintro ⟨p, hp1, hp2⟩
    induction p using List.reverseRecOn generalizing x with
    | nil =>
      simp only [List.nil_append, List.chain_cons, List.Chain.nil, and_true] at hp1
      exact RegionReach.first hp1 (hp2 x (by simp))
    | append_singleton q y ih =>
      rw [List.append_assoc, List.singleton_append, List.chain_split] at hp1
      have hy : RegionReach F hob B y :=
        ih y hp1.1 (fun z hz => hp2 z (List.mem_append_left _ hz))
      have hyx : x ∈ F.succ y := by simpa using hp1.2
      exact RegionReach.next hy hyx (hp2 x (by simp))

theorem workInv_initial (F : Function) (hob : BasicBlock → Bool) (ids : DenseMap)
    (B : BasicBlock) : WorkInv F hob ids B (initialWorkState B) where
  sound := by intro x hx; simp [initialWorkState] at hx
  nodup := by simp [initialWorkState]
  pending := by intro x hx; left; simpa [initialWorkState] using hx
  handled := by
    rintro x (rfl | hx)
    · left; simp [initialWorkState]
    · simp [initialWorkState] at hx
  exits := by intro k v h; simp [initialWorkState, DenseMap.find] at h
  asserts := by simp [initialWorkState, DenseMap.find]

theorem succsHandled_mono (F : Function) (hob : BasicBlock → Bool) (st st' : WorkState)
    (x : BasicBlock) (hb : ∀ y ∈ st.Blocks_, y ∈ st'.Blocks_)
    (he : ∀ k v, DenseMap.find st.ExitIds_ k = some v → DenseMap.find st'.ExitIds_ k = some v)
    (h : SuccsHandled F hob st x) : SuccsHandled F hob st' x := by
  intro s hs
  refine ⟨fun h1 => hb s ((h s hs).1 h1), fun h2 => ?_⟩
  obtain ⟨v, hv⟩ := Option.ne_none_iff_exists'.mp ((h s hs).2 h2)
  rw [he s v hv]
  simp

theorem workInv_visitBlock (F : Function) (hob : BasicBlock → Bool) (ids : DenseMap)
    (B : BasicBlock) (st : WorkState) (BB : BasicBlock) (rest : List BasicBlock)
    (hWL : st.WL = BB :: rest) (inv : WorkInv F hob ids B st) :
    WorkInv F hob ids B (visitBlock F hob ids st BB rest) := by
  have hBB : BB = B ∨ BB ∈ st.Blocks_ := inv.pending BB (by simp [hWL])
  have hreach : ∀ s ∈ F.succ BB, hob s = false → RegionReach F hob B s := by
    intro s hs hb
    rcases hBB with rfl | h
    · exact RegionReach.first hs hb
    · exact RegionReach.next (inv.sound BB h) hs hb
  have hmem : ∀ x, x ∈ (visitBlock F hob ids st BB rest).Blocks_
      ↔ x ∈ st.Blocks_ ∨ (x ∈ F.succ BB ∧ hob x = false) := by
    intro x; unfold visitBlock; rw [foldSucc_mem_blocks]
  have hwl : ∀ x, x ∈ (visitBlock F hob ids st BB rest).WL
      ↔ x ∈ rest ∨ (x ∈ F.succ BB ∧ hob x = false ∧ x ∉ st.Blocks_) := by
    intro x; unfold visitBlock; rw [foldSucc_mem_WL]
  have hmono : ∀ k v, DenseMap.find st.ExitIds_ k = some v →
      DenseMap.find (visitBlock F hob ids st BB rest).ExitIds_ k = some v := by
    intro k v h; unfold visitBlock; exact foldSucc_exits_mono hob ids _ _ k v h
  have hsound : ∀ x ∈ (visitBlock F hob ids st BB rest).Blocks_, RegionReach F hob B x := by
    intro x hx
    rcases (hmem x).mp hx with h | ⟨h1, h2⟩
    · exact inv.sound x h
    · exact hreach x h1 h2
  have hexits : ∀ k v, DenseMap.find (visitBlock F hob ids st BB rest).ExitIds_ k = some v →
      hob k = true ∧ v = DenseMap.lookup ids k ∧
        ∃ x, (x = B ∨ x ∈ (visitBlock F hob ids st BB rest).Blocks_) ∧ k ∈ F.succ x := by
    intro k v h
    unfold visitBlock at h
    rcases foldSucc_exits_new hob ids _ _ k v h with h1 | ⟨h1, h2, h3⟩
    · obtain ⟨a, b, x, hx, hk⟩ := inv.exits k v h1
      exact ⟨a, b, x, hx.imp id (fun hh => (hmem x).mpr (Or.inl hh)), hk⟩
    · exact ⟨h2, h3, BB, hBB.imp id (fun hh => (hmem BB).mpr (Or.inl hh)), h1⟩
  refine ⟨hsound, ?_, ?_, ?_, hexits, ?_⟩
  · unfold visitBlock
    exact foldSucc_nodup hob ids _ _ inv.nodup
  · intro x hx
    rcases (hwl x).mp hx with h | ⟨h1, h2, _⟩
    · exact (inv.pending x (by simp [hWL, h])).imp id (fun hh => (hmem x).mpr (Or.inl hh))
    · exact Or.inr ((hmem x).mpr (Or.inr ⟨h1, h2⟩))
  · intro x hx
    by_cases hxBB : x = BB
    · right
      subst hxBB
      intro s hs
      refine ⟨fun h1 => (hmem s).mpr (Or.inr ⟨hs, h1⟩), fun h2 => ?_⟩
      unfold visitBlock
      apply foldSucc_exits_all hob ids _ _ s hs h2
      intro hin
      have := (inv.sound s hin).nonbarrier
      rw [h2] at this
      exact Bool.noConfusion this
    · have hold : (x = B ∨ x ∈ st.Blocks_) ∨ (x ∈ F.succ BB ∧ hob x = false ∧ x ∉ st.Blocks_) := by
        rcases hx with h | h
        · exact Or.inl (Or.inl h)
        · by_cases hin : x ∈ st.Blocks_
          · exact Or.inl (Or.inr hin)
          · rcases (hmem x).mp h with h' | ⟨h1, h2⟩
            · exact absurd h' hin
            · exact Or.inr ⟨h1, h2, hin⟩
      rcases hold with h | h
      · rcases inv.handled x h with h1 | h1
        · left
          rw [hWL] at h1
          rcases List.mem_cons.mp h1 with h2 | h2
          · exact absurd h2 hxBB
          · exact (hwl x).mpr (Or.inl h2)
        · right
          exact succsHandled_mono F hob st _ x (fun y hy => (hmem y).mpr (Or.inl hy)) hmono h1
      · left
        exact (hwl x).mpr (Or.inr h)
  · unfold visitBlock
    rw [foldSucc_asserts]
    simp only
    constructor
    · rintro ⟨h1, h2⟩ k v hkv
      rcases foldSucc_exits_new hob ids _ _ k v hkv with h3 | ⟨h3, h4, h5⟩
      · exact inv.asserts.mp h1 k v h3
      · rcases h2 k h3 with h6 | h6 | h6
        · have := (inv.sound k h6).nonbarrier
          rw [h4] at this
          exact Bool.noConfusion this
        · rw [h4] at h6
          exact Bool.noConfusion h6
        · rw [h5]; exact h6
    · intro h
      refine ⟨inv.asserts.mpr (fun k v hkv => h k v (foldSucc_exits_mono hob ids _ _ k v hkv)), ?_⟩
      intro s hs
      by_cases h1 : s ∈ st.Blocks_
      · exact Or.inl h1
      · by_cases h2 : hob s = true
        · right; right
          have h3 := foldSucc_exits_all hob ids (F.succ BB) { st with WL := rest } s hs h2 h1
          obtain ⟨v, hv⟩ := Option.ne_none_iff_exists'.mp h3
          have h4 := (hexits s v (by unfold visitBlock; exact hv)).2.1
          rw [← h4]
          exact h s v hv
        · right; left; simpa using h2

/-- Partial correctness of the loop: when it returns, the invariant holds and the
worklist is empty. -/
theorem worklistLoop_inv (F : Function) (hob : BasicBlock → Bool) (ids : DenseMap)
    (B : BasicBlock) :
    ∀ (fuel : Nat) (st st' : WorkState), WorkInv F hob ids B st →
      worklistLoop F hob ids fuel st = some st' → WorkInv F hob ids B st' ∧ st'.WL = [] := by
  intro fuel
  induction fuel with
  | zero =>
    intro st st' inv h
    unfold worklistLoop at h
    by_cases he : st.WL.isEmpty = true
    · rw [if_pos he] at h
      have := Option.some.inj h
      subst this
      exact ⟨inv, List.isEmpty_iff.mp he⟩
    · rw [if_neg he] at h
      exact Option.noConfusion h
  | succ n ih =>
    intro st st' inv h
    unfold worklistLoop at h
    cases hWL : st.WL with
    | nil =>
      rw [hWL] at h
      have := Option.some.inj h
      subst this
      exact ⟨inv, hWL⟩
    | cons BB rest =>
      rw [hWL] at h
      exact ih _ st' (workInv_visitBlock F hob ids B st BB rest hWL inv) h

/-- Termination of the loop: when the function is closed under successors, as many
iterations as there are unvisited blocks, plus the length of the worklist, suffice. -/
theorem worklistLoop_terminates (F : Function) (hob : BasicBlock → Bool) (ids : DenseMap)
    (B : BasicBlock) (hcl : ∀ b ∈ F.blocks, ∀ s ∈ F.succ b, s ∈ F.blocks)
    (hB : B ∈ F.blocks) :
    ∀ (fuel : Nat) (st : WorkState), WorkInv F hob ids B st →
      st.WL.length + F.blocks.length ≤ fuel + st.Blocks_.length →
      ∃ st', worklistLoop F hob ids fuel st = some st' := by
  have hbound : ∀ st : WorkState, WorkInv F hob ids B st →
      st.Blocks_.length ≤ F.blocks.length := by
    intro st inv
    apply List.Subperm.length_le
    apply inv.nodup.subperm
    intro x hx
    exact (inv.sound x hx).mem_blocks hcl hB
  intro fuel
  induction fuel with
  | zero =>
    intro st inv hle
    have hb := hbound st inv
    have h0 : st.WL.length = 0 := by omega
    have : st.WL = [] := List.length_eq_zero.mp h0
    exact ⟨st, by simp [worklistLoop, this]⟩
  | succ n ih =>
    intro st inv hle
    unfold worklistLoop
    cases hWL : st.WL with
    | nil => exact ⟨st, rfl⟩
    | cons BB rest =>
      simp only
      apply ih _ (workInv_visitBlock F hob ids B st BB rest hWL inv)
      have hl := foldSucc_lengths hob ids (F.succ BB) { st with WL := rest }
      simp only at hl
      rw [hWL] at hle
      simp only [List.length_cons] at hle
      unfold visitBlock
      omega

/-! ## The ids of the barrier map -/

/-- C2: `getBarrierIds` numbers the barrier-only blocks that are neither the entry block
nor an exiting block with 1, 2, ..., k in block-list order: the `i`-th such block (counted
from zero, first occurrences) gets id `i + 1`, so every id is at least 1 and at most k,
the ids are pairwise distinct, and a block that is not barrier-only, not the entry and
not exiting has no entry in the map.  The block list is shorter than `2 ^ 64`, the
range of the `size_t` counter. -/
theorem getBarrierIds_numbers_other_barriers (ExitBarrierId : Nat)
    (hasOnlyBarrier : BasicBlock → Bool) (Entry : BasicBlock)
    (ExitingBlocks Blocks : List BasicBlock) (hlen : Blocks.length < sizeMod) :
    (otherBarriers hasOnlyBarrier Entry ExitingBlocks Blocks).Nodup
    ∧ (∀ b, b ∈ otherBarriers hasOnlyBarrier Entry ExitingBlocks Blocks
          ↔ b ∈ Blocks ∧ hasOnlyBarrier b = true ∧ b ≠ Entry ∧ b ∉ ExitingBlocks)
    ∧ (∀ (i : Nat) (hi : i < (otherBarriers hasOnlyBarrier Entry ExitingBlocks Blocks).length),
          DenseMap.find (getBarrierIds ExitBarrierId hasOnlyBarrier Entry ExitingBlocks Blocks)
            ((otherBarriers hasOnlyBarrier Entry ExitingBlocks Blocks)[i]) = some (i + 1))
    ∧ (∀ b ∈ otherBarriers hasOnlyBarrier Entry ExitingBlocks Blocks,
          ∃ id, DenseMap.find
              (getBarrierIds ExitBarrierId hasOnlyBarrier Entry ExitingBlocks Blocks) b = some id
            ∧ 1 ≤ id ∧ id ≤ (otherBarriers hasOnlyBarrier Entry ExitingBlocks Blocks).length)
    ∧ (∀ b₁ ∈ otherBarriers hasOnlyBarrier Entry ExitingBlocks Blocks,
        ∀ b₂ ∈ otherBarriers hasOnlyBarrier Entry ExitingBlocks Blocks,
          DenseMap.find (getBarrierIds ExitBarrierId hasOnlyBarrier Entry ExitingBlocks Blocks) b₁
            = DenseMap.find
                (getBarrierIds ExitBarrierId hasOnlyBarrier Entry ExitingBlocks Blocks) b₂
          → b₁ = b₂)
    ∧ (∀ b, b ≠ Entry → b ∉ ExitingBlocks → hasOnlyBarrier b = false →
          DenseMap.find (getBarrierIds ExitBarrierId hasOnlyBarrier Entry ExitingBlocks Blocks) b
            = none) := by
  refine ⟨nodup_otherBarriers _ _ _ _, mem_otherBarriers _ _ _ _, ?_, ?_, ?_, ?_⟩
  · intro i hi
    exact getBarrierIds_find_other ExitBarrierId _ _ _ _ hlen i hi
  · intro b hb
    obtain ⟨i, hi, rfl⟩ := List.getElem_of_mem hb
    exact ⟨i + 1, getBarrierIds_find_other ExitBarrierId _ _ _ _ hlen i hi, by omega, by omega⟩
  · intro b₁ h₁ b₂ h₂ heq
    obtain ⟨i, hi, rfl⟩ := List.getElem_of_mem h₁
    obtain ⟨j, hj, rfl⟩ := List.getElem_of_mem h₂
    rw [getBarrierIds_find_other ExitBarrierId _ _ _ _ hlen i hi,
      getBarrierIds_find_other ExitBarrierId _ _ _ _ hlen j hj] at heq
    have hij : i = j := by
      have := Option.some.inj heq
      omega
    subst hij
    rfl
  · intro b hne hex hb
    exact getBarrierIds_find_none ExitBarrierId _ _ _ _ b hne hex (by simp [hb])

/-- Witness for C2: entry 0, barrier-only blocks 1, 2 and 4, exiting block 4; block 2 is
the second other barrier and gets id 2. -/
theorem getBarrierIds_numbers_other_barriers_witness :
    [0, 1, 3, 2, 4].length < sizeMod
    ∧ DenseMap.find (getBarrierIds 18446744073709551615
        (fun b => b == 1 || b == 2 || b == 4) 0 [4] [0, 1, 3, 2, 4]) 2 = some 2 :=
  ⟨by decide,
   (getBarrierIds_numbers_other_barriers 18446744073709551615
      (fun b => b == 1 || b == 2 || b == 4) 0 [4] [0, 1, 3, 2, 4] (by decide)).2.2.1 1
      (by decide)⟩

/-- C3 fails as stated: in a function whose only block is both the entry and an exiting
block, the exiting block is mapped to `EntryBarrierId`, not to `ExitBarrierId`. -/
theorem getBarrierIds_exiting_entry_counterexample :
    ¬ ((∀ b ∈ exitingBlocks singleBlockKernel,
          DenseMap.find (barrierIdsOf 18446744073709551615 (fun _ => false) singleBlockKernel) b
            = some 18446744073709551615)
        ∧ DenseMap.find (barrierIdsOf 18446744073709551615 (fun _ => false) singleBlockKernel)
            singleBlockKernel.entry = some EntryBarrierId) := by
  decide

/-- C3 (amended): the barrier map maps every exiting block other than the entry block to
`ExitBarrierId`, and maps the entry block to `EntryBarrierId`, whether or not the entry
block is barrier-only (and whether or not it is exiting). -/
theorem getBarrierIds_exit_and_entry (ExitBarrierId : Nat)
    (hasOnlyBarrier : BasicBlock → Bool) (Entry : BasicBlock)
    (ExitingBlocks Blocks : List BasicBlock) :
    (∀ b ∈ ExitingBlocks, b ≠ Entry →
        DenseMap.find (getBarrierIds ExitBarrierId hasOnlyBarrier Entry ExitingBlocks Blocks) b
          = some ExitBarrierId)
    ∧ DenseMap.find (getBarrierIds ExitBarrierId hasOnlyBarrier Entry ExitingBlocks Blocks)
        Entry = some EntryBarrierId
    ∧ EntryBarrierId = 0 :=
  ⟨fun b hb hne => getBarrierIds_find_exiting ExitBarrierId _ _ _ _ b hb hne,
   getBarrierIds_find_entry ExitBarrierId _ _ _ _, rfl⟩

/-! ## The SubCFG of an entry barrier -/

theorem construct_spec (F : Function) (hob : BasicBlock → Bool) (ids : DenseMap)
    (B : BasicBlock) (hcl : F.Closed) (hB : B ∈ F.blocks) :
    ∃ st, worklistLoop F hob ids (F.blocks.length + 1) (initialWorkState B) = some st
      ∧ WorkInv F hob ids B st ∧ st.WL = []
      ∧ SubCFG.construct F hob ids B = some
          { Blocks_ := st.Blocks_
            EntryId_ := DenseMap.lookup ids B
            EntryBarrier_ := B
            ExitIds_ := st.ExitIds_
            assertsHeld := st.assertsHeld } := by
  obtain ⟨st, hst⟩ := worklistLoop_terminates F hob ids B hcl hB (F.blocks.length + 1)
    (initialWorkState B) (workInv_initial F hob ids B) (by simp [initialWorkState]; omega)
  obtain ⟨inv, hwl⟩ := worklistLoop_inv F hob ids B _ _ st (workInv_initial F hob ids B) hst
  exact ⟨st, hst, inv, hwl, by simp [SubCFG.construct, hst]⟩

theorem workInv_complete (F : Function) (hob : BasicBlock → Bool) (ids : DenseMap)
    (B : BasicBlock) (st : WorkState) (inv : WorkInv F hob ids B st) (hwl : st.WL = [])
    (x : BasicBlock) (h : RegionReach F hob B x) : x ∈ st.Blocks_ := by
  induction h with
  | first h1 h2 =>
    rcases inv.handled B (Or.inl rfl) with h | h
    · simp [hwl] at h
    · exact (h _ h1).1 h2
  | next _ h2 h3 ih =>
    rcases inv.handled _ (Or.inr ih) with h | h
    · simp [hwl] at h
    · exact (h _ h2).1 h3

/-- C4: for a function whose block list is closed under successors and an entry barrier
`B` of it, the constructor returns, and its block list contains exactly the blocks
reachable from `B` by a path all of whose blocks after `B` are not barrier-only, each
of them once. -/
theorem SubCFG_construct_blocks (F : Function) (hasOnlyBarrier : BasicBlock → Bool)
    (BarrierIds : DenseMap) (B : BasicBlock) (hcl : F.Closed) (hB : B ∈ F.blocks) :
    ∃ c, SubCFG.construct F hasOnlyBarrier BarrierIds B = some c
      ∧ (∀ x, x ∈ c.Blocks_ ↔ BarrierFreePath F hasOnlyBarrier B x)
      ∧ c.Blocks_.Nodup := by
  obtain ⟨st, _, inv, hwl, hc⟩ := construct_spec F hasOnlyBarrier BarrierIds B hcl hB
  refine ⟨_, hc, ?_, inv.nodup⟩
  intro x
  rw [← regionReach_iff_path]
  exact ⟨inv.sound x, workInv_complete F hasOnlyBarrier BarrierIds B st inv hwl x⟩

/-- Witness for C4 on `exampleKernel` with entry barrier 0. -/
theorem SubCFG_construct_blocks_witness :
    exampleKernel.Closed ∧ 0 ∈ exampleKernel.blocks
    ∧ ∃ c, SubCFG.construct exampleKernel exampleBarriers
          (barrierIdsOf 18446744073709551615 exampleBarriers exampleKernel) 0 = some c
        ∧ (∀ x, x ∈ c.Blocks_ ↔ BarrierFreePath exampleKernel exampleBarriers 0 x)
        ∧ c.Blocks_.Nodup :=
  ⟨by decide, by decide,
   SubCFG_construct_blocks exampleKernel exampleBarriers
     (barrierIdsOf 18446744073709551615 exampleBarriers exampleKernel) 0
     (by decide) (by decide)⟩

/-- C5: for every SubCFG that the constructor builds from an entry barrier `formSubCfgs`
hands to it, a barrier-only block or the entry block of the function (which is the
successor of no block), the block list contains neither the entry barrier of the SubCFG
nor any key of its exit map. -/
theorem SubCFG_blocks_exclude_barriers (F : Function) (hasOnlyBarrier : BasicBlock → Bool)
    (BarrierIds : DenseMap) (B : BasicBlock) (hcl : F.Closed) (hB : B ∈ F.blocks)
    (hEntry : hasOnlyBarrier B = true ∨ (B = F.entry ∧ F.EntryHasNoPreds)) :
    ∃ c, SubCFG.construct F hasOnlyBarrier BarrierIds B = some c
      ∧ c.EntryBarrier_ ∉ c.Blocks_
      ∧ (∀ k, DenseMap.find c.ExitIds_ k ≠ none → k ∉ c.Blocks_) := by
  obtain ⟨st, _, inv, _, hc⟩ := construct_spec F hasOnlyBarrier BarrierIds B hcl hB
  refine ⟨_, hc, ?_, ?_⟩
  · intro hin
    have hin' : B ∈ st.Blocks_ := hin
    have hr := inv.sound B hin'
    rcases hEntry with h | ⟨h, hpred⟩
    · have h2 := hr.nonbarrier
      rw [h] at h2
      exact Bool.noConfusion h2
    · have hno : ∀ b ∈ F.blocks, B ∉ F.succ b := by
        rw [h]
        exact hpred
      cases hr with
      | first h1 _ => exact hno B hB h1
      | next h0 h1 _ => exact hno _ (h0.mem_blocks hcl hB) h1
  · intro k hk hin
    obtain ⟨v, hv⟩ := Option.ne_none_iff_exists'.mp hk
    have h1 := (inv.exits k v hv).1
    have h2 := (inv.sound k hin).nonbarrier
    rw [h1] at h2
    exact Bool.noConfusion h2

/-- Witness for C5 on `exampleKernel` with its entry block 0 as entry barrier: the block
list is `[1, 2, 3]` and the exit map has the key 4. -/
theorem SubCFG_blocks_exclude_barriers_witness :
    exampleKernel.Closed ∧ 0 ∈ exampleKernel.blocks
    ∧ (exampleBarriers 0 = true ∨ (0 = exampleKernel.entry ∧ exampleKernel.EntryHasNoPreds))
    ∧ ∃ c, SubCFG.construct exampleKernel exampleBarriers
          (barrierIdsOf 18446744073709551615 exampleBarriers exampleKernel) 0 = some c
      ∧ c.EntryBarrier_ ∉ c.Blocks_
      ∧ (∀ k, DenseMap.find c.ExitIds_ k ≠ none → k ∉ c.Blocks_) :=
  ⟨by decide, by decide, Or.inr ⟨rfl, by decide⟩,
   SubCFG_blocks_exclude_barriers exampleKernel exampleBarriers
     (barrierIdsOf 18446744073709551615 exampleBarriers exampleKernel) 0
     (by decide) (by decide) (Or.inr ⟨rfl, by decide⟩)⟩

/-- The SubCFG of the entry block of `exampleKernel`: the blocks of the region, none of
them the entry block or the barrier-only block 4. -/
theorem SubCFG_construct_exampleKernel :
    (SubCFG.construct exampleKernel exampleBarriers
      (barrierIdsOf 18446744073709551615 exampleBarriers exampleKernel) 0).map
        (fun c => (c.Blocks_, c.ExitIds_.map (fun p => p.1))) = some ([1, 2, 3], [4]) := by
  decide

/-- C6: the keys of the exit map of a SubCFG are exactly the barrier-only blocks that
are a successor of the entry barrier or of a block of the block list, and every key is
mapped to what `BarrierIds.lookup` returns for it. -/
theorem SubCFG_exits_are_barrier_successors (F : Function)
    (hasOnlyBarrier : BasicBlock → Bool) (BarrierIds : DenseMap) (B : BasicBlock)
    (hcl : F.Closed) (hB : B ∈ F.blocks) :
    ∃ c, SubCFG.construct F hasOnlyBarrier BarrierIds B = some c
      ∧ (∀ k, DenseMap.find c.ExitIds_ k ≠ none
            ↔ hasOnlyBarrier k = true
              ∧ ∃ x, (x = c.EntryBarrier_ ∨ x ∈ c.Blocks_) ∧ k ∈ F.succ x)
      ∧ (∀ k v, DenseMap.find c.ExitIds_ k = some v → v = DenseMap.lookup BarrierIds k) := by
  obtain ⟨st, _, inv, hwl, hc⟩ := construct_spec F hasOnlyBarrier BarrierIds B hcl hB
  refine ⟨_, hc, ?_, ?_⟩
  · intro k
    constructor
    · intro hk
      obtain ⟨v, hv⟩ := Option.ne_none_iff_exists'.mp hk
      obtain ⟨h1, _, h3⟩ := inv.exits k v hv
      exact ⟨h1, h3⟩
    · rintro ⟨h1, x, hx, hk⟩
      rcases inv.handled x hx with h | h
      · simp [hwl] at h
      · exact (h k hk).2 h1
  · intro k v hv
    exact (inv.exits k v hv).2.1

/-- Witness for C6 on `exampleKernel` with entry barrier 0. -/
theorem SubCFG_exits_are_barrier_successors_witness :
    exampleKernel.Closed ∧ 0 ∈ exampleKernel.blocks
    ∧ ∃ c, SubCFG.construct exampleKernel exampleBarriers
          (barrierIdsOf 18446744073709551615 exampleBarriers exampleKernel) 0 = some c
      ∧ (∀ k, DenseMap.find c.ExitIds_ k ≠ none
            ↔ exampleBarriers k = true
              ∧ ∃ x, (x = c.EntryBarrier_ ∨ x ∈ c.Blocks_) ∧ k ∈ exampleKernel.succ x)
      ∧ (∀ k v, DenseMap.find c.ExitIds_ k = some v
            → v = DenseMap.lookup
                (barrierIdsOf 18446744073709551615 exampleBarriers exampleKernel) k) :=
  ⟨by decide, by decide,
   SubCFG_exits_are_barrier_successors exampleKernel exampleBarriers
     (barrierIdsOf 18446744073709551615 exampleBarriers exampleKernel) 0
     (by decide) (by decide)⟩

/-! ## The assertion of the constructor -/

theorem mem_exitingBlocks (F : Function) (b : BasicBlock) :
    b ∈ exitingBlocks F ↔ b ∈ F.blocks ∧ F.succ b = [] := by
  simp [exitingBlocks, List.mem_filter]

/-- Every key of the barrier map of a function is the entry block or a block of the
function. -/
theorem barrierIdsOf_key_mem (E : Nat) (hob : BasicBlock → Bool) (F : Function)
    (b : BasicBlock) (h : DenseMap.find (barrierIdsOf E hob F) b ≠ none) :
    b = F.entry ∨ b ∈ F.blocks := by
  by_cases h1 : b = F.entry
  · exact Or.inl h1
  · right
    by_cases h2 : b ∈ exitingBlocks F
    · exact ((mem_exitingBlocks F b).mp h2).1
    · by_contra h3
      exact h (getBarrierIds_find_none E hob F.entry (exitingBlocks F) F.blocks b h1 h2
        (fun hh => h3 hh.1))

/-- The id of a barrier-only block of the function other than the entry block is the
exit id or one of the positive ids `1, ..., k`. -/
theorem barrierIdsOf_barrier (E : Nat) (hob : BasicBlock → Bool) (F : Function)
    (hlen : F.blocks.length < sizeMod) (k : BasicBlock) (hk : k ∈ F.blocks)
    (hb : hob k = true) (hne : k ≠ F.entry) :
    DenseMap.find (barrierIdsOf E hob F) k = some E
      ∨ ∃ i, i < (otherBarriers hob F.entry (exitingBlocks F) F.blocks).length
          ∧ DenseMap.find (barrierIdsOf E hob F) k = some (i + 1) := by
  by_cases h2 : k ∈ exitingBlocks F
  · exact Or.inl (getBarrierIds_find_exiting E hob F.entry _ _ k h2 hne)
  · right
    have hmem : k ∈ otherBarriers hob F.entry (exitingBlocks F) F.blocks :=
      (mem_otherBarriers _ _ _ _ k).mpr ⟨hk, hb, hne, h2⟩
    obtain ⟨i, hi, rfl⟩ := List.getElem_of_mem hmem
    exact ⟨i, hi, getBarrierIds_find_other E hob F.entry _ _ hlen i hi⟩

/-- C7: with the barrier map that `getBarrierIds` computes over all blocks of a function
whose entry block has no predecessors, the constructor's assertion `BId != 0` holds
each time it is evaluated, for every entry barrier in the map, and every recorded exit
id is nonzero.  The exit id `ExitBarrierId` is different from zero and the function has
fewer than `2 ^ 64` blocks. -/
theorem SubCFG_construct_assert_holds (ExitBarrierId : Nat)
    (hasOnlyBarrier : BasicBlock → Bool) (F : Function) (B : BasicBlock)
    (hExit : ExitBarrierId ≠ 0) (hlen : F.blocks.length < sizeMod)
    (hcl : F.Closed) (hentry : F.entry ∈ F.blocks) (hpred : F.EntryHasNoPreds)
    (hB : DenseMap.find (barrierIdsOf ExitBarrierId hasOnlyBarrier F) B ≠ none) :
    ∃ c, SubCFG.construct F hasOnlyBarrier
          (barrierIdsOf ExitBarrierId hasOnlyBarrier F) B = some c
      ∧ c.assertsHeld = true
      ∧ ∀ k v, DenseMap.find c.ExitIds_ k = some v → v ≠ 0 := by
  have hBmem : B ∈ F.blocks := by
    rcases barrierIdsOf_key_mem ExitBarrierId hasOnlyBarrier F B hB with h | h
    · rw [h]; exact hentry
    · exact h
  obtain ⟨st, _, inv, _, hc⟩ := construct_spec F hasOnlyBarrier
    (barrierIdsOf ExitBarrierId hasOnlyBarrier F) B hcl hBmem
  have hnz : ∀ k v, DenseMap.find st.ExitIds_ k = some v → v ≠ 0 := by
    intro k v hv
    obtain ⟨h1, h2, x, hx, hkx⟩ := inv.exits k v hv
    have hxmem : x ∈ F.blocks := by
      rcases hx with h | h
      · rw [h]; exact hBmem
      · exact (inv.sound x h).mem_blocks hcl hBmem
    have hkmem : k ∈ F.blocks := hcl x hxmem k hkx
    have hkne : k ≠ F.entry := fun e => hpred x hxmem (e ▸ hkx)
    rw [h2]
    rcases barrierIdsOf_barrier ExitBarrierId hasOnlyBarrier F hlen k hkmem h1 hkne with
      h | ⟨i, _, h⟩
    · simpa [DenseMap.lookup, h] using hExit
    · simp [DenseMap.lookup, h]
  exact ⟨_, hc, inv.asserts.mpr hnz, hnz⟩

/-- Witness for C7 on `exampleKernel` with entry barrier 4. -/
theorem SubCFG_construct_assert_holds_witness :
    (18446744073709551615 ≠ 0 ∧ exampleKernel.blocks.length < sizeMod
      ∧ exampleKernel.Closed ∧ exampleKernel.entry ∈ exampleKernel.blocks
      ∧ exampleKernel.EntryHasNoPreds
      ∧ DenseMap.find (barrierIdsOf 18446744073709551615 exampleBarriers exampleKernel) 4
          ≠ none)
    ∧ ∃ c, SubCFG.construct exampleKernel exampleBarriers
          (barrierIdsOf 18446744073709551615 exampleBarriers exampleKernel) 4 = some c
      ∧ c.assertsHeld = true
      ∧ ∀ k v, DenseMap.find c.ExitIds_ k = some v → v ≠ 0 :=
  ⟨⟨by decide, by decide, by decide, by decide, by decide, by decide⟩,
   SubCFG_construct_assert_holds 18446744073709551615 exampleBarriers exampleKernel 4
     (by decide) (by decide) (by decide) (by decide) (by decide) (by decide)⟩

/-! ## Keys of the barrier map -/

theorem DenseMap.find_some_mem (m : DenseMap) (k v : Nat) (h : DenseMap.find m k = some v) :
    (k, v) ∈ m := by
  induction m with
  | nil => simp [DenseMap.find] at h
  | cons p rest ih =>
    obtain ⟨k', v'⟩ := p
    by_cases hk : k' = k
    · subst hk
      simp only [DenseMap.find, if_true] at h
      rw [Option.some.inj h]
      exact List.mem_cons_self _ _
    · simp only [DenseMap.find, hk, if_false] at h
      exact List.mem_cons_of_mem _ (ih h)

theorem DenseMap.find_eq_none_iff (m : DenseMap) (k : Nat) :
    DenseMap.find m k = none ↔ k ∉ m.map Prod.fst := by
  induction m with
  | nil => simp [DenseMap.find]
  | cons p rest ih =>
    obtain ⟨k', v'⟩ := p
    by_cases hk : k' = k
    · simp [DenseMap.find, hk]
    · have hk' : ¬ k = k' := fun e => hk e.symm
      simp only [DenseMap.find, hk, if_false, ih, List.map_cons, List.mem_cons, hk', false_or]

theorem DenseMap.find_of_mem (m : DenseMap) (k v : Nat) (hn : (m.map Prod.fst).Nodup)
    (h : (k, v) ∈ m) : DenseMap.find m k = some v := by
  induction m with
  | nil => simp at h
  | cons p rest ih =>
    obtain ⟨k', v'⟩ := p
    rw [List.map_cons, List.nodup_cons] at hn
    rcases List.mem_cons.mp h with h1 | h1
    · have h2 := Prod.mk.inj h1
      simp [DenseMap.find, h2.1, h2.2]
    · have hk : ¬ k' = k := by
        intro e
        exact hn.1 (List.mem_map.mpr ⟨(k, v), h1, e.symm⟩)
      simp only [DenseMap.find, hk, if_false]
      exact ih hn.2 h1

theorem DenseMap.nodup_set (m : DenseMap) (k v : Nat) (hn : (m.map Prod.fst).Nodup) :
    ((DenseMap.set m k v).map Prod.fst).Nodup := by
  unfold DenseMap.set
  rw [List.map_cons, List.nodup_cons]
  constructor
  · intro h
    obtain ⟨p, hp, hk⟩ := List.mem_map.mp h
    have := (List.mem_filter.mp hp).2
    simp [hk] at this
  · exact (List.filter_sublist _).map Prod.fst |>.nodup hn

theorem DenseMap.nodup_insert (m : DenseMap) (k v : Nat) (hn : (m.map Prod.fst).Nodup) :
    ((DenseMap.insert m k v).map Prod.fst).Nodup := by
  unfold DenseMap.insert
  cases hf : DenseMap.find m k with
  | some a => exact hn
  | none =>
    simp only [List.map_cons, List.nodup_cons]
    exact ⟨(DenseMap.find_eq_none_iff m k).mp hf, hn⟩

theorem nodup_exiting_fold (E : Nat) (l : List BasicBlock) :
    ∀ m : DenseMap, (m.map Prod.fst).Nodup →
      ((l.foldl (fun m BB => DenseMap.set m BB E) m).map Prod.fst).Nodup := by
  induction l with
  | nil => intro m h; simpa using h
  | cons b bs ih =>
    intro m h
    rw [List.foldl_cons]
    exact ih _ (DenseMap.nodup_set m b E h)

theorem nodup_assignBarrierIds (hob : BasicBlock → Bool) (bs : List BasicBlock) :
    ∀ (m : DenseMap) (c : Nat), (m.map Prod.fst).Nodup →
      ((assignBarrierIds hob bs m c).map Prod.fst).Nodup := by
  induction bs with
  | nil => intro m c h; simpa [assignBarrierIds] using h
  | cons b rest ih =>
    intro m c h
    unfold assignBarrierIds
    split
    · exact ih _ _ (DenseMap.nodup_insert m b c h)
    · exact ih _ _ h

/-- No key occurs twice in the barrier map. -/
theorem nodup_getBarrierIds (E : Nat) (hob : BasicBlock → Bool) (Entry : BasicBlock)
    (Exiting Blocks : List BasicBlock) :
    ((getBarrierIds E hob Entry Exiting Blocks).map Prod.fst).Nodup := by
  unfold getBarrierIds
  apply nodup_assignBarrierIds
  apply DenseMap.nodup_set
  apply nodup_exiting_fold
  simp

/-- What the entries of the barrier map of a function look like. -/
theorem barrierIdsOf_entry_cases (E : Nat) (hob : BasicBlock → Bool) (F : Function)
    (hlen : F.blocks.length < sizeMod) (k v : Nat)
    (h : (k, v) ∈ barrierIdsOf E hob F) :
    (k = F.entry ∧ v = 0) ∨ v = E
      ∨ ∃ (i : Nat) (hi : i < (otherBarriers hob F.entry (exitingBlocks F) F.blocks).length),
          k = (otherBarriers hob F.entry (exitingBlocks F) F.blocks)[i] ∧ v = i + 1 := by
  have hf : DenseMap.find (getBarrierIds E hob F.entry (exitingBlocks F) F.blocks) k
      = some v :=
    DenseMap.find_of_mem _ k v
      (nodup_getBarrierIds E hob F.entry (exitingBlocks F) F.blocks) h
  by_cases h1 : k = F.entry
  · left
    refine ⟨h1, ?_⟩
    subst h1
    have h2 := getBarrierIds_find_entry E hob F.entry (exitingBlocks F) F.blocks
    rw [h2] at hf
    exact (Option.some.inj hf).symm
  · right
    by_cases h2 : k ∈ exitingBlocks F
    · left
      have h3 := getBarrierIds_find_exiting E hob F.entry (exitingBlocks F) F.blocks k h2 h1
      rw [h3] at hf
      exact (Option.some.inj hf).symm
    · right
      by_cases h3 : k ∈ F.blocks ∧ hob k = true
      · have hmem : k ∈ otherBarriers hob F.entry (exitingBlocks F) F.blocks :=
          (mem_otherBarriers _ _ _ _ k).mpr ⟨h3.1, h3.2, h1, h2⟩
        obtain ⟨i, hi, hik⟩ := List.getElem_of_mem hmem
        refine ⟨i, hi, hik.symm, ?_⟩
        have h4 := getBarrierIds_find_other E hob F.entry (exitingBlocks F) F.blocks hlen i hi
        rw [hik] at h4
        rw [h4] at hf
        exact (Option.some.inj hf).symm
      · have h4 := getBarrierIds_find_none E hob F.entry (exitingBlocks F) F.blocks k h1 h2 h3
        rw [h4] at hf
        exact Option.noConfusion hf

/-! ## The SubCFGs of a function -/

theorem construct_some (F : Function) (hob : BasicBlock → Bool) (ids : DenseMap)
    (B : BasicBlock) (c : SubCFG) (h : SubCFG.construct F hob ids B = some c) :
    c.EntryBarrier_ = B ∧ c.EntryId_ = DenseMap.lookup ids B
      ∧ ∀ k v, DenseMap.find c.ExitIds_ k = some v →
          hob k = true ∧ v = DenseMap.lookup ids k := by
  unfold SubCFG.construct at h
  cases hl : worklistLoop F hob ids (F.blocks.length + 1) (initialWorkState B) with
  | none => rw [hl] at h; exact Option.noConfusion h
  | some st =>
    rw [hl] at h
    have hc := Option.some.inj h
    subst hc
    obtain ⟨inv, _⟩ := worklistLoop_inv F hob ids B _ _ st (workInv_initial F hob ids B) hl
    exact ⟨rfl, rfl, fun k v hv => ⟨(inv.exits k v hv).1, (inv.exits k v hv).2.1⟩⟩

theorem constructAll_some (F : Function) (hob : BasicBlock → Bool) (ids : DenseMap)
    (l : List (BasicBlock × Nat)) :
    ∀ cfgs, constructAll F hob ids l = some cfgs →
      cfgs.map (fun c => c.EntryBarrier_) = l.map Prod.fst
      ∧ ∀ c ∈ cfgs, c.EntryId_ = DenseMap.lookup ids c.EntryBarrier_
          ∧ ∀ k v, DenseMap.find c.ExitIds_ k = some v →
              hob k = true ∧ v = DenseMap.lookup ids k := by
  induction l with
  | nil =>
    intro cfgs h
    simp only [constructAll] at h
    rw [← Option.some.inj h]
    simp
  | cons p rest ih =>
    intro cfgs h
    unfold constructAll at h
    cases h1 : SubCFG.construct F hob ids p.1 with
    | none => simp [h1] at h
    | some c =>
      cases h2 : constructAll F hob ids rest with
      | none => simp [h1, h2] at h
      | some cs =>
        simp only [h1, h2] at h
        rw [← Option.some.inj h]
        obtain ⟨e1, e2, e3⟩ := construct_some F hob ids p.1 c h1
        obtain ⟨i1, i2⟩ := ih cs h2
        refine ⟨by simp [e1, i1], ?_⟩
        intro c' hc'
        rcases List.mem_cons.mp hc' with rfl | hc'
        · exact ⟨by rw [e2, e1], e3⟩
        · exact i2 c' hc'

theorem constructAll_exists (F : Function) (hob : BasicBlock → Bool) (ids : DenseMap)
    (hcl : F.Closed) (l : List (BasicBlock × Nat)) (hl : ∀ p ∈ l, p.1 ∈ F.blocks) :
    ∃ cfgs, constructAll F hob ids l = some cfgs := by
  induction l with
  | nil => exact ⟨[], rfl⟩
  | cons p rest ih =>
    obtain ⟨cs, hcs⟩ := ih (fun q hq => hl q (List.mem_cons_of_mem _ hq))
    obtain ⟨_, _, _, _, hc⟩ := construct_spec F hob ids p.1 hcl (hl p (List.mem_cons_self _ _))
    cases hcc : SubCFG.construct F hob ids p.1 with
    | none => rw [hcc] at hc; exact Option.noConfusion hc
    | some c => exact ⟨c :: cs, by simp only [constructAll, hcc, hcs]⟩

/-- For a function closed under successors that contains its entry block, `formSubCfgs`
gets one SubCFG for every entry of the barrier map whose id is not the exit id. -/
theorem createSubCFGs_spec (E : Nat) (hob : BasicBlock → Bool) (F : Function)
    (hcl : F.Closed) (hentry : F.entry ∈ F.blocks) :
    ∃ cfgs, createSubCFGs E hob F = some cfgs
      ∧ cfgs.map (fun c => (c.EntryBarrier_, c.EntryId_))
          = (barrierIdsOf E hob F).filter (fun BIt => BIt.2 != E)
      ∧ ∀ c ∈ cfgs, ∀ k v, DenseMap.find c.ExitIds_ k = some v →
          hob k = true ∧ v = DenseMap.lookup (barrierIdsOf E hob F) k := by
  have hmem : ∀ p ∈ (barrierIdsOf E hob F).filter (fun BIt => BIt.2 != E), p.1 ∈ F.blocks := by
    intro p hp
    have hp' := (List.mem_filter.mp hp).1
    have hk : DenseMap.find (barrierIdsOf E hob F) p.1 ≠ none := by
      rw [Ne, DenseMap.find_eq_none_iff, not_not]
      exact List.mem_map_of_mem Prod.fst hp'
    rcases barrierIdsOf_key_mem E hob F p.1 hk with h | h
    · rw [h]; exact hentry
    · exact h
  obtain ⟨cfgs, hc⟩ := constructAll_exists F hob (barrierIdsOf E hob F) hcl _ hmem
  obtain ⟨h1, h2⟩ := constructAll_some F hob (barrierIdsOf E hob F) _ cfgs hc
  refine ⟨cfgs, hc, ?_, fun c hc' => (h2 c hc').2⟩
  apply List.ext_getElem
  · have := congrArg List.length h1
    simpa using this
  · intro i hi1 hi2
    have hi : i < cfgs.length := by simpa using hi1
    have hci : cfgs[i] ∈ cfgs := List.getElem_mem hi
    have e1 : cfgs[i].EntryBarrier_
        = (((barrierIdsOf E hob F).filter (fun BIt => BIt.2 != E))[i]).1 := by
      have := congrArg (fun l => l[i]?) h1
      simp only [List.getElem?_map, List.getElem?_eq_getElem hi,
        List.getElem?_eq_getElem hi2, Option.map_some'] at this
      exact Option.some.inj this
    have hin : ((barrierIdsOf E hob F).filter (fun BIt => BIt.2 != E))[i]
        ∈ barrierIdsOf E hob F := (List.mem_filter.mp (List.getElem_mem hi2)).1
    have e2 : cfgs[i].EntryId_
        = (((barrierIdsOf E hob F).filter (fun BIt => BIt.2 != E))[i]).2 := by
      rw [(h2 _ hci).1, e1]
      have hfind : DenseMap.find (barrierIdsOf E hob F)
          (((barrierIdsOf E hob F).filter (fun BIt => BIt.2 != E))[i]).1
            = some (((barrierIdsOf E hob F).filter (fun BIt => BIt.2 != E))[i]).2 :=
        DenseMap.find_of_mem (barrierIdsOf E hob F) _ _
          (nodup_getBarrierIds E hob F.entry (exitingBlocks F) F.blocks) hin
      unfold DenseMap.lookup
      rw [hfind]
      rfl
    simp only [List.getElem_map]
    exact Prod.ext e1 e2

/-! ## The dispatcher switch -/

theorem caseIndex_append_singleton (v a : Nat) (d : Dest) (l : List (Nat × Dest)) :
    caseIndex v (l ++ [(a, d)]) = some l.length ↔ v = a ∧ v ∉ l.map Prod.fst := by
  induction l with
  | nil =>
    by_cases h : a = v
    · simp [caseIndex, h]
    · have h' : ¬ v = a := fun e => h e.symm
      simp [caseIndex, h, h']
  | cons c cs ih =>
    have hstep : caseIndex v ((c :: cs) ++ [(a, d)])
        = if c.1 = v then some 0 else (caseIndex v (cs ++ [(a, d)])).map (fun i => i + 1) := rfl
    rw [hstep]
    by_cases h : c.1 = v
    · rw [if_pos h]
      constructor
      · intro h0
        have := Option.some.inj h0
        simp at this
      · rintro ⟨_, h2⟩
        exact absurd (List.mem_map_of_mem Prod.fst (List.mem_cons_self c cs)) (h ▸ h2)
    · rw [if_neg h]
      have h' : ¬ v = c.1 := fun e => h e.symm
      constructor
      · intro h0
        cases hc : caseIndex v (cs ++ [(a, d)]) with
        | none => rw [hc] at h0; exact Option.noConfusion h0
        | some i =>
          rw [hc] at h0
          have hi : i = cs.length := by
            have := Option.some.inj h0
            simp at this
            exact this
          rw [hi] at hc
          obtain ⟨e1, e2⟩ := ih.mp hc
          refine ⟨e1, ?_⟩
          rw [List.map_cons, List.mem_cons, not_or]
          exact ⟨h', e2⟩
      · rintro ⟨e1, e2⟩
        rw [List.map_cons, List.mem_cons, not_or] at e2
        rw [ih.mpr ⟨e1, e2.2⟩]
        rfl

theorem dest_append_singleton (v a : Nat) (d : Dest) (l : List (Nat × Dest))
    (ha : a ∉ l.map Prod.fst) (hd : ∀ c ∈ l, c.2 ≠ d) (hdef : Dest.unreachableBlock ≠ d) :
    SwitchInst.dest { defaultDest := Dest.unreachableBlock, cases := l ++ [(a, d)] } v = d
      ↔ v = a := by
  unfold SwitchInst.dest
  simp only [List.find?_append]
  constructor
  · intro h
    cases h1 : List.find? (fun c => c.1 == v) l with
    | some c =>
      rw [h1] at h
      exact absurd h (hd c (List.mem_of_find?_eq_some h1))
    | none =>
      rw [h1] at h
      by_cases hav : a = v
      · exact hav.symm
      · have h2 : List.find? (fun c => c.1 == v) [(a, d)] = none := by
          rw [List.find?_eq_none]
          intro x hx
          rw [List.mem_singleton] at hx
          subst hx
          simpa using hav
        rw [h2] at h
        exact absurd h hdef
  · intro h
    subst h
    have h1 : List.find? (fun c => c.1 == v) l = none := by
      rw [List.find?_eq_none]
      intro x hx hxv
      apply ha
      have : x.1 = v := by simpa using hxv
      rw [← this]
      exact List.mem_map_of_mem Prod.fst hx
    rw [h1]
    simp [Option.or]

/-- The ids of the entries of the barrier map other than the exit id are at most the
number of blocks, and two entries with the same such id are the same entry. -/
theorem barrierIdsOf_ids_distinct (E : Nat) (hob : BasicBlock → Bool) (F : Function)
    (hlen : F.blocks.length < sizeMod) (x y : BasicBlock × Nat)
    (hx : x ∈ barrierIdsOf E hob F) (hy : y ∈ barrierIdsOf E hob F)
    (hxE : x.2 ≠ E) (hyE : y.2 ≠ E) :
    x.2 ≤ F.blocks.length ∧ (x.2 = y.2 → x = y) := by
  have hle := otherBarriers_length_le hob F.entry (exitingBlocks F) F.blocks
  obtain ⟨k1, v1⟩ := x
  obtain ⟨k2, v2⟩ := y
  simp only at hxE hyE ⊢
  rcases barrierIdsOf_entry_cases E hob F hlen k1 v1 hx with ⟨a1, a2⟩ | a | ⟨i, hi, a1, a2⟩
  · rcases barrierIdsOf_entry_cases E hob F hlen k2 v2 hy with ⟨b1, b2⟩ | b | ⟨j, hj, b1, b2⟩
    · exact ⟨by omega, fun _ => by rw [a1, a2, b1, b2]⟩
    · exact absurd b hyE
    · exact ⟨by omega, fun e => by omega⟩
  · exact absurd a hxE
  · rcases barrierIdsOf_entry_cases E hob F hlen k2 v2 hy with ⟨b1, b2⟩ | b | ⟨j, hj, b1, b2⟩
    · exact ⟨by omega, fun e => by omega⟩
    · exact absurd b hyE
    · refine ⟨by omega, fun e => ?_⟩
      have hij : i = j := by omega
      subst hij
      rw [a1, a2, b1, b2]

/-- C8: for a function that is closed under successors and contains its entry block,
`formSubCfgs` creates one SubCFG for every entry of the barrier map (in which no key
occurs twice) whose id is not `ExitBarrierId`; the dispatcher switch has one case for
each of them, with the id as value and the entry block of that SubCFG as destination,
followed by the case `ExitBarrierId` with the function exit as destination; the case
values are pairwise distinct, and the exit case is the one taken exactly when the
value switched on is `ExitBarrierId`.  The exit id is a value of `size_t` and of the
`N`-bit integer type of the storage, and is larger than the number of blocks. -/
theorem dispatcher_switch_cases (N ExitBarrierId : Nat)
    (hasOnlyBarrier : BasicBlock → Bool) (F : Function) (Exit : BasicBlock)
    (hcl : F.Closed) (hentry : F.entry ∈ F.blocks)
    (hlen : F.blocks.length < ExitBarrierId) (hN : ExitBarrierId < 2 ^ N)
    (hsize : ExitBarrierId < sizeMod) :
    ∃ cfgs, createSubCFGs ExitBarrierId hasOnlyBarrier F = some cfgs
      ∧ cfgs.map (fun c => (c.EntryBarrier_, c.EntryId_))
          = (barrierIdsOf ExitBarrierId hasOnlyBarrier F).filter
              (fun BIt => BIt.2 != ExitBarrierId)
      ∧ ((barrierIdsOf ExitBarrierId hasOnlyBarrier F).map Prod.fst).Nodup
      ∧ (generateWhileSwitchAround N ExitBarrierId cfgs Exit).cases
          = cfgs.map (fun c => (c.EntryId_, Dest.subCfgEntry c))
              ++ [(ExitBarrierId, Dest.block Exit)]
      ∧ ((generateWhileSwitchAround N ExitBarrierId cfgs Exit).cases.map Prod.fst).Nodup
      ∧ (∀ v, (generateWhileSwitchAround N ExitBarrierId cfgs Exit).caseTaken v
            = some cfgs.length ↔ v = ExitBarrierId)
      ∧ (∀ v, (generateWhileSwitchAround N ExitBarrierId cfgs Exit).dest v = Dest.block Exit
            ↔ v = ExitBarrierId) := by
  have hlen64 : F.blocks.length < sizeMod := Nat.lt_trans hlen hsize
  obtain ⟨cfgs, hc, hpairs, _⟩ := createSubCFGs_spec ExitBarrierId hasOnlyBarrier F hcl hentry
  have hkeys := nodup_getBarrierIds ExitBarrierId hasOnlyBarrier F.entry (exitingBlocks F)
    F.blocks
  have hE : getIntN N ExitBarrierId = ExitBarrierId := Nat.mod_eq_of_lt hN
  -- the entry ids are small
  have hsmall : ∀ c ∈ cfgs, (c.EntryBarrier_, c.EntryId_)
      ∈ (barrierIdsOf ExitBarrierId hasOnlyBarrier F).filter
          (fun BIt => BIt.2 != ExitBarrierId) := by
    intro c hcm
    rw [← hpairs]
    exact List.mem_map_of_mem (fun c => (c.EntryBarrier_, c.EntryId_)) hcm
  have hid : ∀ c ∈ cfgs, c.EntryId_ ≠ ExitBarrierId ∧ c.EntryId_ ≤ F.blocks.length := by
    intro c hcm
    have h1 := List.mem_filter.mp (hsmall c hcm)
    have h2 : c.EntryId_ ≠ ExitBarrierId := by simpa using h1.2
    exact ⟨h2, (barrierIdsOf_ids_distinct ExitBarrierId hasOnlyBarrier F hlen64 _ _
      h1.1 h1.1 h2 h2).1⟩
  have hcases : (generateWhileSwitchAround N ExitBarrierId cfgs Exit).cases
      = cfgs.map (fun c => (c.EntryId_, Dest.subCfgEntry c))
          ++ [(ExitBarrierId, Dest.block Exit)] := by
    unfold generateWhileSwitchAround
    simp only [hE]
    congr 1
    apply List.map_congr_left
    intro c hcm
    have := hid c hcm
    have hlt : c.EntryId_ < 2 ^ N := by omega
    simp [getIntN, Nat.mod_eq_of_lt hlt]
  have hvals : (cfgs.map (fun c => (c.EntryId_, Dest.subCfgEntry c))).map Prod.fst
      = ((barrierIdsOf ExitBarrierId hasOnlyBarrier F).filter
          (fun BIt => BIt.2 != ExitBarrierId)).map Prod.snd := by
    rw [← hpairs]
    simp [List.map_map, Function.comp_def]
  have hnotin : ExitBarrierId ∉ (cfgs.map (fun c => (c.EntryId_, Dest.subCfgEntry c))).map
      Prod.fst := by
    rw [hvals]
    intro h
    obtain ⟨p, hp, hpE⟩ := List.mem_map.mp h
    have := (List.mem_filter.mp hp).2
    simp [hpE] at this
  have hnodup : ((cfgs.map (fun c => (c.EntryId_, Dest.subCfgEntry c))).map Prod.fst).Nodup := by
    rw [hvals]
    apply List.Nodup.map_on
    · intro x hx y hy hxy
      have hx' := List.mem_filter.mp hx
      have hy' := List.mem_filter.mp hy
      exact (barrierIdsOf_ids_distinct ExitBarrierId hasOnlyBarrier F hlen64 x y hx'.1 hy'.1
        (by simpa using hx'.2) (by simpa using hy'.2)).2 hxy
    · exact (List.Nodup.of_map Prod.fst hkeys).filter _
  refine ⟨cfgs, hc, hpairs, hkeys, hcases, ?_, ?_, ?_⟩
  · rw [hcases, List.map_append, List.nodup_append]
    refine ⟨hnodup, by simp, ?_⟩
    intro a ha hb
    simp only [List.map_cons, List.map_nil, List.mem_singleton] at hb
    exact hnotin (hb ▸ ha)
  · intro v
    unfold SwitchInst.caseTaken
    rw [hcases]
    have := caseIndex_append_singleton v ExitBarrierId (Dest.block Exit)
      (cfgs.map (fun c => (c.EntryId_, Dest.subCfgEntry c)))
    rw [List.length_map] at this
    rw [this]
    constructor
    · exact fun h => h.1
    · intro h
      exact ⟨h, h ▸ hnotin⟩
  · intro v
    have hsw : generateWhileSwitchAround N ExitBarrierId cfgs Exit
        = { defaultDest := Dest.unreachableBlock
            cases := cfgs.map (fun c => (c.EntryId_, Dest.subCfgEntry c))
              ++ [(ExitBarrierId, Dest.block Exit)] } := by
      rw [← hcases]
      rfl
    rw [hsw]
    apply dest_append_singleton v ExitBarrierId (Dest.block Exit) _ hnotin
    · intro c hcm
      obtain ⟨c', _, rfl⟩ := List.mem_map.mp hcm
      simp
    · simp

/-- Witness for C8 on `exampleKernel` with a 64-bit id type and exit id `2 ^ 64 - 1`. -/
theorem dispatcher_switch_cases_witness :
    (exampleKernel.Closed ∧ exampleKernel.entry ∈ exampleKernel.blocks
      ∧ exampleKernel.blocks.length < 18446744073709551615
      ∧ 18446744073709551615 < 2 ^ 64 ∧ 18446744073709551615 < sizeMod)
    ∧ ∃ cfgs, createSubCFGs 18446744073709551615 exampleBarriers exampleKernel = some cfgs
      ∧ ((generateWhileSwitchAround 64 18446744073709551615 cfgs 5).cases.map Prod.fst).Nodup
      ∧ (∀ v, (generateWhileSwitchAround 64 18446744073709551615 cfgs 5).caseTaken v
            = some cfgs.length ↔ v = 18446744073709551615) :=
  ⟨⟨by decide, by decide, by decide, by decide, by decide⟩,
   (dispatcher_switch_cases 64 18446744073709551615 exampleBarriers exampleKernel 5
      (by decide) (by decide) (by decide) (by decide) (by decide)).imp
     (fun _ h => ⟨h.1, h.2.2.2.2.1, h.2.2.2.2.2.1⟩)⟩

/-! ## Values of the last-barrier-id storage -/

theorem mem_exitStubStores (N : Nat) (F : Function) (c : SubCFG) (v : Nat)
    (h : v ∈ exitStubStores N F c) :
    ∃ BB ∈ c.Blocks_, ∃ Succ ∈ F.succ BB, ∃ id,
      DenseMap.find c.ExitIds_ Succ = some id ∧ v = getIntN N id := by
  unfold exitStubStores at h
  obtain ⟨l, hl, hv⟩ := List.mem_flatten.mp h
  obtain ⟨BB, hBB, rfl⟩ := List.mem_map.mp hl
  obtain ⟨Succ, hS, hm⟩ := List.mem_filterMap.mp hv
  cases hf : DenseMap.find c.ExitIds_ Succ with
  | none => simp [hf] at hm
  | some id =>
    rw [hf] at hm
    exact ⟨BB, hBB, Succ, hS, id, hf, by simpa using hm.symm⟩

theorem dest_of_mem_values (sw : SwitchInst) (v : Nat) (h : v ∈ sw.cases.map Prod.fst) :
    ∃ c ∈ sw.cases, sw.dest v = c.2 := by
  unfold SwitchInst.dest
  cases hf : List.find? (fun c => c.1 == v) sw.cases with
  | some c => exact ⟨c, List.mem_of_find?_eq_some hf, rfl⟩
  | none =>
    exfalso
    rw [List.find?_eq_none] at hf
    obtain ⟨c, hc, hcv⟩ := List.mem_map.mp h
    exact hf c hc (by simpa using hcv)

theorem dest_mem_cases (sw : SwitchInst) (v : Nat) (d : Dest) (h : sw.dest v = d)
    (hd : d ≠ sw.defaultDest) : ∃ c ∈ sw.cases, c.2 = d := by
  unfold SwitchInst.dest at h
  cases hf : List.find? (fun c => c.1 == v) sw.cases with
  | some c =>
    rw [hf] at h
    exact ⟨c, List.mem_of_find?_eq_some hf, h⟩
  | none =>
    rw [hf] at h
    exact absurd h.symm hd

/-- Every id that `BarrierIds.lookup` can return is the exit id or the entry id of one
of the SubCFGs of the function. -/
theorem lookup_is_exit_or_entry_id (E : Nat) (hob : BasicBlock → Bool) (F : Function)
    (cfgs : List SubCFG)
    (hpairs : cfgs.map (fun c => (c.EntryBarrier_, c.EntryId_))
      = (barrierIdsOf E hob F).filter (fun BIt => BIt.2 != E))
    (k : BasicBlock) :
    DenseMap.lookup (barrierIdsOf E hob F) k = E
      ∨ ∃ c ∈ cfgs, c.EntryId_ = DenseMap.lookup (barrierIdsOf E hob F) k := by
  have key : ∀ k' id, (k', id) ∈ barrierIdsOf E hob F → id = E ∨ ∃ c ∈ cfgs, c.EntryId_ = id := by
    intro k' id hmem
    by_cases hE : id = E
    · exact Or.inl hE
    · right
      have hin : (k', id) ∈ (barrierIdsOf E hob F).filter (fun BIt => BIt.2 != E) :=
        List.mem_filter.mpr ⟨hmem, by simpa using hE⟩
      rw [← hpairs] at hin
      obtain ⟨c, hc, hce⟩ := List.mem_map.mp hin
      exact ⟨c, hc, (Prod.mk.inj hce).2⟩
  cases hf : DenseMap.find (barrierIdsOf E hob F) k with
  | some id =>
    have hl : DenseMap.lookup (barrierIdsOf E hob F) k = id := by
      simp [DenseMap.lookup, hf]
    rw [hl]
    exact key k id (DenseMap.find_some_mem _ k id hf)
  | none =>
    have hl : DenseMap.lookup (barrierIdsOf E hob F) k = 0 := by
      simp [DenseMap.lookup, hf]
    rw [hl]
    exact key F.entry 0 (DenseMap.find_some_mem _ F.entry 0
      (getBarrierIds_find_entry E hob F.entry (exitingBlocks F) F.blocks))

/-- C9: in the function produced by `formSubCfgs`, the value the function entry stores
to the last-barrier-id storage and every value an exit stub stores there is
`ExitBarrierId` or the entry id of a SubCFG (each as an `N`-bit constant), hence the
value of a switch case; so for every value the storage can hold when the dispatcher
switch is executed, the switch does not branch to its unreachable default block. -/
theorem last_barrier_id_has_case (N ExitBarrierId : Nat)
    (hasOnlyBarrier : BasicBlock → Bool) (F : Function) (Exit : BasicBlock)
    (hcl : F.Closed) (hentry : F.entry ∈ F.blocks) :
    ∃ cfgs, createSubCFGs ExitBarrierId hasOnlyBarrier F = some cfgs
      ∧ (getIntN N EntryBarrierId = getIntN N ExitBarrierId
          ∨ ∃ c ∈ cfgs, getIntN N EntryBarrierId = getIntN N c.EntryId_)
      ∧ (∀ c ∈ cfgs, ∀ v ∈ exitStubStores N F c,
          v = getIntN N ExitBarrierId ∨ ∃ c' ∈ cfgs, v = getIntN N c'.EntryId_)
      ∧ (∀ v, LastBarrierIdReachable N F
            (generateWhileSwitchAround N ExitBarrierId cfgs Exit) v →
          v ∈ (generateWhileSwitchAround N ExitBarrierId cfgs Exit).cases.map Prod.fst
          ∧ (generateWhileSwitchAround N ExitBarrierId cfgs Exit).dest v
              ≠ Dest.unreachableBlock) := by
  obtain ⟨cfgs, hc, hpairs, hex⟩ := createSubCFGs_spec ExitBarrierId hasOnlyBarrier F hcl hentry
  have hlook := lookup_is_exit_or_entry_id ExitBarrierId hasOnlyBarrier F cfgs hpairs
  have hstore0 : getIntN N EntryBarrierId = getIntN N ExitBarrierId
      ∨ ∃ c ∈ cfgs, getIntN N EntryBarrierId = getIntN N c.EntryId_ := by
    have h0 : DenseMap.lookup (barrierIdsOf ExitBarrierId hasOnlyBarrier F) F.entry
        = EntryBarrierId := by
      simp [DenseMap.lookup, barrierIdsOf, getBarrierIds_find_entry]
    rcases hlook F.entry with h | ⟨c, hcm, h⟩
    · left; rw [← h0, h]
    · right; exact ⟨c, hcm, by rw [h, h0]⟩
  have hstub : ∀ c ∈ cfgs, ∀ v ∈ exitStubStores N F c,
      v = getIntN N ExitBarrierId ∨ ∃ c' ∈ cfgs, v = getIntN N c'.EntryId_ := by
    intro c hcm v hv
    obtain ⟨BB, _, Succ, _, id, hid, rfl⟩ := mem_exitStubStores N F c v hv
    have hval := (hex c hcm Succ id hid).2
    rcases hlook Succ with h | ⟨c', hc', h⟩
    · left; rw [hval, h]
    · right; exact ⟨c', hc', by rw [hval, h]⟩
  have hvalue : ∀ v, (v = getIntN N ExitBarrierId ∨ ∃ c ∈ cfgs, v = getIntN N c.EntryId_) →
      v ∈ (generateWhileSwitchAround N ExitBarrierId cfgs Exit).cases.map Prod.fst := by
    intro v hv
    unfold generateWhileSwitchAround
    simp only [List.map_append, List.map_map, List.mem_append, List.mem_map,
      Function.comp_apply, List.map_cons, List.map_nil, List.mem_singleton]
    rcases hv with h | ⟨c, hcm, h⟩
    · exact Or.inr h
    · exact Or.inl ⟨c, hcm, h.symm⟩
  have hdest : ∀ v, v ∈ (generateWhileSwitchAround N ExitBarrierId cfgs Exit).cases.map Prod.fst →
      (generateWhileSwitchAround N ExitBarrierId cfgs Exit).dest v ≠ Dest.unreachableBlock := by
    intro v hv
    obtain ⟨c, hcm, hd⟩ := dest_of_mem_values _ v hv
    rw [hd]
    unfold generateWhileSwitchAround at hcm
    simp only [List.mem_append, List.mem_map, List.mem_singleton] at hcm
    rcases hcm with ⟨c0, _, rfl⟩ | rfl
    · simp
    · simp
  refine ⟨cfgs, hc, hstore0, hstub, ?_⟩
  intro v hr
  have hin : v ∈ (generateWhileSwitchAround N ExitBarrierId cfgs Exit).cases.map Prod.fst := by
    induction hr with
    | entry => exact hvalue _ hstore0
    | @region v v' Cfg _ hd hv' _ =>
      apply hvalue
      apply hstub Cfg _ v' hv'
      obtain ⟨c, hcm, hc2⟩ := dest_mem_cases _ v _ hd (by simp [generateWhileSwitchAround])
      unfold generateWhileSwitchAround at hcm
      simp only [List.mem_append, List.mem_map, List.mem_singleton] at hcm
      rcases hcm with ⟨c0, hc0, rfl⟩ | rfl
      · simp only [Dest.subCfgEntry.injEq] at hc2
        rw [← hc2]; exact hc0
      · simp at hc2
  exact ⟨hin, hdest v hin⟩

/-- Witness for C9 on `exampleKernel`: from SubCFG 0 the exit stubs store the id 1 of
the barrier-only block 4, for which the switch has a case. -/
theorem last_barrier_id_has_case_witness :
    (exampleKernel.Closed ∧ exampleKernel.entry ∈ exampleKernel.blocks)
    ∧ ∃ cfgs, createSubCFGs 18446744073709551615 exampleBarriers exampleKernel = some cfgs
      ∧ (∀ c ∈ cfgs, ∀ v ∈ exitStubStores 64 exampleKernel c,
          v = getIntN 64 18446744073709551615 ∨ ∃ c' ∈ cfgs, v = getIntN 64 c'.EntryId_)
      ∧ (∀ v, LastBarrierIdReachable 64 exampleKernel
            (generateWhileSwitchAround 64 18446744073709551615 cfgs 5) v →
          (generateWhileSwitchAround 64 18446744073709551615 cfgs 5).dest v
              ≠ Dest.unreachableBlock) :=
  ⟨⟨by decide, by decide⟩,
   (last_barrier_id_has_case 64 18446744073709551615 exampleBarriers exampleKernel 5
      (by decide) (by decide)).imp
     (fun _ h => ⟨h.1, h.2.2.1, fun v hv => (h.2.2.2 v hv).2⟩)⟩

/-! ## The contiguous index -/

theorem contiguousIdx_one (N i0 s0 : Nat) : contiguousIdx N [i0] [s0] = some i0 := by
  simp [contiguousIdx]

theorem contiguousIdx_two (N i0 i1 s0 s1 : Nat) :
    contiguousIdx N [i0, i1] [s0, s1]
      = if i0 * s1 + i1 < 2 ^ N then some (i0 * s1 + i1) else none := by
  simp only [contiguousIdx, List.length_cons, List.length_nil, List.range', List.foldl,
    Option.some_bind, mulNUW, addNUW]
  by_cases h1 : i0 * s1 < 2 ^ N
  · simp [h1, Nat.add_comm]
  · have h2 : ¬ i0 * s1 + i1 < 2 ^ N := by omega
    simp [h1, h2]

theorem contiguousIdx_three (N i0 i1 i2 s0 s1 s2 : Nat) :
    contiguousIdx N [i0, i1, i2] [s0, s1, s2]
      = if i0 * s1 + i1 < 2 ^ N ∧ (i0 * s1 + i1) * s2 + i2 < 2 ^ N then
          some ((i0 * s1 + i1) * s2 + i2)
        else none := by
  simp only [contiguousIdx, List.length_cons, List.length_nil, List.range', List.foldl,
    Option.some_bind, mulNUW, addNUW]
  by_cases h1 : i0 * s1 < 2 ^ N
  · by_cases h2 : i1 + i0 * s1 < 2 ^ N
    · have h2' : i0 * s1 + i1 < 2 ^ N := by omega
      by_cases h3 : (i1 + i0 * s1) * s2 < 2 ^ N
      · simp [h1, h2, h2', h3, Nat.add_comm]
      · have h4 : ¬ (i0 * s1 + i1) * s2 + i2 < 2 ^ N := by
          rw [Nat.add_comm (i0 * s1) i1]; omega
        simp [h1, h2, h3, h4]
    · have h2' : ¬ i0 * s1 + i1 < 2 ^ N := by omega
      simp [h1, h2, h2']
  · have h2 : ¬ i0 * s1 + i1 < 2 ^ N := by omega
    simp [h1, h2]


theorem getIntN_one (N : Nat) (hN : 0 < N) : getIntN N 1 = 1 := by
  unfold getIntN
  apply Nat.mod_eq_of_lt
  exact Nat.one_lt_two_pow (Nat.pos_iff_ne_zero.mp hN)

/-- C10 fails as stated: with 64-bit indices, `ind_0 = 2 ^ 63` and `size_1 = 2` the
product overflows, and the index is the poison value of `mul nuw`, not the value
`(ind_0 * size_1 + ind_1) mod 2 ^ 64 = 0`. -/
theorem contiguousIdx_overflow_counterexample :
    contiguousIdx 64 [9223372036854775808, 0] [9223372036854775809, 2] = none
    ∧ ¬ (contiguousIdx 64 [9223372036854775808, 0] [9223372036854775809, 2]
          = some ((9223372036854775808 * 2 + 0) % 2 ^ 64)) := by
  decide

/-- C10 (amended): the contiguous index computed by `createLoopsAround` is `ind_0` for
`Dim = 1`; for `Dim = 2` it is `ind_0 * size_1 + ind_1` when this value is below
`2 ^ N`, and for `Dim = 3` it is `(ind_0 * size_1 + ind_1) * size_2 + ind_2` when this
value and `ind_0 * size_1 + ind_1` are below `2 ^ N`; otherwise it is poison.  The
`Dim` that `formSubCfgs` selects from static local sizes is 1 when `Y = Z = 1`, 2 when
`Z = 1` and `Y ≠ 1`, and 3 otherwise, and for this `Dim` the index equals the index of
the three-dimensional computation in which the dropped dimensions have index 0 (and
size 1). -/
theorem contiguousIdx_formula (N i0 i1 i2 s0 s1 s2 X Y Z : Nat)
    (hN : 0 < N) (h0 : i0 < 2 ^ N) :
    contiguousIdx N [i0] [s0] = some i0
    ∧ contiguousIdx N [i0, i1] [s0, s1]
        = (if i0 * s1 + i1 < 2 ^ N then some (i0 * s1 + i1) else none)
    ∧ contiguousIdx N [i0, i1, i2] [s0, s1, s2]
        = (if i0 * s1 + i1 < 2 ^ N ∧ (i0 * s1 + i1) * s2 + i2 < 2 ^ N then
            some ((i0 * s1 + i1) * s2 + i2)
          else none)
    ∧ (selectDim [X, Y, Z] false = 1 ↔ Y = 1 ∧ Z = 1)
    ∧ (selectDim [X, Y, Z] false = 2 ↔ Z = 1 ∧ Y ≠ 1)
    ∧ (selectDim [X, Y, Z] false = 3 ↔ Z ≠ 1)
    ∧ contiguousIdx N [i0] [s0] = contiguousIdx N [i0, 0, 0] [s0, 1, 1]
    ∧ contiguousIdx N [i0, i1] [s0, s1] = contiguousIdx N [i0, i1, 0] [s0, s1, 1]
    ∧ ((selectDim [X, Y, Z] false ≤ 1 → i1 = 0) → (selectDim [X, Y, Z] false ≤ 2 → i2 = 0) →
        contiguousIdx N ([i0, i1, i2].take (selectDim [X, Y, Z] false))
            (getLocalSizeValues N [X, Y, Z] [] false (selectDim [X, Y, Z] false))
          = contiguousIdx N [i0, i1, i2] (getLocalSizeValues N [X, Y, Z] [] false 3)) := by
  have e1 : contiguousIdx N [i0] [s0] = contiguousIdx N [i0, 0, 0] [s0, 1, 1] := by
    rw [contiguousIdx_one, contiguousIdx_three]
    simp [h0]
  have e2 : ∀ a b, contiguousIdx N [i0, i1] [a, b] = contiguousIdx N [i0, i1, 0] [a, b, 1] := by
    intro a b
    rw [contiguousIdx_two, contiguousIdx_three]
    simp
  have d1 : selectDim [X, Y, Z] false = 1 ↔ Y = 1 ∧ Z = 1 := by
    unfold selectDim
    by_cases hz : Z = 1 <;> by_cases hy : Y = 1 <;> simp [hz, hy]
  have d2 : selectDim [X, Y, Z] false = 2 ↔ Z = 1 ∧ Y ≠ 1 := by
    unfold selectDim
    by_cases hz : Z = 1 <;> by_cases hy : Y = 1 <;> simp [hz, hy]
  have d3 : selectDim [X, Y, Z] false = 3 ↔ Z ≠ 1 := by
    unfold selectDim
    by_cases hz : Z = 1 <;> by_cases hy : Y = 1 <;> simp [hz, hy]
  refine ⟨contiguousIdx_one N i0 s0, contiguousIdx_two N i0 i1 s0 s1,
    contiguousIdx_three N i0 i1 i2 s0 s1 s2, d1, d2, d3, e1, e2 s0 s1, ?_⟩
  intro hi1 hi2
  have g1 := getIntN_one N hN
  by_cases hz : Z = 1
  · by_cases hy : Y = 1
    · have hd : selectDim [X, Y, Z] false = 1 := d1.mpr ⟨hy, hz⟩
      rw [hd] at hi1 hi2 ⊢
      have a1 := hi1 (Nat.le_refl 1)
      have a2 := hi2 (by omega)
      subst a1 a2 hy hz
      simp only [getLocalSizeValues, List.range, List.range.loop, List.map, List.take,
        List.getD_cons_zero, List.getD_cons_succ, g1, Bool.false_eq_true, if_false]
      rw [contiguousIdx_one, contiguousIdx_three]
      simp [h0]
    · have hd : selectDim [X, Y, Z] false = 2 := d2.mpr ⟨hz, hy⟩
      rw [hd] at hi2 ⊢
      have a2 := hi2 (Nat.le_refl 2)
      subst a2 hz
      simp only [getLocalSizeValues, List.range, List.range.loop, List.map, List.take,
        List.getD_cons_zero, List.getD_cons_succ, g1, Bool.false_eq_true, if_false]
      exact e2 _ _
  · have hd : selectDim [X, Y, Z] false = 3 := d3.mpr hz
    rw [hd]
    rfl

/-- Witness for C10 (amended): 64-bit indices, local sizes `(4, 3, 1)`, work-item
`(2, 1, 0)`. -/
theorem contiguousIdx_formula_witness :
    (0 < 64 ∧ 2 < 2 ^ 64)
    ∧ contiguousIdx 64 [2, 1] [4, 3] = (if 2 * 3 + 1 < 2 ^ 64 then some (2 * 3 + 1) else none)
    ∧ contiguousIdx 64 [2, 1] [4, 3] = contiguousIdx 64 [2, 1, 0] [4, 3, 1] :=
  ⟨⟨by decide, by decide⟩,
   (contiguousIdx_formula 64 2 1 0 4 3 1 4 3 1 (by decide) (by decide)).2.1,
   (contiguousIdx_formula 64 2 1 0 4 3 1 4 3 1 (by decide) (by decide)).2.2.2.2.2.2.2.1⟩

/-! ## Bounds of the contiguous index -/

theorem linear_index_lt (i0 i1 s0 s1 : Nat) (h0 : i0 < s0) (h1 : i1 < s1) :
    i0 * s1 + i1 < s0 * s1 := by
  have h : (i0 + 1) * s1 ≤ s0 * s1 := Nat.mul_le_mul_right s1 h0
  rw [Nat.add_mul, Nat.one_mul] at h
  omega

theorem linear_index_inj (i0 i1 j0 j1 s1 : Nat) (h1 : i1 < s1) (g1 : j1 < s1)
    (h : i0 * s1 + i1 = j0 * s1 + j1) : i0 = j0 ∧ i1 = j1 := by
  have hpos : 0 < s1 := by omega
  have hq : (i0 * s1 + i1) / s1 = i0 := by
    rw [Nat.add_comm, Nat.add_mul_div_right _ _ hpos, Nat.div_eq_of_lt h1, Nat.zero_add]
  have hq' : (j0 * s1 + j1) / s1 = j0 := by
    rw [Nat.add_comm, Nat.add_mul_div_right _ _ hpos, Nat.div_eq_of_lt g1, Nat.zero_add]
  have e0 : i0 = j0 := by rw [← hq, ← hq', h]
  subst e0
  exact ⟨rfl, by omega⟩

/-- C11: for local sizes with `s_0 * s_1 * s_2 ≤ NumArrayElements` and an index tuple
with `ind_d < s_d`, the contiguous index that `createLoopsAround` computes is the
value `(ind_0 * s_1 + ind_1) * s_2 + ind_2` (no `nuw` operation overflows), it is below
`s_0 * s_1 * s_2` and so below the `NumArrayElements = 1024` slots of a wide alloca, and
two index tuples with the same contiguous index are equal.  The `N`-bit index type
holds the value `NumArrayElements`. -/
theorem contiguousIdx_valid_slot (N s0 s1 s2 i0 i1 i2 j0 j1 j2 : Nat)
    (hN : NumArrayElements ≤ 2 ^ N) (hprod : s0 * s1 * s2 ≤ NumArrayElements)
    (h0 : i0 < s0) (h1 : i1 < s1) (h2 : i2 < s2)
    (g0 : j0 < s0) (g1 : j1 < s1) (g2 : j2 < s2) :
    contiguousIdx N [i0, i1, i2] [s0, s1, s2] = some ((i0 * s1 + i1) * s2 + i2)
    ∧ (i0 * s1 + i1) * s2 + i2 < s0 * s1 * s2
    ∧ (i0 * s1 + i1) * s2 + i2 < NumArrayElements
    ∧ NumArrayElements = 1024
    ∧ (contiguousIdx N [i0, i1, i2] [s0, s1, s2] = contiguousIdx N [j0, j1, j2] [s0, s1, s2]
        → i0 = j0 ∧ i1 = j1 ∧ i2 = j2) := by
  have bound : ∀ a b c, a < s0 → b < s1 → c < s2 →
      a * s1 + b < s0 * s1 ∧ (a * s1 + b) * s2 + c < s0 * s1 * s2 := by
    intro a b c ha hb hc
    have e1 := linear_index_lt a b s0 s1 ha hb
    exact ⟨e1, linear_index_lt (a * s1 + b) c (s0 * s1) s2 e1 hc⟩
  have hs2 : 0 < s2 := by omega
  have value : ∀ a b c, a < s0 → b < s1 → c < s2 →
      contiguousIdx N [a, b, c] [s0, s1, s2] = some ((a * s1 + b) * s2 + c) := by
    intro a b c ha hb hc
    obtain ⟨e1, e2⟩ := bound a b c ha hb hc
    have e3 : (a * s1 + b) * s2 + c < 2 ^ N := by omega
    have e4 : a * s1 + b < 2 ^ N := by
      have : a * s1 + b ≤ (a * s1 + b) * s2 := Nat.le_mul_of_pos_right _ hs2
      omega
    rw [contiguousIdx_three, if_pos ⟨e4, e3⟩]
  obtain ⟨_, e2⟩ := bound i0 i1 i2 h0 h1 h2
  refine ⟨value i0 i1 i2 h0 h1 h2, e2, by omega, rfl, ?_⟩
  intro h
  rw [value i0 i1 i2 h0 h1 h2, value j0 j1 j2 g0 g1 g2] at h
  have h' := Option.some.inj h
  obtain ⟨q, r⟩ := linear_index_inj (i0 * s1 + i1) i2 (j0 * s1 + j1) j2 s2 h2 g2 h'
  obtain ⟨p0, p1⟩ := linear_index_inj i0 i1 j0 j1 s1 h1 g1 q
  exact ⟨p0, p1, r⟩

/-- Witness for C11: local sizes `(8, 8, 16)` with 64-bit indices, work-items
`(7, 7, 15)` and `(0, 1, 0)`. -/
theorem contiguousIdx_valid_slot_witness :
    (NumArrayElements ≤ 2 ^ 64 ∧ 8 * 8 * 16 ≤ NumArrayElements ∧ 7 < 8 ∧ 7 < 8 ∧ 15 < 16
      ∧ 0 < 8 ∧ 1 < 8 ∧ 0 < 16)
    ∧ contiguousIdx 64 [7, 7, 15] [8, 8, 16] = some ((7 * 8 + 7) * 16 + 15)
    ∧ (7 * 8 + 7) * 16 + 15 < NumArrayElements :=
  ⟨⟨by decide, by decide, by decide, by decide, by decide, by decide, by decide, by decide⟩,
   (contiguousIdx_valid_slot 64 8 8 16 7 7 15 0 1 0 (by decide) (by decide) (by decide)
      (by decide) (by decide) (by decide) (by decide) (by decide)).1,
   (contiguousIdx_valid_slot 64 8 8 16 7 7 15 0 1 0 (by decide) (by decide) (by decide)
      (by decide) (by decide) (by decide) (by decide) (by decide)).2.2.1⟩

/-! ## Dead PHI entries -/

/-- C17: if `F` is not a kernel to process or the chosen work-item handler is not CBS,
`runOnFunction` returns `false` and leaves `F` untouched; so does a run on a function
that the pass has already transformed, which by the spec is no longer a kernel to
process. -/
theorem runOnFunction_skips (ExitBarrierId : Nat) (K : KernelInfo)
    (h : K.isKernelToProcess = false ∨ K.chosenHandler ≠ WorkitemHandler.POCL_WIH_CBS) :
    runOnFunction ExitBarrierId K = PassResult.returned false none
    ∧ runOnFunction ExitBarrierId (alreadyTransformed K) = PassResult.returned false none := by
  constructor
  · unfold runOnFunction
    rcases h with h | h
    · simp [h]
    · by_cases hk : K.isKernelToProcess = true
      · simp [hk, h]
      · simp [hk]
  · simp [runOnFunction, alreadyTransformed]

/-- Witness for C17: `noExitKernel` with another handler chosen. -/
theorem runOnFunction_skips_witness :
    ({ noExitKernel with chosenHandler := WorkitemHandler.otherHandler }.isKernelToProcess
        = false
      ∨ { noExitKernel with chosenHandler := WorkitemHandler.otherHandler }.chosenHandler
        ≠ WorkitemHandler.POCL_WIH_CBS)
    ∧ runOnFunction 18446744073709551615
        { noExitKernel with chosenHandler := WorkitemHandler.otherHandler }
      = PassResult.returned false none :=
  ⟨Or.inr (by decide),
   (runOnFunction_skips 18446744073709551615
      { noExitKernel with chosenHandler := WorkitemHandler.otherHandler }
      (Or.inr (by decide))).1⟩

/-- C18, the code at the failing input: `noExitKernel` is a function whose entry block
has no predecessor and whose blocks all have a successor, so it has no exit block, and it
has no barriers; `runOnFunction` does not stop with a fatal error but returns after
`createLoopsAroundKernel` has built the loops with the null pointer as `AfterBB`.  The
same function with barriers is stopped by `formSubCfgs` with its message. -/
theorem runOnFunction_no_exit_block :
    noExitKernel.F.Closed ∧ noExitKernel.F.EntryHasNoPreds
    ∧ (∀ BB ∈ noExitKernel.F.blocks, noExitKernel.F.succ BB ≠ [])
    ∧ exitingBlocks noExitKernel.F = []
    ∧ runOnFunction 18446744073709551615 noExitKernel
        = PassResult.returned false
            (some (Transformed.loopsAroundKernel none 1 (createLoopsAround 1)))
    ∧ (∀ message, runOnFunction 18446744073709551615 noExitKernel
        ≠ PassResult.fatal message)
    ∧ runOnFunction 18446744073709551615 { noExitKernel with hasWorkgroupBarriers := true }
        = PassResult.fatal "[SubCFG] Invalid kernel! No kernel exits!\n" := by
  refine ⟨by decide, by decide, by decide, by decide, by decide, ?_, by decide⟩
  intro message h
  have h2 : runOnFunction 18446744073709551615 noExitKernel
      = PassResult.returned false
          (some (Transformed.loopsAroundKernel none 1 (createLoopsAround 1))) := by decide
  rw [h2] at h
  exact PassResult.noConfusion h

/-! ## Backing slots of values used in several SubCFGs -/

theorem chooseBacking_load (insts : Instructions) (isUniform : Nat → Bool) (R ContIdx : Nat)
    (I A : Instruction) (h1 : I.opcode = Opcode.Load)
    (h2 : getLoopStateAllocaForLoad insts I = some A) :
    chooseBacking insts isUniform R ContIdx I = Backing.reuse A.id := by
  simp [chooseBacking, h1, h2]

theorem chooseBacking_not_load (insts : Instructions) (isUniform : Nat → Bool)
    (R ContIdx : Nat) (I : Instruction)
    (h1 : ¬ (I.opcode = Opcode.Load ∧ (getLoopStateAllocaForLoad insts I).isSome = true)) :
    chooseBacking insts isUniform R ContIdx I
      = if I.opcode = Opcode.GetElementPtr ∧ I.arrayified = true then
          match insts.asAlloca (I.operands.headD (Value.other 0)) with
          | some Alloca => Backing.reuse Alloca.id
          | none => Backing.badCast
        else if isUniform I.id then arrayifyInstruction insts I ContIdx 1
        else arrayifyInstruction insts I ContIdx R := by
  unfold chooseBacking
  by_cases hl : I.opcode = Opcode.Load
  · have hn : getLoopStateAllocaForLoad insts I = none := by
      cases h : getLoopStateAllocaForLoad insts I with
      | none => rfl
      | some A => exact absurd ⟨hl, by simp [h]⟩ h1
    simp [hl, hn]
  · simp [hl]

/-- What `arrayifyInstruction` makes for one element: an alloca without array size and
alignment, and a store to the alloca itself, without a GEP. -/
theorem arrayifyInstruction_one (insts : Instructions) (I : Instruction) (Idx : Nat) :
    arrayifyInstruction insts I Idx 1
      = Backing.fresh { ArraySize := 1, Alignment := none, arrayified := true }
          SlotPointer.alloca (insertionPoint insts I) := by
  simp [arrayifyInstruction, arrayifyValue]

/-- What `arrayifyInstruction` makes for more than one element, a number within 32 bits:
an alloca of that many elements with the default alignment, and a store through a GEP by
the index. -/
theorem arrayifyInstruction_wide (insts : Instructions) (I : Instruction) (Idx R : Nat)
    (h1 : 1 < R) (h32 : R < 4294967296) :
    arrayifyInstruction insts I Idx R
      = Backing.fresh { ArraySize := R, Alignment := some DefaultAlignment, arrayified := true }
          (SlotPointer.gep Idx) (insertionPoint insts I) := by
  have hne : R ≠ 1 := by omega
  have hm : R % 4294967296 = R := Nat.mod_eq_of_lt h32
  simp [arrayifyInstruction, arrayifyValue, hne, hm, h1]

/-- C15 fails as stated: a PHI that is followed by another PHI and is used in another
SubCFG gets an alloca of `NumArrayElements` slots and a store at the slot of the index,
but the store is put in front of the instruction at position 2 of its block, behind the
second PHI, not at position 1 immediately after it. -/
theorem arrayifyVisit_phi_counterexample :
    arrayifyVisit phiExample (fun _ => false) NumArrayElements 0 [2] []
        { id := 1, parent := 1, opcode := Opcode.PHI, operands := [], arrayified := false }
      = [(1, Backing.fresh
            { ArraySize := NumArrayElements, Alignment := some DefaultAlignment,
              arrayified := true }
            (SlotPointer.gep 0) 2)]
    ∧ (phiExample.ofBlock 1).findIdx (fun I => I.id == 1) + 1 ≠ 2 := by
  decide

/-- C15 (amended): for an instruction `I` that `arrayifyMultiSubCfgValues` treats as
used in another SubCFG, an `I` already in the map is left as it is, and otherwise the
slot recorded for `I` follows the first applicable rule: (1) `I` is a load from an
arrayified alloca: that alloca; (2) `I` is a GEP tagged arrayified: its base alloca;
(3) `I` is uniform: a new alloca of one slot (the value is stored to the alloca itself);
(4) otherwise a new alloca of `ReqdArrayElements` slots with a store of `I` through a GEP
by `ContIdx_`, that is at the slot of the contiguous index (`ReqdArrayElements` is
`NumArrayElements` at the call, more than 1 and within 32 bits).  The store is put
immediately after `I` when `I` is no PHI, and in front of the first instruction of the
block of `I` that is no PHI when `I` is a PHI. -/
theorem arrayifyVisit_backing (insts : Instructions) (isUniform : Nat → Bool)
    (ReqdArrayElements ContIdx : Nat) (OtherCFGBlocks : List BasicBlock)
    (InstAllocaMap : AllocaMap) (I : Instruction)
    (hI : I.id ≠ ContIdx) (hused : usedInOtherCFG insts OtherCFGBlocks I = true) :
    (∀ b, AllocaMap.lookup InstAllocaMap I.id = some b →
        arrayifyVisit insts isUniform ReqdArrayElements ContIdx OtherCFGBlocks InstAllocaMap I
          = InstAllocaMap)
    ∧ (AllocaMap.lookup InstAllocaMap I.id = none →
        arrayifyVisit insts isUniform ReqdArrayElements ContIdx OtherCFGBlocks InstAllocaMap I
          = (I.id, chooseBacking insts isUniform ReqdArrayElements ContIdx I)
              :: InstAllocaMap)
    ∧ (∀ A, I.opcode = Opcode.Load → getLoopStateAllocaForLoad insts I = some A →
        chooseBacking insts isUniform ReqdArrayElements ContIdx I = Backing.reuse A.id)
    ∧ (¬ (I.opcode = Opcode.Load ∧ (getLoopStateAllocaForLoad insts I).isSome = true) →
        (∀ A, I.opcode = Opcode.GetElementPtr → I.arrayified = true →
          insts.asAlloca (I.operands.headD (Value.other 0)) = some A →
          chooseBacking insts isUniform ReqdArrayElements ContIdx I = Backing.reuse A.id)
        ∧ (¬ (I.opcode = Opcode.GetElementPtr ∧ I.arrayified = true) →
            (isUniform I.id = true →
              chooseBacking insts isUniform ReqdArrayElements ContIdx I
                = Backing.fresh { ArraySize := 1, Alignment := none, arrayified := true }
                    SlotPointer.alloca (insertionPoint insts I))
            ∧ (isUniform I.id = false →
              chooseBacking insts isUniform ReqdArrayElements ContIdx I
                = Backing.fresh (arrayifyValue ContIdx ReqdArrayElements).1
                    (arrayifyValue ContIdx ReqdArrayElements).2 (insertionPoint insts I)
              ∧ (1 < ReqdArrayElements → ReqdArrayElements < 4294967296 →
                chooseBacking insts isUniform ReqdArrayElements ContIdx I
                  = Backing.fresh
                      { ArraySize := ReqdArrayElements, Alignment := some DefaultAlignment,
                        arrayified := true }
                      (SlotPointer.gep ContIdx) (insertionPoint insts I)))))
    ∧ (I.opcode ≠ Opcode.PHI →
        insertionPoint insts I
          = (insts.ofBlock I.parent).findIdx (fun J => J.id == I.id) + 1)
    ∧ (I.opcode = Opcode.PHI →
        insertionPoint insts I
          = (insts.ofBlock I.parent).findIdx (fun J => J.opcode != Opcode.PHI)) := by
  refine ⟨?_, ?_, ?_, ?_, ?_, ?_⟩
  · intro b hb
    simp [arrayifyVisit, hI, hb]
  · intro hn
    simp [arrayifyVisit, hI, hn, hused]
  · intro A h1 h2
    exact chooseBacking_load insts isUniform ReqdArrayElements ContIdx I A h1 h2
  · intro h1
    rw [chooseBacking_not_load insts isUniform ReqdArrayElements ContIdx I h1]
    refine ⟨?_, ?_⟩
    · intro A h2 h3 h4
      rw [if_pos ⟨h2, h3⟩, h4]
    · intro h2
      refine ⟨?_, ?_⟩
      · intro h3
        rw [if_neg h2, if_pos h3, arrayifyInstruction_one]
      · intro h3
        rw [if_neg h2, if_neg (by simp [h3])]
        refine ⟨rfl, ?_⟩
        intro hR1 hR32
        exact arrayifyInstruction_wide insts I ContIdx ReqdArrayElements hR1 hR32
  · intro h
    simp [insertionPoint, h]
  · intro h
    simp [insertionPoint, h]

/-- Witness for C15 (amended): the PHI 1 of `phiExample`, used in block 2, with
`NumArrayElements` slots and the index instruction 0. -/
theorem arrayifyVisit_backing_witness :
    ((1 : Nat) ≠ 0 ∧ usedInOtherCFG phiExample [2]
        { id := 1, parent := 1, opcode := Opcode.PHI, operands := [], arrayified := false }
          = true)
    ∧ arrayifyVisit phiExample (fun _ => false) NumArrayElements 0 [2] []
          { id := 1, parent := 1, opcode := Opcode.PHI, operands := [], arrayified := false }
        = (1, chooseBacking phiExample (fun _ => false) NumArrayElements 0
            { id := 1, parent := 1, opcode := Opcode.PHI, operands := [],
              arrayified := false }) :: []
    ∧ chooseBacking phiExample (fun _ => false) NumArrayElements 0
          { id := 1, parent := 1, opcode := Opcode.PHI, operands := [], arrayified := false }
        = Backing.fresh
            { ArraySize := NumArrayElements, Alignment := some DefaultAlignment,
              arrayified := true }
            (SlotPointer.gep 0)
            (insertionPoint phiExample
              { id := 1, parent := 1, opcode := Opcode.PHI, operands := [],
                arrayified := false }) :=
  ⟨⟨by decide, by decide⟩,
   (arrayifyVisit_backing phiExample (fun _ => false) NumArrayElements 0 [2] []
      { id := 1, parent := 1, opcode := Opcode.PHI, operands := [], arrayified := false }
      (by decide) (by decide)).2.1 rfl,
   (((((arrayifyVisit_backing phiExample (fun _ => false) NumArrayElements 0 [2] []
      { id := 1, parent := 1, opcode := Opcode.PHI, operands := [], arrayified := false }
      (by decide) (by decide)).2.2.2.1 (by decide)).2 (by decide)).2 rfl).2
        (by decide) (by decide))⟩

/-! ## Coverage of the instruction-to-alloca map -/

theorem foldl_established {α β : Type} (f : β → α → β) (P : β → Prop) (l : List α) (a : α)
    (ha : a ∈ l) (hest : ∀ b, P (f b a)) (hpres : ∀ b x, P b → P (f b x)) :
    ∀ b, P (l.foldl f b) := by
  have hkeep : ∀ (l' : List α) (b : β), P b → P (l'.foldl f b) := by
    intro l'
    induction l' with
    | nil => intro b hb; exact hb
    | cons x rest ih => intro b hb; exact ih _ (hpres b x hb)
  induction l with
  | nil => simp at ha
  | cons x rest ih =>
    intro b
    rw [List.foldl_cons]
    rcases List.mem_cons.mp ha with h | h
    · subst h
      exact hkeep rest _ (hest b)
    · exact ih h _

theorem AllocaMap.lookup_cons_ne_none (m : AllocaMap) (k : Nat) (b : Backing) (id : Nat)
    (h : AllocaMap.lookup m id ≠ none) : AllocaMap.lookup ((k, b) :: m) id ≠ none := by
  unfold AllocaMap.lookup
  by_cases hk : k = id
  · simp [hk]
  · simpa [hk] using h

theorem arrayifyVisit_keeps (insts : Instructions) (isUniform : Nat → Bool) (R ContIdx : Nat)
    (Other : List BasicBlock) (m : AllocaMap) (I : Instruction) (id : Nat)
    (h : AllocaMap.lookup m id ≠ none) :
    AllocaMap.lookup (arrayifyVisit insts isUniform R ContIdx Other m I) id ≠ none := by
  unfold arrayifyVisit
  split
  · exact h
  · split
    · exact h
    · split
      · exact AllocaMap.lookup_cons_ne_none m _ _ id h
      · exact h

theorem arrayifyVisit_records (insts : Instructions) (isUniform : Nat → Bool)
    (R ContIdx : Nat) (Other : List BasicBlock) (m : AllocaMap) (I : Instruction)
    (hI : I.id ≠ ContIdx) (hused : usedInOtherCFG insts Other I = true) :
    AllocaMap.lookup (arrayifyVisit insts isUniform R ContIdx Other m I) I.id ≠ none := by
  unfold arrayifyVisit
  rw [if_neg hI]
  by_cases h : (AllocaMap.lookup m I.id).isSome = true
  · rw [if_pos h]
    intro hn
    rw [hn] at h
    exact Bool.noConfusion h
  · rw [if_neg h, if_pos hused]
    simp [AllocaMap.lookup]

theorem arrayifyMultiSubCfgValues_keeps (insts : Instructions) (isUniform : Nat → Bool)
    (R ContIdx : Nat) (SubCFGs : List SubCFG) (this : Nat) (m : AllocaMap) (id : Nat)
    (h : AllocaMap.lookup m id ≠ none) :
    AllocaMap.lookup (arrayifyMultiSubCfgValues insts isUniform R ContIdx SubCFGs this m) id
      ≠ none := by
  unfold arrayifyMultiSubCfgValues
  cases SubCFGs[this]? with
  | none => exact h
  | some Cfg =>
    simp only
    generalize Cfg.Blocks_.flatMap (fun BB => insts.ofBlock BB) = l
    induction l generalizing m with
    | nil => exact h
    | cons x rest ih =>
      rw [List.foldl_cons]
      exact ih _ (arrayifyVisit_keeps insts isUniform R ContIdx _ m x id h)

theorem mem_otherCFGBlocks (SubCFGs : List SubCFG) (this j : Nat) (Cfg : SubCFG)
    (hj : j ≠ this) (hc : SubCFGs[j]? = some Cfg) (BB : BasicBlock) (hBB : BB ∈ Cfg.Blocks_) :
    BB ∈ otherCFGBlocks SubCFGs this := by
  unfold otherCFGBlocks
  rw [List.mem_flatMap]
  refine ⟨j, ?_, ?_⟩
  · rw [List.mem_filter, List.mem_range]
    refine ⟨?_, by simpa using hj⟩
    by_contra hlt
    rw [List.getElem?_eq_none (by omega)] at hc
    exact Option.noConfusion hc
  · rw [hc]
    exact hBB

/-- C16 fails as stated: in `sharedBlockKernel` block 3 is a block of the SubCFG of
barrier 1 and of the SubCFG of barrier 2; instruction 10 of block 3 has the user 11 in
block 3, a block of another SubCFG, and gets no entry in the map. -/
theorem arrayifyAll_same_block_counterexample :
    ∃ cfgs, createSubCFGs 18446744073709551615 sharedBlockBarriers sharedBlockKernel
        = some cfgs
      ∧ (∃ c, cfgs[1]? = some c ∧ c.EntryBarrier_ = 1 ∧ 3 ∈ c.Blocks_)
      ∧ (∃ c', cfgs[0]? = some c' ∧ c'.EntryBarrier_ = 2 ∧ 3 ∈ c'.Blocks_)
      ∧ (∃ I ∈ sharedBlockInsts, ∃ UI ∈ sharedBlockInsts,
          I.id = 10 ∧ I.parent = 3 ∧ UI.parent = 3 ∧ Value.inst I.id ∈ UI.operands)
      ∧ AllocaMap.lookup (arrayifyAllSubCfgValues sharedBlockInsts (fun _ => false) 0 cfgs) 10
          = none :=
  ⟨_, rfl, ⟨_, rfl, by decide, by decide⟩, ⟨_, rfl, by decide, by decide⟩, by decide,
    by decide⟩

/-- C16 (amended): after `arrayifyMultiSubCfgValues` has run for every SubCFG, every
instruction of a block of a SubCFG, other than the placeholder index, that has a user
instruction in a different block that is a block of another SubCFG has an entry in the
instruction-to-alloca map. -/
theorem arrayifyAll_covers (insts : Instructions) (isUniform : Nat → Bool) (ContIdx : Nat)
    (SubCFGs : List SubCFG) (i j : Nat) (c c' : SubCFG) (I UI : Instruction)
    (hc : SubCFGs[i]? = some c) (hI : I ∈ insts) (hIb : I.parent ∈ c.Blocks_)
    (hne : I.id ≠ ContIdx) (hU : UI ∈ insts) (huse : Value.inst I.id ∈ UI.operands)
    (hpar : UI.parent ≠ I.parent) (hj : j ≠ i) (hc' : SubCFGs[j]? = some c')
    (hUb : UI.parent ∈ c'.Blocks_) :
    AllocaMap.lookup (arrayifyAllSubCfgValues insts isUniform ContIdx SubCFGs) I.id ≠ none := by
  have hi : i < SubCFGs.length := by
    by_contra hlt
    rw [List.getElem?_eq_none (by omega)] at hc
    exact Option.noConfusion hc
  have hused : usedInOtherCFG insts (otherCFGBlocks SubCFGs i) I = true := by
    unfold usedInOtherCFG
    rw [List.any_eq_true]
    refine ⟨UI, ?_, ?_⟩
    · unfold Instructions.users
      rw [List.mem_filter]
      exact ⟨hU, by simpa using huse⟩
    · have := mem_otherCFGBlocks SubCFGs i j c' hj hc' UI.parent hUb
      simp [hpar, this]
  unfold arrayifyAllSubCfgValues
  apply foldl_established _ (fun m => AllocaMap.lookup m I.id ≠ none)
    (List.range SubCFGs.length) i (List.mem_range.mpr hi)
  · intro m
    unfold arrayifyMultiSubCfgValues
    rw [hc]
    simp only
    apply foldl_established _ (fun m => AllocaMap.lookup m I.id ≠ none) _ I
    · rw [List.mem_flatMap]
      refine ⟨I.parent, hIb, ?_⟩
      unfold Instructions.ofBlock
      rw [List.mem_filter]
      exact ⟨hI, by simp⟩
    · intro m'
      exact arrayifyVisit_records insts isUniform _ ContIdx _ m' I hne hused
    · intro m' x hm'
      exact arrayifyVisit_keeps insts isUniform _ ContIdx _ m' x I.id hm'
  · intro m x hm
    exact arrayifyMultiSubCfgValues_keeps insts isUniform _ ContIdx SubCFGs x m I.id hm

/-- Witness for C16 (amended): two SubCFGs with the blocks 1 and 2; the PHI 1 of
`phiExample` is in block 1 and is used by instruction 4 in block 2. -/
theorem arrayifyAll_covers_witness :
    AllocaMap.lookup
        (arrayifyAllSubCfgValues phiExample (fun _ => false) 0
          [{ Blocks_ := [1], EntryId_ := 0, EntryBarrier_ := 0, ExitIds_ := [],
             assertsHeld := true },
           { Blocks_ := [2], EntryId_ := 1, EntryBarrier_ := 5, ExitIds_ := [],
             assertsHeld := true }])
        1 ≠ none :=
  arrayifyAll_covers phiExample (fun _ => false) 0
    [{ Blocks_ := [1], EntryId_ := 0, EntryBarrier_ := 0, ExitIds_ := [],
       assertsHeld := true },
     { Blocks_ := [2], EntryId_ := 1, EntryBarrier_ := 5, ExitIds_ := [],
       assertsHeld := true }]
    0 1
    { Blocks_ := [1], EntryId_ := 0, EntryBarrier_ := 0, ExitIds_ := [], assertsHeld := true }
    { Blocks_ := [2], EntryId_ := 1, EntryBarrier_ := 5, ExitIds_ := [], assertsHeld := true }
    { id := 1, parent := 1, opcode := Opcode.PHI, operands := [], arrayified := false }
    { id := 4, parent := 2, opcode := Opcode.Other, operands := [Value.inst 1],
      arrayified := false }
    rfl (by decide) (by decide) (by decide) (by decide) (by decide) (by decide) (by decide)
    rfl (by decide)

/-! ## C19: the loads of the local ids in a kernel without barriers -/

/-- C19: on a kernel body that loads `_local_id_x` twice (local sizes `(4, 1, 1)`, so
`Dim = 1`), `createLoopsAroundKernel` erases only the first load and redirects only its
user to the induction variable of dimension 0: the second load is still in the function
and its user still uses it. With a single load the load is gone and its user uses the
induction variable. -/
theorem createLoopsAroundKernel_second_load_stays :
    selectDim [4, 1, 1] false = 1 ∧
    createLoopsAroundKernelInsts 0 [0] false 1 (Value.indVar 0) twoLoadsInsts =
      [{ id := 2, parent := 0, opcode := Opcode.Other, operands := [Value.indVar 0],
         arrayified := false },
       { id := 3, parent := 0, opcode := Opcode.Load,
         operands := [Value.global "_local_id_x"], arrayified := false },
       { id := 4, parent := 0, opcode := Opcode.Other, operands := [Value.inst 3],
         arrayified := false },
       { id := 6, parent := 0, opcode := Opcode.Load, operands := [Value.other 0],
         arrayified := false },
       { id := 5, parent := 0, opcode := Opcode.Other, operands := [], arrayified := false }] ∧
    ((createLoopsAroundKernelInsts 0 [0] false 1 (Value.indVar 0) twoLoadsInsts).any
      (isLoadOf "_local_id_x")) = true ∧
    ((createLoopsAroundKernelInsts 0 [0] false 1 (Value.indVar 0) oneLoadInsts).any
      (isLoadOf "_local_id_x")) = false := by
  refine ⟨by decide, by rfl, by rfl, by rfl⟩

/-! ## C20: which allocas are widened -/

theorem stackInv_mono (insts : Instructions) (m p : Instruction → Bool)
    (Seen Seen' : List Instruction) (hS : ∀ U, U ∈ Seen → U ∈ Seen') :
    ∀ (r above above' : List Instruction),
      StackInv insts m p Seen above r →
      (∀ U ∈ above, U ∈ Seen' ∨ U ∈ above') →
      (∀ X ∈ r, X ∈ Seen' → X ∉ Seen → ∀ U ∈ insts.users X, (m U || p U) = true →
        U ∈ Seen' ∨ U ∈ above') →
      StackInv insts m p Seen' above' r := by
  intro r
  induction r with
  | nil => intro above above' _ _ _; trivial
  | cons X below ih =>
    intro above above' h hab hnew
    obtain ⟨h1, h2⟩ := h
    refine ⟨?_, ?_⟩
    · intro hX U hU hf
      by_cases hXS : X ∈ Seen
      · rcases h1 hXS U hU hf with h | h
        · exact Or.inl (hS U h)
        · exact hab U h
      · exact hnew X (List.mem_cons_self _ _) hX hXS U hU hf
    · apply ih (X :: above) (X :: above') h2
      · intro U hU
        rcases List.mem_cons.mp hU with h | h
        · exact Or.inr (h ▸ List.mem_cons_self _ _)
        · rcases hab U h with h | h
          · exact Or.inl h
          · exact Or.inr (List.mem_cons_of_mem _ h)
      · intro Y hY hYS hYn U hU hf
        rcases hnew Y (List.mem_cons_of_mem _ hY) hYS hYn U hU hf with h | h
        · exact Or.inl h
        · exact Or.inr (List.mem_cons_of_mem _ h)

theorem stackInv_pushed (insts : Instructions) (m p : Instruction → Bool)
    (Seen : List Instruction) :
    ∀ (pushed above r : List Instruction), (∀ X ∈ pushed, X ∉ Seen) →
      StackInv insts m p Seen (pushed.reverse ++ above) r →
      StackInv insts m p Seen above (pushed ++ r) := by
  intro pushed
  induction pushed with
  | nil => intro above r _ h; simpa using h
  | cons X rest ih =>
    intro above r hn h
    refine ⟨fun hX => absurd hX (hn X (List.mem_cons_self _ _)), ?_⟩
    apply ih (X :: above) r (fun Y hY => hn Y (List.mem_cons_of_mem _ hY))
    simpa using h

theorem unseen_sum_le (g : Instruction → Nat) (T : Instruction)
    (Seen : List Instruction) :
    ∀ l : List Instruction,
      ((l.filter (fun X => !(T :: Seen).contains X)).map g).sum +
          (if T ∈ l ∧ T ∉ Seen then g T else 0) ≤
        ((l.filter (fun X => !Seen.contains X)).map g).sum := by
  intro l
  induction l with
  | nil => simp
  | cons Y l ih =>
    by_cases hYT : Y = T
    · subst hYT
      by_cases hYS : Y ∈ Seen
      · simp [List.filter_cons, hYS] at ih ⊢
        exact ih
      · simp [List.filter_cons, hYS] at ih ⊢
        split at ih <;> omega
    · have hTY : ¬ T = Y := fun h => hYT h.symm
      by_cases hYS : Y ∈ Seen
      · simp [List.filter_cons, hYS, hYT, hTY] at ih ⊢
        exact ih
      · simp [List.filter_cons, hYS, hYT, hTY] at ih ⊢
        omega

theorem hullVisit_inv (insts : Instructions) (m p : Instruction → Bool) (st : HullState)
    (T : Instruction) (rest : List Instruction) (hWL : st.WL = T :: rest)
    (hinv : StackInv insts m p st.AlreadySeen [] st.WL) (hsub : ∀ X ∈ st.WL, X ∈ insts) :
    StackInv insts m p (hullVisit insts m p st T rest).AlreadySeen []
        (hullVisit insts m p st T rest).WL ∧
      (∀ X ∈ (hullVisit insts m p st T rest).WL, X ∈ insts) ∧
      hullPotential insts (hullVisit insts m p st T rest) < hullPotential insts st := by
  rw [hWL] at hinv hsub
  obtain ⟨h1, h2⟩ := hinv
  have hpush : ∀ X, X ∈ ((insts.users T).filter (fun UI =>
        !(T :: st.AlreadySeen).contains UI && (m UI || p UI))).reverse ↔
      X ∈ insts.users T ∧ X ∉ T :: st.AlreadySeen ∧ (m X || p X) = true := by
    intro X
    simp only [List.mem_reverse, List.mem_filter, Bool.and_eq_true, Bool.not_eq_true',
      List.contains_eq_any_beq, List.any_eq_false, beq_iff_eq]
    constructor
    · rintro ⟨a, b, c⟩
      refine ⟨a, ?_, c⟩
      intro hmem
      exact b X hmem (by simp)
    · rintro ⟨a, b, c⟩
      refine ⟨a, ?_, c⟩
      intro Y hY hYX
      have : X = Y := by simpa using hYX
      exact b (this ▸ hY)
  refine ⟨?_, ?_, ?_⟩
  · show StackInv insts m p (T :: st.AlreadySeen) [] (_ ++ rest)
    apply stackInv_pushed
    · intro X hX
      exact ((hpush X).mp hX).2.1
    · apply stackInv_mono insts m p st.AlreadySeen (T :: st.AlreadySeen)
        (fun U hU => List.mem_cons_of_mem _ hU) rest [T] _ h2
      · intro U hU
        left
        rw [List.mem_singleton.mp hU]
        exact List.mem_cons_self _ _
      · intro X _ hXS hXn U hU hf
        have hXT : X = T := by
          rcases List.mem_cons.mp hXS with h | h
          · exact h
          · exact absurd h hXn
        subst hXT
        by_cases hUS : U ∈ X :: st.AlreadySeen
        · exact Or.inl hUS
        · right
          rw [List.append_nil, List.mem_reverse]
          exact (hpush U).mpr ⟨hU, hUS, hf⟩
  · intro X hX
    show X ∈ insts
    have hX' : X ∈ ((insts.users T).filter (fun UI =>
        !(T :: st.AlreadySeen).contains UI && (m UI || p UI))).reverse ++ rest := hX
    rcases List.mem_append.mp hX' with h | h
    · exact (List.mem_filter.mp ((hpush X).mp h).1).1
    · exact hsub X (List.mem_cons_of_mem _ h)
  · have hT : T ∈ insts := hsub T (List.mem_cons_self _ _)
    have hsum := unseen_sum_le (fun X => (insts.users X).length + 1) T st.AlreadySeen insts
    have hlen : (((insts.users T).filter (fun UI =>
        !(T :: st.AlreadySeen).contains UI && (m UI || p UI))).reverse ++ rest).length ≤
        (insts.users T).length + rest.length := by
      rw [List.length_append, List.length_reverse]
      exact Nat.add_le_add_right (List.length_filter_le _ _) _
    by_cases hTS : T ∈ st.AlreadySeen
    · have hnil : ((insts.users T).filter (fun UI =>
          !(T :: st.AlreadySeen).contains UI && (m UI || p UI))).reverse = [] := by
        apply List.eq_nil_iff_forall_not_mem.mpr
        intro X hX
        obtain ⟨a, b, c⟩ := (hpush X).mp hX
        rcases h1 hTS X a c with h | h
        · exact b (List.mem_cons_of_mem _ h)
        · exact absurd h (List.not_mem_nil _)
      have hsame : insts.filter (fun X => !(T :: st.AlreadySeen).contains X) =
          insts.filter (fun X => !st.AlreadySeen.contains X) := by
        apply List.filter_congr
        intro X _
        by_cases hXT : X = T
        · subst hXT
          simp [hTS]
        · simp [hXT]
      have hS : (hullVisit insts m p st T rest).AlreadySeen = T :: st.AlreadySeen := rfl
      have hW : (hullVisit insts m p st T rest).WL = ((insts.users T).filter (fun UI =>
          !(T :: st.AlreadySeen).contains UI && (m UI || p UI))).reverse ++ rest := rfl
      unfold hullPotential
      rw [hS, hW, hnil, hWL, hsame]
      simp
    · rw [if_pos ⟨hT, hTS⟩] at hsum
      have hS : (hullVisit insts m p st T rest).AlreadySeen = T :: st.AlreadySeen := rfl
      have hW : (hullVisit insts m p st T rest).WL = ((insts.users T).filter (fun UI =>
          !(T :: st.AlreadySeen).contains UI && (m UI || p UI))).reverse ++ rest := rfl
      unfold hullPotential
      rw [hS, hW, hWL, List.length_cons]
      omega

theorem hullLoop_terminates (insts : Instructions) (m p : Instruction → Bool) :
    ∀ (fuel : Nat) (st : HullState), hullPotential insts st ≤ fuel →
      StackInv insts m p st.AlreadySeen [] st.WL → (∀ X ∈ st.WL, X ∈ insts) →
      ∃ r, hullLoop insts m p fuel st = some r ∧ r.WL = [] ∧
        ∀ U, U ∈ st.WL ∨ U ∈ st.Hull → U ∈ r.Hull := by
  intro fuel
  induction fuel with
  | zero =>
    intro st hpot _ _
    have hlen : st.WL.length = 0 := by
      unfold hullPotential at hpot
      omega
    have hnil : st.WL = [] := List.length_eq_zero.mp hlen
    refine ⟨st, by simp [hullLoop, hnil], hnil, ?_⟩
    intro U hU
    rcases hU with h | h
    · rw [hnil] at h
      exact absurd h (List.not_mem_nil _)
    · exact h
  | succ fuel ih =>
    intro st hpot hinv hsub
    cases hWL : st.WL with
    | nil =>
      refine ⟨st, by simp [hullLoop, hWL], hWL, ?_⟩
      intro U hU
      rcases hU with h | h
      · exact absurd h (List.not_mem_nil _)
      · exact h
    | cons T rest =>
      obtain ⟨h1, h2, h3⟩ := hullVisit_inv insts m p st T rest hWL hinv hsub
      obtain ⟨r, hr, hrWL, hrH⟩ := ih (hullVisit insts m p st T rest) (by omega) h1 h2
      refine ⟨r, by simp only [hullLoop, hWL]; exact hr, hrWL, ?_⟩
      intro U hU
      apply hrH
      rcases hU with h | h
      · rcases List.mem_cons.mp h with h | h
        · right
          show U ∈ st.Hull ++ [T]
          simp [h]
        · left
          show U ∈ _ ++ rest
          exact List.mem_append_right _ h
      · right
        show U ∈ st.Hull ++ [T]
        exact List.mem_append_left _ h

theorem stackInv_nil_seen (insts : Instructions) (m p : Instruction → Bool) :
    ∀ (l above : List Instruction), StackInv insts m p [] above l := by
  intro l
  induction l with
  | nil => intro _; trivial
  | cons X l ih => intro above; exact ⟨fun h => absurd h (List.not_mem_nil _), ih _⟩

theorem fillUserHull_total (insts : Instructions) (m p : Instruction → Bool)
    (Alloca : Instruction) :
    ∃ Users, fillUserHull insts m p Alloca = some Users ∧
      ∀ U ∈ insts.users Alloca, U ∈ Users := by
  obtain ⟨r, hr, _, hH⟩ := hullLoop_terminates insts m p (hullFuel insts Alloca)
    { WL := (insts.users Alloca).reverse, AlreadySeen := [], Hull := [] }
    (by simp [hullPotential, hullFuel])
    (stackInv_nil_seen insts m p _ _)
    (by
      intro X hX
      exact (List.mem_filter.mp (List.mem_reverse.mp hX)).1)
  refine ⟨r.Hull, by simp [fillUserHull, hr], ?_⟩
  intro U hU
  exact hH U (Or.inl (List.mem_reverse.mpr hU))

theorem collectAllocas_total (f : Instruction → Option Bool)
    (hf : ∀ I, ∃ b, f I = some b) :
    ∀ l : List Instruction,
      collectAllocas f l = some (l.filter (fun I => f I == some true)) := by
  intro l
  induction l with
  | nil => rfl
  | cons I l ih =>
    obtain ⟨b, hb⟩ := hf I
    cases b with
    | true => simp [collectAllocas, hb, ih]
    | false => simp [collectAllocas, hb, ih]

theorem allInOneSubCfg_iff (Users : List Instruction) (NewBlocks : List (List BasicBlock)) :
    allInOneSubCfg (Users.map (fun I => I.parent)) NewBlocks = true ↔
      ∀ S ∈ NewBlocks, (∃ U ∈ Users, U.parent ∈ S) → ∀ U ∈ Users, U.parent ∈ S := by
  have key : ∀ S : List BasicBlock,
      (!((Users.map (fun I => I.parent)).any (fun BB => S.contains BB) &&
        !(Users.map (fun I => I.parent)).all (fun BB => S.contains BB))) = true ↔
      ((∃ U ∈ Users, U.parent ∈ S) → ∀ U ∈ Users, U.parent ∈ S) := by
    intro S
    by_cases hex : ∃ U ∈ Users, U.parent ∈ S
    · have hany : (Users.map (fun I => I.parent)).any (fun BB => S.contains BB) = true := by
        obtain ⟨U, hU, hm⟩ := hex
        exact List.any_eq_true.mpr ⟨U.parent, List.mem_map.mpr ⟨U, hU, rfl⟩, by simpa using hm⟩
      rw [hany]
      by_cases hall : ∀ U ∈ Users, U.parent ∈ S
      · have : (Users.map (fun I => I.parent)).all (fun BB => S.contains BB) = true := by
          apply List.all_eq_true.mpr
          intro b hb
          obtain ⟨U, hU, rfl⟩ := List.mem_map.mp hb
          simpa using hall U hU
        rw [this]
        simp only [Bool.not_true, Bool.and_false, Bool.not_false, true_iff]
        exact fun _ => hall
      · have : (Users.map (fun I => I.parent)).all (fun BB => S.contains BB) = false := by
          apply Bool.eq_false_iff.mpr
          intro h
          apply hall
          intro U hU
          have := List.all_eq_true.mp h U.parent (List.mem_map.mpr ⟨U, hU, rfl⟩)
          simpa using this
        rw [this]
        simp only [Bool.not_false, Bool.and_self, Bool.not_true, Bool.false_eq_true, false_iff]
        exact fun h => hall (h hex)
    · have hany : (Users.map (fun I => I.parent)).any (fun BB => S.contains BB) = false := by
        apply Bool.eq_false_iff.mpr
        intro h
        obtain ⟨b, hb, hc⟩ := List.any_eq_true.mp h
        obtain ⟨U, hU, rfl⟩ := List.mem_map.mp hb
        exact hex ⟨U, hU, by simpa using hc⟩
      rw [hany]
      simp only [Bool.false_and, Bool.not_false, true_iff]
      exact fun h => absurd h hex
  unfold allInOneSubCfg
  rw [List.all_eq_true]
  constructor
  · intro h S hS
    exact (key S).mp (h S hS)
  · intro h S hS
    exact (key S).mpr (h S hS)

theorem anyUserOutside_iff (insts : Instructions) (A : Instruction)
    (NewBlocks : List (List BasicBlock)) :
    (insts.users A).any (fun UI => !NewBlocks.flatten.contains UI.parent) = true ↔
      ∃ UI ∈ insts.users A, ∀ S ∈ NewBlocks, UI.parent ∉ S := by
  simp only [List.any_eq_true, Bool.not_eq_true', List.contains_eq_any_beq, List.any_eq_false,
    beq_iff_eq, List.mem_flatten]
  constructor
  · rintro ⟨UI, hUI, h⟩
    refine ⟨UI, hUI, fun S hS hm => ?_⟩
    exact h UI.parent ⟨S, hS, hm⟩ (by simp)
  · rintro ⟨UI, hUI, h⟩
    refine ⟨UI, hUI, fun b hb hbe => ?_⟩
    obtain ⟨S, hS, hm⟩ := hb
    have : UI.parent = b := by simpa using hbe
    exact h S hS (this ▸ hm)

theorem allocaToWiden_total (insts : Instructions) (m p : Instruction → Bool)
    (NewBlocks : List (List BasicBlock)) (I : Instruction) :
    ∃ b, allocaToWiden insts m p NewBlocks I = some b := by
  obtain ⟨Users, hU, _⟩ := fillUserHull_total insts m p I
  unfold allocaToWiden isAllocaSubCfgInternal
  rw [hU]
  split
  · split
    · exact ⟨_, rfl⟩
    · split
      · exact ⟨_, rfl⟩
      · exact ⟨_, rfl⟩
  · exact ⟨_, rfl⟩

/-- C20, counterexample: the alloca of `lastBarrierIdInsts` has users in the blocks of two
SubCFGs (10 and 20), so its users do not all live in the blocks of a single SubCFG, and it
is not arrayified; it is left alone all the same, because one of its users is in the
entry block, which belongs to no SubCFG. -/
theorem arrayifyAllocas_user_outside_counterexample :
    (¬ ∃ S ∈ [[10], [20]], ∀ U ∈ lastBarrierIdInsts.users
        { id := 1, parent := 0, opcode := Opcode.Alloca, operands := [], arrayified := false },
        U.parent ∈ S) ∧
    arrayifyAllocas 0 lastBarrierIdInsts (fun _ => true) (fun _ => false)
      (fun _ => IRType.base 0) (fun _ => some 1) [[10], [20]] NumArrayElements = some [] := by
  refine ⟨by decide, by rfl⟩

/-- C20 (amended): for every non-arrayified alloca `A` of the entry block, the user hull
of `A` is computed (the loop of `fillUserHull` ends) and contains every user of `A`, and
`arrayifyAllocas` leaves `A` alone if a user of `A` lies in a block of no SubCFG or if
every SubCFG that holds the block of some instruction of the hull holds the blocks of all
of them (so in particular if all of the hull lives in the blocks of a single SubCFG and
no block belongs to two SubCFGs); otherwise it replaces `A` by exactly one alloca, of
`ReqdArrayElements` (as a 32-bit constant; 1024 for `NumArrayElements`) elements, whose
type is the allocated type of `A`, or the array of `k` of these when the array size of
`A` is a constant `k > 1`, aligned to 64 bytes and tagged arrayified. -/
theorem arrayifyAllocas_widens (EntryBlock : BasicBlock) (insts : Instructions)
    (m p : Instruction → Bool) (getAllocatedType : Instruction → IRType)
    (getArraySize : Instruction → Option Nat) (NewBlocks : List (List BasicBlock))
    (ReqdArrayElements : Nat) (A : Instruction)
    (hA : A ∈ insts.ofBlock EntryBlock) (hop : A.opcode = Opcode.Alloca)
    (hna : A.arrayified = false) :
    ∃ Users WL,
      fillUserHull insts m p A = some Users ∧
      (∀ U ∈ insts.users A, U ∈ Users) ∧
      arrayifyAllocas EntryBlock insts m p getAllocatedType getArraySize NewBlocks
        ReqdArrayElements = some WL ∧
      (((∃ UI ∈ insts.users A, ∀ S ∈ NewBlocks, UI.parent ∉ S) ∨
          (∀ S ∈ NewBlocks, (∃ U ∈ Users, U.parent ∈ S) → ∀ U ∈ Users, U.parent ∈ S)) →
        ∀ W, (A, W) ∉ WL) ∧
      ((∀ S ∈ NewBlocks, ∀ S' ∈ NewBlocks, ∀ b, b ∈ S → b ∈ S' → S = S') →
        (∃ S ∈ NewBlocks, ∀ U ∈ Users, U.parent ∈ S) → ∀ W, (A, W) ∉ WL) ∧
      (¬ ((∃ UI ∈ insts.users A, ∀ S ∈ NewBlocks, UI.parent ∉ S) ∨
          (∀ S ∈ NewBlocks, (∃ U ∈ Users, U.parent ∈ S) → ∀ U ∈ Users, U.parent ∈ S)) →
        (A, wideAlloca getAllocatedType getArraySize ReqdArrayElements A) ∈ WL ∧
        ∀ W, (A, W) ∈ WL →
          W = wideAlloca getAllocatedType getArraySize ReqdArrayElements A) ∧
      (wideAlloca getAllocatedType getArraySize ReqdArrayElements A).NumElements =
        ReqdArrayElements % 2 ^ 32 ∧
      (wideAlloca getAllocatedType getArraySize NumArrayElements A).NumElements = 1024 ∧
      (wideAlloca getAllocatedType getArraySize ReqdArrayElements A).Alignment = 64 ∧
      (wideAlloca getAllocatedType getArraySize ReqdArrayElements A).arrayified = true ∧
      (∀ k, getArraySize A = some k → 1 < k → k < 2 ^ 64 →
        (wideAlloca getAllocatedType getArraySize ReqdArrayElements A).AllocatedType =
          IRType.array (getAllocatedType A) k) ∧
      (getArraySize A = none ∨ getArraySize A = some 1 →
        (wideAlloca getAllocatedType getArraySize ReqdArrayElements A).AllocatedType =
          getAllocatedType A) := by
  obtain ⟨Users, hU, hdirect⟩ := fillUserHull_total insts m p A
  have hWL := collectAllocas_total (allocaToWiden insts m p NewBlocks)
    (allocaToWiden_total insts m p NewBlocks) (insts.ofBlock EntryBlock)
  have hmem : ∀ W, (A, W) ∈ ((insts.ofBlock EntryBlock).filter
        (fun I => allocaToWiden insts m p NewBlocks I == some true)).map
        (fun I => (I, wideAlloca getAllocatedType getArraySize ReqdArrayElements I)) ↔
      allocaToWiden insts m p NewBlocks A = some true ∧
        W = wideAlloca getAllocatedType getArraySize ReqdArrayElements A := by
    intro W
    rw [List.mem_map]
    constructor
    · rintro ⟨I, hI, heq⟩
      have hIA : I = A := congrArg Prod.fst heq
      subst hIA
      refine ⟨by simpa using (List.mem_filter.mp hI).2, (congrArg Prod.snd heq).symm⟩
    · rintro ⟨h1, h2⟩
      exact ⟨A, List.mem_filter.mpr ⟨hA, by simp [h1]⟩, by rw [h2]⟩
  have hdec : allocaToWiden insts m p NewBlocks A = some true ↔
      ¬ ((∃ UI ∈ insts.users A, ∀ S ∈ NewBlocks, UI.parent ∉ S) ∨
          (∀ S ∈ NewBlocks, (∃ U ∈ Users, U.parent ∈ S) → ∀ U ∈ Users, U.parent ∈ S)) := by
    unfold allocaToWiden isAllocaSubCfgInternal
    rw [hU, if_pos hop, hna]
    by_cases hout : (insts.users A).any (fun UI => !NewBlocks.flatten.contains UI.parent) = true
    · rw [if_neg (by simp), if_pos hout]
      have := (anyUserOutside_iff insts A NewBlocks).mp hout
      simp only [Option.some.injEq, Bool.false_eq_true, false_iff, not_not]
      exact Or.inl this
    · rw [if_neg (by simp), if_neg hout]
      have hno : ¬ ∃ UI ∈ insts.users A, ∀ S ∈ NewBlocks, UI.parent ∉ S :=
        fun h => hout ((anyUserOutside_iff insts A NewBlocks).mpr h)
      have hall := allInOneSubCfg_iff Users NewBlocks
      cases hb : allInOneSubCfg (Users.map (fun I => I.parent)) NewBlocks with
      | true =>
        rw [hb] at hall
        simp only [Option.map_some', hb, Bool.not_true, Option.some.injEq, Bool.false_eq_true,
          false_iff, not_not]
        exact Or.inr (hall.mp rfl)
      | false =>
        rw [hb] at hall
        simp only [Option.map_some', hb, Bool.not_false, true_iff]
        rintro (h | h)
        · exact hno h
        · exact Bool.false_ne_true (hall.mpr h)
  have hleft : ((∃ UI ∈ insts.users A, ∀ S ∈ NewBlocks, UI.parent ∉ S) ∨
      (∀ S ∈ NewBlocks, (∃ U ∈ Users, U.parent ∈ S) → ∀ U ∈ Users, U.parent ∈ S)) →
      ∀ W, (A, W) ∉ ((insts.ofBlock EntryBlock).filter
        (fun I => allocaToWiden insts m p NewBlocks I == some true)).map
        (fun I => (I, wideAlloca getAllocatedType getArraySize ReqdArrayElements I)) := by
    intro h W hW
    exact (hdec.mp ((hmem W).mp hW).1) h
  refine ⟨Users, _, hU, hdirect, by simp only [arrayifyAllocas, hWL, Option.map_some'],
    hleft, ?_, ?_, rfl, rfl, rfl, rfl, ?_, ?_⟩
  · intro hdisj hone
    apply hleft
    right
    obtain ⟨S0, hS0, hall⟩ := hone
    intro S hS hex U hU'
    obtain ⟨V, hV, hVS⟩ := hex
    have : S = S0 := hdisj S hS S0 hS0 V.parent hVS (hall V hV)
    rw [this]
    exact hall U hU'
  · intro hn
    exact ⟨(hmem _).mpr ⟨hdec.mpr hn, rfl⟩, fun W hW => ((hmem W).mp hW).2⟩
  · intro k hk h1 h2
    have hmin : min k (2 ^ 64 - 1) = k := Nat.min_eq_left (by omega)
    simp only [wideAlloca, widenedType, hk, hmin]
    rw [if_pos h1]
  · intro h
    rcases h with h | h
    · simp only [wideAlloca, widenedType, h]
    · simp only [wideAlloca, widenedType, h]
      rfl

/-- Witness for C20 (amended): the alloca of `sharedAllocaInsts`, used in the blocks 10 and
20 of two SubCFGs. -/
theorem arrayifyAllocas_widens_witness :
    ({ id := 1, parent := 0, opcode := Opcode.Alloca, operands := [], arrayified := false } :
        Instruction) ∈ sharedAllocaInsts.ofBlock 0 ∧
    ∃ Users WL,
      fillUserHull sharedAllocaInsts (fun _ => true) (fun _ => false)
        { id := 1, parent := 0, opcode := Opcode.Alloca, operands := [], arrayified := false }
        = some Users ∧
      arrayifyAllocas 0 sharedAllocaInsts (fun _ => true) (fun _ => false)
        (fun _ => IRType.base 0) (fun _ => some 1) [[10], [20]] NumArrayElements = some WL := by
  refine ⟨by decide, ?_⟩
  obtain ⟨Users, WL, h1, _, h3, _⟩ :=
    arrayifyAllocas_widens 0 sharedAllocaInsts (fun _ => true) (fun _ => false)
      (fun _ => IRType.base 0) (fun _ => some 1) [[10], [20]] NumArrayElements
      { id := 1, parent := 0, opcode := Opcode.Alloca, operands := [], arrayified := false }
      (by decide) rfl rfl
  exact ⟨Users, WL, h1, h3⟩

/-! ## C12: the execution of the work-item loops -/

theorem reaches_refl {σ : Type} (step : σ → Option σ) (s : σ) (P : σ → Prop) (h : P s) :
    Reaches step s P :=
  ⟨0, s, rfl, h⟩

theorem reaches_step {σ : Type} (step : σ → Option σ) (s s1 : σ) (P : σ → Prop)
    (h : step s = some s1) (hr : Reaches step s1 P) : Reaches step s P := by
  obtain ⟨k, s', hk, hP⟩ := hr
  exact ⟨k + 1, s', by simp [iterSteps, h, hk], hP⟩

theorem reaches_trans {σ : Type} (step : σ → Option σ) (s : σ) (Q P : σ → Prop)
    (h : Reaches step s Q) (hQ : ∀ s', Q s' → Reaches step s' P) : Reaches step s P := by
  obtain ⟨k, s1, hk, hQ1⟩ := h
  have key : ∀ (k : Nat) (s : σ), iterSteps step k s = some s1 → Reaches step s P := by
    intro k
    induction k with
    | zero =>
      intro s hs
      have : s = s1 := by simpa [iterSteps] using hs
      rw [this]
      exact hQ s1 hQ1
    | succ k ih =>
      intro s hs
      cases hstep : step s with
      | none => simp [iterSteps, hstep] at hs
      | some s2 =>
        have : iterSteps step k s2 = some s1 := by simpa [iterSteps, hstep] using hs
        exact reaches_step step s s2 P hstep (ih s2 this)
  exact key k s hk

theorem runLoop_of_iterSteps (N Dim : Nat) (nest : LoopNest) (LocalSize : List Nat) :
    ∀ (k : Nat) (st st' : ExecState),
      iterSteps (stepLoop N Dim nest LocalSize) k st = some st' →
      st'.cur = LoopBlock.afterBB → runLoop N Dim nest LocalSize k st = some st' := by
  intro k
  induction k with
  | zero =>
    intro st st' h hc
    have : st = st' := by simpa [iterSteps] using h
    subst this
    simp [runLoop, hc]
  | succ k ih =>
    intro st st' h hc
    cases hstep : stepLoop N Dim nest LocalSize st with
    | none => simp [iterSteps, hstep] at h
    | some s2 =>
      have h2 : iterSteps (stepLoop N Dim nest LocalSize) k s2 = some st' := by
        simpa [iterSteps, hstep] using h
      have hne : st.cur ≠ LoopBlock.afterBB := by
        intro hcur
        simp [stepLoop, hcur] at hstep
      simp only [runLoop, if_neg hne, hstep, Option.some_bind]
      exact ih s2 st' h2 hc

theorem createLoopsAround_one :
    createLoopsAround 1 =
      { Latches :=
          [{ label := LoopBlock.latch 0, dim := 0, onTrue := LoopBlock.header 0,
             onFalse := LoopBlock.afterBB, loopMD := some WorkItemLoopMD }]
        IndVars :=
          [{ label := LoopBlock.header 0, dim := 0,
             phi := [(IndValue.zero, LoopBlock.entry),
                     (IndValue.incIndVar 0, LoopBlock.latch 0)],
             br := LoopBlock.loadBB }]
        LastHeader := LoopBlock.header 0 } := by
  rfl

theorem loop1_level0 (N s0 : Nat) (hs0 : s0 < 2 ^ N) :
    ∀ (d j : Nat), j + d = s0 → 0 < d → ∀ (a0 : Nat) (tr : List (List Nat)),
      Reaches (stepLoop N 1 (createLoopsAround 1) [s0])
        { cur := LoopBlock.loadBB, prev := LoopBlock.header 0, IndVars := [j],
          IncIndVars := [a0], trace := tr }
        (fun st' => ∃ x b0, st' =
          { cur := LoopBlock.afterBB, prev := LoopBlock.latch 0, IndVars := [x],
            IncIndVars := [b0],
            trace := tr ++ (List.range' j d).flatMap (fun i => [[i]]) }) := by
  intro d
  induction d with
  | zero => intro j _ h; omega
  | succ d ih =>
    intro j hj _ a0 tr
    have hlt : j + 1 < 2 ^ N := by omega
    apply reaches_step _ _
      { cur := LoopBlock.latch 0, prev := LoopBlock.loadBB, IndVars := [j],
        IncIndVars := [a0], trace := tr ++ [[j]] }
    · rw [createLoopsAround_one]
      simp [stepLoop, LoopNest.afterBBMapped]
    by_cases hd : d = 0
    · subst hd
      apply reaches_step _ _
        { cur := LoopBlock.afterBB, prev := LoopBlock.latch 0, IndVars := [j],
          IncIndVars := [j + 1], trace := tr ++ [[j]] }
      · rw [createLoopsAround_one]
        have hn : ¬ j + 1 < s0 := by omega
        simp [stepLoop, hlt, hn]
      · apply reaches_refl
        exact ⟨j, j + 1, by simp⟩
    · apply reaches_step _ _
        { cur := LoopBlock.header 0, prev := LoopBlock.latch 0, IndVars := [j],
          IncIndVars := [j + 1], trace := tr ++ [[j]] }
      · rw [createLoopsAround_one]
        have hn : j + 1 < s0 := by omega
        simp [stepLoop, hlt, hn]
      apply reaches_step _ _
        { cur := LoopBlock.loadBB, prev := LoopBlock.header 0, IndVars := [j + 1],
          IncIndVars := [j + 1], trace := tr ++ [[j]] }
      · rw [createLoopsAround_one]
        simp [stepLoop, ExecState.eval]
      have := ih (j + 1) (by omega) (by omega) (j + 1) (tr ++ [[j]])
      simpa [List.range'_succ, List.flatMap_cons] using this

theorem createLoopsAround_two :
    createLoopsAround 2 =
      { Latches :=
          [{ label := LoopBlock.latch 0, dim := 0, onTrue := LoopBlock.header 0,
             onFalse := LoopBlock.afterBB, loopMD := none },
           { label := LoopBlock.latch 1, dim := 1, onTrue := LoopBlock.header 1,
             onFalse := LoopBlock.latch 0, loopMD := some WorkItemLoopMD }]
        IndVars :=
          [{ label := LoopBlock.header 0, dim := 0,
             phi := [(IndValue.zero, LoopBlock.entry),
                     (IndValue.incIndVar 0, LoopBlock.latch 0)],
             br := LoopBlock.header 1 },
           { label := LoopBlock.header 1, dim := 1,
             phi := [(IndValue.zero, LoopBlock.header 0),
                     (IndValue.incIndVar 1, LoopBlock.latch 1)],
             br := LoopBlock.loadBB }]
        LastHeader := LoopBlock.header 0 } := by
  rfl

theorem loop2_level1 (N s0 s1 i0 : Nat) (hs1 : s1 < 2 ^ N) :
    ∀ (d j : Nat), j + d = s1 → 0 < d → ∀ (a0 a1 : Nat) (tr : List (List Nat)),
      Reaches (stepLoop N 2 (createLoopsAround 2) [s0, s1])
        { cur := LoopBlock.loadBB, prev := LoopBlock.header 1, IndVars := [i0, j],
          IncIndVars := [a0, a1], trace := tr }
        (fun st' => ∃ x b0 b1, st' =
          { cur := LoopBlock.latch 0, prev := LoopBlock.latch 1, IndVars := [i0, x],
            IncIndVars := [b0, b1],
            trace := tr ++ (List.range' j d).flatMap (fun i => [[i0, i]]) }) := by
  intro d
  induction d with
  | zero => intro j _ h; omega
  | succ d ih =>
    intro j hj _ a0 a1 tr
    have hlt : j + 1 < 2 ^ N := by omega
    apply reaches_step _ _
      { cur := LoopBlock.latch 1, prev := LoopBlock.loadBB, IndVars := [i0, j],
        IncIndVars := [a0, a1], trace := tr ++ [[i0, j]] }
    · rw [createLoopsAround_two]
      simp [stepLoop, LoopNest.afterBBMapped]
    by_cases hd : d = 0
    · subst hd
      apply reaches_step _ _
        { cur := LoopBlock.latch 0, prev := LoopBlock.latch 1, IndVars := [i0, j],
          IncIndVars := [a0, j + 1], trace := tr ++ [[i0, j]] }
      · rw [createLoopsAround_two]
        have hn : ¬ j + 1 < s1 := by omega
        simp [stepLoop, hlt, hn]
      · apply reaches_refl
        exact ⟨j, a0, j + 1, by simp⟩
    · apply reaches_step _ _
        { cur := LoopBlock.header 1, prev := LoopBlock.latch 1, IndVars := [i0, j],
          IncIndVars := [a0, j + 1], trace := tr ++ [[i0, j]] }
      · rw [createLoopsAround_two]
        have hn : j + 1 < s1 := by omega
        simp [stepLoop, hlt, hn]
      apply reaches_step _ _
        { cur := LoopBlock.loadBB, prev := LoopBlock.header 1, IndVars := [i0, j + 1],
          IncIndVars := [a0, j + 1], trace := tr ++ [[i0, j]] }
      · rw [createLoopsAround_two]
        simp [stepLoop, ExecState.eval]
      have := ih (j + 1) (by omega) (by omega) a0 (j + 1) (tr ++ [[i0, j]])
      simpa [List.range'_succ, List.flatMap_cons] using this

theorem loop2_level0 (N s0 s1 : Nat) (hs0 : s0 < 2 ^ N) (hs1 : s1 < 2 ^ N) (hp1 : 0 < s1) :
    ∀ (d j : Nat), j + d = s0 → 0 < d → ∀ (x1 a0 a1 : Nat) (tr : List (List Nat)),
      Reaches (stepLoop N 2 (createLoopsAround 2) [s0, s1])
        { cur := LoopBlock.header 1, prev := LoopBlock.header 0, IndVars := [j, x1],
          IncIndVars := [a0, a1], trace := tr }
        (fun st' => ∃ y0 y1 b0 b1, st' =
          { cur := LoopBlock.afterBB, prev := LoopBlock.latch 0, IndVars := [y0, y1],
            IncIndVars := [b0, b1],
            trace := tr ++ (List.range' j d).flatMap (fun k0 =>
              (List.range' 0 s1).flatMap (fun i => [[k0, i]])) }) := by
  intro d
  induction d with
  | zero => intro j _ h; omega
  | succ d ih =>
    intro j hj _ x1 a0 a1 tr
    have hlt : j + 1 < 2 ^ N := by omega
    apply reaches_step _ _
      { cur := LoopBlock.loadBB, prev := LoopBlock.header 1, IndVars := [j, 0],
        IncIndVars := [a0, a1], trace := tr }
    · rw [createLoopsAround_two]
      simp [stepLoop, ExecState.eval]
    apply reaches_trans _ _ _ _
      (loop2_level1 N s0 s1 j hs1 s1 0 (by omega) hp1 a0 a1 tr)
    rintro st1 ⟨x, b0, b1, rfl⟩
    by_cases hd : d = 0
    · subst hd
      apply reaches_step _ _
        { cur := LoopBlock.afterBB, prev := LoopBlock.latch 0, IndVars := [j, x],
          IncIndVars := [j + 1, b1],
          trace := tr ++ (List.range' 0 s1).flatMap (fun i => [[j, i]]) }
      · rw [createLoopsAround_two]
        have hn : ¬ j + 1 < s0 := by omega
        simp [stepLoop, hlt, hn]
      · apply reaches_refl
        exact ⟨j, x, j + 1, b1, by simp⟩
    · apply reaches_step _ _
        { cur := LoopBlock.header 0, prev := LoopBlock.latch 0, IndVars := [j, x],
          IncIndVars := [j + 1, b1],
          trace := tr ++ (List.range' 0 s1).flatMap (fun i => [[j, i]]) }
      · rw [createLoopsAround_two]
        have hn : j + 1 < s0 := by omega
        simp [stepLoop, hlt, hn]
      apply reaches_step _ _
        { cur := LoopBlock.header 1, prev := LoopBlock.header 0, IndVars := [j + 1, x],
          IncIndVars := [j + 1, b1],
          trace := tr ++ (List.range' 0 s1).flatMap (fun i => [[j, i]]) }
      · rw [createLoopsAround_two]
        simp [stepLoop, ExecState.eval]
      have := ih (j + 1) (by omega) (by omega) x (j + 1) b1
        (tr ++ (List.range' 0 s1).flatMap (fun i => [[j, i]]))
      simpa [List.range'_succ, List.flatMap_cons] using this

theorem createLoopsAround_three :
    createLoopsAround 3 =
      { Latches :=
          [{ label := LoopBlock.latch 0, dim := 0, onTrue := LoopBlock.header 0,
             onFalse := LoopBlock.afterBB, loopMD := none },
           { label := LoopBlock.latch 1, dim := 1, onTrue := LoopBlock.header 1,
             onFalse := LoopBlock.latch 0, loopMD := none },
           { label := LoopBlock.latch 2, dim := 2, onTrue := LoopBlock.header 2,
             onFalse := LoopBlock.latch 1, loopMD := some WorkItemLoopMD }]
        IndVars :=
          [{ label := LoopBlock.header 0, dim := 0,
             phi := [(IndValue.zero, LoopBlock.entry),
                     (IndValue.incIndVar 0, LoopBlock.latch 0)],
             br := LoopBlock.header 1 },
           { label := LoopBlock.header 1, dim := 1,
             phi := [(IndValue.zero, LoopBlock.header 0),
                     (IndValue.incIndVar 1, LoopBlock.latch 1)],
             br := LoopBlock.header 2 },
           { label := LoopBlock.header 2, dim := 2,
             phi := [(IndValue.zero, LoopBlock.header 1),
                     (IndValue.incIndVar 2, LoopBlock.latch 2)],
             br := LoopBlock.loadBB }]
        LastHeader := LoopBlock.header 0 } := by
  rfl

theorem loop3_level2 (N s0 s1 s2 i0 i1 : Nat) (hs2 : s2 < 2 ^ N) :
    ∀ (d j : Nat), j + d = s2 → 0 < d → ∀ (a0 a1 a2 : Nat) (tr : List (List Nat)),
      Reaches (stepLoop N 3 (createLoopsAround 3) [s0, s1, s2])
        { cur := LoopBlock.loadBB, prev := LoopBlock.header 2, IndVars := [i0, i1, j],
          IncIndVars := [a0, a1, a2], trace := tr }
        (fun st' => ∃ x b0 b1 b2, st' =
          { cur := LoopBlock.latch 1, prev := LoopBlock.latch 2, IndVars := [i0, i1, x],
            IncIndVars := [b0, b1, b2],
            trace := tr ++ (List.range' j d).flatMap (fun i => [[i0, i1, i]]) }) := by
  intro d
  induction d with
  | zero => intro j _ h; omega
  | succ d ih =>
    intro j hj _ a0 a1 a2 tr
    have hlt : j + 1 < 2 ^ N := by omega
    apply reaches_step _ _
      { cur := LoopBlock.latch 2, prev := LoopBlock.loadBB, IndVars := [i0, i1, j],
        IncIndVars := [a0, a1, a2], trace := tr ++ [[i0, i1, j]] }
    · rw [createLoopsAround_three]
      simp [stepLoop, LoopNest.afterBBMapped]
    by_cases hd : d = 0
    · subst hd
      apply reaches_step _ _
        { cur := LoopBlock.latch 1, prev := LoopBlock.latch 2, IndVars := [i0, i1, j],
          IncIndVars := [a0, a1, j + 1], trace := tr ++ [[i0, i1, j]] }
      · rw [createLoopsAround_three]
        have hn : ¬ j + 1 < s2 := by omega
        simp [stepLoop, hlt, hn]
      · apply reaches_refl
        exact ⟨j, a0, a1, j + 1, by simp⟩
    · apply reaches_step _ _
        { cur := LoopBlock.header 2, prev := LoopBlock.latch 2, IndVars := [i0, i1, j],
          IncIndVars := [a0, a1, j + 1], trace := tr ++ [[i0, i1, j]] }
      · rw [createLoopsAround_three]
        have hn : j + 1 < s2 := by omega
        simp [stepLoop, hlt, hn]
      apply reaches_step _ _
        { cur := LoopBlock.loadBB, prev := LoopBlock.header 2, IndVars := [i0, i1, j + 1],
          IncIndVars := [a0, a1, j + 1], trace := tr ++ [[i0, i1, j]] }
      · rw [createLoopsAround_three]
        simp [stepLoop, ExecState.eval]
      have := ih (j + 1) (by omega) (by omega) a0 a1 (j + 1) (tr ++ [[i0, i1, j]])
      simpa [List.range'_succ, List.flatMap_cons] using this

theorem loop3_level1 (N s0 s1 s2 i0 : Nat) (hs1 : s1 < 2 ^ N) (hs2 : s2 < 2 ^ N)
    (hp2 : 0 < s2) :
    ∀ (d j : Nat), j + d = s1 → 0 < d → ∀ (x2 a0 a1 a2 : Nat) (tr : List (List Nat)),
      Reaches (stepLoop N 3 (createLoopsAround 3) [s0, s1, s2])
        { cur := LoopBlock.header 2, prev := LoopBlock.header 1, IndVars := [i0, j, x2],
          IncIndVars := [a0, a1, a2], trace := tr }
        (fun st' => ∃ y1 y2 b0 b1 b2, st' =
          { cur := LoopBlock.latch 0, prev := LoopBlock.latch 1, IndVars := [i0, y1, y2],
            IncIndVars := [b0, b1, b2],
            trace := tr ++ (List.range' j d).flatMap (fun k1 =>
              (List.range' 0 s2).flatMap (fun i => [[i0, k1, i]])) }) := by
  intro d
  induction d with
  | zero => intro j _ h; omega
  | succ d ih =>
    intro j hj _ x2 a0 a1 a2 tr
    have hlt : j + 1 < 2 ^ N := by omega
    apply reaches_step _ _
      { cur := LoopBlock.loadBB, prev := LoopBlock.header 2, IndVars := [i0, j, 0],
        IncIndVars := [a0, a1, a2], trace := tr }
    · rw [createLoopsAround_three]
      simp [stepLoop, ExecState.eval]
    apply reaches_trans _ _ _ _
      (loop3_level2 N s0 s1 s2 i0 j hs2 s2 0 (by omega) hp2 a0 a1 a2 tr)
    rintro st1 ⟨x, b0, b1, b2, rfl⟩
    by_cases hd : d = 0
    · subst hd
      apply reaches_step _ _
        { cur := LoopBlock.latch 0, prev := LoopBlock.latch 1, IndVars := [i0, j, x],
          IncIndVars := [b0, j + 1, b2],
          trace := tr ++ (List.range' 0 s2).flatMap (fun i => [[i0, j, i]]) }
      · rw [createLoopsAround_three]
        have hn : ¬ j + 1 < s1 := by omega
        simp [stepLoop, hlt, hn]
      · apply reaches_refl
        exact ⟨j, x, b0, j + 1, b2, by simp⟩
    · apply reaches_step _ _
        { cur := LoopBlock.header 1, prev := LoopBlock.latch 1, IndVars := [i0, j, x],
          IncIndVars := [b0, j + 1, b2],
          trace := tr ++ (List.range' 0 s2).flatMap (fun i => [[i0, j, i]]) }
      · rw [createLoopsAround_three]
        have hn : j + 1 < s1 := by omega
        simp [stepLoop, hlt, hn]
      apply reaches_step _ _
        { cur := LoopBlock.header 2, prev := LoopBlock.header 1, IndVars := [i0, j + 1, x],
          IncIndVars := [b0, j + 1, b2],
          trace := tr ++ (List.range' 0 s2).flatMap (fun i => [[i0, j, i]]) }
      · rw [createLoopsAround_three]
        simp [stepLoop, ExecState.eval]
      have := ih (j + 1) (by omega) (by omega) x b0 (j + 1) b2
        (tr ++ (List.range' 0 s2).flatMap (fun i => [[i0, j, i]]))
      simpa [List.range'_succ, List.flatMap_cons] using this

theorem loop3_level0 (N s0 s1 s2 : Nat) (hs0 : s0 < 2 ^ N) (hs1 : s1 < 2 ^ N)
    (hs2 : s2 < 2 ^ N) (hp1 : 0 < s1) (hp2 : 0 < s2) :
    ∀ (d j : Nat), j + d = s0 → 0 < d → ∀ (x1 x2 a0 a1 a2 : Nat) (tr : List (List Nat)),
      Reaches (stepLoop N 3 (createLoopsAround 3) [s0, s1, s2])
        { cur := LoopBlock.header 1, prev := LoopBlock.header 0, IndVars := [j, x1, x2],
          IncIndVars := [a0, a1, a2], trace := tr }
        (fun st' => ∃ y0 y1 y2 b0 b1 b2, st' =
          { cur := LoopBlock.afterBB, prev := LoopBlock.latch 0, IndVars := [y0, y1, y2],
            IncIndVars := [b0, b1, b2],
            trace := tr ++ (List.range' j d).flatMap (fun k0 =>
              (List.range' 0 s1).flatMap (fun k1 =>
                (List.range' 0 s2).flatMap (fun i => [[k0, k1, i]]))) }) := by
  intro d
  induction d with
  | zero => intro j _ h; omega
  | succ d ih =>
    intro j hj _ x1 x2 a0 a1 a2 tr
    have hlt : j + 1 < 2 ^ N := by omega
    apply reaches_step _ _
      { cur := LoopBlock.header 2, prev := LoopBlock.header 1, IndVars := [j, 0, x2],
        IncIndVars := [a0, a1, a2], trace := tr }
    · rw [createLoopsAround_three]
      simp [stepLoop, ExecState.eval]
    apply reaches_trans _ _ _ _
      (loop3_level1 N s0 s1 s2 j hs1 hs2 hp2 s1 0 (by omega) hp1 x2 a0 a1 a2 tr)
    rintro st1 ⟨y1, y2, b0, b1, b2, rfl⟩
    by_cases hd : d = 0
    · subst hd
      apply reaches_step _ _
        { cur := LoopBlock.afterBB, prev := LoopBlock.latch 0, IndVars := [j, y1, y2],
          IncIndVars := [j + 1, b1, b2],
          trace := tr ++ (List.range' 0 s1).flatMap (fun k1 =>
            (List.range' 0 s2).flatMap (fun i => [[j, k1, i]])) }
      · rw [createLoopsAround_three]
        have hn : ¬ j + 1 < s0 := by omega
        simp [stepLoop, hlt, hn]
      · apply reaches_refl
        exact ⟨j, y1, y2, j + 1, b1, b2, by simp⟩
    · apply reaches_step _ _
        { cur := LoopBlock.header 0, prev := LoopBlock.latch 0, IndVars := [j, y1, y2],
          IncIndVars := [j + 1, b1, b2],
          trace := tr ++ (List.range' 0 s1).flatMap (fun k1 =>
            (List.range' 0 s2).flatMap (fun i => [[j, k1, i]])) }
      · rw [createLoopsAround_three]
        have hn : j + 1 < s0 := by omega
        simp [stepLoop, hlt, hn]
      apply reaches_step _ _
        { cur := LoopBlock.header 1, prev := LoopBlock.header 0, IndVars := [j + 1, y1, y2],
          IncIndVars := [j + 1, b1, b2],
          trace := tr ++ (List.range' 0 s1).flatMap (fun k1 =>
            (List.range' 0 s2).flatMap (fun i => [[j, k1, i]])) }
      · rw [createLoopsAround_three]
        simp [stepLoop, ExecState.eval]
      have := ih (j + 1) (by omega) (by omega) y1 y2 (j + 1) b1 b2
        (tr ++ (List.range' 0 s1).flatMap (fun k1 =>
            (List.range' 0 s2).flatMap (fun i => [[j, k1, i]])))
      simpa [List.range'_succ, List.flatMap_cons] using this

theorem range_flatMap_mul {α : Type} (b : Nat) (F : Nat → List α) :
    ∀ a : Nat,
      (List.range a).flatMap (fun k => (List.range b).flatMap (fun j => F (k * b + j))) =
        (List.range (a * b)).flatMap F := by
  intro a
  induction a with
  | zero => simp
  | succ a ih =>
    rw [List.range_succ, List.flatMap_append, ih, List.flatMap_singleton, Nat.succ_mul,
      List.range_add, List.flatMap_append, List.flatMap_map]

theorem flatMap_singleton_eq_map {α β : Type} (f : α → β) :
    ∀ l : List α, l.flatMap (fun x => [f x]) = l.map f := by
  intro l
  induction l with
  | nil => rfl
  | cons x l ih => simp [List.flatMap_cons, ih]

theorem length_flatMap_const {α β : Type} (f : α → List β) (L : Nat) :
    ∀ l : List α, (∀ x ∈ l, (f x).length = L) → (l.flatMap f).length = l.length * L := by
  intro l
  induction l with
  | nil => intro _; simp
  | cons x l ih =>
    intro h
    rw [List.flatMap_cons, List.length_append, h x (List.mem_cons_self _ _),
      ih (fun y hy => h y (List.mem_cons_of_mem _ hy)), List.length_cons, Nat.succ_mul]
    omega

theorem allTuples_length : ∀ sizes : List Nat, (allTuples sizes).length = sizes.prod := by
  intro sizes
  induction sizes with
  | nil => rfl
  | cons s rest ih =>
    rw [allTuples, length_flatMap_const _ rest.prod, List.length_range, List.prod_cons]
    intro i _
    rw [List.length_map, ih]

theorem allTuples_one (s0 : Nat) :
    allTuples [s0] = (List.range' 0 s0).flatMap (fun i => [[i]]) := by
  simp [allTuples, List.range_eq_range']

theorem allTuples_two (s0 s1 : Nat) :
    allTuples [s0, s1] =
      (List.range' 0 s0).flatMap (fun k0 =>
        (List.range' 0 s1).flatMap (fun i => [[k0, i]])) := by
  simp [allTuples, List.range_eq_range', List.map_flatMap]

theorem allTuples_three (s0 s1 s2 : Nat) :
    allTuples [s0, s1, s2] =
      (List.range' 0 s0).flatMap (fun k0 =>
        (List.range' 0 s1).flatMap (fun k1 =>
          (List.range' 0 s2).flatMap (fun i => [[k0, k1, i]]))) := by
  simp [allTuples, List.range_eq_range', List.map_flatMap]

theorem contiguousIdx_allTuples_one (N s0 : Nat) :
    (allTuples [s0]).map (fun t => contiguousIdx N t [s0]) =
      (List.range s0).map some := by
  rw [allTuples_one, List.map_flatMap, ← List.range_eq_range']
  simp only [List.map_cons, List.map_nil, contiguousIdx_one]
  exact flatMap_singleton_eq_map some _

theorem contiguousIdx_allTuples_two (N s0 s1 : Nat) (h : s0 * s1 ≤ 2 ^ N) :
    (allTuples [s0, s1]).map (fun t => contiguousIdx N t [s0, s1]) =
      (List.range (s0 * s1)).map some := by
  rw [allTuples_two, List.map_flatMap, ← List.range_eq_range', ← List.range_eq_range']
  have inner : ∀ k0 ∈ List.range s0,
      List.map (fun t => contiguousIdx N t [s0, s1])
          ((List.range s1).flatMap (fun i => [[k0, i]])) =
        (List.range s1).flatMap (fun i => [some (k0 * s1 + i)]) := by
    intro k0 hk0
    rw [List.map_flatMap]
    apply List.flatMap_congr
    intro i hi
    have h0 : k0 < s0 := List.mem_range.mp hk0
    have h1 : i < s1 := List.mem_range.mp hi
    have hlt := linear_index_lt k0 i s0 s1 h0 h1
    simp only [List.map_cons, List.map_nil, contiguousIdx_two]
    rw [if_pos (by omega)]
  rw [List.flatMap_congr inner, range_flatMap_mul s1 (fun q => [some q]) s0]
  exact flatMap_singleton_eq_map some _

theorem contiguousIdx_allTuples_three (N s0 s1 s2 : Nat) (h : s0 * s1 * s2 ≤ 2 ^ N) :
    (allTuples [s0, s1, s2]).map (fun t => contiguousIdx N t [s0, s1, s2]) =
      (List.range (s0 * s1 * s2)).map some := by
  rw [allTuples_three, List.map_flatMap, ← List.range_eq_range', ← List.range_eq_range',
    ← List.range_eq_range']
  have inner : ∀ k0 ∈ List.range s0,
      List.map (fun t => contiguousIdx N t [s0, s1, s2])
          ((List.range s1).flatMap (fun k1 =>
            (List.range s2).flatMap (fun i => [[k0, k1, i]]))) =
        (List.range s1).flatMap (fun k1 =>
          (fun q => (List.range s2).flatMap (fun i => [some (q * s2 + i)])) (k0 * s1 + k1)) := by
    intro k0 hk0
    rw [List.map_flatMap]
    apply List.flatMap_congr
    intro k1 hk1
    rw [List.map_flatMap]
    apply List.flatMap_congr
    intro i hi
    have h0 : k0 < s0 := List.mem_range.mp hk0
    have h1 : k1 < s1 := List.mem_range.mp hk1
    have h2 : i < s2 := List.mem_range.mp hi
    have hlt := linear_index_lt k0 k1 s0 s1 h0 h1
    have hlt2 := linear_index_lt (k0 * s1 + k1) i (s0 * s1) s2 hlt h2
    have hle : k0 * s1 + k1 ≤ (k0 * s1 + k1) * s2 + i := by
      have : (k0 * s1 + k1) * 1 ≤ (k0 * s1 + k1) * s2 := Nat.mul_le_mul_left _ (by omega)
      omega
    simp only [List.map_cons, List.map_nil, contiguousIdx_three]
    rw [if_pos ⟨by omega, by omega⟩]
  rw [List.flatMap_congr inner,
    range_flatMap_mul s1 (fun q => (List.range s2).flatMap (fun i => [some (q * s2 + i)])) s0,
    range_flatMap_mul s2 (fun q => [some q]) (s0 * s1)]
  exact flatMap_singleton_eq_map some _

theorem run_of_reaches (N Dim : Nat) (nest : LoopNest) (LocalSize : List Nat)
    (st : ExecState) (tr : List (List Nat))
    (h : Reaches (stepLoop N Dim nest LocalSize) st
      (fun st' => st'.cur = LoopBlock.afterBB ∧ st'.prev = LoopBlock.latch 0 ∧ st'.trace = tr)) :
    ∃ fuel st', runLoop N Dim nest LocalSize fuel st = some st' ∧
      st'.cur = LoopBlock.afterBB ∧ st'.prev = LoopBlock.latch 0 ∧ st'.trace = tr := by
  obtain ⟨k, st', hk, hc, hp, ht⟩ := h
  exact ⟨k, st', runLoop_of_iterSteps N Dim nest LocalSize k st st' hk hc, hc, hp, ht⟩

theorem loops_run_one (N s0 : Nat) (hp0 : 0 < s0) (hs0 : s0 < 2 ^ N) :
    Reaches (stepLoop N 1 (createLoopsAround 1) [s0]) (enterLoops (createLoopsAround 1) 1)
      (fun st' => st'.cur = LoopBlock.afterBB ∧ st'.prev = LoopBlock.latch 0 ∧
        st'.trace = allTuples [s0]) := by
  have he : enterLoops (createLoopsAround 1) 1 =
      { cur := LoopBlock.header 0, prev := LoopBlock.entry, IndVars := [0],
        IncIndVars := [0], trace := [] } := by
    rw [createLoopsAround_one]; rfl
  rw [he]
  apply reaches_step _ _
    { cur := LoopBlock.loadBB, prev := LoopBlock.header 0, IndVars := [0],
      IncIndVars := [0], trace := [] }
  · rw [createLoopsAround_one]
    simp [stepLoop, ExecState.eval]
  apply reaches_trans _ _ _ _ (loop1_level0 N s0 hs0 s0 0 (by omega) hp0 0 [])
  rintro st1 ⟨x, b0, rfl⟩
  apply reaches_refl
  exact ⟨rfl, rfl, by rw [allTuples_one]; rfl⟩

theorem loops_run_two (N s0 s1 : Nat) (hp0 : 0 < s0) (hp1 : 0 < s1) (hs0 : s0 < 2 ^ N)
    (hs1 : s1 < 2 ^ N) :
    Reaches (stepLoop N 2 (createLoopsAround 2) [s0, s1]) (enterLoops (createLoopsAround 2) 2)
      (fun st' => st'.cur = LoopBlock.afterBB ∧ st'.prev = LoopBlock.latch 0 ∧
        st'.trace = allTuples [s0, s1]) := by
  have he : enterLoops (createLoopsAround 2) 2 =
      { cur := LoopBlock.header 0, prev := LoopBlock.entry, IndVars := [0, 0],
        IncIndVars := [0, 0], trace := [] } := by
    rw [createLoopsAround_two]; rfl
  rw [he]
  apply reaches_step _ _
    { cur := LoopBlock.header 1, prev := LoopBlock.header 0, IndVars := [0, 0],
      IncIndVars := [0, 0], trace := [] }
  · rw [createLoopsAround_two]
    simp [stepLoop, ExecState.eval]
  apply reaches_trans _ _ _ _ (loop2_level0 N s0 s1 hs0 hs1 hp1 s0 0 (by omega) hp0 0 0 0 [])
  rintro st1 ⟨y0, y1, b0, b1, rfl⟩
  apply reaches_refl
  exact ⟨rfl, rfl, by rw [allTuples_two]; rfl⟩

theorem loops_run_three (N s0 s1 s2 : Nat) (hp0 : 0 < s0) (hp1 : 0 < s1) (hp2 : 0 < s2)
    (hs0 : s0 < 2 ^ N) (hs1 : s1 < 2 ^ N) (hs2 : s2 < 2 ^ N) :
    Reaches (stepLoop N 3 (createLoopsAround 3) [s0, s1, s2])
      (enterLoops (createLoopsAround 3) 3)
      (fun st' => st'.cur = LoopBlock.afterBB ∧ st'.prev = LoopBlock.latch 0 ∧
        st'.trace = allTuples [s0, s1, s2]) := by
  have he : enterLoops (createLoopsAround 3) 3 =
      { cur := LoopBlock.header 0, prev := LoopBlock.entry, IndVars := [0, 0, 0],
        IncIndVars := [0, 0, 0], trace := [] } := by
    rw [createLoopsAround_three]; rfl
  rw [he]
  apply reaches_step _ _
    { cur := LoopBlock.header 1, prev := LoopBlock.header 0, IndVars := [0, 0, 0],
      IncIndVars := [0, 0, 0], trace := [] }
  · rw [createLoopsAround_three]
    simp [stepLoop, ExecState.eval]
  apply reaches_trans _ _ _ _
    (loop3_level0 N s0 s1 s2 hs0 hs1 hs2 hp1 hp2 s0 0 (by omega) hp0 0 0 0 0 0 [])
  rintro st1 ⟨y0, y1, y2, b0, b1, b2, rfl⟩
  apply reaches_refl
  exact ⟨rfl, rfl, by rw [allTuples_three]; rfl⟩

theorem loops_run (N : Nat) (sizes : List Nat)
    (hlen : sizes.length = 1 ∨ sizes.length = 2 ∨ sizes.length = 3)
    (hpos : ∀ s ∈ sizes, 1 ≤ s) (hN : ∀ s ∈ sizes, s < 2 ^ N) :
    ∃ fuel st',
      runLoop N sizes.length (createLoopsAround sizes.length) sizes fuel
        (enterLoops (createLoopsAround sizes.length) sizes.length) = some st' ∧
      st'.cur = LoopBlock.afterBB ∧ st'.prev = LoopBlock.latch 0 ∧
      st'.trace = allTuples sizes ∧
      (sizes.prod ≤ 2 ^ N →
        (allTuples sizes).map (fun t => contiguousIdx N t sizes) =
          (List.range sizes.prod).map some) := by
  rcases hlen with h | h | h
  · obtain ⟨s0, rfl⟩ := List.length_eq_one.mp h
    obtain ⟨fuel, st', h1, h2, h3, h4⟩ := run_of_reaches N 1 _ [s0] _ _
      (loops_run_one N s0 (hpos s0 (by simp)) (hN s0 (by simp)))
    refine ⟨fuel, st', h1, h2, h3, h4, fun _ => ?_⟩
    simpa using contiguousIdx_allTuples_one N s0
  · obtain ⟨s0, s1, rfl⟩ := List.length_eq_two.mp h
    obtain ⟨fuel, st', h1, h2, h3, h4⟩ := run_of_reaches N 2 _ [s0, s1] _ _
      (loops_run_two N s0 s1 (hpos s0 (by simp)) (hpos s1 (by simp)) (hN s0 (by simp))
        (hN s1 (by simp)))
    refine ⟨fuel, st', h1, h2, h3, h4, fun hP => ?_⟩
    have hP' : s0 * s1 ≤ 2 ^ N := by simpa using hP
    simpa using contiguousIdx_allTuples_two N s0 s1 hP'
  · obtain ⟨s0, s1, s2, rfl⟩ := List.length_eq_three.mp h
    obtain ⟨fuel, st', h1, h2, h3, h4⟩ := run_of_reaches N 3 _ [s0, s1, s2] _ _
      (loops_run_three N s0 s1 s2 (hpos s0 (by simp)) (hpos s1 (by simp)) (hpos s2 (by simp))
        (hN s0 (by simp)) (hN s1 (by simp)) (hN s2 (by simp)))
    refine ⟨fuel, st', h1, h2, h3, h4, fun hP => ?_⟩
    have hP' : s0 * s1 * s2 ≤ 2 ^ N := by simpa [Nat.mul_assoc] using hP
    simpa [Nat.mul_assoc] using contiguousIdx_allTuples_three N s0 s1 s2 hP'

theorem mem_allTuples : ∀ (sizes t : List Nat),
    t ∈ allTuples sizes ↔
      t.length = sizes.length ∧ ∀ D, D < sizes.length → t.getD D 0 < sizes.getD D 0 := by
  intro sizes
  induction sizes with
  | nil =>
    intro t
    simp [allTuples]
  | cons s rest ih =>
    intro t
    simp only [allTuples, List.mem_flatMap, List.mem_range, List.mem_map, List.length_cons]
    constructor
    · rintro ⟨i, hi, u, hu, rfl⟩
      obtain ⟨h1, h2⟩ := (ih u).mp hu
      refine ⟨by simp [h1], ?_⟩
      intro D hD
      cases D with
      | zero => simpa using hi
      | succ D =>
        simp only [List.getD_cons_succ]
        exact h2 D (by omega)
    · rintro ⟨h1, h2⟩
      cases t with
      | nil => simp at h1
      | cons i u =>
        refine ⟨i, by simpa using h2 0 (by omega), u, ?_, rfl⟩
        apply (ih u).mpr
        refine ⟨by simpa using h1, ?_⟩
        intro D hD
        have := h2 (D + 1) (by omega)
        simpa only [List.getD_cons_succ] using this

theorem nodup_allTuples : ∀ sizes : List Nat, (allTuples sizes).Nodup := by
  intro sizes
  induction sizes with
  | nil => simp [allTuples]
  | cons s rest ih =>
    rw [allTuples, List.nodup_flatMap]
    constructor
    · intro i _
      exact List.Nodup.map (fun a b h => (List.cons.inj h).2) ih
    · apply List.Pairwise.imp _ (List.pairwise_lt_range s)
      intro a b hab
      show List.Disjoint _ _
      intro t ha hb
      obtain ⟨u, _, rfl⟩ := List.mem_map.mp ha
      obtain ⟨v, _, hv⟩ := List.mem_map.mp hb
      have := (List.cons.inj hv).1
      omega

theorem selectDim_cases (LocalSizes : List Nat) (Dyn : Bool) :
    selectDim LocalSizes Dyn = 1 ∨ selectDim LocalSizes Dyn = 2 ∨ selectDim LocalSizes Dyn = 3 := by
  unfold selectDim
  split
  · split
    · exact Or.inl rfl
    · exact Or.inr (Or.inl rfl)
  · exact Or.inr (Or.inr rfl)

theorem getLocalSizeValues_length (N : Nat) (LocalSizes DynLoads : List Nat) (Dyn : Bool)
    (Dim : Nat) : (getLocalSizeValues N LocalSizes DynLoads Dyn Dim).length = Dim := by
  simp [getLocalSizeValues]

/-- C12: let `LocalSize` be the values that `getLocalSizeValues` yields for the `Dim`
dimensions chosen from the module metadata, all at least 1 (and, as `N`-bit values, below
`2 ^ N`). An execution that enters the loops built by `createLoopsAround` reaches `AfterBB`,
coming from the latch of dimension 0, after it has run the enclosed blocks once for every
index tuple below the local sizes, in lexicographic order with dimension 0 outermost, that
is `s_0 * ... * s_{Dim-1}` times; and when this product fits in `N` bits the contiguous
index along these runs takes the values `0, 1, ..., product - 1` in this order. -/
theorem createLoopsAround_runs_every_tuple (N : Nat) (LocalSizes DynLoads : List Nat)
    (Dyn : Bool)
    (hpos : ∀ s ∈ getLocalSizeValues N LocalSizes DynLoads Dyn (selectDim LocalSizes Dyn),
      1 ≤ s)
    (hN : ∀ s ∈ getLocalSizeValues N LocalSizes DynLoads Dyn (selectDim LocalSizes Dyn),
      s < 2 ^ N) :
    ∃ fuel st',
      runLoop N (selectDim LocalSizes Dyn) (createLoopsAround (selectDim LocalSizes Dyn))
        (getLocalSizeValues N LocalSizes DynLoads Dyn (selectDim LocalSizes Dyn)) fuel
        (enterLoops (createLoopsAround (selectDim LocalSizes Dyn)) (selectDim LocalSizes Dyn))
        = some st' ∧
      st'.cur = LoopBlock.afterBB ∧ st'.prev = LoopBlock.latch 0 ∧
      st'.trace =
        allTuples (getLocalSizeValues N LocalSizes DynLoads Dyn (selectDim LocalSizes Dyn)) ∧
      (∀ t, t ∈ st'.trace ↔ t.length = selectDim LocalSizes Dyn ∧
        ∀ D, D < selectDim LocalSizes Dyn → t.getD D 0 <
          (getLocalSizeValues N LocalSizes DynLoads Dyn (selectDim LocalSizes Dyn)).getD D 0) ∧
      st'.trace.Nodup ∧
      st'.trace.length =
        (getLocalSizeValues N LocalSizes DynLoads Dyn (selectDim LocalSizes Dyn)).prod ∧
      ((getLocalSizeValues N LocalSizes DynLoads Dyn (selectDim LocalSizes Dyn)).prod ≤ 2 ^ N →
        st'.trace.map (fun t => contiguousIdx N t
            (getLocalSizeValues N LocalSizes DynLoads Dyn (selectDim LocalSizes Dyn))) =
          (List.range
            (getLocalSizeValues N LocalSizes DynLoads Dyn (selectDim LocalSizes Dyn)).prod).map
            some) := by
  have hlen := getLocalSizeValues_length N LocalSizes DynLoads Dyn (selectDim LocalSizes Dyn)
  obtain ⟨fuel, st', h1, h2, h3, h4, h5⟩ :=
    loops_run N (getLocalSizeValues N LocalSizes DynLoads Dyn (selectDim LocalSizes Dyn))
      (by rw [hlen]; exact selectDim_cases LocalSizes Dyn) hpos hN
  rw [hlen] at h1
  refine ⟨fuel, st', h1, h2, h3, h4, ?_, ?_, ?_, ?_⟩
  · intro t
    rw [h4, mem_allTuples, hlen]
  · rw [h4]
    exact nodup_allTuples _
  · rw [h4]
    exact allTuples_length _
  · intro hP
    rw [h4]
    exact h5 hP

/-- Witness for C12: local sizes `(4, 1, 1)` with 64-bit indices, one dimension. -/
theorem createLoopsAround_runs_every_tuple_witness :
    ∃ fuel st',
      runLoop 64 1 (createLoopsAround 1) [4] fuel (enterLoops (createLoopsAround 1) 1)
        = some st' ∧
      st'.cur = LoopBlock.afterBB ∧ st'.prev = LoopBlock.latch 0 ∧
      st'.trace = [[0], [1], [2], [3]] := by
  obtain ⟨fuel, st', h1, h2, h3, h4, _⟩ :=
    createLoopsAround_runs_every_tuple 64 [4, 1, 1] [] false
      (by decide) (by decide)
  exact ⟨fuel, st', h1, h2, h3, h4⟩

/-! ## C13: the successors of the replicated blocks -/

theorem BlockMap.lookup_set_self (m : BlockMap) (k v : NewBlock) :
    BlockMap.lookup (BlockMap.set m k v) k = some v := by
  simp [BlockMap.lookup, BlockMap.set]

theorem BlockMap.lookup_set_ne (m : BlockMap) (k k' v : NewBlock) (h : k ≠ k') :
    BlockMap.lookup (BlockMap.set m k v) k' = BlockMap.lookup m k' := by
  have h1 : (k == k') = false := by simpa using h
  simp only [BlockMap.lookup, BlockMap.set, List.find?_cons, h1]
  congr 1
  induction m with
  | nil => rfl
  | cons p m ih =>
    by_cases hp : p.1 = k
    · have hpk : ¬ p.1 = k' := fun e => h (hp ▸ e)
      have e1 : (p.1 != k) = false := by simp [hp]
      have e2 : (p.1 == k') = false := by simpa using hpk
      rw [List.filter_cons, e1, List.find?_cons, e2]
      exact ih
    · have e1 : (p.1 != k) = true := by simpa using hp
      rw [List.filter_cons, e1]
      simp only [if_true, List.find?_cons]
      cases (p.1 == k') with
      | true => rfl
      | false => exact ih

theorem addExit_fold (F : Function) (N : Nat) (ExitIds_ : DenseMap) (AfterBB BB : BasicBlock) :
    ∀ (Succs done : List BasicBlock) (acc : ReplicaBlock × List ReplicaBlock),
      (∀ t ∈ Succs, t ∈ F.succ BB) →
      acc.1.label = NewBlock.clone BB → acc.1.storedId = none →
      (∀ e ∈ acc.2, IsExitStub F N ExitIds_ AfterBB BB e) →
      (∀ s ∈ acc.1.succs,
        (∃ t, s = NewBlock.orig t ∧ t ∈ F.succ BB ∧
          (t ∈ done → DenseMap.find ExitIds_ t = none)) ∨
        (∃ e ∈ acc.2, e.label = s)) →
      (Succs.foldl (addExit N ExitIds_ BB AfterBB) acc).1.label = NewBlock.clone BB ∧
      (Succs.foldl (addExit N ExitIds_ BB AfterBB) acc).1.storedId = none ∧
      (∀ e ∈ (Succs.foldl (addExit N ExitIds_ BB AfterBB) acc).2,
        IsExitStub F N ExitIds_ AfterBB BB e) ∧
      (∀ s ∈ (Succs.foldl (addExit N ExitIds_ BB AfterBB) acc).1.succs,
        (∃ t, s = NewBlock.orig t ∧ t ∈ F.succ BB ∧
          (t ∈ done ++ Succs → DenseMap.find ExitIds_ t = none)) ∨
        (∃ e ∈ (Succs.foldl (addExit N ExitIds_ BB AfterBB) acc).2, e.label = s)) := by
  intro Succs
  induction Succs with
  | nil =>
    intro done acc _ h1 h2 h3 h4
    refine ⟨h1, h2, h3, ?_⟩
    simpa using h4
  | cons Succ rest ih =>
    intro done acc hsub h1 h2 h3 h4
    have hS : Succ ∈ F.succ BB := hsub Succ (List.mem_cons_self _ _)
    have hrest : ∀ t ∈ rest, t ∈ F.succ BB := fun t ht => hsub t (List.mem_cons_of_mem _ ht)
    rw [List.foldl_cons]
    have key : (addExit N ExitIds_ BB AfterBB acc Succ).1.label = NewBlock.clone BB ∧
        (addExit N ExitIds_ BB AfterBB acc Succ).1.storedId = none ∧
        (∀ e ∈ (addExit N ExitIds_ BB AfterBB acc Succ).2,
          IsExitStub F N ExitIds_ AfterBB BB e) ∧
        (∀ s ∈ (addExit N ExitIds_ BB AfterBB acc Succ).1.succs,
          (∃ t, s = NewBlock.orig t ∧ t ∈ F.succ BB ∧
            (t ∈ done ++ [Succ] → DenseMap.find ExitIds_ t = none)) ∨
          (∃ e ∈ (addExit N ExitIds_ BB AfterBB acc Succ).2, e.label = s)) := by
      cases hfind : DenseMap.find ExitIds_ Succ with
      | none =>
        simp only [addExit, hfind]
        refine ⟨h1, h2, h3, ?_⟩
        intro s hs
        rcases h4 s hs with ⟨t, e1, e2, e3⟩ | h
        · left
          refine ⟨t, e1, e2, ?_⟩
          intro ht
          rcases List.mem_append.mp ht with h | h
          · exact e3 h
          · rw [List.mem_singleton.mp h]
            exact hfind
        · exact Or.inr h
      | some id =>
        simp only [addExit, hfind, createExitWithID]
        refine ⟨h1, h2, ?_, ?_⟩
        · intro e he
          rcases List.mem_append.mp he with h | h
          · exact h3 e h
          · rw [List.mem_singleton.mp h]
            exact ⟨acc.2.length, Succ, id, rfl, hS, hfind, rfl, rfl⟩
        · intro s hs
          obtain ⟨s0, hs0, rfl⟩ := List.mem_map.mp hs
          by_cases heq : s0 = NewBlock.orig Succ
          · right
            rw [if_pos heq]
            exact ⟨_, List.mem_append_right _ (List.mem_singleton.mpr rfl), rfl⟩
          · rw [if_neg heq]
            rcases h4 s0 hs0 with ⟨t, e1, e2, e3⟩ | ⟨e, he, hl⟩
            · left
              refine ⟨t, e1, e2, ?_⟩
              intro ht
              rcases List.mem_append.mp ht with h | h
              · exact e3 h
              · exact absurd (by rw [e1, List.mem_singleton.mp h]) heq
            · exact Or.inr ⟨e, List.mem_append_left _ he, hl⟩
    obtain ⟨k1, k2, k3, k4⟩ := key
    have := ih (done ++ [Succ]) (addExit N ExitIds_ BB AfterBB acc Succ) hrest k1 k2 k3 k4
    simpa [List.append_assoc] using this

theorem cloneBlock_clone (F : Function) (N : Nat) (ExitIds_ : DenseMap)
    (AfterBB BB : BasicBlock) :
    IsCloneOf F N ExitIds_ AfterBB
        ((F.succ BB).foldl (addExit N ExitIds_ BB AfterBB)
          ({ label := NewBlock.clone BB, succs := (F.succ BB).map NewBlock.orig,
             storedId := none }, [])).2 BB
        ((F.succ BB).foldl (addExit N ExitIds_ BB AfterBB)
          ({ label := NewBlock.clone BB, succs := (F.succ BB).map NewBlock.orig,
             storedId := none }, [])).1 ∧
      ∀ e ∈ ((F.succ BB).foldl (addExit N ExitIds_ BB AfterBB)
          ({ label := NewBlock.clone BB, succs := (F.succ BB).map NewBlock.orig,
             storedId := none }, [])).2, IsExitStub F N ExitIds_ AfterBB BB e := by
  obtain ⟨h1, h2, h3, h4⟩ := addExit_fold F N ExitIds_ AfterBB BB (F.succ BB) []
    ({ label := NewBlock.clone BB, succs := (F.succ BB).map NewBlock.orig,
       storedId := none }, [])
    (fun t ht => ht) rfl rfl (fun e he => absurd he (List.not_mem_nil _))
    (by
      intro s hs
      obtain ⟨t, ht, rfl⟩ := List.mem_map.mp hs
      exact Or.inl ⟨t, rfl, ht, fun h => absurd h (List.not_mem_nil _)⟩)
  refine ⟨⟨h1, h2, ?_⟩, h3⟩
  intro s hs
  rcases h4 s hs with ⟨t, e1, e2, e3⟩ | ⟨e, he, hl⟩
  · exact Or.inl ⟨t, e1, e2, e3 (by simpa using e2)⟩
  · exact Or.inr ⟨e, he, hl, h3 e he⟩

theorem isCloneOf_mono (F : Function) (N : Nat) (ExitIds_ : DenseMap) (AfterBB BB : BasicBlock)
    (stubs stubs' : List ReplicaBlock) (B : ReplicaBlock) (hsub : ∀ e ∈ stubs, e ∈ stubs')
    (h : IsCloneOf F N ExitIds_ AfterBB stubs BB B) :
    IsCloneOf F N ExitIds_ AfterBB stubs' BB B := by
  obtain ⟨h1, h2, h3⟩ := h
  refine ⟨h1, h2, fun s hs => ?_⟩
  rcases h3 s hs with h | ⟨e, he, hl⟩
  · exact Or.inl h
  · exact Or.inr ⟨e, hsub e he, hl⟩

theorem BlockMap.lookup_eq_none (m : BlockMap) (k : NewBlock)
    (hkeys : ∀ p ∈ m, ∃ x, p.1 = NewBlock.orig x) (hk : ∀ x, k ≠ NewBlock.orig x) :
    BlockMap.lookup m k = none := by
  unfold BlockMap.lookup
  rw [Option.map_eq_none', List.find?_eq_none]
  intro p hp hpk
  obtain ⟨x, hx⟩ := hkeys p hp
  have : p.1 = k := by simpa using hpk
  exact hk x (this ▸ hx)

theorem BlockMap.keys_set (m : BlockMap) (x : BasicBlock) (v : NewBlock)
    (hkeys : ∀ p ∈ m, ∃ y, p.1 = NewBlock.orig y) :
    ∀ p ∈ BlockMap.set m (NewBlock.orig x) v, ∃ y, p.1 = NewBlock.orig y := by
  intro p hp
  rcases List.mem_cons.mp hp with h | h
  · exact ⟨x, by rw [h]⟩
  · exact hkeys p (List.mem_filter.mp h).1

theorem cloneBlock_fold (F : Function) (N : Nat) (ExitIds_ : DenseMap) (AfterBB : BasicBlock) :
    ∀ (Blocks processed : List BasicBlock) (st : BlockMap × List ReplicaBlock),
      (∀ x ∈ processed, BlockMap.lookup st.1 (NewBlock.orig x) = some (NewBlock.clone x)) →
      (∀ p ∈ st.1, ∃ y, p.1 = NewBlock.orig y) →
      (∀ B ∈ st.2, ∃ x ∈ processed,
        IsCloneOf F N ExitIds_ AfterBB st.2 x B ∨ IsExitStub F N ExitIds_ AfterBB x B) →
      (∀ x ∈ processed, ∃ B ∈ st.2, B.label = NewBlock.clone x) →
      (∀ x ∈ processed ++ Blocks,
        BlockMap.lookup (Blocks.foldl (cloneBlock F N ExitIds_ AfterBB) st).1 (NewBlock.orig x)
          = some (NewBlock.clone x)) ∧
      (∀ p ∈ (Blocks.foldl (cloneBlock F N ExitIds_ AfterBB) st).1,
        ∃ y, p.1 = NewBlock.orig y) ∧
      (∀ B ∈ (Blocks.foldl (cloneBlock F N ExitIds_ AfterBB) st).2, ∃ x ∈ processed ++ Blocks,
        IsCloneOf F N ExitIds_ AfterBB (Blocks.foldl (cloneBlock F N ExitIds_ AfterBB) st).2 x B
          ∨ IsExitStub F N ExitIds_ AfterBB x B) ∧
      (∀ x ∈ processed ++ Blocks,
        ∃ B ∈ (Blocks.foldl (cloneBlock F N ExitIds_ AfterBB) st).2,
          B.label = NewBlock.clone x) := by
  intro Blocks
  induction Blocks with
  | nil =>
    intro processed st h1 h2 h3 h4
    rw [List.append_nil]
    exact ⟨h1, h2, h3, h4⟩
  | cons BB rest ih =>
    intro processed st h1 h2 h3 h4
    rw [List.foldl_cons]
    obtain ⟨hc, hstubs⟩ := cloneBlock_clone F N ExitIds_ AfterBB BB
    have := ih (processed ++ [BB]) (cloneBlock F N ExitIds_ AfterBB st BB) ?_ ?_ ?_ ?_
    · simpa [List.append_assoc] using this
    · intro x hx
      show BlockMap.lookup (BlockMap.set st.1 (NewBlock.orig BB) (NewBlock.clone BB))
        (NewBlock.orig x) = some (NewBlock.clone x)
      by_cases hxb : x = BB
      · rw [hxb]
        exact BlockMap.lookup_set_self _ _ _
      · rw [BlockMap.lookup_set_ne _ _ _ _ (fun e => hxb (NewBlock.orig.inj e).symm)]
        rcases List.mem_append.mp hx with h | h
        · exact h1 x h
        · exact absurd (List.mem_singleton.mp h) hxb
    · exact BlockMap.keys_set st.1 BB _ h2
    · intro B hB
      have hB' : B ∈ st.2 ++
          ((F.succ BB).foldl (addExit N ExitIds_ BB AfterBB)
            ({ label := NewBlock.clone BB, succs := (F.succ BB).map NewBlock.orig,
               storedId := none }, [])).1 ::
          ((F.succ BB).foldl (addExit N ExitIds_ BB AfterBB)
            ({ label := NewBlock.clone BB, succs := (F.succ BB).map NewBlock.orig,
               storedId := none }, [])).2 := hB
      rcases List.mem_append.mp hB' with h | h
      · obtain ⟨x, hx, hor⟩ := h3 B h
        refine ⟨x, List.mem_append_left _ hx, ?_⟩
        rcases hor with hor | hor
        · left
          exact isCloneOf_mono F N ExitIds_ AfterBB x st.2 _ B
            (fun e he => List.mem_append_left _ he) hor
        · exact Or.inr hor
      · refine ⟨BB, List.mem_append_right _ (List.mem_singleton.mpr rfl), ?_⟩
        rcases List.mem_cons.mp h with h | h
        · left
          rw [h]
          exact isCloneOf_mono F N ExitIds_ AfterBB BB _ _ _
            (fun e he => List.mem_append_right _ (List.mem_cons_of_mem _ he)) hc
        · exact Or.inr (hstubs B h)
    · intro x hx
      rcases List.mem_append.mp hx with h | h
      · obtain ⟨B, hB, hl⟩ := h4 x h
        exact ⟨B, List.mem_append_left _ hB, hl⟩
      · rw [List.mem_singleton.mp h]
        exact ⟨_, List.mem_append_right _ (List.mem_cons_self _ _), hc.1⟩

theorem replicate_newBlocks (F : Function) (N Dim : Nat) (c : SubCFG) (AfterBB : BasicBlock)
    (R : Replica) (hR : SubCFG.replicate F N Dim c AfterBB = some R) :
    ∃ Innermost, (createLoopsAround Dim).Latches[Dim - 1]? = some Innermost ∧
      R.nest = createLoopsAround Dim ∧
      R.NewBlocks_ =
        (c.Blocks_.foldl (cloneBlock F N c.ExitIds_ AfterBB) ([], [])).2.map
          (ReplicaBlock.remap
            (BlockMap.set
              (BlockMap.set
                (c.Blocks_.foldl (cloneBlock F N c.ExitIds_ AfterBB) ([], [])).1
                (NewBlock.orig c.EntryBarrier_) NewBlock.loadBB)
              (NewBlock.orig AfterBB) (NewBlock.loop Innermost.label))) := by
  unfold SubCFG.replicate at hR
  split at hR
  · split at hR
    · split at hR
      · rename_i Innermost Outermost hI hO
        refine ⟨Innermost, hI, ?_, ?_⟩
        · rw [← Option.some.inj hR]
        · rw [← Option.some.inj hR]
      · exact absurd hR (by simp)
    · exact absurd hR (by simp)
  · exact absurd hR (by simp)

/-- The successors of the blocks in `NewBlocks_` after `SubCFG::replicate`: a clone in
`NewBlocks_` of a block of the SubCFG, an exit stub in `NewBlocks_` that stores the id of
a barrier-only successor of a block of the SubCFG, a latch of the work-item loops of the
SubCFG, or the load block when the entry barrier itself is among the blocks of the
SubCFG, which is not so when the entry barrier is barrier-only or the successor of no
block. -/
theorem replicate_successors_cases (F : Function) (hasOnlyBarrier : BasicBlock → Bool)
    (BarrierIds : DenseMap) (B : BasicBlock) (N Dim : Nat) (AfterBB : BasicBlock)
    (c : SubCFG) (R : Replica) (hcl : F.Closed) (hB : B ∈ F.blocks)
    (hc : SubCFG.construct F hasOnlyBarrier BarrierIds B = some c)
    (hR : SubCFG.replicate F N Dim c AfterBB = some R) :
    (∀ Blk ∈ R.NewBlocks_, ∀ s ∈ Blk.succs,
      (∃ x ∈ c.Blocks_, s = NewBlock.clone x ∧ ∃ B' ∈ R.NewBlocks_, B'.label = s) ∨
      (∃ x n t, s = NewBlock.exitStub x n ∧ x ∈ c.Blocks_ ∧ t ∈ F.succ x ∧
        hasOnlyBarrier t = true ∧
        ∃ B' ∈ R.NewBlocks_, B'.label = s ∧
          B'.storedId = some (getIntN N (DenseMap.lookup BarrierIds t))) ∨
      (∃ L ∈ R.nest.Latches, s = NewBlock.loop L.label) ∨
      (s = NewBlock.loadBB ∧ c.EntryBarrier_ ∈ c.Blocks_)) ∧
    (hasOnlyBarrier B = true ∨ (∀ b ∈ F.blocks, B ∉ F.succ b) →
      c.EntryBarrier_ ∉ c.Blocks_) := by
  obtain ⟨st, _, inv, hwl, hc'⟩ := construct_spec F hasOnlyBarrier BarrierIds B hcl hB
  rw [hc] at hc'
  have hceq := Option.some.inj hc'
  have hBlocks : c.Blocks_ = st.Blocks_ := by rw [hceq]
  have hExits : c.ExitIds_ = st.ExitIds_ := by rw [hceq]
  have hEntry : c.EntryBarrier_ = B := by rw [hceq]
  obtain ⟨Innermost, hI, hnest, hNB⟩ := replicate_newBlocks F N Dim c AfterBB R hR
  obtain ⟨f1, f2, f3, f4⟩ := cloneBlock_fold F N c.ExitIds_ AfterBB c.Blocks_ [] ([], [])
    (fun x hx => absurd hx (List.not_mem_nil _)) (fun p hp => absurd hp (List.not_mem_nil _))
    (fun B hB => absurd hB (List.not_mem_nil _)) (fun x hx => absurd hx (List.not_mem_nil _))
  rw [List.nil_append] at f1 f3 f4
  have hlatch : Innermost ∈ R.nest.Latches := by
    rw [hnest]
    exact List.getElem?_mem hI
  -- the remap of a label that is not an original block
  have hkeys : ∀ p ∈ BlockMap.set
      (BlockMap.set (c.Blocks_.foldl (cloneBlock F N c.ExitIds_ AfterBB) ([], [])).1
        (NewBlock.orig c.EntryBarrier_) NewBlock.loadBB)
      (NewBlock.orig AfterBB) (NewBlock.loop Innermost.label), ∃ y, p.1 = NewBlock.orig y :=
    BlockMap.keys_set _ _ _ (BlockMap.keys_set _ _ _ f2)
  have hremapLabel : ∀ e ∈ (c.Blocks_.foldl (cloneBlock F N c.ExitIds_ AfterBB) ([], [])).2,
      ∃ B' ∈ R.NewBlocks_, B'.label = e.label ∧ B'.storedId = e.storedId := by
    intro e he
    rw [hNB]
    exact ⟨_, List.mem_map.mpr ⟨e, he, rfl⟩, rfl, rfl⟩
  have main : ∀ Blk ∈ R.NewBlocks_, ∀ s ∈ Blk.succs,
      (∃ x ∈ c.Blocks_, s = NewBlock.clone x ∧ ∃ B' ∈ R.NewBlocks_, B'.label = s) ∨
      (∃ x n t, s = NewBlock.exitStub x n ∧ x ∈ c.Blocks_ ∧ t ∈ F.succ x ∧
        hasOnlyBarrier t = true ∧
        ∃ B' ∈ R.NewBlocks_, B'.label = s ∧
          B'.storedId = some (getIntN N (DenseMap.lookup BarrierIds t))) ∨
      (∃ L ∈ R.nest.Latches, s = NewBlock.loop L.label) ∨
      (s = NewBlock.loadBB ∧ c.EntryBarrier_ ∈ c.Blocks_) := by
    intro Blk hBlk s hs
    rw [hNB] at hBlk
    obtain ⟨B0, hB0, rfl⟩ := List.mem_map.mp hBlk
    obtain ⟨s0, hs0, rfl⟩ := List.mem_map.mp hs
    obtain ⟨x, hx, hor⟩ := f3 B0 hB0
    have stubCase : ∀ e ∈ (c.Blocks_.foldl (cloneBlock F N c.ExitIds_ AfterBB) ([], [])).2,
        IsExitStub F N c.ExitIds_ AfterBB x e →
        ∃ x n t, e.label = NewBlock.exitStub x n ∧ x ∈ c.Blocks_ ∧ t ∈ F.succ x ∧
          hasOnlyBarrier t = true ∧
          ∃ B' ∈ R.NewBlocks_, B'.label = e.label ∧
            B'.storedId = some (getIntN N (DenseMap.lookup BarrierIds t)) := by
      intro e he hstub
      obtain ⟨n, t, id, e1, e2, e3, e4, _⟩ := hstub
      rw [hExits] at e3
      obtain ⟨g1, g2, _⟩ := inv.exits t id e3
      obtain ⟨B', hB', l1, l2⟩ := hremapLabel e he
      exact ⟨x, n, t, e1, hx, e2, g1, B', hB', l1, by rw [l2, e4, g2]⟩
    rcases hor with ⟨_, _, hsuccs⟩ | hstub
    · rcases hsuccs s0 hs0 with ⟨t, e1, e2, e3⟩ | ⟨e, he, hl, hstub⟩
      · -- an original successor that is no key of the exit map
        have hhandled : SuccsHandled F hasOnlyBarrier st x := by
          rcases inv.handled x (Or.inr (hBlocks ▸ hx)) with h | h
          · rw [hwl] at h
            exact absurd h (List.not_mem_nil _)
          · exact h
        have htB : t ∈ c.Blocks_ := by
          rw [hBlocks]
          apply (hhandled t e2).1
          cases hb : hasOnlyBarrier t with
          | false => rfl
          | true => exact absurd (hExits ▸ e3) ((hhandled t e2).2 hb)
        subst e1
        by_cases hA : t = AfterBB
        · right; right; left
          refine ⟨Innermost, hlatch, ?_⟩
          rw [hA, BlockMap.lookup_set_self]
          rfl
        · rw [BlockMap.lookup_set_ne _ _ _ _ (fun e => hA (NewBlock.orig.inj e).symm)]
          by_cases hE : t = c.EntryBarrier_
          · right; right; right
            rw [hE, BlockMap.lookup_set_self]
            exact ⟨rfl, hE ▸ htB⟩
          · rw [BlockMap.lookup_set_ne _ _ _ _ (fun e => hE (NewBlock.orig.inj e).symm),
              f1 t htB]
            left
            obtain ⟨B1, hB1, hl1⟩ := f4 t htB
            obtain ⟨B', hB', l1, _⟩ := hremapLabel B1 hB1
            exact ⟨t, htB, rfl, B', hB', by rw [l1, hl1]; rfl⟩
      · -- an exit stub
        have hnone := BlockMap.lookup_eq_none _ s0 hkeys (by
          obtain ⟨n, _, _, e1, _⟩ := hstub
          intro y hy
          rw [← hl, e1] at hy
          exact NewBlock.noConfusion hy)
        rw [hnone]
        right; left
        obtain ⟨x', n, t, e1, r⟩ := stubCase e he hstub
        rw [hl] at e1 r
        exact ⟨x', n, t, e1, r⟩
    · -- the successor of an exit stub
      obtain ⟨_, _, _, _, _, _, _, hsuccs⟩ := hstub
      rw [hsuccs] at hs0
      rw [List.mem_singleton.mp hs0, BlockMap.lookup_set_self]
      right; right; left
      exact ⟨Innermost, hlatch, rfl⟩
  refine ⟨main, ?_⟩
  intro h hmem
  rw [hEntry, hBlocks] at hmem
  have hreach := inv.sound B hmem
  rcases h with h | h
  · rw [hreach.nonbarrier] at h
    exact Bool.false_ne_true h
  · cases hreach with
    | first h1 _ => exact h B hB h1
    | next h0 h1 _ => exact h _ (h0.mem_blocks hcl hB) h1

/-- C13: after `SubCFG::replicate` of a SubCFG whose entry barrier is one `formSubCfgs`
hands to the constructor, a barrier-only block or the entry block of the function (which
is the successor of no block), every successor of every block in `NewBlocks_` is a clone
in `NewBlocks_` of a block of the SubCFG, or an exit stub in `NewBlocks_` that stores the
id of a barrier-only successor of a block of the SubCFG, or a latch of the work-item loops
of the SubCFG; no successor is a block of the function as it was before, so none is an
original block or a barrier block. -/
theorem replicate_successors (F : Function) (hasOnlyBarrier : BasicBlock → Bool)
    (BarrierIds : DenseMap) (B : BasicBlock) (N Dim : Nat) (AfterBB : BasicBlock)
    (c : SubCFG) (R : Replica) (hcl : F.Closed) (hB : B ∈ F.blocks)
    (hEntry : hasOnlyBarrier B = true ∨ (B = F.entry ∧ F.EntryHasNoPreds))
    (hc : SubCFG.construct F hasOnlyBarrier BarrierIds B = some c)
    (hR : SubCFG.replicate F N Dim c AfterBB = some R) :
    (∀ Blk ∈ R.NewBlocks_, ∀ s ∈ Blk.succs,
      (∃ x ∈ c.Blocks_, s = NewBlock.clone x ∧ ∃ B' ∈ R.NewBlocks_, B'.label = s) ∨
      (∃ x n t, s = NewBlock.exitStub x n ∧ x ∈ c.Blocks_ ∧ t ∈ F.succ x ∧
        hasOnlyBarrier t = true ∧
        ∃ B' ∈ R.NewBlocks_, B'.label = s ∧
          B'.storedId = some (getIntN N (DenseMap.lookup BarrierIds t))) ∨
      (∃ L ∈ R.nest.Latches, s = NewBlock.loop L.label)) ∧
    (∀ Blk ∈ R.NewBlocks_, ∀ s ∈ Blk.succs,
      (∀ x, s ≠ NewBlock.orig x) ∧ s ≠ NewBlock.loadBB ∧ s ≠ NewBlock.uniformLoadBB) := by
  obtain ⟨main, hnot⟩ := replicate_successors_cases F hasOnlyBarrier BarrierIds B N Dim
    AfterBB c R hcl hB hc hR
  have hno : c.EntryBarrier_ ∉ c.Blocks_ := by
    apply hnot
    rcases hEntry with h | ⟨h, hpred⟩
    · exact Or.inl h
    · right
      rw [h]
      exact hpred
  have main2 : ∀ Blk ∈ R.NewBlocks_, ∀ s ∈ Blk.succs,
      (∃ x ∈ c.Blocks_, s = NewBlock.clone x ∧ ∃ B' ∈ R.NewBlocks_, B'.label = s) ∨
      (∃ x n t, s = NewBlock.exitStub x n ∧ x ∈ c.Blocks_ ∧ t ∈ F.succ x ∧
        hasOnlyBarrier t = true ∧
        ∃ B' ∈ R.NewBlocks_, B'.label = s ∧
          B'.storedId = some (getIntN N (DenseMap.lookup BarrierIds t))) ∨
      (∃ L ∈ R.nest.Latches, s = NewBlock.loop L.label) := by
    intro Blk hBlk s hs
    rcases main Blk hBlk s hs with h | h | h | ⟨_, h⟩
    · exact Or.inl h
    · exact Or.inr (Or.inl h)
    · exact Or.inr (Or.inr h)
    · exact absurd h hno
  refine ⟨main2, ?_⟩
  intro Blk hBlk s hs
  rcases main2 Blk hBlk s hs with ⟨_, _, h, _⟩ | ⟨_, _, _, h, _⟩ | ⟨_, _, h⟩ <;>
    · rw [h]
      exact ⟨fun x hx => NewBlock.noConfusion hx, fun hx => NewBlock.noConfusion hx,
        fun hx => NewBlock.noConfusion hx⟩

/-- Witness for C13: the SubCFG of the entry block of `exampleKernel`, replicated with one
dimension and the exit block 5 as `AfterBB`. -/
theorem replicate_successors_witness :
    exampleKernel.Closed ∧ 0 ∈ exampleKernel.blocks ∧
    (exampleBarriers 0 = true ∨ (0 = exampleKernel.entry ∧ exampleKernel.EntryHasNoPreds)) ∧
    ∃ c R,
      SubCFG.construct exampleKernel exampleBarriers
        (barrierIdsOf 18446744073709551615 exampleBarriers exampleKernel) 0 = some c ∧
      SubCFG.replicate exampleKernel 64 1 c 5 = some R ∧
      R.NewBlocks_ ≠ [] ∧
      ∀ Blk ∈ R.NewBlocks_, ∀ s ∈ Blk.succs,
        (∀ x, s ≠ NewBlock.orig x) ∧ s ≠ NewBlock.loadBB ∧ s ≠ NewBlock.uniformLoadBB :=
  ⟨by decide, by decide, Or.inr ⟨rfl, by decide⟩, _, _, rfl, rfl, by decide,
    (replicate_successors exampleKernel exampleBarriers
      (barrierIdsOf 18446744073709551615 exampleBarriers exampleKernel) 0 64 1 5 _ _
      (by decide) (by decide) (Or.inr ⟨rfl, by decide⟩) rfl rfl).2⟩

/-! ## C21: the status codes of clGetMemObjectInfo -/

/-- C21: `clGetMemObjectInfo` returns `CL_INVALID_MEM_OBJECT` for every memory object that
is not valid, whatever `param_name` is, and for a valid memory object it returns
`CL_INVALID_VALUE` for every `param_name` that is none of the queries of its switch. -/
theorem clGetMemObjectInfo_error_codes (K : ClConstants) (E : ClEnv)
    (memobj : Option MemObject) (param_name : Nat) :
    (IS_CL_OBJECT_VALID E memobj = false →
      clGetMemObjectInfo K E memobj param_name = K.CL_INVALID_MEM_OBJECT) ∧
    (IS_CL_OBJECT_VALID E memobj = true → param_name ∉ K.handledQueries →
      clGetMemObjectInfo K E memobj param_name = K.CL_INVALID_VALUE) := by
  constructor
  · intro h
    simp [clGetMemObjectInfo, h]
  · intro h hn
    cases memobj with
    | none => simp [IS_CL_OBJECT_VALID] at h
    | some m =>
      simp only [ClConstants.handledQueries, List.mem_cons, List.mem_singleton, not_or,
        List.not_mem_nil, or_false] at hn
      obtain ⟨h1, h2, h3, h4, h5, h6, h7, h8, h9, h10, h11, h12⟩ := hn
      simp only [clGetMemObjectInfo, h, Bool.not_true, Bool.false_eq_true, if_false,
        memObjectInfoSwitch, if_neg h1, if_neg h2, if_neg h3, if_neg h4, if_neg h5, if_neg h6,
        if_neg h7, if_neg h8, if_neg h9, if_neg h10, if_neg h11, if_neg h12]

/-- Witness for C21: a null pointer with the query `CL_MEM_SIZE`, and the valid example
buffer with the unknown query 0. -/
theorem clGetMemObjectInfo_error_codes_witness :
    clGetMemObjectInfo openclConstants exampleClEnv none 0x1102 = -38 ∧
    clGetMemObjectInfo openclConstants exampleClEnv (some exampleMemObject) 0 = -30 :=
  ⟨(clGetMemObjectInfo_error_codes openclConstants exampleClEnv none 0x1102).1 rfl,
   (clGetMemObjectInfo_error_codes openclConstants exampleClEnv (some exampleMemObject) 0).2
     rfl (by decide)⟩

/-! ## C29: the number of iterations of the worklist loop -/

theorem foldSucc_blocks_length_le (hob : BasicBlock → Bool) (ids : DenseMap)
    (l : List BasicBlock) (st : WorkState) :
    st.Blocks_.length ≤ (l.foldl (visitSucc hob ids) st).Blocks_.length ∧
    (l.foldl (visitSucc hob ids) st).WL.length + st.Blocks_.length
      = st.WL.length + (l.foldl (visitSucc hob ids) st).Blocks_.length := by
  refine ⟨?_, foldSucc_lengths hob ids l st⟩
  induction l generalizing st with
  | nil => simp
  | cons s rest ih =>
    rw [List.foldl_cons]
    have h1 := ih (visitSucc hob ids st s)
    have h2 : st.Blocks_.length ≤ (visitSucc hob ids st s).Blocks_.length := by
      unfold visitSucc
      by_cases h1 : s ∈ st.Blocks_
      · simp [h1]
      · cases h2 : hob s <;> simp [h1, h2]
    omega

/-- The loop of the constructor takes one iteration for the element the worklist starts
with and one for every block pushed: if it ends within `fuel` iterations, then it ends
within as many iterations as the worklist is long plus the number of blocks added to
`Blocks_`, and `fuel` is at least that number. -/
theorem worklistLoop_iterations (F : Function) (hob : BasicBlock → Bool) (ids : DenseMap) :
    ∀ (fuel : Nat) (st st' : WorkState), worklistLoop F hob ids fuel st = some st' →
      st.Blocks_.length ≤ st'.Blocks_.length ∧
      st.WL.length + st'.Blocks_.length ≤ fuel + st.Blocks_.length ∧
      worklistLoop F hob ids (st.WL.length + (st'.Blocks_.length - st.Blocks_.length)) st
        = some st' := by
  intro fuel
  induction fuel with
  | zero =>
    intro st st' h
    unfold worklistLoop at h
    by_cases he : st.WL.isEmpty = true
    · rw [if_pos he] at h
      have hst := Option.some.inj h
      subst hst
      have hnil : st.WL = [] := List.isEmpty_iff.mp he
      simp [hnil, worklistLoop]
    · rw [if_neg he] at h
      exact absurd h (by simp)
  | succ n ih =>
    intro st st' h
    cases hWL : st.WL with
    | nil =>
      have hst : st = st' := by
        unfold worklistLoop at h
        rw [hWL] at h
        exact Option.some.inj h
      subst hst
      simp [worklistLoop, hWL]
    | cons BB rest =>
      have h' : worklistLoop F hob ids n (visitBlock F hob ids st BB rest) = some st' := by
        unfold worklistLoop at h
        rw [hWL] at h
        exact h
      obtain ⟨i1, i2, i3⟩ := ih _ _ h'
      obtain ⟨l1, l2⟩ := foldSucc_blocks_length_le hob ids (F.succ BB) { st with WL := rest }
      have e1 : (visitBlock F hob ids st BB rest).Blocks_.length
          = ((F.succ BB).foldl (visitSucc hob ids) { st with WL := rest }).Blocks_.length := rfl
      have e2 : (visitBlock F hob ids st BB rest).WL.length
          = ((F.succ BB).foldl (visitSucc hob ids) { st with WL := rest }).WL.length := rfl
      simp only at l1 l2
      rw [← e1] at l1 l2
      rw [← e2] at l2
      refine ⟨by omega, by simp only [List.length_cons]; omega, ?_⟩
      have hfuel : (BB :: rest).length + (st'.Blocks_.length - st.Blocks_.length)
          = ((visitBlock F hob ids st BB rest).WL.length +
              (st'.Blocks_.length - (visitBlock F hob ids st BB rest).Blocks_.length)) + 1 := by
        simp only [List.length_cons]
        omega
      rw [hfuel]
      unfold worklistLoop
      rw [hWL]
      exact i3

/-- C29: for every function whose block list is closed under successors and every entry
barrier `B` of it, barrier-only or not, the worklist loop of the constructor ends within
as many iterations as the function has blocks, plus one: it ends after exactly one
iteration for `B` and one for every block of `Blocks_`, each block is pushed once (the
blocks of `Blocks_` are distinct blocks of the function), and no smaller number of
iterations suffices. -/
theorem worklistLoop_terminates_within_blocks (F : Function)
    (hasOnlyBarrier : BasicBlock → Bool) (BarrierIds : DenseMap) (B : BasicBlock)
    (hcl : F.Closed) (hB : B ∈ F.blocks) :
    ∃ st,
      worklistLoop F hasOnlyBarrier BarrierIds (F.blocks.length + 1) (initialWorkState B)
        = some st ∧
      st.WL = [] ∧ st.Blocks_.Nodup ∧ (∀ x ∈ st.Blocks_, x ∈ F.blocks) ∧
      st.Blocks_.length + 1 ≤ F.blocks.length + 1 ∧
      worklistLoop F hasOnlyBarrier BarrierIds (st.Blocks_.length + 1) (initialWorkState B)
        = some st ∧
      (∀ fuel st', worklistLoop F hasOnlyBarrier BarrierIds fuel (initialWorkState B)
          = some st' → st'.Blocks_.length + 1 ≤ fuel) ∧
      (SubCFG.construct F hasOnlyBarrier BarrierIds B).isSome = true := by
  obtain ⟨st, hst, inv, hwl, hc⟩ := construct_spec F hasOnlyBarrier BarrierIds B hcl hB
  obtain ⟨_, i2, i3⟩ := worklistLoop_iterations F hasOnlyBarrier BarrierIds _ _ _ hst
  refine ⟨st, hst, hwl, inv.nodup, fun x hx => (inv.sound x hx).mem_blocks hcl hB, ?_, ?_, ?_,
    by rw [hc]; rfl⟩
  · simp only [initialWorkState, List.length_singleton, List.length_nil] at i2
    omega
  · simpa [initialWorkState, Nat.add_comm] using i3
  · intro fuel st' h
    obtain ⟨_, j2, _⟩ := worklistLoop_iterations F hasOnlyBarrier BarrierIds _ _ _ h
    simp only [initialWorkState, List.length_singleton, List.length_nil] at j2
    omega

/-- Witness for C29: the function whose only block branches to itself, with this block,
which is not barrier-only, as entry barrier. -/
theorem worklistLoop_terminates_within_blocks_witness :
    ∃ st,
      worklistLoop selfLoopKernel (fun _ => false) [] (selfLoopKernel.blocks.length + 1)
        (initialWorkState 0) = some st ∧ st.WL = [] ∧ st.Blocks_ = [0] := by
  obtain ⟨st, h1, h2, _⟩ :=
    worklistLoop_terminates_within_blocks selfLoopKernel (fun _ => false) [] 0
      (by decide) (by decide)
  refine ⟨st, h1, h2, ?_⟩
  have : worklistLoop selfLoopKernel (fun _ => false) [] (selfLoopKernel.blocks.length + 1)
      (initialWorkState 0) = some
        { WL := [], Blocks_ := [0], ExitIds_ := [], assertsHeld := true } := by rfl
  rw [this] at h1
  rw [← Option.some.inj h1]

/-! ## C22 and C27: the blocks that createLoopsAround builds, for every number of dimensions -/

theorem getElem?_updateAt {α : Type} (g : α → α) :
    ∀ (l : List α) (i j : Nat),
      (updateAt l i g)[j]? = if j = i then l[j]?.map g else l[j]? := by
  intro l
  induction l with
  | nil => intro i j; simp [updateAt]
  | cons a rest ih =>
    intro i j
    cases i with
    | zero =>
      cases j with
      | zero => simp [updateAt]
      | succ j => simp [updateAt]
    | succ i =>
      cases j with
      | zero => simp [updateAt]
      | succ j => simp [updateAt, ih i j]

theorem updateAt_map_range {β : Type} (F : Nat → β) (g : β → β) (n i : Nat) :
    updateAt ((List.range n).map F) i g =
      (List.range n).map (fun d => if d = i then g (F d) else F d) := by
  apply List.ext_getElem?
  intro j
  rw [getElem?_updateAt, List.getElem?_map, List.getElem?_map]
  by_cases hj : j < n
  · rw [List.getElem?_range hj]
    by_cases hji : j = i <;> simp [hji]
  · rw [List.getElem?_eq_none (by simpa using hj)]
    simp

theorem foldl_createLoop_prefix :
    ∀ (ds : List Nat) (st : LoopNest),
      (ds.foldl createLoop st).Latches = st.Latches ++
        (ds.foldl createLoop { Latches := [], IndVars := [], LastHeader := st.LastHeader }).Latches ∧
      (ds.foldl createLoop st).IndVars = st.IndVars ++
        (ds.foldl createLoop { Latches := [], IndVars := [], LastHeader := st.LastHeader }).IndVars ∧
      (ds.foldl createLoop st).LastHeader =
        (ds.foldl createLoop { Latches := [], IndVars := [], LastHeader := st.LastHeader }).LastHeader
      := by
  intro ds
  induction ds with
  | nil => intro st; simp
  | cons D rest ih =>
    intro st
    rw [List.foldl_cons, List.foldl_cons]
    obtain ⟨a1, a2, a3⟩ := ih (createLoop st D)
    obtain ⟨b1, b2, b3⟩ := ih (createLoop
      { Latches := [], IndVars := [], LastHeader := st.LastHeader } D)
    have e : (createLoop { Latches := [], IndVars := [], LastHeader := st.LastHeader } D).LastHeader
        = (createLoop st D).LastHeader := rfl
    rw [e] at b1 b2 b3
    rw [a1, a2, a3, b1, b2, b3]
    simp [createLoop]

/-- The loops as the first loop of `createLoopsAround` leaves them, read from the last
one created to the first one. -/
theorem foldl_createLoop_range (k : Nat) :
    ∀ last : LoopBlock,
      (((List.range k).reverse.foldl createLoop
          { Latches := [], IndVars := [], LastHeader := last }).Latches.reverse =
        (List.range k).map (fun d =>
          ({ label := LoopBlock.latch d, dim := d, onTrue := LoopBlock.header d,
             onFalse := LoopBlock.afterBB, loopMD := none } : LatchBlock))) ∧
      (((List.range k).reverse.foldl createLoop
          { Latches := [], IndVars := [], LastHeader := last }).IndVars.reverse =
        (List.range k).map (fun d =>
          ({ label := LoopBlock.header d, dim := d,
             phi := [(IndValue.zero, LoopBlock.entry),
                     (IndValue.incIndVar d, LoopBlock.latch d)],
             br := if d + 1 = k then last else LoopBlock.header (d + 1) } : HeaderBlock))) ∧
      ((List.range k).reverse.foldl createLoop
          { Latches := [], IndVars := [], LastHeader := last }).LastHeader =
        (if k = 0 then last else LoopBlock.header 0) := by
  induction k with
  | zero => intro last; simp
  | succ k ih =>
    intro last
    rw [List.range_succ, List.reverse_append, List.reverse_singleton, List.singleton_append,
      List.foldl_cons]
    obtain ⟨p1, p2, p3⟩ := foldl_createLoop_prefix (List.range k).reverse
      (createLoop { Latches := [], IndVars := [], LastHeader := last } k)
    obtain ⟨i1, i2, i3⟩ := ih (LoopBlock.header k)
    have e : (createLoop { Latches := [], IndVars := [], LastHeader := last } k).LastHeader
        = LoopBlock.header k := rfl
    rw [e] at p1 p2 p3
    rw [p1, p2, p3]
    refine ⟨?_, ?_, ?_⟩
    · rw [List.reverse_append, i1, List.map_append]
      rfl
    · rw [List.reverse_append, i2, List.map_append]
      congr 1
      · apply List.map_congr_left
        intro d hd
        have hdk : d < k := List.mem_range.mp hd
        have h1 : ¬ d + 1 = k + 1 := by omega
        by_cases h2 : d + 1 = k
        · simp [h1, h2]
        · simp [h1, h2]
      · simp [createLoop]
    · rw [i3]
      by_cases hk : k = 0
      · simp [hk]
      · simp [hk]

/-- The loops after the first `m` iterations of the loop of `createLoopsAround` that rewires
the latches and the PHIs. -/
theorem foldl_rewireLoop (Dim : Nat) (LH : LoopBlock) (br : Nat → LoopBlock) :
    ∀ m : Nat, m + 1 ≤ Dim →
      (List.range' 1 m).foldl rewireLoop
          { Latches := (List.range Dim).map (fun d =>
              ({ label := LoopBlock.latch d, dim := d, onTrue := LoopBlock.header d,
                 onFalse := LoopBlock.afterBB, loopMD := none } : LatchBlock))
            IndVars := (List.range Dim).map (fun d =>
              ({ label := LoopBlock.header d, dim := d,
                 phi := [(IndValue.zero, LoopBlock.entry),
                         (IndValue.incIndVar d, LoopBlock.latch d)],
                 br := br d } : HeaderBlock))
            LastHeader := LH } =
        { Latches := (List.range Dim).map (fun d =>
            ({ label := LoopBlock.latch d, dim := d, onTrue := LoopBlock.header d,
               onFalse := if 1 ≤ d ∧ d ≤ m then LoopBlock.latch (d - 1) else LoopBlock.afterBB,
               loopMD := none } : LatchBlock))
          IndVars := (List.range Dim).map (fun d =>
            ({ label := LoopBlock.header d, dim := d,
               phi := [(IndValue.zero,
                        if 1 ≤ d ∧ d ≤ m then LoopBlock.header (d - 1) else LoopBlock.entry),
                       (IndValue.incIndVar d, LoopBlock.latch d)],
               br := br d } : HeaderBlock))
          LastHeader := LH } := by
  intro m
  induction m with
  | zero =>
    intro _
    simp only [List.range'_zero, List.foldl_nil, LoopNest.mk.injEq, and_true]
    constructor
    · apply List.map_congr_left
      intro d _
      have : ¬ (1 ≤ d ∧ d ≤ 0) := by omega
      rw [if_neg this]
    · apply List.map_congr_left
      intro d _
      have : ¬ (1 ≤ d ∧ d ≤ 0) := by omega
      rw [if_neg this]
  | succ m ih =>
    intro hm
    have hmD : m < Dim := by omega
    rw [List.range'_concat, List.foldl_append, ih (by omega), Nat.one_mul, List.foldl_cons,
      List.foldl_nil]
    have e1 : 1 + m - 1 = m := by omega
    simp only [rewireLoop, e1, List.getElem?_map, List.getElem?_range hmD, Option.map_some',
      updateAt_map_range, LoopNest.mk.injEq, and_true]
    constructor
    · apply List.map_congr_left
      intro d _
      by_cases hd : d = 1 + m
      · subst hd
        have c1 : ¬ (1 ≤ 1 + m ∧ 1 + m ≤ m) := by omega
        have c2 : 1 ≤ 1 + m ∧ 1 + m ≤ m + 1 := by omega
        have c3 : 1 + m - 1 = m := by omega
        rw [if_pos rfl, if_neg c1, if_pos c2, c3]
        rfl
      · have c : (1 ≤ d ∧ d ≤ m + 1) ↔ (1 ≤ d ∧ d ≤ m) := by omega
        rw [if_neg hd]
        simp only [c]
    · apply List.map_congr_left
      intro d _
      by_cases hd : d = 1 + m
      · subst hd
        have c1 : ¬ (1 ≤ 1 + m ∧ 1 + m ≤ m) := by omega
        have c2 : 1 ≤ 1 + m ∧ 1 + m ≤ m + 1 := by omega
        have c3 : 1 + m - 1 = m := by omega
        rw [if_pos rfl, if_neg c1, if_pos c2, c3]
        rfl
      · have c : (1 ≤ d ∧ d ≤ m + 1) ↔ (1 ≤ d ∧ d ≤ m) := by omega
        rw [if_neg hd]
        simp only [c]

/-- The blocks that `createLoopsAround` builds for `Dim ≥ 1` dimensions. -/
theorem createLoopsAround_eq (Dim : Nat) (hDim : 1 ≤ Dim) :
    createLoopsAround Dim =
      { Latches := (List.range Dim).map (fun d =>
          ({ label := LoopBlock.latch d, dim := d, onTrue := LoopBlock.header d,
             onFalse := if 1 ≤ d then LoopBlock.latch (d - 1) else LoopBlock.afterBB,
             loopMD := if d = Dim - 1 then some WorkItemLoopMD else none } : LatchBlock))
        IndVars := (List.range Dim).map (fun d =>
          ({ label := LoopBlock.header d, dim := d,
             phi := [(IndValue.zero,
                      if 1 ≤ d then LoopBlock.header (d - 1) else LoopBlock.entry),
                     (IndValue.incIndVar d, LoopBlock.latch d)],
             br := if d + 1 = Dim then LoopBlock.loadBB else LoopBlock.header (d + 1) }
            : HeaderBlock))
        LastHeader := LoopBlock.header 0 } := by
  obtain ⟨b1, b2, b3⟩ := foldl_createLoop_range Dim LoopBlock.loadBB
  have hne : ¬ Dim = 0 := by omega
  rw [if_neg hne] at b3
  unfold createLoopsAround
  simp only [b1, b2, b3]
  rw [foldl_rewireLoop Dim (LoopBlock.header 0)
    (fun d => if d + 1 = Dim then LoopBlock.loadBB else LoopBlock.header (d + 1)) (Dim - 1)
    (by omega)]
  simp only [updateAt_map_range, LoopNest.mk.injEq, and_true]
  constructor
  · apply List.map_congr_left
    intro d hd
    have hdD : d < Dim := List.mem_range.mp hd
    have c : (1 ≤ d ∧ d ≤ Dim - 1) ↔ 1 ≤ d := by omega
    by_cases hlast : d = Dim - 1
    · rw [if_pos hlast, if_pos hlast]
      simp only [c]
    · rw [if_neg hlast, if_neg hlast]
      simp only [c]
  · apply List.map_congr_left
    intro d hd
    have hdD : d < Dim := List.mem_range.mp hd
    have c : (1 ≤ d ∧ d ≤ Dim - 1) ↔ 1 ≤ d := by omega
    simp only [c]

theorem find?_map_range {β : Type} (F : Nat → β) (p : β → Bool) (d : Nat)
    (hp : ∀ j, p (F j) = true ↔ j = d) :
    ∀ n : Nat, d < n → ((List.range n).map F).find? p = some (F d) := by
  intro n
  induction n with
  | zero => intro h; omega
  | succ n ih =>
    intro hd
    rw [List.range_succ, List.map_append, List.find?_append]
    by_cases hdn : d < n
    · rw [ih hdn]
      rfl
    · have hdn' : d = n := by omega
      have hnone : ((List.range n).map F).find? p = none := by
        rw [List.find?_eq_none]
        intro x hx
        obtain ⟨j, hj, rfl⟩ := List.mem_map.mp hx
        have hjn : j < n := List.mem_range.mp hj
        intro hpj
        have := (hp j).mp hpj
        omega
      rw [hnone, ← hdn']
      simp [(hp d).mpr rfl]

theorem createLoopsAround_latch (Dim d : Nat) (hd : d < Dim) :
    (createLoopsAround Dim).Latches[d]? = some
        { label := LoopBlock.latch d, dim := d, onTrue := LoopBlock.header d,
          onFalse := if 1 ≤ d then LoopBlock.latch (d - 1) else LoopBlock.afterBB,
          loopMD := if d = Dim - 1 then some WorkItemLoopMD else none } ∧
      (createLoopsAround Dim).Latches.find? (fun L => L.label = LoopBlock.latch d) = some
        { label := LoopBlock.latch d, dim := d, onTrue := LoopBlock.header d,
          onFalse := if 1 ≤ d then LoopBlock.latch (d - 1) else LoopBlock.afterBB,
          loopMD := if d = Dim - 1 then some WorkItemLoopMD else none } ∧
      (createLoopsAround Dim).Latches.length = Dim := by
  rw [createLoopsAround_eq Dim (by omega)]
  refine ⟨?_, ?_, by simp⟩
  · simp only [List.getElem?_map, List.getElem?_range hd, Option.map_some']
  · exact find?_map_range _ _ d (fun j => by simp) Dim hd

theorem createLoopsAround_header (Dim d : Nat) (hd : d < Dim) :
    (createLoopsAround Dim).IndVars[d]? = some
        { label := LoopBlock.header d, dim := d,
          phi := [(IndValue.zero, if 1 ≤ d then LoopBlock.header (d - 1) else LoopBlock.entry),
                  (IndValue.incIndVar d, LoopBlock.latch d)],
          br := if d + 1 = Dim then LoopBlock.loadBB else LoopBlock.header (d + 1) } ∧
      (createLoopsAround Dim).IndVars.find? (fun H => H.label = LoopBlock.header d) = some
        { label := LoopBlock.header d, dim := d,
          phi := [(IndValue.zero, if 1 ≤ d then LoopBlock.header (d - 1) else LoopBlock.entry),
                  (IndValue.incIndVar d, LoopBlock.latch d)],
          br := if d + 1 = Dim then LoopBlock.loadBB else LoopBlock.header (d + 1) } ∧
      (createLoopsAround Dim).IndVars.length = Dim := by
  rw [createLoopsAround_eq Dim (by omega)]
  refine ⟨?_, ?_, by simp⟩
  · simp only [List.getElem?_map, List.getElem?_range hd, Option.map_some']
  · exact find?_map_range _ _ d (fun j => by simp) Dim hd

/-- C22: after `createLoopsAround` with `Dim` dimensions, for every dimension `d < Dim`
the latch of `d` branches to the header of `d` on `exit.cond` and otherwise to the latch of
`d - 1` (to `AfterBB` for `d = 0`), and the PHI of `d` has exactly two incoming entries,
the constant 0 from the header of `d - 1` (from the entry block for `d = 0`) and `addInd`
from the latch of `d`. In an execution the latch takes the first branch exactly when
`indvar + 1 < LocalSize[d]`, and the header sets `indvar` to 0 when control comes from
the outer header (the entry block) and to `indvar + 1` when it comes from the latch. -/
theorem createLoopsAround_wiring (Dim d : Nat) (hd : d < Dim) :
    (∃ L H, (createLoopsAround Dim).Latches[d]? = some L ∧
      (createLoopsAround Dim).IndVars[d]? = some H ∧
      L.label = LoopBlock.latch d ∧ L.dim = d ∧ L.onTrue = LoopBlock.header d ∧
      L.onFalse = (if d = 0 then LoopBlock.afterBB else LoopBlock.latch (d - 1)) ∧
      H.label = LoopBlock.header d ∧ H.dim = d ∧
      H.phi = [(IndValue.zero, if d = 0 then LoopBlock.entry else LoopBlock.header (d - 1)),
               (IndValue.incIndVar d, LoopBlock.latch d)] ∧
      H.phi.length = 2) ∧
    (∀ (N : Nat) (LocalSize : List Nat) (st : ExecState), st.cur = LoopBlock.latch d →
      st.IndVars.getD d 0 + 1 < 2 ^ N →
      stepLoop N Dim (createLoopsAround Dim) LocalSize st = some
        { st with
          cur := if st.IndVars.getD d 0 + 1 < LocalSize.getD d 0 then LoopBlock.header d
            else if d = 0 then LoopBlock.afterBB else LoopBlock.latch (d - 1)
          prev := LoopBlock.latch d
          IncIndVars := st.IncIndVars.set d (st.IndVars.getD d 0 + 1) }) ∧
    (∀ (N : Nat) (LocalSize : List Nat) (st : ExecState), st.cur = LoopBlock.header d →
      st.prev = (if d = 0 then LoopBlock.entry else LoopBlock.header (d - 1)) →
      stepLoop N Dim (createLoopsAround Dim) LocalSize st = some
        { st with
          cur := if d + 1 = Dim then LoopBlock.loadBB else LoopBlock.header (d + 1)
          prev := LoopBlock.header d
          IndVars := st.IndVars.set d 0 }) ∧
    (∀ (N : Nat) (LocalSize : List Nat) (st : ExecState), st.cur = LoopBlock.header d →
      st.prev = LoopBlock.latch d →
      stepLoop N Dim (createLoopsAround Dim) LocalSize st = some
        { st with
          cur := if d + 1 = Dim then LoopBlock.loadBB else LoopBlock.header (d + 1)
          prev := LoopBlock.header d
          IndVars := st.IndVars.set d (st.IncIndVars.getD d 0) }) := by
  obtain ⟨l1, l2, _⟩ := createLoopsAround_latch Dim d hd
  obtain ⟨h1, h2, _⟩ := createLoopsAround_header Dim d hd
  have c0 : (1 ≤ d) ↔ ¬ d = 0 := by omega
  refine ⟨⟨_, _, l1, h1, rfl, rfl, rfl, ?_, rfl, rfl, ?_, rfl⟩, ?_, ?_, ?_⟩
  · by_cases h : d = 0 <;> simp [h]
  · by_cases h : d = 0 <;> simp [h]
  · intro N LocalSize st hc hlt
    simp only [stepLoop, hc, l2, hlt, if_true]
    by_cases h : d = 0
    · subst h
      simp
    · have h' : 1 ≤ d := by omega
      simp [h, h']
  · intro N LocalSize st hc hp
    by_cases h : d = 0
    · subst h
      simp only [if_true] at hp
      simp [stepLoop, hc, h2, hp, ExecState.eval]
    · have h' : 1 ≤ d := by omega
      rw [if_neg h] at hp
      simp [stepLoop, hc, h2, hp, h', ExecState.eval]
  · intro N LocalSize st hc hp
    by_cases h : d = 0
    · subst h
      simp [stepLoop, hc, h2, hp, ExecState.eval]
    · have h' : 1 ≤ d := by omega
      simp [stepLoop, hc, h2, hp, h', ExecState.eval]

/-- Witness for C22: dimension 1 of three dimensions. -/
theorem createLoopsAround_wiring_witness :
    ∃ L H, (createLoopsAround 3).Latches[1]? = some L ∧
      (createLoopsAround 3).IndVars[1]? = some H ∧
      L.onTrue = LoopBlock.header 1 ∧ L.onFalse = LoopBlock.latch 0 ∧
      H.phi = [(IndValue.zero, LoopBlock.header 0), (IndValue.incIndVar 1, LoopBlock.latch 1)] := by
  obtain ⟨L, H, h1, h2, _, _, h3, h4, _, _, h5, _⟩ :=
    (createLoopsAround_wiring 3 1 (by decide)).1
  exact ⟨L, H, h1, h2, h3, h4, h5⟩

/-- C27 fails as stated: with two dimensions the latch of dimension 0 carries no
`llvm.loop` metadata. -/
theorem createLoopsAround_outer_latch_counterexample :
    ∃ L, (createLoopsAround 2).Latches[0]? = some L ∧ L.label = LoopBlock.latch 0 ∧
      L.loopMD = none ∧ L.loopMD ≠ some WorkItemLoopMD :=
  ⟨_, rfl, rfl, rfl, by decide⟩

/-- C27 (amended): after `createLoopsAround` with `Dim` dimensions, the `llvm.loop` node
on the terminator of the latch of dimension `d < Dim` carries `pocl.loop.workitem` exactly
when `d = Dim - 1`, the innermost loop; the latches of the other dimensions carry no
`llvm.loop` metadata. -/
theorem createLoopsAround_workitem_metadata (Dim d : Nat) (hd : d < Dim) :
    ∃ L, (createLoopsAround Dim).Latches[d]? = some L ∧ L.label = LoopBlock.latch d ∧
      (d = Dim - 1 → L.loopMD = some "pocl.loop.workitem") ∧
      (d ≠ Dim - 1 → L.loopMD = none) ∧
      (L.loopMD = some WorkItemLoopMD ↔ d = Dim - 1) := by
  obtain ⟨l1, _, _⟩ := createLoopsAround_latch Dim d hd
  refine ⟨_, l1, rfl, ?_, ?_, ?_⟩
  · intro h
    simp [h, WorkItemLoopMD]
  · intro h
    simp [h]
  · by_cases h : d = Dim - 1 <;> simp [h]

/-- Witness for C27 (amended): the innermost of three dimensions. -/
theorem createLoopsAround_workitem_metadata_witness :
    ∃ L, (createLoopsAround 3).Latches[2]? = some L ∧
      L.loopMD = some "pocl.loop.workitem" := by
  obtain ⟨L, h1, _, h2, _⟩ := createLoopsAround_workitem_metadata 3 2 (by decide)
  exact ⟨L, h1, h2 rfl⟩

/-! ## C23: arrayifyValue and loadFromAlloca address the same slot -/

theorem storeByWorkItems_wide (n : Nat) (hn : n ≠ 1) (v : Nat → Nat) (mem : SlotMemory) :
    ∀ count idx, idx < count → storeByWorkItems n count v mem idx = some (v idx) := by
  intro count
  induction count with
  | zero => intro idx h; omega
  | succ count ih =>
    intro idx hidx
    have hstep : storeByWorkItems n (count + 1) v mem =
        SlotMemory.store (storeByWorkItems n count v mem) (SlotPointer.gep count) (v count) := by
      simp [storeByWorkItems, List.range_succ, List.foldl_append, arrayifyValue, hn]
    rw [hstep]
    by_cases h : idx = count
    · subst h
      simp [SlotMemory.store, SlotPointer.slot]
    · have := ih idx (by omega)
      simp [SlotMemory.store, SlotPointer.slot, h, this]

theorem storeByWorkItems_single (v : Nat → Nat) (mem : SlotMemory) (count : Nat) :
    storeByWorkItems 1 (count + 1) v mem 0 = some (v count) := by
  simp [storeByWorkItems, List.range_succ, List.foldl_append, arrayifyValue, SlotMemory.store,
    SlotPointer.slot]

/-- Beyond the range of `getInt32`: for the slot count `2 ^ 32 + 1`, whose low 32 bits
are 1, `arrayifyValue` stores through a GEP by the index 5, the alloca it has made is no
array allocation, and `loadFromAlloca` reads slot 0.  No call passes such a count. -/
theorem arrayifyValue_truncated_count :
    (arrayifyValue 5 4294967297).2 = SlotPointer.gep 5 ∧
    (arrayifyValue 5 4294967297).1.isArrayAllocation = false ∧
    loadFromAlloca (arrayifyValue 5 4294967297).1 5 = SlotPointer.alloca ∧
    SlotMemory.load
        (SlotMemory.store (fun _ => none) (arrayifyValue 5 4294967297).2 7)
        (loadFromAlloca (arrayifyValue 5 4294967297).1 5) ≠ some 7 := by
  decide

/-- C23: for every slot count `n ≥ 1` (within the 32 bits of the array size operand, as
the counts 1 and `NumArrayElements` of every call are) and every index `idx < n`,
`arrayifyValue` stores through a GEP by `idx` exactly when `n ≠ 1`, `loadFromAlloca` loads
through a GEP by `idx` exactly when the alloca is an array allocation, the two conditions
coincide for the alloca made by `arrayifyValue`, both address the same slot, and the load
reads the value stored; after every work-item has stored a uniform value, each work-item
reads this value in the 1-slot lowering as in the `n`-slot lowering. -/
theorem arrayifyValue_loadFromAlloca_same_slot (n idx : Nat) (h1 : 1 ≤ n) (h32 : n < 2 ^ 32)
    (hidx : idx < n) :
    ((arrayifyValue idx n).2 = SlotPointer.gep idx ↔ n ≠ 1) ∧
    ((arrayifyValue idx n).2 = SlotPointer.alloca ↔ n = 1) ∧
    (∀ A : ArrayAlloca, loadFromAlloca A idx = SlotPointer.gep idx ↔ A.isArrayAllocation = true) ∧
    (∀ A : ArrayAlloca, loadFromAlloca A idx = SlotPointer.alloca ↔ A.isArrayAllocation = false) ∧
    ((arrayifyValue idx n).1.isArrayAllocation = true ↔ n ≠ 1) ∧
    loadFromAlloca (arrayifyValue idx n).1 idx = (arrayifyValue idx n).2 ∧
    (loadFromAlloca (arrayifyValue idx n).1 idx).slot = idx ∧
    (∀ (mem : SlotMemory) (v : Nat),
      SlotMemory.load (SlotMemory.store mem (arrayifyValue idx n).2 v)
        (loadFromAlloca (arrayifyValue idx n).1 idx) = some v) ∧
    (∀ (mem : SlotMemory) (v : Nat → Nat),
      SlotMemory.load (storeByWorkItems n n v mem)
        (loadFromAlloca (arrayifyValue idx n).1 idx) = some (v idx)) ∧
    (∀ (mem mem' : SlotMemory) (u : Nat),
      SlotMemory.load (storeByWorkItems n n (fun _ => u) mem)
          (loadFromAlloca (arrayifyValue idx n).1 idx) = some u ∧
      SlotMemory.load (storeByWorkItems 1 n (fun _ => u) mem')
          (loadFromAlloca (arrayifyValue idx 1).1 idx) = some u) := by
  have harr : (arrayifyValue idx n).1.isArrayAllocation = true ↔ n ≠ 1 := by
    by_cases h : n = 1
    · simp [arrayifyValue, ArrayAlloca.isArrayAllocation, h]
    · have hm : n % 4294967296 = n := by omega
      simp [arrayifyValue, ArrayAlloca.isArrayAllocation, h, hm]
  have hsame : loadFromAlloca (arrayifyValue idx n).1 idx = (arrayifyValue idx n).2 := by
    by_cases h : n = 1
    · have : (arrayifyValue idx n).1.isArrayAllocation = false := by
        simp [arrayifyValue, ArrayAlloca.isArrayAllocation, h]
      unfold loadFromAlloca
      rw [this]
      simp [arrayifyValue, h]
    · have : (arrayifyValue idx n).1.isArrayAllocation = true := harr.mpr h
      unfold loadFromAlloca
      rw [this]
      simp [arrayifyValue, h]
  have hslot : (loadFromAlloca (arrayifyValue idx n).1 idx).slot = idx := by
    rw [hsame]
    by_cases h : n = 1
    · have : idx = 0 := by omega
      simp [arrayifyValue, h, SlotPointer.slot, this]
    · simp [arrayifyValue, h, SlotPointer.slot]
  have hall : ∀ (mem : SlotMemory) (v : Nat → Nat),
      SlotMemory.load (storeByWorkItems n n v mem)
        (loadFromAlloca (arrayifyValue idx n).1 idx) = some (v idx) := by
    intro mem v
    unfold SlotMemory.load
    rw [hslot]
    by_cases h : n = 1
    · subst h
      have : idx = 0 := by omega
      subst this
      exact storeByWorkItems_single v mem 0
    · exact storeByWorkItems_wide n h v mem n idx hidx
  refine ⟨?_, ?_, ?_, ?_, harr, hsame, hslot, ?_, hall, ?_⟩
  · by_cases h : n = 1 <;> simp [arrayifyValue, h]
  · by_cases h : n = 1 <;> simp [arrayifyValue, h]
  · intro A
    cases hA : A.isArrayAllocation <;> simp [loadFromAlloca, hA]
  · intro A
    cases hA : A.isArrayAllocation <;> simp [loadFromAlloca, hA]
  · intro mem v
    rw [hsame]
    simp [SlotMemory.load, SlotMemory.store]
  · intro mem mem' u
    refine ⟨hall mem (fun _ => u), ?_⟩
    have h1slot : (loadFromAlloca (arrayifyValue idx 1).1 idx).slot = 0 := by
      simp [loadFromAlloca, arrayifyValue, ArrayAlloca.isArrayAllocation, SlotPointer.slot]
    unfold SlotMemory.load
    rw [h1slot]
    obtain ⟨k, hk⟩ : ∃ k, n = k + 1 := ⟨n - 1, by omega⟩
    rw [hk]
    exact storeByWorkItems_single (fun _ => u) mem' k

/-- Witness for C23: 1024 slots and the index 5. -/
theorem arrayifyValue_loadFromAlloca_same_slot_witness :
    loadFromAlloca (arrayifyValue 5 1024).1 5 = (arrayifyValue 5 1024).2 ∧
    (loadFromAlloca (arrayifyValue 5 1024).1 5).slot = 5 :=
  ⟨(arrayifyValue_loadFromAlloca_same_slot 1024 5 (by decide) (by decide) (by decide)).2.2.2.2.2.1,
   (arrayifyValue_loadFromAlloca_same_slot 1024 5 (by decide) (by decide)
      (by decide)).2.2.2.2.2.2.1⟩

/-! ## C24, C25, C26: loads and GEPs for values from other places -/

/-- C24: `loadMultiSubCfgValues` assigns a replacement to `VMap[I]` exactly for the pairs
`(I, slot)` of `InstAllocaMap` whose `I` is defined in no block of the SubCFG and has a
user in one of its new blocks; the replacement is a GEP by the new contiguous index in
the load block when `I` is a GEP tagged arrayified, otherwise a load from `slot` that is
put into the pre-header and reads the alloca itself when `slot` is no array allocation,
and is put into the load block and reads `slot[NewContIdx]` when it is one. -/
theorem loadMultiSubCfgValues_replacements (insts : Instructions)
    (Blocks_ NewBlocks_ : List BasicBlock) (isArrayAllocation : Nat → Bool)
    (getType : Instruction → IRType) (NewContIdx : Value)
    (InstAllocaMap : List (Instruction × Nat)) (I : Instruction) (R : Replacement) :
    (I, R) ∈ loadMultiSubCfgValues insts Blocks_ NewBlocks_ isArrayAllocation getType
        NewContIdx InstAllocaMap ↔
      ∃ slot, (I, slot) ∈ InstAllocaMap ∧ I.parent ∉ Blocks_ ∧
        (∃ UI ∈ insts.users I, UI.parent ∈ NewBlocks_) ∧
        R = (if I.opcode = Opcode.GetElementPtr ∧ I.arrayified = true then
              Replacement.gep
                { SourceElementType := getType I
                  PointerOperand := I.operands.headD (Value.other 0)
                  Index := NewContIdx, arrayified := true, place := LoadPlace.loadBB }
            else if isArrayAllocation slot = false then
              Replacement.load
                { Alloca := AllocaRef.existing slot, viaGEP := false, Index := NewContIdx
                  place := LoadPlace.preHeader }
            else
              Replacement.load
                { Alloca := AllocaRef.existing slot, viaGEP := true, Index := NewContIdx
                  place := LoadPlace.loadBB }) := by
  have hload : ∀ slot, Replacement.load
      (loadAt isArrayAllocation (AllocaRef.existing slot) NewContIdx) =
      (if isArrayAllocation slot = false then
        Replacement.load
          { Alloca := AllocaRef.existing slot, viaGEP := false, Index := NewContIdx
            place := LoadPlace.preHeader }
      else
        Replacement.load
          { Alloca := AllocaRef.existing slot, viaGEP := true, Index := NewContIdx
            place := LoadPlace.loadBB }) := by
    intro slot
    cases h : isArrayAllocation slot <;> simp [loadAt, AllocaRef.isArrayAllocation, h]
  have hval : ∀ slot, loadMultiSubCfgValue insts Blocks_ NewBlocks_ isArrayAllocation getType
      NewContIdx (I, slot) = some R ↔
      I.parent ∉ Blocks_ ∧ (∃ UI ∈ insts.users I, UI.parent ∈ NewBlocks_) ∧
        R = (if I.opcode = Opcode.GetElementPtr ∧ I.arrayified = true then
              Replacement.gep
                { SourceElementType := getType I
                  PointerOperand := I.operands.headD (Value.other 0)
                  Index := NewContIdx, arrayified := true, place := LoadPlace.loadBB }
            else if isArrayAllocation slot = false then
              Replacement.load
                { Alloca := AllocaRef.existing slot, viaGEP := false, Index := NewContIdx
                  place := LoadPlace.preHeader }
            else
              Replacement.load
                { Alloca := AllocaRef.existing slot, viaGEP := true, Index := NewContIdx
                  place := LoadPlace.loadBB }) := by
    intro slot
    unfold loadMultiSubCfgValue
    by_cases hB : I.parent ∈ Blocks_
    · simp [hB]
    · by_cases hU : ∃ UI ∈ insts.users I, UI.parent ∈ NewBlocks_
      · have hany : (insts.users I).any (fun UI => NewBlocks_.contains UI.parent) = true := by
          obtain ⟨UI, h1, h2⟩ := hU
          exact List.any_eq_true.mpr ⟨UI, h1, by simpa using h2⟩
        have hc : (!Blocks_.contains I.parent) = true := by simpa using hB
        simp only [hc, hany, if_true]
        by_cases hG : I.opcode = Opcode.GetElementPtr ∧ I.arrayified = true
        · rw [if_pos hG, if_pos hG]
          constructor
          · intro h
            exact ⟨hB, hU, (Option.some.inj h).symm⟩
          · rintro ⟨_, _, h⟩
            rw [h]
            rfl
        · rw [if_neg hG, if_neg hG, ← hload slot]
          constructor
          · intro h
            exact ⟨hB, hU, (Option.some.inj h).symm⟩
          · rintro ⟨_, _, h⟩
            rw [h]
      · have hany : (insts.users I).any (fun UI => NewBlocks_.contains UI.parent) = false := by
          apply Bool.eq_false_iff.mpr
          intro h
          obtain ⟨UI, h1, h2⟩ := List.any_eq_true.mp h
          exact hU ⟨UI, h1, by simpa using h2⟩
        have hc : (!Blocks_.contains I.parent) = true := by simpa using hB
        simp only [hc, hany, if_true]
        simp [hU]
  unfold loadMultiSubCfgValues
  rw [List.mem_filterMap]
  constructor
  · rintro ⟨⟨I', slot⟩, hmem, h⟩
    cases hv : loadMultiSubCfgValue insts Blocks_ NewBlocks_ isArrayAllocation getType
        NewContIdx (I', slot) with
    | none => simp [hv] at h
    | some R' =>
      simp only [hv, Option.map_some', Option.some.injEq, Prod.mk.injEq] at h
      obtain ⟨h1, h2⟩ := h
      subst h1
      subst h2
      exact ⟨slot, hmem, (hval slot).mp hv⟩
  · rintro ⟨slot, hmem, h⟩
    exact ⟨(I, slot), hmem, by rw [(hval slot).mpr h]; rfl⟩

/-- C25: the GEP that `loadMultiSubCfgValues` and `fixSingleSubCfgValues` make in place of
the arrayified GEP 2 of `arrayifiedGepInsts` (source element type `i32`, on the alloca 1)
has the pointer operand of the original, the contiguous index and the arrayified tag, but
its source element type is the type of the original GEP, a pointer, not `i32`. -/
theorem reemitted_gep_source_element_type :
    loadMultiSubCfgValues arrayifiedGepInsts [10] [20] (fun _ => true) exampleTypeOf
        (Value.indVar 0)
        [({ id := 2, parent := 1, opcode := Opcode.GetElementPtr,
            operands := [Value.inst 1, Value.other 0], arrayified := true }, 1)] =
      [({ id := 2, parent := 1, opcode := Opcode.GetElementPtr,
          operands := [Value.inst 1, Value.other 0], arrayified := true },
        Replacement.gep
          { SourceElementType := IRType.base 0, PointerOperand := Value.inst 1,
            Index := Value.indVar 0, arrayified := true, place := LoadPlace.loadBB })] ∧
    fixNonDominatingOperand arrayifiedGepInsts (fun _ => true) exampleTypeOf [] 1024
        (Value.indVar 0) none
        { id := 2, parent := 1, opcode := Opcode.GetElementPtr,
          operands := [Value.inst 1, Value.other 0], arrayified := true } =
      OperandFix.replace (Replacement.gep
        { SourceElementType := IRType.base 0, PointerOperand := Value.inst 1,
          Index := Value.indVar 0, arrayified := true, place := LoadPlace.loadBB }) ∧
    exampleSourceElementTypeOf
        { id := 2, parent := 1, opcode := Opcode.GetElementPtr,
          operands := [Value.inst 1, Value.other 0], arrayified := true } = IRType.base 1 ∧
    IRType.base 0 ≠ IRType.base 1 := by
  refine ⟨by rfl, by rfl, by rfl, by decide⟩

/-- C26: for the load 7 of `plainLoadInsts`, which does not read an arrayified alloca,
`fixSingleSubCfgValues` discards the alloca 3 that `RemappedInstAllocaMap` holds for it
and has `arrayifyInstruction` create a new alloca; for an operand that is no load the
entry is used. -/
theorem fixSingleSubCfgValues_load_entry_discarded :
    DenseMap.find [(7, 3)] 7 = some 3 ∧
    fixOperandAlloca plainLoadInsts [(7, 3)] 1024
        { id := 7, parent := 10, opcode := Opcode.Load, operands := [Value.other 0],
          arrayified := false } = AllocaRef.created 1024 ∧
    fixNonDominatingOperand plainLoadInsts (fun _ => true) exampleTypeOf [(7, 3)] 1024
        (Value.indVar 0) none
        { id := 7, parent := 10, opcode := Opcode.Load, operands := [Value.other 0],
          arrayified := false } =
      OperandFix.replace (Replacement.load
        { Alloca := AllocaRef.created 1024, viaGEP := true, Index := Value.indVar 0,
          place := LoadPlace.loadBB }) ∧
    fixOperandAlloca plainLoadInsts [(7, 3)] 1024
        { id := 7, parent := 10, opcode := Opcode.Other, operands := [Value.other 0],
          arrayified := false } = AllocaRef.existing 3 := by
  refine ⟨by rfl, by rfl, by rfl, by rfl⟩

/-! ## C28 and C30: topoSortInstructions -/

/-- What the scan for `InsertAt` returns: `I` when no element at an index in `(I, J]` is
used by the element at `I`, and otherwise an index in `(I, J]` whose element is. -/
theorem scanInsertAt_spec {α : Type} (R : α → α → Bool) (O : List α) (I : Nat) (x : α)
    (hx : O[I]? = some x) (J : Nat) (hJ : J < O.length) :
    (scanInsertAt R O I J = I ∧ ∀ j a, I < j → j ≤ J → O[j]? = some a → R a x = false) ∨
    (I < scanInsertAt R O I J ∧ scanInsertAt R O I J ≤ J ∧
      ∃ a, O[scanInsertAt R O I J]? = some a ∧ R a x = true) := by
  induction J with
  | zero =>
    left
    refine ⟨rfl, ?_⟩
    intro j a h1 h2
    omega
  | succ J ih =>
    unfold scanInsertAt
    by_cases hI : J + 1 > I
    · rw [if_pos hI]
      have hget : O[J + 1]? = some (O[J + 1]) := List.getElem?_eq_getElem hJ
      rw [hget, hx]
      simp only
      by_cases hR : R (O[J + 1]) x = true
      · rw [if_pos hR]
        right
        exact ⟨hI, le_refl _, _, hget, hR⟩
      · rw [if_neg hR]
        rcases ih (by omega) with ⟨h1, h2⟩ | ⟨h1, h2, h3⟩
        · left
          refine ⟨h1, ?_⟩
          intro j a hj1 hj2 hja
          by_cases hj : j = J + 1
          · subst hj
            rw [hget] at hja
            cases hja
            simpa using hR
          · exact h2 j a hj1 (by omega) hja
        · right
          exact ⟨h1, by omega, h3⟩
    · rw [if_neg hI]
      left
      refine ⟨rfl, ?_⟩
      intro j a h1 h2
      omega

/-- An element at an index splits the list around it. -/
theorem split_at_getElem? {α : Type} (l : List α) (k : Nat) (a : α) (h : l[k]? = some a) :
    ∃ A C, l = A ++ a :: C ∧ A.length = k := by
  induction l generalizing k with
  | nil => simp at h
  | cons b l ih =>
    cases k with
    | zero =>
      simp at h
      subst h
      exact ⟨[], l, rfl, rfl⟩
    | succ k =>
      simp at h
      obtain ⟨A, C, h1, h2⟩ := ih k h
      exact ⟨b :: A, C, by rw [h1]; rfl, by simp [h2]⟩

/-- Writing at the index right behind a prefix replaces the element there. -/
theorem set_append_length {α : Type} (D : List α) (y x : α) (C : List α) :
    (D ++ y :: C).set D.length x = D ++ x :: C := by
  induction D with
  | nil => rfl
  | cons d D ih => simp [ih]

/-- The element right behind a prefix. -/
theorem getElem?_append_length {α : Type} (D : List α) (y : α) (C : List α) :
    (D ++ y :: C)[D.length]? = some y := by
  induction D with
  | nil => simp
  | cons d D ih => simpa using ih

/-- The shifting loop moves every element of the range one position to the front and
leaves the last one of them twice in the list. -/
theorem shiftDown_fold {α : Type} (A : List α) : ∀ (D : List α) (z : α) (C : List α),
    (List.range' (D.length + 1) A.length).foldl
      (fun O J =>
        match O[J]? with
        | some X => O.set (J - 1) X
        | none => O)
      (D ++ z :: (A ++ C)) = D ++ (A ++ A.getLastD z :: C) := by
  induction A with
  | nil =>
    intro D z C
    rfl
  | cons a A ih =>
    intro D z C
    have h1 : (D ++ z :: (a :: A ++ C))[D.length + 1]? = some a := by
      have := getElem?_append_length (D ++ [z]) a (A ++ C)
      simpa using this
    have h2 : (D ++ z :: (a :: A ++ C)).set D.length a = (D ++ [a]) ++ a :: (A ++ C) := by
      rw [set_append_length]
      simp
    have h3 := ih (D ++ [a]) a C
    simp only [List.length_append, List.length_singleton] at h3
    simp only [List.length_cons, List.range'_succ, List.foldl_cons, h1,
      Nat.add_sub_cancel, h2]
    have hl : (a :: A).getLastD z = A.getLastD a := by cases A <;> rfl
    rw [h3, hl]
    simp

/-- The move of `topoSortInstructions`: the element at `I` goes behind the elements up to
`InsertAt`, which keep their order. -/
theorem moveToInsertAt_split {α : Type} (D : List α) (x : α) (A C : List α) :
    moveToInsertAt (D ++ x :: (A ++ C)) D.length (D.length + A.length)
      = D ++ (A ++ x :: C) := by
  cases A with
  | nil =>
    unfold moveToInsertAt shiftDown
    rw [getElem?_append_length]
    simp [set_append_length]
  | cons a A =>
    unfold moveToInsertAt shiftDown
    rw [getElem?_append_length]
    simp only [Nat.add_sub_cancel_left]
    rw [shiftDown_fold]
    rcases List.eq_nil_or_concat (a :: A) with h | ⟨L, b, h⟩
    · cases h
    · have hl : (a :: A).getLastD x = b := by
        rw [h, List.concat_eq_append]
        simp [List.getLastD_eq_getLast?]
      rw [hl]
      have e1 : D ++ (a :: A ++ b :: C) = (D ++ (a :: A)) ++ b :: C := by simp
      have e2 : D.length + (a :: A).length = (D ++ (a :: A)).length := by simp
      rw [e1, e2, set_append_length]
      simp

/-- The elements behind the one that follows a prefix. -/
theorem getElem?_append_succ {α : Type} (D : List α) (x : α) (rest : List α) (k : Nat) :
    (D ++ x :: rest)[D.length + 1 + k]? = rest[k]? := by
  induction D with
  | nil =>
    have : ([] : List α).length + 1 + k = k + 1 := by simp; omega
    rw [this]
    simp
  | cons d D ih =>
    have : (d :: D).length + 1 + k = (D.length + 1 + k) + 1 := by simp; omega
    rw [this]
    simpa using ih

/-- The scan for `InsertAt` at the first position of the suffix: either no element behind
it is used by it, or the scan returns the index of one that is. -/
theorem scanInsertAt_split {α : Type} (R : α → α → Bool) (D : List α) (x : α)
    (rest : List α) :
    (scanInsertAt R (D ++ x :: rest) D.length ((D ++ x :: rest).length - 1) = D.length ∧
      ∀ b ∈ rest, R b x = false) ∨
    ∃ A y C, rest = A ++ y :: C ∧ R y x = true ∧
      scanInsertAt R (D ++ x :: rest) D.length ((D ++ x :: rest).length - 1)
        = D.length + (A ++ [y]).length := by
  have hlen : (D ++ x :: rest).length = D.length + 1 + rest.length := by simp; omega
  rcases scanInsertAt_spec R (D ++ x :: rest) D.length x (getElem?_append_length D x rest)
      ((D ++ x :: rest).length - 1) (by rw [hlen]; omega) with ⟨h1, h2⟩ | ⟨h1, h2, a, h3, h4⟩
  · left
    refine ⟨h1, ?_⟩
    intro b hb
    obtain ⟨k, hk⟩ := List.mem_iff_getElem?.mp hb
    have hklt : k < rest.length := by
      by_contra hc
      rw [List.getElem?_eq_none (by omega)] at hk
      cases hk
    refine h2 (D.length + 1 + k) b (by omega) (by rw [hlen]; omega) ?_
    rw [getElem?_append_succ, hk]
  · right
    generalize scanInsertAt R (D ++ x :: rest) D.length ((D ++ x :: rest).length - 1) = s
      at h1 h2 h3
    obtain ⟨k, rfl⟩ : ∃ k, s = D.length + 1 + k := ⟨s - D.length - 1, by omega⟩
    rw [getElem?_append_succ] at h3
    obtain ⟨A, C, hAC, hA⟩ := split_at_getElem? rest k a h3
    refine ⟨A, a, C, hAC, h4, ?_⟩
    simp [hA]
    omega

/-- One iteration of the loop of `topoSortInstructions` at the first position of the
suffix: the loop advances when no element behind is used by the element there, and
otherwise moves the element behind one that it uses and examines the position again. -/
theorem topoSortLoop_step {α : Type} (R : α → α → Bool) (fuel : Nat) (D : List α) (x : α)
    (rest : List α) :
    (topoSortLoop R (fuel + 1) (D ++ x :: rest) D.length
        = topoSortLoop R fuel ((D ++ [x]) ++ rest) (D ++ [x]).length ∧
      ∀ b ∈ rest, R b x = false) ∨
    ∃ A y C, rest = A ++ y :: C ∧ R y x = true ∧
      topoSortLoop R (fuel + 1) (D ++ x :: rest) D.length
        = topoSortLoop R fuel (D ++ ((A ++ [y]) ++ x :: C)) D.length := by
  have hlt : D.length < (D ++ x :: rest).length := by simp
  rcases scanInsertAt_split R D x rest with ⟨h1, h2⟩ | ⟨A, y, C, h1, h2, h3⟩
  · left
    refine ⟨?_, h2⟩
    rw [topoSortLoop, if_pos hlt, h1]
    simp
  · right
    refine ⟨A, y, C, h1, h2, ?_⟩
    rw [topoSortLoop, if_pos hlt, h3]
    have hne : D.length + (A ++ [y]).length ≠ D.length := by simp
    rw [if_pos hne]
    have e : D ++ x :: rest = D ++ x :: ((A ++ [y]) ++ C) := by rw [h1]; simp
    rw [e, moveToInsertAt_split]

/-! ### The potential of the unsorted suffix -/

/-- The potential of a list with a first element. -/
theorem topoPotential_cons {α : Type} (rank : α → Nat) (B H : Nat) (x : α)
    (rest : List α) :
    topoPotential rank B H (x :: rest)
      = B ^ (H - rank x) * (rest.filter (fun b => rank b < rank x)).length
        + topoPotential rank B H rest := rfl

/-- The potential of a list with one element inserted, against the potential without it. -/
theorem topoPotential_insert {α : Type} (rank : α → Nat) (B H : Nat) (x : α)
    (A C : List α) :
    topoPotential rank B H (A ++ x :: C)
      = topoPotential rank B H (A ++ C)
        + (A.map (fun a => if rank x < rank a then B ^ (H - rank a) else 0)).sum
        + B ^ (H - rank x) * (C.filter (fun b => rank b < rank x)).length := by
  induction A with
  | nil =>
    rw [List.nil_append, List.nil_append, topoPotential_cons]
    simp
    omega
  | cons a A ih =>
    have hc : ((A ++ x :: C).filter (fun b => rank b < rank a)).length
        = ((A ++ C).filter (fun b => rank b < rank a)).length
          + (if rank x < rank a then 1 else 0) := by
      simp only [List.filter_append, List.length_append, List.filter_cons]
      by_cases h : rank x < rank a
      · simp [h]
        omega
      · simp [h]
    rw [List.cons_append, List.cons_append, topoPotential_cons, topoPotential_cons, ih, hc,
      List.map_cons, List.sum_cons]
    by_cases h : rank x < rank a
    · rw [if_pos h, if_pos h]
      ring
    · rw [if_neg h, if_neg h]
      ring

/-- The potential of a list whose first element is followed by two parts. -/
theorem topoPotential_front {α : Type} (rank : α → Nat) (B H : Nat) (x : α)
    (A C : List α) :
    topoPotential rank B H (x :: (A ++ C))
      = B ^ (H - rank x) * ((A.filter (fun b => rank b < rank x)).length
          + (C.filter (fun b => rank b < rank x)).length)
        + topoPotential rank B H (A ++ C) := by
  simp [topoPotential, List.filter_append]

/-- What the elements of greater rank weigh together. -/
theorem gain_le {α : Type} (rank : α → Nat) (B H : Nat) (hB : 0 < B) (x : α) (A : List α)
    (hH : ∀ a ∈ A, rank a ≤ H) (hx : rank x < H) :
    (A.map (fun a => if rank x < rank a then B ^ (H - rank a) else 0)).sum
      ≤ A.length * B ^ (H - rank x - 1) := by
  induction A with
  | nil => simp
  | cons a A ih =>
    have ih2 := ih (fun b hb => hH b (List.mem_cons_of_mem _ hb))
    have ha := hH a (List.mem_cons_self _ _)
    simp only [List.map_cons, List.sum_cons, List.length_cons]
    have : (if rank x < rank a then B ^ (H - rank a) else 0) ≤ B ^ (H - rank x - 1) := by
      split
      · exact Nat.pow_le_pow_right hB (by omega)
      · exact Nat.zero_le _
    rw [Nat.add_mul, Nat.one_mul]
    omega

/-- No element weighs anything against an element of the greatest rank. -/
theorem gain_zero {α : Type} (rank : α → Nat) (B H : Nat) (x : α) (A : List α)
    (hH : ∀ a ∈ A, rank a ≤ H) (hx : H ≤ rank x) :
    (A.map (fun a => if rank x < rank a then B ^ (H - rank a) else 0)).sum = 0 := by
  induction A with
  | nil => simp
  | cons a A ih =>
    have ih2 := ih (fun b hb => hH b (List.mem_cons_of_mem _ hb))
    have ha := hH a (List.mem_cons_self _ _)
    simp only [List.map_cons, List.sum_cons, ih2]
    have : ¬ rank x < rank a := by omega
    simp [this]

/-- A move of `topoSortInstructions` decreases the potential: the moved element passes an
element of smaller rank. -/
theorem topoPotential_move {α : Type} (rank : α → Nat) (B H : Nat) (x : α) (A C : List α)
    (hH : ∀ a ∈ A, rank a ≤ H) (hB : A.length < B) (y : α) (hy : y ∈ A)
    (hyx : rank y < rank x) :
    topoPotential rank B H (A ++ x :: C) < topoPotential rank B H (x :: (A ++ C)) := by
  rw [topoPotential_insert, topoPotential_front]
  have hB0 : 0 < B := by omega
  have hcnt : 1 ≤ (A.filter (fun b => rank b < rank x)).length := by
    have : y ∈ A.filter (fun b => rank b < rank x) := by
      simp [List.mem_filter, hy, hyx]
    exact List.length_pos_of_mem this
  have hW : 0 < B ^ (H - rank x) := pow_pos hB0 _
  have hgain : (A.map (fun a => if rank x < rank a then B ^ (H - rank a) else 0)).sum
      < B ^ (H - rank x) := by
    by_cases hx : rank x < H
    · have h1 := gain_le rank B H hB0 x A hH hx
      have h2 : B ^ (H - rank x) = B ^ (H - rank x - 1) * B := by
        rw [← Nat.pow_succ]
        congr 1
        omega
      have h3 : 0 < B ^ (H - rank x - 1) := pow_pos hB0 _
      have h4 : A.length * B ^ (H - rank x - 1) < B ^ (H - rank x - 1) * B := by
        rw [Nat.mul_comm]
        exact Nat.mul_lt_mul_of_pos_left hB h3
      omega
    · rw [gain_zero rank B H x A hH (by omega)]
      exact hW
  have hmul : B ^ (H - rank x)
      ≤ B ^ (H - rank x) * (A.filter (fun b => rank b < rank x)).length :=
    Nat.le_mul_of_pos_right _ hcnt
  rw [Nat.mul_add]
  omega

/-- The potential of a part of the list behind the first element is no greater. -/
theorem topoPotential_tail_le {α : Type} (rank : α → Nat) (B H : Nat) (x : α)
    (rest : List α) :
    topoPotential rank B H rest ≤ topoPotential rank B H (x :: rest) := by
  simp [topoPotential]

/-- A bound of the potential in the length of the list. -/
theorem topoPotential_le {α : Type} (rank : α → Nat) (B H : Nat) (hB : 0 < B)
    (S : List α) :
    topoPotential rank B H S ≤ S.length * S.length * B ^ H := by
  induction S with
  | nil => simp [topoPotential]
  | cons x rest ih =>
    simp only [topoPotential, List.length_cons]
    have h1 : (rest.filter (fun b => rank b < rank x)).length ≤ rest.length :=
      List.length_filter_le _ _
    have h2 : B ^ (H - rank x) ≤ B ^ H := Nat.pow_le_pow_right hB (by omega)
    have h3 : B ^ (H - rank x) * (rest.filter (fun b => rank b < rank x)).length
        ≤ B ^ H * rest.length := Nat.mul_le_mul h2 h1
    have h4 : (rest.length + 1) * (rest.length + 1) * B ^ H
        = rest.length * rest.length * B ^ H + B ^ H * rest.length + B ^ H * rest.length
          + B ^ H := by ring
    omega

/-! ### The loop of topoSortInstructions ends with a sorted permutation -/

/-- The loop of `topoSortInstructions` on a sorted prefix `D` and a suffix `S`, for a
ranking that the use relation respects: within as many iterations as the potential of the
suffix plus its length, the loop ends, with a permutation of the list in which no element
is used by an earlier one. -/
theorem topoSortLoop_sorts {α : Type} (R : α → α → Bool) (rank : α → Nat) (B H : Nat) :
    ∀ (fuel : Nat) (D S : List α),
      (∀ a ∈ D ++ S, rank a ≤ H) → (D ++ S).length < B →
      (∀ a ∈ D ++ S, ∀ b ∈ D ++ S, R a b = true → rank a < rank b) →
      D.Pairwise (fun a b => R b a = false) → (∀ d ∈ D, ∀ b ∈ S, R b d = false) →
      topoPotential rank B H S + S.length ≤ fuel →
      ∃ r, topoSortLoop R fuel (D ++ S) D.length = some r ∧ r.Perm (D ++ S) ∧
        r.Pairwise (fun a b => R b a = false) := by
  intro fuel
  induction fuel with
  | zero =>
    intro D S _ _ _ hD _ hfuel
    have hS : S = [] := by
      cases S with
      | nil => rfl
      | cons x rest => simp at hfuel
    subst hS
    refine ⟨D, ?_, ?_, hD⟩
    · simp [topoSortLoop]
    · simp
  | succ fuel ih =>
    intro D S hH hB hrank hD hDS hfuel
    cases S with
    | nil =>
      refine ⟨D, ?_, ?_, hD⟩
      · simp [topoSortLoop]
      · simp
    | cons x rest =>
      rcases topoSortLoop_step R fuel D x rest with ⟨h1, h2⟩ | ⟨A, y, C, h1, h2, h3⟩
      · have e : D ++ x :: rest = (D ++ [x]) ++ rest := by simp
        have hpot := topoPotential_tail_le rank B H x rest
        obtain ⟨r, hr1, hr2, hr3⟩ := ih (D ++ [x]) rest
          (by rw [← e]; exact hH) (by rw [← e]; exact hB) (by rw [← e]; exact hrank)
          (by
            rw [List.pairwise_append]
            refine ⟨hD, List.pairwise_singleton _ _, ?_⟩
            intro d hd b hb
            rw [List.mem_singleton] at hb
            subst hb
            exact hDS d hd b (List.mem_cons_self _ _))
          (by
            intro d hd b hb
            rcases List.mem_append.mp hd with hd | hd
            · exact hDS d hd b (List.mem_cons_of_mem _ hb)
            · rw [List.mem_singleton] at hd
              subst hd
              exact h2 b hb)
          (by simp only [List.length_cons] at hfuel; omega)
        refine ⟨r, ?_, ?_, hr3⟩
        · rw [h1]; exact hr1
        · rw [e]; exact hr2
      · subst h1
        have hperm : (D ++ ((A ++ [y]) ++ x :: C)).Perm (D ++ x :: (A ++ y :: C)) := by
          refine List.Perm.append_left D ?_
          have : A ++ y :: C = (A ++ [y]) ++ C := by simp
          rw [this]
          exact List.perm_middle
        have hmem : ∀ a, a ∈ D ++ ((A ++ [y]) ++ x :: C) ↔ a ∈ D ++ x :: (A ++ y :: C) :=
          fun a => hperm.mem_iff
        have hyx : rank y < rank x :=
          hrank y (by simp) x (by simp) h2
        have hmove := topoPotential_move rank B H x (A ++ [y]) C
          (fun a ha => hH a (by
            rcases List.mem_append.mp ha with h | h
            · simp [h]
            · rw [List.mem_singleton] at h
              simp [h]))
          (by simp only [List.length_append, List.length_cons, List.length_singleton,
                List.length_nil] at hB ⊢
              omega)
          y (by simp) hyx
        have e2 : x :: (A ++ [y] ++ C) = x :: (A ++ y :: C) := by simp
        rw [e2] at hmove
        obtain ⟨r, hr1, hr2, hr3⟩ := ih D ((A ++ [y]) ++ x :: C)
          (fun a ha => hH a ((hmem a).mp ha))
          (by rw [hperm.length_eq]; exact hB)
          (fun a ha b hb => hrank a ((hmem a).mp ha) b ((hmem b).mp hb))
          hD
          (by
            intro d hd b hb
            refine hDS d hd b ?_
            have hb2 : b ∈ D ++ ((A ++ [y]) ++ x :: C) := List.mem_append_right _ hb
            simp at hb ⊢
            tauto)
          (by
            have hl : ((A ++ [y]) ++ x :: C).length = (x :: (A ++ y :: C)).length := by
              simp
              omega
            rw [hl]
            omega)
        refine ⟨r, ?_, hr2.trans hperm, hr3⟩
        rw [h3]
        exact hr1

/-- More iterations do not change the result of a loop that has ended. -/
theorem topoSortLoop_mono {α : Type} (R : α → α → Bool) :
    ∀ (fuel : Nat) (O : List α) (I : Nat) (r : List α),
      topoSortLoop R fuel O I = some r → ∀ k, topoSortLoop R (fuel + k) O I = some r := by
  intro fuel
  induction fuel with
  | zero =>
    intro O I r h k
    rw [topoSortLoop] at h
    by_cases hI : I < O.length
    · rw [if_pos hI] at h
      cases h
    · rw [if_neg hI] at h
      cases k with
      | zero => rw [Nat.add_zero, topoSortLoop, if_neg hI]; exact h
      | succ k => rw [Nat.zero_add, topoSortLoop, if_neg hI]; exact h
  | succ fuel ih =>
    intro O I r h k
    have e : fuel + 1 + k = (fuel + k) + 1 := by omega
    rw [e, topoSortLoop]
    rw [topoSortLoop] at h
    by_cases hI : I < O.length
    · rw [if_pos hI] at h ⊢
      by_cases hs : scanInsertAt R O I (O.length - 1) ≠ I
      · rw [if_pos hs] at h ⊢
        exact ih _ _ _ h k
      · rw [if_neg hs] at h ⊢
        exact ih _ _ _ h k
    · rw [if_neg hI] at h ⊢
      exact h

/-! ### A ranking of the instructions of an acyclic set -/

/-- A greater predicate keeps at least as many elements of a list. -/
theorem length_filter_le_of_imp {α : Type} (p q : α → Bool) (l : List α)
    (h : ∀ a ∈ l, p a = true → q a = true) :
    (l.filter p).length ≤ (l.filter q).length := by
  induction l with
  | nil => simp
  | cons a l ih =>
    have ih2 := ih (fun b hb => h b (List.mem_cons_of_mem _ hb))
    have ha := h a (List.mem_cons_self _ _)
    simp only [List.filter_cons]
    cases hp : p a with
    | false =>
      cases hq : q a with
      | false => simpa using ih2
      | true => simp; omega
    | true =>
      rw [ha hp]
      simpa using ih2

/-- A greater predicate that holds of one more element of a list keeps more elements. -/
theorem length_filter_lt_of_imp {α : Type} (p q : α → Bool) (l : List α)
    (h : ∀ a ∈ l, p a = true → q a = true) (x : α) (hx : x ∈ l) (hqx : q x = true)
    (hpx : p x = false) :
    (l.filter p).length < (l.filter q).length := by
  induction l with
  | nil => simp at hx
  | cons a l ih =>
    have hl : ∀ b ∈ l, p b = true → q b = true := fun b hb => h b (List.mem_cons_of_mem _ hb)
    have ha := h a (List.mem_cons_self _ _)
    simp only [List.filter_cons]
    rcases List.mem_cons.mp hx with rfl | hx2
    · have := length_filter_le_of_imp p q l hl
      rw [hqx, hpx]
      simp
      omega
    · have ih2 := ih hl hx2
      cases hp : p a with
      | false =>
        cases hq : q a with
        | false => simpa using ih2
        | true => simp; omega
      | true =>
        rw [ha hp]
        simpa using ih2

/-- A set of instructions whose use relation has no cycle has a ranking that grows along
every use: the number of instructions of the set from which a chain of uses leads to the
instruction. -/
theorem rank_of_acyclic (S : List Instruction) (h : AcyclicUses S) :
    ∃ rank : Instruction → Nat, (∀ a, rank a ≤ S.length) ∧
      ∀ a b, UsedWithin S a b → rank a < rank b := by
  classical
  refine ⟨fun x => (S.filter (fun y => decide (Relation.TransGen (UsedWithin S) y x))).length,
    fun a => List.length_filter_le _ _, ?_⟩
  intro a b hab
  refine length_filter_lt_of_imp _ _ S ?_ a hab.1 ?_ ?_
  · intro y _ hy
    simp only [decide_eq_true_eq] at hy ⊢
    exact Relation.TransGen.tail hy hab
  · simp only [decide_eq_true_eq]
    exact Relation.TransGen.single hab
  · simp only [decide_eq_false_iff_not]
    exact h a

/-- A set of instructions with a ranking that grows along every use has no cycle of
uses. -/
theorem acyclic_of_rank (S : List Instruction) (rank : Instruction → Nat)
    (h : ∀ a ∈ S, ∀ b ∈ S, IsUsedBy a b = true → rank a < rank b) : AcyclicUses S := by
  have key : ∀ x y, Relation.TransGen (UsedWithin S) x y → rank x < rank y := by
    intro x y hxy
    induction hxy with
    | single hab => exact h _ hab.1 _ hab.2.1 hab.2.2
    | tail _ hbc ih => exact lt_trans ih (h _ hbc.1 _ hbc.2.1 hbc.2.2)
  intro x hx
  exact lt_irrefl _ (key x x hx)

/-- The loop of `topoSortInstructions` on an acyclic set ends within the iterations that
the function allows, with a permutation of the set in which no instruction is used by an
earlier one. -/
theorem topoSortLoop_acyclic (S : List Instruction) (h : AcyclicUses S) :
    ∃ r, topoSortLoop IsUsedBy (topoSortFuel S.length) S 0 = some r ∧ r.Perm S ∧
      r.Pairwise (fun a b => IsUsedBy b a = false) := by
  obtain ⟨rank, hr1, hr2⟩ := rank_of_acyclic S h
  have hpot := topoPotential_le rank (S.length + 1) S.length (Nat.succ_pos _) S
  have := topoSortLoop_sorts IsUsedBy rank (S.length + 1) S.length (topoSortFuel S.length)
    [] S (fun a _ => hr1 a) (by simp) (fun a ha b hb hab => hr2 a b ⟨by simpa using ha,
      by simpa using hb, hab⟩) List.Pairwise.nil (fun d hd => by simp at hd)
    (by unfold topoSortFuel; omega)
  simpa using this

/-- In a list in which no element is used by an earlier one, and no element by itself,
every element stands behind the elements it uses. -/
theorem pairwise_uses_before {α : Type} (R : α → α → Bool) (r : List α)
    (h : r.Pairwise (fun a b => R b a = false)) (hirr : ∀ a ∈ r, R a a = false)
    (i j : Nat) (a b : α) (hi : r[i]? = some a) (hj : r[j]? = some b)
    (hab : R a b = true) : i < j := by
  by_contra hc
  have hil : i < r.length := by
    by_contra hn
    rw [List.getElem?_eq_none (by omega)] at hi
    cases hi
  have hjl : j < r.length := by
    by_contra hn
    rw [List.getElem?_eq_none (by omega)] at hj
    cases hj
  rw [List.getElem?_eq_getElem hil] at hi
  rw [List.getElem?_eq_getElem hjl] at hj
  cases hi
  cases hj
  rcases Nat.lt_or_eq_of_le (Nat.le_of_not_lt hc) with hlt | heq
  · have := List.pairwise_iff_getElem.mp h j i hjl hil hlt
    simp only [] at this
    rw [this] at hab
    cases hab
  · subst heq
    rw [hirr _ (List.getElem_mem _)] at hab
    cases hab

/-- On two instructions that use each other the loop of `topoSortInstructions` does not
end, however many iterations it runs. -/
theorem topoSortLoop_cyclic_never_ends (fuel : Nat) :
    topoSortLoop IsUsedBy fuel cyclicInsts 0 = none ∧
    topoSortLoop IsUsedBy fuel cyclicInsts.reverse 0 = none := by
  induction fuel with
  | zero => exact ⟨rfl, rfl⟩
  | succ fuel ih =>
    have h1 : topoSortLoop IsUsedBy (fuel + 1) cyclicInsts 0
        = topoSortLoop IsUsedBy fuel cyclicInsts.reverse 0 := by rfl
    have h2 : topoSortLoop IsUsedBy (fuel + 1) cyclicInsts.reverse 0
        = topoSortLoop IsUsedBy fuel cyclicInsts 0 := by rfl
    rw [h1, h2]
    exact ⟨ih.2, ih.1⟩

/-! ### C28 and C30: the claims about topoSortInstructions -/

/-- C28: for every set of instructions (a list without repetition, in the order in which
the set is iterated) whose use relation restricted to the set has no cycle,
`topoSortInstructions` returns a list that is a permutation of the set, holds every
element exactly once, and in which every instruction stands behind each of its operands
that belongs to the set: an element `a` used by an element `b` has the smaller index. -/
theorem topoSortInstructions_sorted_permutation (UniquifyInsts : List Instruction)
    (hSet : UniquifyInsts.Nodup) (hAcyclic : AcyclicUses UniquifyInsts) :
    ∃ r, topoSortInstructions UniquifyInsts = some r ∧ r.Perm UniquifyInsts ∧ r.Nodup ∧
      ∀ (i j : Nat) (a b : Instruction), r[i]? = some a → r[j]? = some b →
        IsUsedBy a b = true → i < j := by
  obtain ⟨r, h1, h2, h3⟩ := topoSortLoop_acyclic UniquifyInsts hAcyclic
  refine ⟨r, h1, h2, h2.nodup_iff.mpr hSet, ?_⟩
  intro i j a b hi hj hab
  refine pairwise_uses_before IsUsedBy r h3 ?_ i j a b hi hj hab
  intro c hc
  cases hcc : IsUsedBy c c with
  | false => rfl
  | true =>
    have hcS : c ∈ UniquifyInsts := h2.mem_iff.mp hc
    exact absurd (Relation.TransGen.single ⟨hcS, hcS, hcc⟩) (hAcyclic c)

/-- The theorem of C28 on a chain of three instructions that the set hands over in the
reverse of the sorted order. -/
theorem topoSortInstructions_sorted_permutation_witness :
    chainInsts.Nodup ∧ AcyclicUses chainInsts ∧
    ∃ r, topoSortInstructions chainInsts = some r ∧ r.Perm chainInsts ∧ r.Nodup ∧
      ∀ (i j : Nat) (a b : Instruction), r[i]? = some a → r[j]? = some b →
        IsUsedBy a b = true → i < j :=
  ⟨by decide, acyclic_of_rank chainInsts (fun I => I.id) (by decide),
    topoSortInstructions_sorted_permutation chainInsts (by decide)
      (acyclic_of_rank chainInsts (fun I => I.id) (by decide))⟩

/-- C30: on every set of instructions whose use relation restricted to the set has no
cycle, `topoSortInstructions` terminates: its loop, which after a move examines the same
index again (`--I` followed by the `++I` of the loop), ends within
`topoSortFuel` iterations, and with any greater number of iterations allowed the result
is the same. -/
theorem topoSortInstructions_terminates (UniquifyInsts : List Instruction)
    (hAcyclic : AcyclicUses UniquifyInsts) :
    ∃ r, topoSortInstructions UniquifyInsts = some r ∧
      ∀ fuel, topoSortFuel UniquifyInsts.length ≤ fuel →
        topoSortLoop IsUsedBy fuel UniquifyInsts 0 = some r := by
  obtain ⟨r, h1, _, _⟩ := topoSortLoop_acyclic UniquifyInsts hAcyclic
  refine ⟨r, h1, ?_⟩
  intro fuel hfuel
  have := topoSortLoop_mono IsUsedBy _ _ _ _ h1 (fuel - topoSortFuel UniquifyInsts.length)
  rw [Nat.add_sub_cancel' hfuel] at this
  exact this

/-- The theorem of C30 on a chain of three instructions. -/
theorem topoSortInstructions_terminates_witness :
    AcyclicUses chainInsts ∧
    ∃ r, topoSortInstructions chainInsts = some r ∧
      ∀ fuel, topoSortFuel chainInsts.length ≤ fuel →
        topoSortLoop IsUsedBy fuel chainInsts 0 = some r :=
  ⟨acyclic_of_rank chainInsts (fun I => I.id) (by decide),
    topoSortInstructions_terminates chainInsts
      (acyclic_of_rank chainInsts (fun I => I.id) (by decide))⟩

/-- On the chain of three instructions `topoSortInstructions` returns the reversed list,
operands first. -/
theorem topoSortInstructions_chainInsts :
    topoSortInstructions chainInsts = some chainInsts.reverse := by
  rfl

end pocl
